import Mathlib

/-!
# Level ancestor indices and the suffix automaton

A shallow embedding of `Level-Ancestor/LA-Problem.cpp` and
`Suffix-Automaton/SuffixAutomaton.cpp`, followed by theorems about them.

Conventions of the embedding
* `treeNode` is `int`; every C++ `int` is an `Int` here, the sentinel is `-1`.
* `std::unordered_map<treeNode, X>` is a partial function `Int → Option X`.
  `m.find(k)->second` is undefined behaviour when `k` is absent (the iterator is
  `end()`), `m[k]` value-initialises an absent key.
* `std::vector<X>` is a `List X`; reading or writing outside `0 .. size-1` is
  undefined behaviour.
* Every run returns in `Run`: `.ok x` for a normal return, `.error .ub` when the
  C++ program has undefined behaviour, `.error .fuel` when a loop of the model
  ran out of fuel.
-/

namespace LevelAncestor

/-- The two ways a modelled run can fail to return. -/
inductive Fault where
  | ub : Fault
  | fuel : Fault
  deriving DecidableEq, Repr

/-- Result of running a piece of the program. -/
abbrev Run (α : Type) : Type := Except Fault α

/-- A `std::unordered_map<treeNode, X>`. -/
abbrev NodeMap (β : Type) : Type := Int → Option β

/-- The value of `m.find(k)->second`. -/
def NodeMap.find {β : Type} (m : NodeMap β) (k : Int) : Run β :=
  match m k with
  | some x => .ok x
  | none => .error .ub

/-- The value of `m[k]` for an `int`-valued map (an absent key reads as `0`). -/
def NodeMap.at0 (m : NodeMap Int) (k : Int) : Int := (m k).getD 0

/-- The map after `m[k] = x`. -/
def NodeMap.set {β : Type} (m : NodeMap β) (k : Int) (x : β) : NodeMap β :=
  fun j => if j = k then some x else m j

/-- The map after evaluating `m[k]` (an absent key is inserted with value `0`). -/
def NodeMap.touch (m : NodeMap Int) (k : Int) : NodeMap Int :=
  fun j => if j = k then some (m.at0 k) else m j

/-- The map given by a list of key/value pairs (first match wins). -/
def NodeMap.ofList {β : Type} (l : List (Int × β)) : NodeMap β :=
  fun k => l.lookup k

/-- The value of `v[i]` for a vector. -/
def vget {α : Type} (v : List α) (i : Int) : Run α :=
  if 0 ≤ i then
    match v.get? i.toNat with
    | some x => .ok x
    | none => .error .ub
  else .error .ub

/-- The vector after `v[i] = x`. -/
def vset {α : Type} (v : List α) (i : Int) (x : α) : Run (List α) :=
  if 0 ≤ i ∧ i.toNat < v.length then .ok (v.set i.toNat x) else .error .ub

/-- The interface of `Tree.hpp` that the indices read: `GetNodes`, `GetParents`,
`GetDepths`, `GetHeights`, `GetRoot`, `GetTreeHeight`, `GetNumNodes`. -/
structure tree where
  nodes : List Int
  parents : NodeMap Int
  depths : NodeMap Int
  heights : NodeMap Int
  root : Int
  treeHeight : Int
  numNodes : Int

/-- The parent map of the tree, as the build functions read it (`parents[v]`). -/
def tree.parent (T : tree) (v : Int) : Int := T.parents.at0 v

/-- The parent map applied `k` times. -/
def tree.ancestor (T : tree) (k : Nat) (v : Int) : Int := (T.parent)^[k] v

/-- A well-formed rooted tree: node ids are `0 .. n-1`, exactly one root, whose
parent is `-1`; every other node has its parent among the nodes; depths and
heights are consistent with the parent map (the root has depth `0`, a child is
one deeper than its parent, a leaf has height `0`, an inner node is one higher
than its highest child). -/
def WellFormed (T : tree) : Prop :=
  T.numNodes = T.nodes.length ∧
  T.nodes.Nodup ∧
  (∀ v ∈ T.nodes, 0 ≤ v ∧ v < T.numNodes) ∧
  T.root ∈ T.nodes ∧
  T.parents T.root = some (-1) ∧
  T.depths T.root = some 0 ∧
  T.heights T.root = some T.treeHeight ∧
  (∀ v ∈ T.nodes, 0 ≤ T.depths.at0 v) ∧
  (∀ v ∈ T.nodes, v ≠ T.root →
    ∃ p ∈ T.nodes, T.parents v = some p ∧
      T.depths v = some (T.depths.at0 p + 1)) ∧
  (∀ v ∈ T.nodes, ∃ h, T.heights v = some h ∧ 0 ≤ h ∧
    (∀ c ∈ T.nodes, T.parents c = some v → T.heights.at0 c + 1 ≤ h) ∧
    (h = 0 ∨ ∃ c ∈ T.nodes, T.parents c = some v ∧ T.heights.at0 c + 1 = h))

instance (T : tree) : Decidable (WellFormed T) := by
  unfold WellFormed; infer_instance

/-! ## Naive index -/

/-- The `naiveStruct` of the source. -/
structure naiveStruct where
  naiveTable : NodeMap (List Int)
  depths : NodeMap Int

/-- The loop `while (parent != -1) { naiveTable[node].push_back(parent);
parent = parents[parent]; }`. -/
def naiveWalk (parents : NodeMap Int) (node : Int) :
    Nat → Int → NodeMap (List Int) → Run (NodeMap (List Int))
  | 0, _, _ => .error .fuel
  | fuel + 1, parent, tbl =>
    if parent = -1 then .ok tbl
    else naiveWalk parents node fuel (parents.at0 parent)
      (tbl.set node ((tbl node).getD [] ++ [parent]))

/-- The body of `for (treeNode node: nodes)` in `BuildNaiveIndex`. -/
def naiveNode (T : tree) (fuel : Nat) (idx : naiveStruct) (node : Int) : Run naiveStruct :=
  match naiveWalk T.parents node fuel node idx.naiveTable with
  | .ok tbl => .ok { naiveTable := tbl, depths := idx.depths.set node (T.depths.at0 node) }
  | .error e => .error e

/-- The loop over the nodes in `BuildNaiveIndex`. -/
def naiveLoop (T : tree) (fuel : Nat) : List Int → naiveStruct → Run naiveStruct
  | [], idx => .ok idx
  | node :: rest, idx =>
    match naiveNode T fuel idx node with
    | .ok idx1 => naiveLoop T fuel rest idx1
    | .error e => .error e

/-- `BuildNaiveIndex`. Each inner walk gets `nodes.length + 1` units of fuel. -/
def BuildNaiveIndex (T : tree) : Run naiveStruct :=
  naiveLoop T (T.nodes.length + 1) T.nodes { naiveTable := fun _ => none, depths := fun _ => none }

/-- `NaiveSearch`. -/
def NaiveSearch (node ancestorLevel : Int) (naiveIndex : naiveStruct) : Run Int :=
  match naiveIndex.depths.find node with
  | .error e => .error e
  | .ok maxAncestorLevel =>
    if ancestorLevel > maxAncestorLevel then .ok (-1)
    else
      match naiveIndex.naiveTable.find node with
      | .error e => .error e
      | .ok row => vget row ancestorLevel

/-! ## Shared leaf sort and path walk -/

/-- The loop filling `leafs[depth]` with the nodes of height `0`. -/
def fillLeafs (T : tree) : List Int → List (List Int) → Run (List (List Int))
  | [], leafs => .ok leafs
  | node :: rest, leafs =>
    if T.heights.at0 node = 0 then
      match vget leafs (T.depths.at0 node) with
      | .error e => .error e
      | .ok bucket =>
        match vset leafs (T.depths.at0 node) (bucket ++ [node]) with
        | .error e => .error e
        | .ok leafs1 => fillLeafs T rest leafs1
    else fillLeafs T rest leafs

/-- The loop emptying the buckets in order of depth, each leaf going to the
front of `sortedLeafs`. -/
def drainLeafs : List (List Int) → List Int → List Int
  | [], sorted => sorted
  | bucket :: rest, sorted => drainLeafs rest (bucket.foldl (fun acc x => x :: acc) sorted)

/-- The block "sorting leafs in linear time". -/
def sortLeafs (T : tree) : Run (List Int) :=
  if T.treeHeight + 1 < 0 then .error .ub
  else
    match fillLeafs T T.nodes (List.replicate (T.treeHeight + 1).toNat []) with
    | .error e => .error e
    | .ok leafs => .ok (drainLeafs leafs [])

/-- State of the `do { ... } while` walk that creates the max path of a leaf. -/
structure WalkState where
  mark : List Int
  currentPath : List Int
  pathIndex : NodeMap Int
  currentNode : Int

/-- The loop `do { mark[currentNode] = 1; currentPath.push_back(currentNode);
pathIndex[currentNode] = currentPathIndex; currentNode = parents[currentNode]; }
while ((currentNode != -1) && mark[currentNode] == 0)`. -/
def walkUp (parents : NodeMap Int) (currentPathIndex : Int) : Nat → WalkState → Run WalkState
  | 0, _ => .error .fuel
  | fuel + 1, s =>
    match vset s.mark s.currentNode 1 with
    | .error e => .error e
    | .ok mark1 =>
      let next := parents.at0 s.currentNode
      let s1 : WalkState :=
        { mark := mark1, currentPath := s.currentPath ++ [s.currentNode],
          pathIndex := s.pathIndex.set s.currentNode currentPathIndex, currentNode := next }
      if next = -1 then .ok s1
      else
        match vget mark1 next with
        | .error e => .error e
        | .ok m => if m = 0 then walkUp parents currentPathIndex fuel s1 else .ok s1

/-! ## Long-path index -/

/-- The `pathDecompStruct` of the source. -/
structure pathDecompStruct where
  pathIndex : NodeMap Int
  nodeIndex : NodeMap Int
  paths : List (List Int)
  parents : NodeMap Int

/-- The loop "reversing the array" of `BuildPathDecompIndex`: the nodes of
`currentPath` are visited last to first, each is pushed on the path and gets the
running `currentNodeIndex`. -/
def reversePath : List Int → List Int → NodeMap Int → Int → List Int × NodeMap Int
  | [], path, nodeIndex, _ => (path, nodeIndex)
  | node :: rest, path, nodeIndex, currentNodeIndex =>
    reversePath rest (path ++ [node]) (nodeIndex.set node currentNodeIndex) (currentNodeIndex + 1)

/-- State of the loop over the sorted leaves in `BuildPathDecompIndex`. -/
structure PathBuild where
  mark : List Int
  pathIndex : NodeMap Int
  nodeIndex : NodeMap Int
  paths : List (List Int)

/-- The loop `for (treeNode leaf: sortedLeafs)` of `BuildPathDecompIndex`. The
path of the leaf at position `currentPathIndex` is stored as `paths[currentPathIndex]`;
as the leaves are taken in order this is the next entry of `paths`. -/
def pathLoop (parents : NodeMap Int) (fuel : Nat) : List Int → PathBuild → Run PathBuild
  | [], b => .ok b
  | leaf :: rest, b =>
    match walkUp parents b.paths.length fuel
        { mark := b.mark, currentPath := [], pathIndex := b.pathIndex, currentNode := leaf } with
    | .error e => .error e
    | .ok s =>
      let r := reversePath s.currentPath.reverse [] b.nodeIndex 0
      pathLoop parents fuel rest
        { mark := s.mark, pathIndex := s.pathIndex, nodeIndex := r.2, paths := b.paths ++ [r.1] }

/-- `BuildPathDecompIndex`. -/
def BuildPathDecompIndex (T : tree) : Run pathDecompStruct :=
  match sortLeafs T with
  | .error e => .error e
  | .ok sortedLeafs =>
    if T.numNodes < 0 then .error .ub
    else
      match pathLoop T.parents (T.nodes.length + 1) sortedLeafs
          { mark := List.replicate T.numNodes.toNat 0, pathIndex := fun _ => none,
            nodeIndex := fun _ => none, paths := [] } with
      | .error e => .error e
      | .ok b =>
        .ok { pathIndex := b.pathIndex, nodeIndex := b.nodeIndex, paths := b.paths,
              parents := T.parents }

/-- `PathDecompSearch`; `fuel` bounds the depth of the recursion. -/
def PathDecompSearch (pathDecompIndex : pathDecompStruct) : Nat → Int → Int → Run Int
  | 0, _, _ => .error .fuel
  | fuel + 1, node, ancestorLevel =>
    match pathDecompIndex.nodeIndex.find node with
    | .error e => .error e
    | .ok nodeIndex =>
      match pathDecompIndex.pathIndex.find node with
      | .error e => .error e
      | .ok pathIndex =>
        match vget pathDecompIndex.paths pathIndex with
        | .error e => .error e
        | .ok path =>
          if nodeIndex > ancestorLevel then vget path (nodeIndex - ancestorLevel)
          else
            match vget path 0 with
            | .error e => .error e
            | .ok top =>
              match pathDecompIndex.parents.find top with
              | .error e => .error e
              | .ok newNode =>
                PathDecompSearch pathDecompIndex fuel newNode (ancestorLevel - nodeIndex - 1)

/-! ## Ladder index -/

/-- The `stairDecompStruct` of the source. -/
structure stairDecompStruct where
  pathIndex : NodeMap Int
  nodeIndex : NodeMap Int
  stairs : List (List Int)
  parents : NodeMap Int

/-- The loop "doubling the path": `while ((currentNode != -1) && (i <= pathLength))`
with `i` starting at `1`; the first argument is the number of rounds left. -/
def doublePath (parents : NodeMap Int) : Nat → Int → List Int → List Int
  | 0, _, currentPath => currentPath
  | left + 1, currentNode, currentPath =>
    if currentNode = -1 then currentPath
    else doublePath parents left (parents.at0 currentNode) (currentPath ++ [currentNode])

/-- The loop "reversing the array" of the ladder builds: `i` runs from
`stairLength - 1` down to `0` (the first argument is `i + 1`). -/
def reverseStair (currentPath : List Int) (pathLength stairLength : Nat) :
    Nat → List Int → NodeMap Int → Int → Run (List Int × NodeMap Int)
  | 0, stair, nodeIndex, _ => .ok (stair, nodeIndex)
  | i + 1, stair, nodeIndex, currentNodeIndex =>
    match vget currentPath i with
    | .error e => .error e
    | .ok node =>
      if i < pathLength then
        reverseStair currentPath pathLength stairLength i (stair ++ [node])
          (nodeIndex.set node (currentNodeIndex + ((stairLength : Int) - (pathLength : Int))))
          (currentNodeIndex + 1)
      else
        reverseStair currentPath pathLength stairLength i (stair ++ [node]) nodeIndex
          currentNodeIndex

/-- State of the loop over the sorted leaves in the ladder builds. -/
structure StairBuild where
  mark : List Int
  pathIndex : NodeMap Int
  nodeIndex : NodeMap Int
  stairs : List (List Int)

/-- The loop `for (treeNode leaf: sortedLeafs)` of `BuildStairDecompIndex` and of
`BuildStairIndex` (the two are the same text). -/
def stairLoop (parents : NodeMap Int) (fuel : Nat) : List Int → StairBuild → Run StairBuild
  | [], b => .ok b
  | leaf :: rest, b =>
    match walkUp parents b.stairs.length fuel
        { mark := b.mark, currentPath := [], pathIndex := b.pathIndex, currentNode := leaf } with
    | .error e => .error e
    | .ok s =>
      let pathLength := s.currentPath.length
      let currentPath := doublePath parents pathLength s.currentNode s.currentPath
      let stairLength := currentPath.length
      match reverseStair currentPath pathLength stairLength stairLength [] b.nodeIndex 0 with
      | .error e => .error e
      | .ok r =>
        stairLoop parents fuel rest
          { mark := s.mark, pathIndex := s.pathIndex, nodeIndex := r.2,
            stairs := b.stairs ++ [r.1] }

/-- The part of the ladder builds up to the end of the loop over the leaves. -/
def buildStairs (T : tree) : Run (List Int × StairBuild) :=
  match sortLeafs T with
  | .error e => .error e
  | .ok sortedLeafs =>
    if T.numNodes < 0 then .error .ub
    else
      match stairLoop T.parents (T.nodes.length + 1) sortedLeafs
          { mark := List.replicate T.numNodes.toNat 0, pathIndex := fun _ => none,
            nodeIndex := fun _ => none, stairs := [] } with
      | .error e => .error e
      | .ok b => .ok (sortedLeafs, b)

/-- `BuildStairDecompIndex`. -/
def BuildStairDecompIndex (T : tree) : Run stairDecompStruct :=
  match buildStairs T with
  | .error e => .error e
  | .ok r =>
    .ok { pathIndex := r.2.pathIndex, nodeIndex := r.2.nodeIndex, stairs := r.2.stairs,
          parents := T.parents }

/-- `StairDecompSearch`; `fuel` bounds the depth of the recursion. -/
def StairDecompSearch (stairDecompIndex : stairDecompStruct) : Nat → Int → Int → Run Int
  | 0, _, _ => .error .fuel
  | fuel + 1, node, ancestorLevel =>
    match stairDecompIndex.nodeIndex.find node with
    | .error e => .error e
    | .ok nodeIndex =>
      match stairDecompIndex.pathIndex.find node with
      | .error e => .error e
      | .ok pathIndex =>
        match vget stairDecompIndex.stairs pathIndex with
        | .error e => .error e
        | .ok stair =>
          if nodeIndex > ancestorLevel then vget stair (nodeIndex - ancestorLevel)
          else
            match vget stair 0 with
            | .error e => .error e
            | .ok top =>
              match stairDecompIndex.parents.find top with
              | .error e => .error e
              | .ok newNode =>
                StairDecompSearch stairDecompIndex fuel newNode (ancestorLevel - nodeIndex - 1)

/-! ## Ladder index with jump pointers -/

/-- The `stairStruct` of the source. -/
structure stairStruct where
  pathIndex : NodeMap Int
  nodeIndex : NodeMap Int
  stairs : List (List Int)
  parents : NodeMap Int
  depths : NodeMap Int
  jump : NodeMap (List Int)
  power : List Int
  deg : List Int

/-- Arithmetic on a 32-bit `int`, wrapping around. -/
def wrapInt (x : Int) : Int := (x + 2147483648) % 4294967296 - 2147483648

/-- The loop `for (int i = 1; i <= numNodes; i++)` that fills `power` and `deg`;
the first argument is the number of rounds left. -/
def tableLoop : Nat → Int → Int → List Int → List Int → Run (List Int × List Int)
  | 0, _, _, power, degT => .ok (power, degT)
  | left + 1, i, deg, power, degT =>
    match vget power (i - 1) with
    | .error e => .error e
    | .ok prev =>
      match vset power i (wrapInt (2 * prev)) with
      | .error e => .error e
      | .ok power1 =>
        match vget power1 (deg + 1) with
        | .error e => .error e
        | .ok next =>
          let deg1 := if i ≥ next then deg + 1 else deg
          match vset degT i deg1 with
          | .error e => .error e
          | .ok degT1 => tableLoop left (i + 1) deg1 power1 degT1

/-- The tables `power` and `deg`, both resized to `tableSize` entries and then
filled for `i = 1 .. numNodes`. -/
def buildTables (tableSize numNodes : Int) : Run (List Int × List Int) :=
  if tableSize < 0 then .error .ub
  else
    match vset (List.replicate tableSize.toNat (0 : Int)) 0 1 with
    | .error e => .error e
    | .ok power => tableLoop numNodes.toNat 1 0 power (List.replicate tableSize.toNat 0)

/-- State of the jump-pointer loop: the index maps (which `operator[]` may
extend) and the jump table. -/
structure JumpBuild where
  pathIndex : NodeMap Int
  nodeIndex : NodeMap Int
  jump : NodeMap (List Int)

/-- The loop `while (true)` that fills `jump[leaf]`. -/
def jumpWalk (stairs : List (List Int)) (power : List Int) (leaf : Int) :
    Nat → Int → Int → JumpBuild → Run JumpBuild
  | 0, _, _, _ => .error .fuel
  | fuel + 1, k, ancestor, b =>
    let b1 : JumpBuild :=
      { pathIndex := b.pathIndex.touch ancestor, nodeIndex := b.nodeIndex.touch ancestor,
        jump := b.jump.set leaf ((b.jump leaf).getD [] ++ [ancestor]) }
    let pathIndex := b.pathIndex.at0 ancestor
    let nodeIndex := b.nodeIndex.at0 ancestor
    match vget power k with
    | .error e => .error e
    | .ok pk =>
      if nodeIndex < pk then .ok b1
      else
        match vget stairs pathIndex with
        | .error e => .error e
        | .ok stair =>
          match vget stair (nodeIndex - pk) with
          | .error e => .error e
          | .ok up => jumpWalk stairs power leaf fuel (k + 1) up b1

/-- The loop `for (treeNode leaf: sortedLeafs)` that builds the jump pointers. -/
def jumpLoop (parents : NodeMap Int) (stairs : List (List Int)) (power : List Int) :
    List Int → JumpBuild → Run JumpBuild
  | [], b => .ok b
  | leaf :: rest, b =>
    match jumpWalk stairs power leaf (power.length + 1) 0 (parents.at0 leaf) b with
    | .error e => .error e
    | .ok b1 => jumpLoop parents stairs power rest b1

/-- `BuildStairIndex` with `power` and `deg` resized to `tableSize` entries. -/
def BuildStairIndexSized (tableSize : Int) (T : tree) : Run stairStruct :=
  match buildStairs T with
  | .error e => .error e
  | .ok r =>
    match buildTables tableSize T.numNodes with
    | .error e => .error e
    | .ok t =>
      match jumpLoop T.parents r.2.stairs t.1 r.1
          { pathIndex := r.2.pathIndex, nodeIndex := r.2.nodeIndex, jump := fun _ => none } with
      | .error e => .error e
      | .ok j =>
        .ok { pathIndex := j.pathIndex, nodeIndex := j.nodeIndex, stairs := r.2.stairs,
              parents := T.parents, depths := T.depths, jump := j.jump,
              power := t.1, deg := t.2 }

/-- `BuildStairIndex`: the source resizes both tables to `numNodes` entries. -/
def BuildStairIndex (T : tree) : Run stairStruct := BuildStairIndexSized T.numNodes T

/-- `StairSearchLeaf`. The test `size() < k` compares a `size_t` with an `int`,
so a negative `k` is first converted to `k + 2^64`. -/
def StairSearchLeaf (leaf ancestorLevel : Int) (stairIndex : stairStruct) : Run Int :=
  if ancestorLevel = 0 then .ok leaf
  else
    match vget stairIndex.deg ancestorLevel with
    | .error e => .error e
    | .ok k =>
      match vget stairIndex.power k with
      | .error e => .error e
      | .ok pk =>
        let rest := ancestorLevel - pk
        match stairIndex.jump.find leaf with
        | .error e => .error e
        | .ok row =>
          if (row.length : Int) < (if k < 0 then k + 18446744073709551616 else k) then .ok (-1)
          else
            match vget row k with
            | .error e => .error e
            | .ok ancestor =>
              match stairIndex.pathIndex.find ancestor with
              | .error e => .error e
              | .ok pathIndex =>
                match stairIndex.nodeIndex.find ancestor with
                | .error e => .error e
                | .ok nodeIndex =>
                  if nodeIndex < rest then .ok (-1)
                  else
                    match vget stairIndex.stairs pathIndex with
                    | .error e => .error e
                    | .ok stair => vget stair (nodeIndex - rest)

/-- `StairSearch`. -/
def StairSearch (node ancestorLevel : Int) (stairIndex : stairStruct) : Run Int :=
  match stairIndex.pathIndex.find node with
  | .error e => .error e
  | .ok pathIndex =>
    match vget stairIndex.stairs pathIndex with
    | .error e => .error e
    | .ok stair =>
      match vget stair ((stair.length : Int) - 1) with
      | .error e => .error e
      | .ok leaf =>
        match stairIndex.depths.find leaf with
        | .error e => .error e
        | .ok leafDepth =>
          match stairIndex.depths.find node with
          | .error e => .error e
          | .ok nodeDepth => StairSearchLeaf leaf (ancestorLevel + (leafDepth - nodeDepth)) stairIndex

/-! ## The trees of the end-to-end scenarios -/

/-- Tree T1: the path `0 - 1 - 2 - 3 - 4 - 5` rooted at `0`. -/
def treeT1 : tree where
  nodes := [0, 1, 2, 3, 4, 5]
  parents := NodeMap.ofList [(0, -1), (1, 0), (2, 1), (3, 2), (4, 3), (5, 4)]
  depths := NodeMap.ofList [(0, 0), (1, 1), (2, 2), (3, 3), (4, 4), (5, 5)]
  heights := NodeMap.ofList [(0, 5), (1, 4), (2, 3), (3, 2), (4, 1), (5, 0)]
  root := 0
  treeHeight := 5
  numNodes := 6

/-- Tree T2: the balanced binary tree of depth 2, root `0` with children `1, 2`,
node `1` with children `3, 4`, node `2` with children `5, 6`. -/
def treeT2 : tree where
  nodes := [0, 1, 2, 3, 4, 5, 6]
  parents := NodeMap.ofList [(0, -1), (1, 0), (2, 0), (3, 1), (4, 1), (5, 2), (6, 2)]
  depths := NodeMap.ofList [(0, 0), (1, 1), (2, 1), (3, 2), (4, 2), (5, 2), (6, 2)]
  heights := NodeMap.ofList [(0, 2), (1, 1), (2, 1), (3, 0), (4, 0), (5, 0), (6, 0)]
  root := 0
  treeHeight := 2
  numNodes := 7

/-- The list `v, parent v, ..., parent^d v`. -/
def tree.chain (T : tree) : Nat → Int → List Int
  | 0, v => [v]
  | d + 1, v => v :: T.chain d (T.parent v)

/-! ## Predicates used in the proofs -/

/-- The depth of a node, as a natural number. -/
def tree.dep (T : tree) (v : Int) : Nat := (T.depths.at0 v).toNat

/-- The height of a node, as a natural number. -/
def tree.hgt (T : tree) (v : Int) : Nat := (T.heights.at0 v).toNat

/-- What the buckets hold when the nodes of `done` have been visited. -/
structure Buckets (T : tree) (done : List Int) (leafs : List (List Int)) : Prop where
  len : (leafs.length : Int) = T.treeHeight + 1
  sound : ∀ j b, leafs.get? j = some b →
    b.Nodup ∧ ∀ v ∈ b, v ∈ done ∧ T.heights.at0 v = 0 ∧ T.dep v = j
  complete : ∀ v ∈ done, T.heights.at0 v = 0 → ∃ b, leafs.get? (T.dep v) = some b ∧ v ∈ b

/-- The first `m` nodes on the way from `l` to the root: `l`, its parent, ... -/
def tree.up (T : tree) (l : Int) (m : Nat) : List Int :=
  (List.range m).map (fun x => T.ancestor x l)

/-- State of the walk `walkUp` from the leaf `l` after `i` rounds, started with
the nodes of `M0` marked and the map `pi0`. -/
structure WalkInv (T : tree) (M0 : Int → Prop) (pi0 : NodeMap Int) (cpi : Int) (l : Int)
    (i : Nat) (s : WalkState) : Prop where
  node : s.currentNode = T.ancestor i l
  path : s.currentPath = T.up l i
  mlen : s.mark.length = T.nodes.length
  marked : ∀ v ∈ T.nodes, (M0 v ∨ ∃ x, x < i ∧ T.ancestor x l = v) →
    s.mark.get? v.toNat = some 1
  unmarked : ∀ v ∈ T.nodes, ¬ M0 v → (∀ x, x < i → T.ancestor x l ≠ v) →
    s.mark.get? v.toNat = some 0
  pin : ∀ x, x < i → s.pathIndex (T.ancestor x l) = some cpi
  pout : ∀ v, (∀ x, x < i → T.ancestor x l ≠ v) → s.pathIndex v = pi0 v

/-- A node is marked once a leaf below it has been taken. -/
def Marked (T : tree) (P : List Int) (v : Int) : Prop :=
  ∃ l, l ∈ P ∧ ∃ k, k ≤ T.dep l ∧ T.ancestor k l = v

/-- Length of the ladder of a path with `L` nodes that ends in the leaf `l`. -/
def stairLen (T : tree) (l : Int) (L : Nat) : Nat := L + min L (T.dep l + 1 - L)

/-- The entries of the ladder index for the node `v`: it lies on the path of the
`c`-th leaf `l`, a path of `L` nodes, `i` levels above `l`, and `l` is a deepest
leaf below `v`. -/
def Owned (T : tree) (P : List Int) (b : StairBuild) (v : Int) : Prop :=
  ∃ (c : Nat) (l : Int) (L i : Nat), P.get? c = some l ∧ L ≤ T.dep l + 1 ∧ i < L ∧
    T.ancestor i l = v ∧ T.hgt v = i ∧ b.pathIndex v = some (c : Int) ∧
    b.nodeIndex v = some ((stairLen T l L - 1 - i : Nat) : Int) ∧
    b.stairs.get? c = some (T.up l (stairLen T l L)).reverse

/-- State of the loop over the sorted leaves when the leaves `P` have been taken. -/
structure StairInv (T : tree) (P : List Int) (b : StairBuild) : Prop where
  mlen : b.mark.length = T.nodes.length
  marked : ∀ v ∈ T.nodes, Marked T P v → b.mark.get? v.toNat = some 1
  unmarked : ∀ v ∈ T.nodes, ¬ Marked T P v → b.mark.get? v.toNat = some 0
  slen : b.stairs.length = P.length
  owned : ∀ v ∈ T.nodes, Marked T P v → Owned T P b v
  pnone : ∀ v, ¬ Marked T P v → b.pathIndex v = none
  nnone : ∀ v, ¬ Marked T P v → b.nodeIndex v = none

/-- The row `jump[l]` of a leaf: the ancestors at the distances `1, 2, 4, ...` up
to the depth of the leaf (for the root alone, the entry `-1`). -/
def JumpRow (T : tree) (l : Int) (row : List Int) : Prop :=
  ∃ K : Nat, (T.dep l = 0 ∧ K = 0 ∨ 2 ^ K ≤ T.dep l ∧ T.dep l < 2 ^ (K + 1)) ∧
    row = (List.range (K + 1)).map (fun m => T.ancestor (2 ^ m) l)

/-- The index maps during the jump-pointer loop agree with the ladder build on
the nodes. -/
structure JumpInv (T : tree) (b0 : StairBuild) (jb : JumpBuild) : Prop where
  pidx : ∀ v ∈ T.nodes, jb.pathIndex v = b0.pathIndex v
  nidx : ∀ v ∈ T.nodes, jb.nodeIndex v = b0.nodeIndex v
  nroot : jb.nodeIndex.at0 (-1) = 0

/-- The marks and the map `pathIndex` when the leaves `P` have been taken. -/
structure MarkInv (T : tree) (P : List Int) (mark : List Int) (pathIndex : NodeMap Int) :
    Prop where
  mlen : mark.length = T.nodes.length
  marked : ∀ v ∈ T.nodes, Marked T P v → mark.get? v.toNat = some 1
  unmarked : ∀ v ∈ T.nodes, ¬ Marked T P v → mark.get? v.toNat = some 0
  pnone : ∀ v, ¬ Marked T P v → pathIndex v = none
  psome : ∀ v, Marked T P v → ∃ c : Nat, c < P.length ∧ pathIndex v = some (c : Int)

/-- State of the loop over the sorted leaves of `BuildPathDecompIndex` when the
leaves `P` have been taken: the `c`-th path is the walk from the `c`-th leaf `l`,
its `L` nodes stored top first; the node `x` levels above `l` has height `x`;
the parent of the top, if any, belongs to an earlier path. -/
structure PathsInv (T : tree) (P : List Int) (b : PathBuild) : Prop where
  marks : MarkInv T P b.mark b.pathIndex
  plen : b.paths.length = P.length
  nnone : ∀ v, ¬ Marked T P v → b.nodeIndex v = none
  path : ∀ c l, P.get? c = some l → ∃ L, 0 < L ∧ L ≤ T.dep l + 1 ∧
    b.paths.get? c = some (T.up l L).reverse ∧
    (∀ x, x < L → b.pathIndex (T.ancestor x l) = some (c : Int) ∧
      b.nodeIndex (T.ancestor x l) = some ((L - 1 - x : Nat) : Int) ∧
      T.hgt (T.ancestor x l) = x) ∧
    (∀ u, b.pathIndex u = some (c : Int) → ∃ x, x < L ∧ T.ancestor x l = u) ∧
    (L ≤ T.dep l → ∃ c1 : Nat, c1 < c ∧ b.pathIndex (T.ancestor L l) = some (c1 : Int))

/-- The ladders when the leaves `P` have been taken: the `c`-th ladder belongs
to the walk from the `c`-th leaf `l`, a path of `L` nodes; it holds the first
`stairLen T l L` nodes on the way from `l` to the root, top first; the node `x`
levels above `l` has height `x`; the parent of the top of the path, if any,
belongs to an earlier path. -/
structure LaddersInv (T : tree) (P : List Int) (b : StairBuild) : Prop where
  ladder : ∀ c l, P.get? c = some l → ∃ L, 0 < L ∧ L ≤ T.dep l + 1 ∧
    b.stairs.get? c = some (T.up l (stairLen T l L)).reverse ∧
    (∀ x, x < L → b.pathIndex (T.ancestor x l) = some (c : Int) ∧
      b.nodeIndex (T.ancestor x l) = some ((stairLen T l L - 1 - x : Nat) : Int) ∧
      T.hgt (T.ancestor x l) = x) ∧
    (∀ u, b.pathIndex u = some (c : Int) → ∃ x, x < L ∧ T.ancestor x l = u) ∧
    (L ≤ T.dep l → ∃ c1 : Nat, c1 < c ∧ b.pathIndex (T.ancestor L l) = some (c1 : Int))

/-- Length of the path `c` of an index: the number of nodes whose `pathIndex`
is `c`. -/
def pathLength (T : tree) (pathIndex : NodeMap Int) (c : Int) : Nat :=
  (T.nodes.filter (fun v => decide (pathIndex v = some c))).length

end LevelAncestor

/-! # Suffix automaton

States live in a heap (a list of records); a `State*` is `none` for `NULL` and
`some q` for the state allocated `q`-th. `std::string` is a `List Char`.
-/

namespace SuffixAutomaton

open LevelAncestor (Fault Run)

/-- A `std::unordered_map<char, State*>`: key/value pairs with distinct keys. -/
abbrev Delta : Type := List (Char × Option Nat)

/-- The `struct State` of the source. -/
structure State where
  len : Int
  index : Int
  slink : Option Nat
  delta : Delta
  final : Bool

/-- The memory holding the allocated states. -/
abbrev Heap : Type := List State

/-- `d.find(a)`: `none` stands for `end()`. -/
def dfind (d : Delta) (a : Char) : Option (Option Nat) := d.lookup a

/-- The map after `d[a] = v`. -/
def dset : Delta → Char → Option Nat → Delta
  | [], a, v => [(a, v)]
  | (b, u) :: rest, a, v => if b = a then (b, v) :: rest else (b, u) :: dset rest a v

/-- The state a pointer refers to. -/
def deref (h : Heap) (q : Nat) : State :=
  h.getD q { len := 0, index := 0, slink := none, delta := [], final := false }

/-- The heap after `q->delta[a] = v`. -/
def setDelta (h : Heap) (q : Nat) (a : Char) (v : Option Nat) : Heap :=
  h.set q { deref h q with delta := dset (deref h q).delta a v }

/-- The heap after evaluating `q->delta[a]`: an absent key is inserted with the
value `NULL`. -/
def touchDelta (h : Heap) (q : Nat) (a : Char) : Heap :=
  match dfind (deref h q).delta a with
  | some _ => h
  | none => setDelta h q a none

/-- The heap after `q->slink = s`. -/
def setSlink (h : Heap) (q : Nat) (s : Option Nat) : Heap :=
  h.set q { deref h q with slink := s }

/-- The heap after `q->index = i`. -/
def setIndex (h : Heap) (q : Nat) (i : Int) : Heap :=
  h.set q { deref h q with index := i }

/-- The heap after `q->final = true`. -/
def setFinal (h : Heap) (q : Nat) : Heap :=
  h.set q { deref h q with final := true }

/-- `FindStem`; the first argument is the fuel of the `while` loop. -/
def FindStem (a : Char) (q_wa : Nat) : Nat → Heap → Option Nat → Run (Heap × Option Nat)
  | 0, _, _ => .error .fuel
  | _ + 1, h, none => .ok (h, none)
  | fuel + 1, h, some q =>
    match dfind (deref h q).delta a with
    | none => FindStem a q_wa fuel (setDelta h q a (some q_wa)) (deref h q).slink
    | some _ => .ok (h, some q)

/-- `CopyTransitions`. -/
def CopyTransitions (h : Heap) (source dest : Nat) : Heap :=
  (deref h source).delta.foldl (fun h1 e => setDelta h1 dest e.1 e.2) h

/-- `ModifyTree`: returns the heap and `suf_prime`. Reading `suf->len` through a
`NULL` value of `p->delta[a]` is undefined behaviour. -/
def ModifyTree (h : Heap) (p : Option Nat) (q_epsi q_wa : Nat) (a : Char) :
    Run (Heap × Option Nat) :=
  match p with
  | none => .ok (setSlink h q_wa (some q_epsi), none)
  | some p =>
    match dfind (deref h p).delta a with
    | some (some suf) =>
      if (deref h suf).len = (deref h p).len + 1 ∧ (deref h suf).len ≠ 0 then
        .ok (setSlink h q_wa (some suf), none)
      else
        let suf_prime := h.length
        let h1 := h ++ [{ len := (deref h p).len + 1, index := 0, slink := none, delta := [],
                          final := false }]
        let h2 := CopyTransitions h1 suf suf_prime
        let h3 := setSlink h2 suf_prime (deref h2 suf).slink
        let h4 := setSlink h3 suf (some suf_prime)
        let h5 := setSlink h4 q_wa (some suf_prime)
        .ok (h5, some suf_prime)
    | _ => .error .ub

/-- The loop of `RedirectTransitions`; the first argument is its fuel. -/
def redirectLoop (a : Char) (suf : Option Nat) (suf_prime : Nat) :
    Nat → Heap → Option Nat → Run Heap
  | 0, _, _ => .error .fuel
  | _ + 1, h, none => .ok h
  | fuel + 1, h, some temp =>
    let h1 := touchDelta h temp a
    if dfind (deref h1 temp).delta a = some suf then
      redirectLoop a suf suf_prime fuel (setDelta h1 temp a (some suf_prime)) (deref h1 temp).slink
    else .ok h1

/-- `RedirectTransitions`. -/
def RedirectTransitions (fuel : Nat) (h : Heap) (p suf_prime : Option Nat) (a : Char) :
    Run Heap :=
  match p, suf_prime with
  | some p, some sp =>
    let h1 := touchDelta h p a
    redirectLoop a ((dfind (deref h1 p).delta a).getD none) sp fuel h1 (some p)
  | _, _ => .ok h

/-- `Qw.insert(q)` on the set of states, kept in order of insertion. -/
def qinsert (Qw : List Nat) (q : Nat) : List Nat := if q ∈ Qw then Qw else Qw ++ [q]

/-- The variables of `BuildSuffixAutomaton` that live across the loop. -/
structure Build where
  heap : Heap
  Qw : List Nat
  q_w : Nat

/-- The body of the loop `for (int i = 0; i < w.length(); i++)` for the symbol
`a = w[i]`; the loops it calls get `heap size + 1` units of fuel. -/
def buildStep (q_epsi : Nat) (b : Build) (i : Int) (a : Char) : Run Build :=
  let q_wa := b.heap.length
  let h0 := b.heap ++ [{ len := i + 1, index := 0, slink := none, delta := [], final := false }]
  match FindStem a q_wa (h0.length + 1) h0 (some b.q_w) with
  | .error e => .error e
  | .ok (h1, p) =>
    match ModifyTree h1 p q_epsi q_wa a with
    | .error e => .error e
    | .ok (h2, suf_prime) =>
      match RedirectTransitions (h2.length + 1) h2 p suf_prime a with
      | .error e => .error e
      | .ok h3 =>
        match suf_prime with
        | some sp =>
          .ok { heap := setIndex h3 sp ((i - (deref h3 sp).len) + 1),
                Qw := qinsert (qinsert b.Qw sp) q_wa, q_w := q_wa }
        | none => .ok { heap := h3, Qw := qinsert b.Qw q_wa, q_w := q_wa }

/-- The loop `for (int i = 0; i < w.length(); i++)` from index `i` on. -/
def buildLoop (q_epsi : Nat) : List Char → Int → Build → Run Build
  | [], _, b => .ok b
  | a :: rest, i, b =>
    match buildStep q_epsi b i a with
    | .error e => .error e
    | .ok b1 => buildLoop q_epsi rest (i + 1) b1

/-- The loop "mark final states"; the first argument is its fuel. -/
def markFinal : Nat → Heap → Option Nat → Run Heap
  | 0, _, _ => .error .fuel
  | _ + 1, h, none => .ok h
  | fuel + 1, h, some q => markFinal fuel (setFinal h q) (deref h q).slink

/-- The state of the build before the first symbol: `q_epsi` alone. -/
def initBuild : Build :=
  { heap := [{ len := 0, index := 0, slink := none, delta := [], final := true }],
    Qw := [0], q_w := 0 }

/-- `BuildSuffixAutomaton`: the heap of states and the set `Qw`. The initial
state `q_epsi` is the state `0`. -/
def BuildSuffixAutomaton (w : List Char) : Run (Heap × List Nat) :=
  match buildLoop 0 w 0 initBuild with
  | .error e => .error e
  | .ok b =>
    match markFinal (b.heap.length + 1) b.heap (some b.q_w) with
    | .error e => .error e
    | .ok h => .ok (h, b.Qw)

/-- The transition `delta(q, a)`, when it is defined and not `NULL`. -/
def step (h : Heap) (q : Nat) (a : Char) : Option Nat := (dfind (deref h q).delta a).join

/-- The walk from state `q` along the symbols of `x`. -/
def run (h : Heap) : Nat → List Char → Option Nat
  | q, [] => some q
  | q, a :: x =>
    match step h q a with
    | some q1 => run h q1 x
    | none => none

/-- The total number of `delta` entries over the states of `Qw`. -/
def numTransitions (h : Heap) (Qw : List Nat) : Nat :=
  (Qw.map (fun q => (deref h q).delta.length)).sum

/-! ## The invariant of the online construction

Each state `q` is labelled with a word `r q`, the longest word that leads to it. -/

/-- The length of the shortest word that leads to `q`: one more than the length
of the label of its suffix link (`0` for a state without suffix link). -/
def minLen (h : Heap) (r : Nat → List Char) (q : Nat) : Nat :=
  match (deref h q).slink with
  | none => 0
  | some s => (r s).length + 1

/-- The word `x` belongs to the class of `q`: it is a suffix of the label of `q`
that is longer than the label of the suffix link of `q`. -/
def InClass (h : Heap) (r : Nat → List Char) (q : Nat) (x : List Char) : Prop :=
  x <:+ r q ∧ minLen h r q ≤ x.length

/-- The invariant that holds after the symbols `w` have been read, with `last`
the state of the whole of `w`. -/
structure Inv (h : Heap) (w : List Char) (last : Nat) (r : Nat → List Char) : Prop where
  last_lt : last < h.length
  size : w.length + 1 ≤ h.length
  r_last : r last = w
  r_zero : r 0 = []
  slink_zero : (deref h 0).slink = none
  len_eq : ∀ q, q < h.length → (deref h q).len = (r q).length
  factor : ∀ q, q < h.length → r q <:+: w
  slink_some : ∀ q, q < h.length → q ≠ 0 →
    ∃ s, (deref h q).slink = some s ∧ s < h.length ∧ r s <:+ r q ∧ (r s).length < (r q).length
  trans_sound : ∀ q, q < h.length → ∀ a v, dfind (deref h q).delta a = some v →
    ∃ t, v = some t ∧ t < h.length ∧ r q ++ [a] <:+ r t ∧ minLen h r t ≤ minLen h r q + 1
  trans_complete : ∀ q, q < h.length → ∀ a, r q ++ [a] <:+: w →
    dfind (deref h q).delta a ≠ none
  occ : ∀ q, q < h.length → ∀ x P, InClass h r q x → P <+: w → x <:+ P → r q <:+ P
  uniq : ∀ q, q < h.length → ∀ q1, q1 < h.length → ∀ x,
    InClass h r q x → InClass h r q1 x → q = q1
  final_eq : ∀ q, q < h.length → (deref h q).final = decide (q = 0)
  keys : ∀ q, q < h.length → ((deref h q).delta.map Prod.fst).Nodup

/-- The state `t` is reached from `q` along suffix links. -/
inductive OnChain (h : Heap) : Nat → Nat → Prop where
  | refl (q : Nat) : OnChain h q q
  | step (q s t : Nat) : (deref h q).slink = some s → OnChain h s t → OnChain h q t

/-! ## Predicates used in the proofs -/

/-- The longest suffix `z` of `w ++ [a]` that is a factor of `w`. -/
structure Longest (w : List Char) (a : Char) (z : List Char) : Prop where
  suf : z <:+ w ++ [a]
  fac : z <:+: w
  max : ∀ x, x <:+ w ++ [a] → x <:+: w → x.length ≤ z.length

/-- The labelling after a step with a clone: the new state is labelled
`w ++ [a]`, the clone `z`. -/
def cloneLabel (r : Nat → List Char) (n : Nat) (w' z : List Char) : Nat → List Char :=
  fun q => if q = n then w' else if q = n + 1 then z else r q

/-- The state of the loop of `FindStem`: the suffix states with a label of
length at least `L` have received the transition to the new state. -/
structure StemInv (h : Heap) (w : List Char) (r : Nat → List Char) (a : Char)
    (h0 hc : Heap) (L : Nat) : Prop where
  length_eq : hc.length = h0.length
  fields : ∀ t, (deref hc t).len = (deref h0 t).len ∧ (deref hc t).slink = (deref h0 t).slink ∧
    (deref hc t).final = (deref h0 t).final
  tr : ∀ t b, dfind (deref hc t).delta b =
    if t < h.length ∧ b = a ∧ r t <:+ w ∧ L ≤ (r t).length then some (some h.length)
    else dfind (deref h0 t).delta b
  keys : ∀ t, ((deref hc t).delta.map Prod.fst).Nodup
  nofac : ∀ t, t < h.length → r t <:+ w → L ≤ (r t).length → ¬ r t ++ [a] <:+: w

/-- The state of the loop of `RedirectTransitions`: the states on the suffix
chain of `p` with a label of length at least `L` now lead to the clone. -/
structure RedInv (h : Heap) (r : Nat → List Char) (a : Char) (p suf : Nat)
    (h5 hc : Heap) (L : Nat) : Prop where
  length_eq : hc.length = h5.length
  fields : ∀ t, (deref hc t).len = (deref h5 t).len ∧ (deref hc t).slink = (deref h5 t).slink ∧
    (deref hc t).final = (deref h5 t).final
  tr : ∀ t b, dfind (deref hc t).delta b =
    if t < h.length ∧ b = a ∧ r t <:+ r p ∧ L ≤ (r t).length then some (some (h.length + 1))
    else dfind (deref h5 t).delta b
  keys : ∀ t, ((deref hc t).delta.map Prod.fst).Nodup
  allsuf : ∀ t, t < h.length → r t <:+ r p → L ≤ (r t).length →
    dfind (deref h t).delta a = some (some suf)

/-- The set `Qw` holds exactly the allocated states, each once. -/
structure QwInv (b : Build) : Prop where
  mem : ∀ q, q ∈ b.Qw ↔ q < b.heap.length
  length_eq : b.Qw.length = b.heap.length
  nodup : b.Qw.Nodup

/-- The number of states after the symbols `w`: no clone for the first two. -/
def SizeBound (w : List Char) (n : Nat) : Prop :=
  (w.length ≤ 2 → n = w.length + 1) ∧ (2 ≤ w.length → n + 1 ≤ 2 * w.length)

/-- From length `3` on: either a state short of the maximum, or a third state
whose label is a suffix of `w` (beside the initial state and the last one). -/
def Third (w : List Char) (n : Nat) (r : Nat → List Char) : Prop :=
  3 ≤ w.length → (n + 2 ≤ 2 * w.length ∨
    ∃ c, c < n ∧ r c <:+ w ∧ 0 < (r c).length ∧ (r c).length < w.length)

/-- The state of the loop "mark final states": the suffix states with a label of
length at least `L` are marked. -/
structure FinInv (h : Heap) (w : List Char) (r : Nat → List Char) (hc : Heap) (L : Nat) :
    Prop where
  length_eq : hc.length = h.length
  fields : ∀ t, (deref hc t).len = (deref h t).len ∧ (deref hc t).slink = (deref h t).slink ∧
    (deref hc t).delta = (deref h t).delta
  fin : ∀ t, (deref hc t).final = true ↔
    ((deref h t).final = true ∨ (t < h.length ∧ r t <:+ w ∧ L ≤ (r t).length))

/-- The transitions of the states of `Qw`, as pairs of a state and a symbol. -/
def edgeList (h : Heap) : List Nat → List (Nat × Char)
  | [] => []
  | q :: Qw => (deref h q).delta.map (fun e => (q, e.1)) ++ edgeList h Qw

/-- The state reached from `q` by following `slink` exactly `n` times. -/
def slinkChain (h : Heap) : Nat → Nat → Option Nat
  | 0, q => some q
  | n + 1, q =>
    match (deref h q).slink with
    | none => none
    | some s => slinkChain h n s

/-- The `i`-th state of the automaton of `a^k` before the final states are
marked: `len = i`, suffix link to the state `i - 1`, the one transition
`a ↦ i + 1` (none for the last state). -/
def unaryState (a : Char) (k i : Nat) : State :=
  { len := (i : Int), index := 0, slink := if i = 0 then none else some (i - 1),
    delta := if i < k then [(a, some (i + 1))] else [], final := decide (i = 0) }

/-- The heap holds the chain of the `k + 1` states of `a^k`; the initial state
and the states above `j` are marked final. -/
def UnaryHeap (a : Char) (k j : Nat) (h : Heap) : Prop :=
  h.length = k + 1 ∧
    ∀ i, i ≤ k → deref h i = { unaryState a k i with final := decide (i = 0 ∨ j < i) }

/-- Along every transition `len` grows by at least one, and no transition is
`NULL` or leaves the heap. -/
def LenIncreasing (h : Heap) : Prop :=
  ∀ q, q < h.length → ∀ a v, dfind (deref h q).delta a = some v →
    ∃ t, v = some t ∧ t < h.length ∧ (deref h q).len + 1 ≤ (deref h t).len

end SuffixAutomaton

/-! # Theorems on the level ancestor indices -/

namespace LevelAncestor

theorem NodeMap.set_self {β : Type} (m : NodeMap β) (k : Int) (x : β) : m.set k x k = some x := by
  simp [NodeMap.set]

theorem NodeMap.set_other {β : Type} (m : NodeMap β) (k j : Int) (x : β) (h : j ≠ k) :
    m.set k x j = m j := by
  simp [NodeMap.set, h]

theorem NodeMap.set_set {β : Type} (m : NodeMap β) (k : Int) (x y : β) :
    (m.set k x).set k y = m.set k y := by
  funext j; by_cases h : j = k <;> simp [NodeMap.set, h]

theorem WellFormed.depth_some {T : tree} (hT : WellFormed T) {v : Int} (hv : v ∈ T.nodes) :
    T.depths v = some (T.depths.at0 v) := by
  obtain ⟨_, _, _, _, _, hdr, _, _, hpar, _⟩ := hT
  by_cases h : v = T.root
  · subst h; simp [NodeMap.at0, hdr]
  · obtain ⟨p, _, _, hd⟩ := hpar v hv h
    simp [NodeMap.at0, hd]

theorem WellFormed.depth_nonneg {T : tree} (hT : WellFormed T) {v : Int} (hv : v ∈ T.nodes) :
    0 ≤ T.depths.at0 v := hT.2.2.2.2.2.2.2.1 v hv

theorem WellFormed.node_nonneg {T : tree} (hT : WellFormed T) {v : Int} (hv : v ∈ T.nodes) :
    0 ≤ v := (hT.2.2.1 v hv).1

theorem WellFormed.parent_root {T : tree} (hT : WellFormed T) : T.parent T.root = -1 := by
  simp [tree.parent, NodeMap.at0, hT.2.2.2.2.1]

theorem WellFormed.depth_root {T : tree} (hT : WellFormed T) : T.depths.at0 T.root = 0 := by
  simp [NodeMap.at0, hT.2.2.2.2.2.1]

theorem WellFormed.parent_mem {T : tree} (hT : WellFormed T) {v : Int} (hv : v ∈ T.nodes)
    (h : v ≠ T.root) :
    T.parent v ∈ T.nodes ∧ T.depths.at0 v = T.depths.at0 (T.parent v) + 1 := by
  obtain ⟨p, hp, hpv, hd⟩ := hT.2.2.2.2.2.2.2.2.1 v hv h
  have : T.parent v = p := by simp [tree.parent, NodeMap.at0, hpv]
  rw [this]
  refine ⟨hp, ?_⟩
  simp [NodeMap.at0, hd]

theorem WellFormed.eq_root_of_depth {T : tree} (hT : WellFormed T) {v : Int} (hv : v ∈ T.nodes)
    (h : T.depths.at0 v = 0) : v = T.root := by
  by_contra hne
  obtain ⟨hp, hd⟩ := hT.parent_mem hv hne
  have := hT.depth_nonneg hp
  omega

theorem tree.chain_length (T : tree) (d : Nat) (v : Int) : (T.chain d v).length = d + 1 := by
  induction d generalizing v with
  | zero => rfl
  | succ d ih => simp [tree.chain, ih]

theorem tree.chain_get (T : tree) (d : Nat) (v : Int) (k : Nat) (hk : k ≤ d) :
    (T.chain d v).get? k = some (T.ancestor k v) := by
  induction d generalizing v k with
  | zero =>
    obtain rfl : k = 0 := by omega
    rfl
  | succ d ih =>
    cases k with
    | zero => rfl
    | succ k =>
      simp only [tree.chain, List.get?_cons_succ]
      rw [ih (T.parent v) k (by omega)]
      rfl

theorem WellFormed.chain_mem {T : tree} (hT : WellFormed T) (d : Nat) (v : Int)
    (hv : v ∈ T.nodes) (hd : T.depths.at0 v = d) :
    ∀ x ∈ T.chain d v, x ∈ T.nodes ∧ T.depths.at0 x ≤ d := by
  induction d generalizing v with
  | zero =>
    intro x hx
    simp [tree.chain] at hx
    subst hx
    exact ⟨hv, by omega⟩
  | succ d ih =>
    intro x hx
    simp only [tree.chain, List.mem_cons] at hx
    rcases hx with rfl | hx
    · exact ⟨hv, by omega⟩
    · have hne : v ≠ T.root := by
        intro h; rw [h, hT.depth_root] at hd; simp at hd; omega
      obtain ⟨hp, hdp⟩ := hT.parent_mem hv hne
      have := ih (T.parent v) hp (by push_cast at hd; omega) x hx
      exact ⟨this.1, by push_cast; omega⟩

theorem WellFormed.chain_nodup {T : tree} (hT : WellFormed T) (d : Nat) (v : Int)
    (hv : v ∈ T.nodes) (hd : T.depths.at0 v = d) : (T.chain d v).Nodup := by
  induction d generalizing v with
  | zero => simp [tree.chain]
  | succ d ih =>
    have hne : v ≠ T.root := by
      intro h; rw [h, hT.depth_root] at hd; simp at hd; omega
    obtain ⟨hp, hdp⟩ := hT.parent_mem hv hne
    have hd1 : T.depths.at0 (T.parent v) = d := by push_cast at hd; omega
    simp only [tree.chain, List.nodup_cons]
    refine ⟨?_, ih _ hp hd1⟩
    intro hmem
    have := (hT.chain_mem d _ hp hd1 v hmem).2
    push_cast at hd; omega

theorem WellFormed.depth_lt {T : tree} (hT : WellFormed T) {v : Int} (hv : v ∈ T.nodes) :
    (T.depths.at0 v).toNat + 1 ≤ T.nodes.length := by
  have hd : T.depths.at0 v = ((T.depths.at0 v).toNat : Int) :=
    (Int.toNat_of_nonneg (hT.depth_nonneg hv)).symm
  have h1 := hT.chain_nodup _ v hv hd
  have h2 : T.chain (T.depths.at0 v).toNat v ⊆ T.nodes :=
    fun x hx => (hT.chain_mem _ v hv hd x hx).1
  have := (List.subperm_of_subset h1 h2).length_le
  rwa [tree.chain_length] at this

theorem WellFormed.chain_last {T : tree} (hT : WellFormed T) (d : Nat) (v : Int)
    (hv : v ∈ T.nodes) (hd : T.depths.at0 v = d) : T.ancestor d v = T.root := by
  induction d generalizing v with
  | zero => exact hT.eq_root_of_depth hv (by simpa using hd)
  | succ d ih =>
    have hne : v ≠ T.root := by
      intro h; rw [h, hT.depth_root] at hd; simp at hd; omega
    obtain ⟨hp, hdp⟩ := hT.parent_mem hv hne
    have hd1 : T.depths.at0 (T.parent v) = d := by push_cast at hd; omega
    have := ih _ hp hd1
    simpa [tree.ancestor] using this

theorem WellFormed.naiveWalk_eq {T : tree} (hT : WellFormed T) (node : Int) (d : Nat) :
    ∀ (u : Int) (tbl : NodeMap (List Int)) (fuel : Nat), u ∈ T.nodes → T.depths.at0 u = d →
      d + 2 ≤ fuel →
      naiveWalk T.parents node fuel u tbl
        = .ok (tbl.set node ((tbl node).getD [] ++ T.chain d u)) := by
  induction d with
  | zero =>
    intro u tbl fuel hu hd hf
    obtain ⟨f, rfl⟩ : ∃ f, fuel = f + 2 := ⟨fuel - 2, by omega⟩
    have hroot := hT.eq_root_of_depth hu (by simpa using hd)
    have hu0 := hT.node_nonneg hu
    have hp : T.parents.at0 u = -1 := by rw [hroot]; exact hT.parent_root
    have hne : u ≠ -1 := by omega
    simp [naiveWalk, hne, hp, tree.chain]
  | succ d ih =>
    intro u tbl fuel hu hd hf
    obtain ⟨f, rfl⟩ : ∃ f, fuel = f + 1 := ⟨fuel - 1, by omega⟩
    have hne : u ≠ T.root := by
      intro h; rw [h, hT.depth_root] at hd; simp at hd; omega
    obtain ⟨hp, hdp⟩ := hT.parent_mem hu hne
    have hd1 : T.depths.at0 (T.parent u) = d := by push_cast at hd; omega
    have hu0 := hT.node_nonneg hu
    have hne1 : u ≠ -1 := by omega
    have := ih (T.parent u) (tbl.set node ((tbl node).getD [] ++ [u])) f hp hd1 (by omega)
    simp only [naiveWalk, hne1, if_false]
    rw [show T.parents.at0 u = T.parent u from rfl, this]
    simp [NodeMap.set_set, NodeMap.set_self, tree.chain]

theorem WellFormed.naiveLoop_eq {T : tree} (hT : WellFormed T) :
    ∀ (l : List Int) (idx : naiveStruct), (∀ v ∈ l, v ∈ T.nodes) → l.Nodup →
      (∀ v ∈ l, idx.naiveTable v = none) →
      ∃ idx1, naiveLoop T (T.nodes.length + 1) l idx = .ok idx1 ∧
        (∀ v ∈ l, idx1.naiveTable v = some (T.chain (T.depths.at0 v).toNat v) ∧
          idx1.depths v = some (T.depths.at0 v)) ∧
        (∀ v, v ∉ l → idx1.naiveTable v = idx.naiveTable v ∧ idx1.depths v = idx.depths v) := by
  intro l
  induction l with
  | nil => intro idx _ _ _; exact ⟨idx, rfl, by simp, by simp⟩
  | cons a l ih =>
    intro idx hmem hnd hnone
    have ha : a ∈ T.nodes := hmem a (List.mem_cons_self _ _)
    have hd : T.depths.at0 a = ((T.depths.at0 a).toNat : Int) :=
      (Int.toNat_of_nonneg (hT.depth_nonneg ha)).symm
    have hw := hT.naiveWalk_eq a _ a idx.naiveTable (T.nodes.length + 1) ha hd
      (by have := hT.depth_lt ha; omega)
    rw [List.nodup_cons] at hnd
    have hnone_a := hnone a (List.mem_cons_self _ _)
    obtain ⟨idx1, h1, h2, h3⟩ := ih
      { naiveTable := idx.naiveTable.set a ((idx.naiveTable a).getD [] ++
          T.chain (T.depths.at0 a).toNat a),
        depths := idx.depths.set a (T.depths.at0 a) }
      (fun v hv => hmem v (List.mem_cons_of_mem _ hv)) hnd.2
      (fun v hv => by
        have hva : v ≠ a := by rintro rfl; exact hnd.1 hv
        simp only [NodeMap.set_other _ _ _ _ hva]
        exact hnone v (List.mem_cons_of_mem _ hv))
    refine ⟨idx1, ?_, ?_, ?_⟩
    · simp only [naiveLoop, naiveNode, hw]
      exact h1
    · intro v hv
      rcases List.mem_cons.1 hv with rfl | hv
      · have := h3 v hnd.1
        rw [this.1, this.2]
        simp [NodeMap.set_self, hnone_a]
      · exact h2 v hv
    · intro v hv
      have hva : v ≠ a := fun h => hv (h ▸ List.mem_cons_self _ _)
      have hvl : v ∉ l := fun h => hv (List.mem_cons_of_mem _ h)
      have := h3 v hvl
      rw [this.1, this.2]
      simp [NodeMap.set_other _ _ _ _ hva]

/-- C3. On a well-formed tree `BuildNaiveIndex` returns an index on which
`NaiveSearch(v, k)` returns `-1` when `k > depth(v)` and otherwise the parent
map applied `k` times to `v`; the row `table[v]` has `depth(v) + 1` entries,
`v` first and the root last. -/
theorem NaiveSearch_correct (T : tree) (hT : WellFormed T) (v : Int) (hv : v ∈ T.nodes)
    (k : Int) (hk : 0 ≤ k) :
    ∃ idx, BuildNaiveIndex T = .ok idx ∧
      NaiveSearch v k idx
        = .ok (if k > T.depths.at0 v then -1 else T.ancestor k.toNat v) ∧
      ∃ row, idx.naiveTable v = some row ∧ (row.length : Int) = T.depths.at0 v + 1 ∧
        row.head? = some v ∧ row.getLast? = some T.root := by
  obtain ⟨idx, h1, h2, _⟩ := hT.naiveLoop_eq T.nodes
    { naiveTable := fun _ => none, depths := fun _ => none } (fun _ h => h) hT.2.1 (fun _ _ => rfl)
  obtain ⟨hrow, hdep⟩ := h2 v hv
  have hd : T.depths.at0 v = ((T.depths.at0 v).toNat : Int) :=
    (Int.toNat_of_nonneg (hT.depth_nonneg hv)).symm
  refine ⟨idx, h1, ?_, _, hrow, ?_, ?_, ?_⟩
  · simp only [NaiveSearch, NodeMap.find, hdep, hrow]
    by_cases hgt : k > T.depths.at0 v
    · simp [hgt]
    · simp only [hgt, if_false, vget, hk, if_true]
      rw [tree.chain_get T _ v k.toNat (by omega)]
  · rw [tree.chain_length]; omega
  · cases h : (T.depths.at0 v).toNat <;> simp [tree.chain]
  · rw [List.getLast?_eq_getElem?, tree.chain_length]
    have := tree.chain_get T (T.depths.at0 v).toNat v (T.depths.at0 v).toNat le_rfl
    rw [List.get?_eq_getElem?] at this
    simp only [Nat.add_sub_cancel]
    rw [this, hT.chain_last _ v hv hd]

theorem NaiveSearch_correct_witness :
    ∃ idx, BuildNaiveIndex treeT2 = .ok idx ∧
      NaiveSearch 4 1 idx = .ok (if (1 : Int) > treeT2.depths.at0 4 then -1 else treeT2.ancestor (1 : Int).toNat 4) ∧
      ∃ row, idx.naiveTable 4 = some row ∧ (row.length : Int) = treeT2.depths.at0 4 + 1 ∧
        row.head? = some 4 ∧ row.getLast? = some treeT2.root :=
  NaiveSearch_correct treeT2 (by decide) 4 (by decide) 1 (by decide)

theorem vset_length {α : Type} (v : List α) (i : Int) (x : α) (w : List α)
    (h : vset v i x = .ok w) : w.length = v.length := by
  unfold vset at h
  split at h
  · cases h; simp
  · cases h

theorem vset_length_fault {α : Type} (v : List α) (x : α) : vset v v.length x = .error .ub := by
  simp [vset]

theorem tableLoop_faults : ∀ (left : Nat) (i deg : Int) (power degT : List Int),
    0 < left → i + left = power.length + 1 →
    ∀ r, tableLoop left i deg power degT ≠ .ok r := by
  intro left
  induction left with
  | zero => intro i deg power degT h; omega
  | succ n ih =>
    intro i deg power degT _ hi r
    unfold tableLoop
    cases h1 : vget power (i - 1) with
    | error e => simp
    | ok prev =>
      simp only []
      cases h2 : vset power i (wrapInt (2 * prev)) with
      | error e => simp
      | ok power1 =>
        simp only []
        have hlen := vset_length _ _ _ _ h2
        have hn : 0 < n := by
          rcases Nat.eq_zero_or_pos n with h0 | h0
          · subst h0
            have : i = power.length := by push_cast at hi; omega
            rw [this, vset_length_fault] at h2
            cases h2
          · exact h0
        cases h3 : vget power1 (deg + 1) with
        | error e => simp
        | ok next =>
          simp only []
          cases h4 : vset degT i (if i ≥ next then deg + 1 else deg) with
          | error e => simp
          | ok degT1 =>
            simp only []
            exact ih (i + 1) _ power1 degT1 hn (by rw [hlen]; push_cast at hi ⊢; omega) r

theorem buildTables_faults (n : Int) (r : List Int × List Int) : buildTables n n ≠ .ok r := by
  unfold buildTables
  split
  · simp
  · rename_i hn
    cases h : vset (List.replicate n.toNat (0 : Int)) 0 1 with
    | error e => simp
    | ok power =>
      have hlen := vset_length _ _ _ _ h
      simp only
      have hpos : 0 < n.toNat := by
        unfold vset at h
        split at h
        · rename_i h0; simpa using h0.2
        · cases h
      exact tableLoop_faults n.toNat 1 0 power _ hpos (by rw [hlen]; simp [add_comm]) r

/-- C1. `BuildStairIndex` returns no index, on any tree: the loop that fills
`power` and `deg` writes entry `numNodes` of two vectors resized to `numNodes`
entries. On tree T1 the run ends in undefined behaviour there; with tables of
`numNodes + 1` entries, `StairSearch(5, 5)` returns the root `0`. -/
theorem BuildStairIndex_never_returns :
    (∀ (T : tree) (idx : stairStruct), BuildStairIndex T ≠ .ok idx) ∧
    WellFormed treeT1 ∧ BuildStairIndex treeT1 = .error .ub ∧
    ∃ idx, BuildStairIndexSized 7 treeT1 = .ok idx ∧ StairSearch 5 5 idx = .ok 0 := by
  refine ⟨?_, by decide, rfl, _, rfl, rfl⟩
  intro T idx
  unfold BuildStairIndex BuildStairIndexSized
  cases h1 : buildStairs T with
  | error e => simp
  | ok r =>
    cases h2 : buildTables T.numNodes T.numNodes with
    | error e => simp
    | ok t => exact absurd h2 (buildTables_faults _ t)

/-- C4. On tree T2 node `4` sits at position `1` of its path `[1, 4]`, and
`PathDecompSearch(4, 1)` returns `2`, while the first ancestor of `4` is
`paths[2][0] = 1`: the test `nodeIndex > ancestorLevel` sends the case
`k = nodeIndex` to the parent of the top of the path with level `-1`. -/
theorem PathDecompSearch_T2_returns_sibling (fuel : Nat) :
    WellFormed treeT2 ∧ treeT2.ancestor 1 4 = 1 ∧
    ∃ idx, BuildPathDecompIndex treeT2 = .ok idx ∧ idx.pathIndex 4 = some 2 ∧
      idx.nodeIndex 4 = some 1 ∧ idx.paths.get? 2 = some [1, 4] ∧
      PathDecompSearch idx (fuel + 2) 4 1 = .ok 2 :=
  ⟨by decide, rfl, _, rfl, rfl, rfl, rfl, rfl⟩

/-- C5. On tree T1 (one path `0 .. 5`) `StairDecompSearch(5, 5)` does not return
the root `0`: node `5` sits at position `5` of its ladder, the test
`nodeIndex > ancestorLevel` fails for `k = 5`, and the recursive call on
`parent(0) = -1` dereferences `nodeIndex.find(-1)`. -/
theorem StairDecompSearch_T1_faults (fuel : Nat) :
    WellFormed treeT1 ∧ treeT1.ancestor 5 5 = treeT1.root ∧ treeT1.depths 5 = some 5 ∧
    ∃ idx, BuildStairDecompIndex treeT1 = .ok idx ∧ idx.nodeIndex 5 = some 5 ∧
      idx.stairs = [[0, 1, 2, 3, 4, 5]] ∧
      StairDecompSearch idx (fuel + 2) 5 5 = .error .ub :=
  ⟨by decide, rfl, rfl, _, rfl, rfl, rfl, rfl⟩

/-- C6. Out-of-range queries on the jump-pointer index can fault. On tree T2,
with tables of `numNodes + 1` entries, `jump[6]` has two entries, `deg[4] = 2`,
and `StairSearch(6, 4)` passes the guard `size() < k` and reads `jump[6][2]`; on
tree T1 `StairSearch(5, 7)` reads `deg[7]` out of bounds. With the tables of the
source (`numNodes` entries) the build itself does not return. -/
theorem StairSearch_out_of_range_faults :
    WellFormed treeT2 ∧ treeT2.depths 6 = some 2 ∧
    (∃ idx, BuildStairIndexSized 8 treeT2 = .ok idx ∧ idx.jump 6 = some [2, 0] ∧
      idx.deg.get? 4 = some 2 ∧ StairSearch 6 4 idx = .error .ub) ∧
    (∃ idx, BuildStairIndexSized 7 treeT1 = .ok idx ∧ idx.deg.length = 7 ∧
      StairSearch 5 7 idx = .error .ub) ∧
    BuildStairIndex treeT2 = .error .ub :=
  ⟨by decide, rfl, ⟨_, rfl, rfl, rfl, rfl⟩, ⟨_, rfl, rfl, rfl⟩, rfl⟩

/-- C7. The four searches do not agree on tree T2 at node `4`, level `1`:
`NaiveSearch` and `StairDecompSearch` return `1`, `PathDecompSearch` returns `2`,
and `BuildStairIndex` returns no index to search. -/
theorem searches_disagree_T2 (fuel : Nat) :
    WellFormed treeT2 ∧ treeT2.depths 4 = some 2 ∧
    (∃ idx, BuildNaiveIndex treeT2 = .ok idx ∧ NaiveSearch 4 1 idx = .ok 1) ∧
    (∃ idx, BuildPathDecompIndex treeT2 = .ok idx ∧
      PathDecompSearch idx (fuel + 2) 4 1 = .ok 2) ∧
    (∃ idx, BuildStairDecompIndex treeT2 = .ok idx ∧
      StairDecompSearch idx (fuel + 2) 4 1 = .ok 1) ∧
    BuildStairIndex treeT2 = .error .ub :=
  ⟨by decide, rfl, ⟨_, rfl, rfl⟩, ⟨_, rfl, rfl⟩, ⟨_, rfl, rfl⟩, rfl⟩

section

/-! ## Depths and heights in a well-formed tree -/

theorem tree.ancestor_zero (T : tree) (v : Int) : T.ancestor 0 v = v := rfl

theorem tree.ancestor_succ (T : tree) (k : Nat) (v : Int) :
    T.ancestor (k + 1) v = T.parent (T.ancestor k v) := by
  simp [tree.ancestor, Function.iterate_succ_apply']

theorem tree.ancestor_add (T : tree) (a b : Nat) (v : Int) :
    T.ancestor (a + b) v = T.ancestor a (T.ancestor b v) := by
  simp [tree.ancestor, Function.iterate_add_apply]

theorem WellFormed.dep_eq {T : tree} (hT : WellFormed T) {v : Int} (hv : v ∈ T.nodes) :
    T.depths.at0 v = (T.dep v : Int) :=
  (Int.toNat_of_nonneg (hT.depth_nonneg hv)).symm

theorem WellFormed.dep_root {T : tree} (hT : WellFormed T) : T.dep T.root = 0 := by
  simp [tree.dep, hT.depth_root]

theorem WellFormed.root_mem {T : tree} (hT : WellFormed T) : T.root ∈ T.nodes := hT.2.2.2.1

theorem WellFormed.dep_parent {T : tree} (hT : WellFormed T) {v : Int} (hv : v ∈ T.nodes)
    (h : v ≠ T.root) : T.parent v ∈ T.nodes ∧ T.dep v = T.dep (T.parent v) + 1 := by
  obtain ⟨hp, hd⟩ := hT.parent_mem hv h
  refine ⟨hp, ?_⟩
  have h1 := hT.dep_eq hv
  have h2 := hT.dep_eq hp
  omega

theorem WellFormed.ne_root_of_dep_pos {T : tree} (hT : WellFormed T) {v : Int}
    (h : 0 < T.dep v) : v ≠ T.root := by
  rintro rfl; rw [hT.dep_root] at h; omega

theorem WellFormed.eq_root_of_dep_zero {T : tree} (hT : WellFormed T) {v : Int}
    (hv : v ∈ T.nodes) (h : T.dep v = 0) : v = T.root := by
  apply hT.eq_root_of_depth hv
  rw [hT.dep_eq hv, h]; rfl

/-- The `k`-th ancestor of a node of depth at least `k` is a node, `k` levels up. -/
theorem WellFormed.ancestor_mem {T : tree} (hT : WellFormed T) :
    ∀ (k : Nat) (v : Int), v ∈ T.nodes → k ≤ T.dep v →
      T.ancestor k v ∈ T.nodes ∧ T.dep (T.ancestor k v) + k = T.dep v := by
  intro k
  induction k with
  | zero => intro v hv _; exact ⟨hv, rfl⟩
  | succ k ih =>
    intro v hv hk
    obtain ⟨h1, h2⟩ := ih v hv (by omega)
    have hne : T.ancestor k v ≠ T.root := hT.ne_root_of_dep_pos (by omega)
    obtain ⟨h3, h4⟩ := hT.dep_parent h1 hne
    rw [tree.ancestor_succ]
    exact ⟨h3, by omega⟩

theorem WellFormed.ancestor_dep {T : tree} (hT : WellFormed T) {v : Int} (hv : v ∈ T.nodes) :
    T.ancestor (T.dep v) v = T.root := by
  obtain ⟨h1, h2⟩ := hT.ancestor_mem (T.dep v) v hv le_rfl
  exact hT.eq_root_of_dep_zero h1 (by omega)

theorem WellFormed.ancestor_dep_succ {T : tree} (hT : WellFormed T) {v : Int}
    (hv : v ∈ T.nodes) : T.ancestor (T.dep v + 1) v = -1 := by
  rw [tree.ancestor_succ, hT.ancestor_dep hv, hT.parent_root]

theorem WellFormed.node_lt {T : tree} (hT : WellFormed T) {v : Int} (hv : v ∈ T.nodes) :
    0 ≤ v ∧ v < T.nodes.length := by
  have := hT.2.2.1 v hv
  rw [hT.1] at this
  exact this

theorem WellFormed.ne_neg_one {T : tree} (hT : WellFormed T) {v : Int} (hv : v ∈ T.nodes) :
    v ≠ -1 := by
  have := hT.node_nonneg hv; omega

theorem WellFormed.height_spec {T : tree} (hT : WellFormed T) {v : Int} (hv : v ∈ T.nodes) :
    T.heights.at0 v = (T.hgt v : Int) ∧
    (∀ c ∈ T.nodes, T.parents c = some v → T.hgt c + 1 ≤ T.hgt v) ∧
    (T.hgt v = 0 ∨ ∃ c ∈ T.nodes, T.parents c = some v ∧ T.hgt c + 1 = T.hgt v) := by
  have hall := hT.2.2.2.2.2.2.2.2.2
  obtain ⟨h, hh, h0, hle, hex⟩ := hall v hv
  have hat : T.heights.at0 v = h := by simp [NodeMap.at0, hh]
  have hnn : ∀ c ∈ T.nodes, 0 ≤ T.heights.at0 c := by
    intro c hc
    obtain ⟨h', hh', h0', _, _⟩ := hall c hc
    simp [NodeMap.at0, hh', h0']
  have hv' : T.heights.at0 v = (T.hgt v : Int) := by
    simp only [tree.hgt]; rw [hat]; exact (Int.toNat_of_nonneg h0).symm
  refine ⟨hv', ?_, ?_⟩
  · intro c hc hpc
    have h1 := hle c hc hpc
    have h2 := hnn c hc
    have h3 : T.heights.at0 c = (T.hgt c : Int) := (Int.toNat_of_nonneg h2).symm
    rw [← hat, hv', h3] at h1
    omega
  · rcases hex with hz | ⟨c, hc, hpc, hch⟩
    · left; simp [tree.hgt, hat, hz]
    · right
      refine ⟨c, hc, hpc, ?_⟩
      have h2 := hnn c hc
      have h3 : T.heights.at0 c = (T.hgt c : Int) := (Int.toNat_of_nonneg h2).symm
      rw [← hat, hv', h3] at hch
      omega

theorem WellFormed.parents_eq {T : tree} (hT : WellFormed T) {c : Int} (hc : c ∈ T.nodes) :
    T.parents c = some (T.parent c) := by
  by_cases h : c = T.root
  · subst h; rw [hT.parent_root]; exact hT.2.2.2.2.1
  · obtain ⟨p, _, hp, _⟩ := hT.2.2.2.2.2.2.2.2.1 c hc h
    simp [tree.parent, NodeMap.at0, hp]

theorem WellFormed.hgt_parent {T : tree} (hT : WellFormed T) {c : Int} (hc : c ∈ T.nodes)
    (h : c ≠ T.root) : T.hgt c + 1 ≤ T.hgt (T.parent c) := by
  obtain ⟨hp, _⟩ := hT.parent_mem hc h
  exact (hT.height_spec hp).2.1 c hc (hT.parents_eq hc)

/-- A node `k` levels above `v` has height at least `hgt v + k`. -/
theorem WellFormed.hgt_ancestor {T : tree} (hT : WellFormed T) :
    ∀ (k : Nat) (v : Int), v ∈ T.nodes → k ≤ T.dep v →
      T.hgt v + k ≤ T.hgt (T.ancestor k v) := by
  intro k
  induction k with
  | zero => intro v _ _; exact le_rfl
  | succ k ih =>
    intro v hv hk
    obtain ⟨h1, h2⟩ := hT.ancestor_mem k v hv (by omega)
    have hne : T.ancestor k v ≠ T.root := hT.ne_root_of_dep_pos (by omega)
    have := hT.hgt_parent h1 hne
    have := ih v hv (by omega)
    rw [tree.ancestor_succ]
    omega

theorem WellFormed.dep_le_treeHeight {T : tree} (hT : WellFormed T) {v : Int}
    (hv : v ∈ T.nodes) : (T.dep v : Int) ≤ T.treeHeight := by
  have h1 := hT.hgt_ancestor (T.dep v) v hv le_rfl
  rw [hT.ancestor_dep hv] at h1
  have h2 := (hT.height_spec hT.root_mem).1
  have h3 : T.heights.at0 T.root = T.treeHeight := by
    simp [NodeMap.at0, hT.2.2.2.2.2.2.1]
  omega

/-- Below every node there is a leaf at distance `hgt v`. -/
theorem WellFormed.exists_leaf {T : tree} (hT : WellFormed T) :
    ∀ (n : Nat) (v : Int), v ∈ T.nodes → T.hgt v = n →
      ∃ l ∈ T.nodes, T.hgt l = 0 ∧ T.ancestor n l = v ∧ T.dep l = T.dep v + n := by
  intro n
  induction n with
  | zero => intro v hv h0; exact ⟨v, hv, h0, rfl, rfl⟩
  | succ n ih =>
    intro v hv hn
    rcases (hT.height_spec hv).2.2 with h0 | ⟨c, hc, hpc, hch⟩
    · omega
    · obtain ⟨l, hl, hl0, hla, hld⟩ := ih c hc (by omega)
      have hpar : T.parent c = v := by simp [tree.parent, NodeMap.at0, hpc]
      have hcne : c ≠ T.root := by
        rintro rfl
        rw [hT.parent_root] at hpar
        exact hT.ne_neg_one hv hpar.symm
      have := (hT.dep_parent hc hcne).2
      rw [hpar] at this
      refine ⟨l, hl, hl0, ?_, by omega⟩
      rw [tree.ancestor_succ, hla, hpar]

end

section

/-! ## Vectors -/

theorem vget_ok {α : Type} {v : List α} {i : Nat} {x : α} (h : v.get? i = some x) :
    vget v (i : Int) = .ok x := by
  rw [List.get?_eq_getElem?] at h
  simp [vget, h]

theorem vget_ok_int {α : Type} {v : List α} {i : Int} {x : α} (h0 : 0 ≤ i)
    (h : v.get? i.toNat = some x) : vget v i = .ok x := by
  rw [List.get?_eq_getElem?] at h
  simp [vget, h, h0]

theorem vset_ok {α : Type} {v : List α} {i : Nat} (x : α) (h : i < v.length) :
    vset v (i : Int) x = .ok (v.set i x) := by
  simp [vset, h]

/-! ## The leaves in order of depth -/

theorem WellFormed.fillLeafs_spec {T : tree} (hT : WellFormed T) :
    ∀ (todo done : List Int) (leafs : List (List Int)),
      (∀ v ∈ todo, v ∈ T.nodes) → todo.Nodup → (∀ v ∈ todo, v ∉ done) →
      Buckets T done leafs →
      ∃ leafs1, fillLeafs T todo leafs = .ok leafs1 ∧ Buckets T (done ++ todo) leafs1 := by
  intro todo
  induction todo with
  | nil => intro done leafs _ _ _ hB; exact ⟨leafs, rfl, by simpa using hB⟩
  | cons node rest ih =>
    intro done leafs hmem hnd hnot hB
    have hnode : node ∈ T.nodes := hmem node (List.mem_cons_self _ _)
    have hnd' := List.nodup_cons.1 hnd
    have hrest : ∀ v ∈ rest, v ∉ done ++ [node] := by
      intro v hv hv'
      rcases List.mem_append.1 hv' with h | h
      · exact hnot v (List.mem_cons_of_mem _ hv) h
      · rw [List.mem_singleton] at h; subst h; exact hnd'.1 hv
    have hstep : ∀ leafs1, Buckets T (done ++ [node]) leafs1 →
        ∃ leafs2, fillLeafs T rest leafs1 = .ok leafs2 ∧ Buckets T (done ++ node :: rest) leafs2 := by
      intro leafs1 hB1
      obtain ⟨l2, h1, h2⟩ := ih (done ++ [node]) leafs1
        (fun v hv => hmem v (List.mem_cons_of_mem _ hv)) hnd'.2 hrest hB1
      exact ⟨l2, h1, by simpa using h2⟩
    by_cases hleaf : T.heights.at0 node = 0
    · have hd := hT.dep_eq hnode
      have hle := hT.dep_le_treeHeight hnode
      have hlt : T.dep node < leafs.length := by have := hB.len; omega
      obtain ⟨bucket, hb⟩ : ∃ b, leafs.get? (T.dep node) = some b :=
        ⟨_, List.get?_eq_get hlt⟩
      have hfill : fillLeafs T (node :: rest) leafs
          = fillLeafs T rest (leafs.set (T.dep node) (bucket ++ [node])) := by
        simp only [fillLeafs, if_pos hleaf, hd, vget_ok hb, vset_ok _ hlt]
      rw [hfill]
      apply hstep
      refine ⟨by simpa using hB.len, ?_, ?_⟩
      · intro j b hj
        rw [List.get?_eq_getElem?, List.getElem?_set] at hj
        by_cases hjd : T.dep node = j
        · rw [if_pos hjd, if_pos hlt] at hj
          cases hj
          obtain ⟨hbn, hbm⟩ := hB.sound _ _ hb
          refine ⟨?_, ?_⟩
          · rw [List.nodup_append]
            refine ⟨hbn, List.nodup_singleton _, ?_⟩
            intro x hx hx'
            rw [List.mem_singleton] at hx'; subst hx'
            exact hnot x (List.mem_cons_self _ _) (hbm x hx).1
          · intro v hv
            rcases List.mem_append.1 hv with h | h
            · obtain ⟨h1, h2, h3⟩ := hbm v h
              exact ⟨List.mem_append_left _ h1, h2, by omega⟩
            · rw [List.mem_singleton] at h; subst h
              exact ⟨by simp, hleaf, hjd⟩
        · rw [if_neg hjd, ← List.get?_eq_getElem?] at hj
          obtain ⟨hbn, hbm⟩ := hB.sound _ _ hj
          exact ⟨hbn, fun v hv => ⟨List.mem_append_left _ (hbm v hv).1, (hbm v hv).2⟩⟩
      · intro v hv hvl
        rw [List.get?_eq_getElem?, List.getElem?_set]
        rcases List.mem_append.1 hv with h | h
        · obtain ⟨b, hb1, hb2⟩ := hB.complete v h hvl
          by_cases hjd : T.dep node = T.dep v
          · rw [if_pos hjd, if_pos hlt]
            rw [← hjd, hb] at hb1
            cases hb1
            exact ⟨_, rfl, List.mem_append_left _ hb2⟩
          · rw [if_neg hjd, ← List.get?_eq_getElem?]
            exact ⟨b, hb1, hb2⟩
        · rw [List.mem_singleton] at h; subst h
          rw [if_pos rfl, if_pos hlt]
          exact ⟨_, rfl, by simp⟩
    · have hfill : fillLeafs T (node :: rest) leafs = fillLeafs T rest leafs := by
        simp only [fillLeafs, if_neg hleaf]
      rw [hfill]
      apply hstep
      refine ⟨hB.len, ?_, ?_⟩
      · intro j b hj
        obtain ⟨hbn, hbm⟩ := hB.sound _ _ hj
        exact ⟨hbn, fun v hv => ⟨List.mem_append_left _ (hbm v hv).1, (hbm v hv).2⟩⟩
      · intro v hv hvl
        rcases List.mem_append.1 hv with h | h
        · exact hB.complete v h hvl
        · rw [List.mem_singleton] at h; subst h; exact absurd hvl hleaf

theorem foldl_push_front (b sorted : List Int) :
    b.foldl (fun acc x => x :: acc) sorted = b.reverse ++ sorted := by
  induction b generalizing sorted with
  | nil => rfl
  | cons x b ih => simp [ih]

theorem drainLeafs_eq (bs : List (List Int)) (sorted : List Int) :
    drainLeafs bs sorted = bs.flatten.reverse ++ sorted := by
  induction bs generalizing sorted with
  | nil => rfl
  | cons b bs ih => simp [drainLeafs, ih, foldl_push_front]

/-- The list `sortedLeafs`: the leaves, each once, in order of falling depth. -/
theorem WellFormed.sortLeafs_spec {T : tree} (hT : WellFormed T) :
    ∃ S, sortLeafs T = .ok S ∧ S.Nodup ∧ (∀ v, v ∈ S ↔ v ∈ T.nodes ∧ T.hgt v = 0) ∧
      S.Pairwise (fun a b => T.dep b ≤ T.dep a) := by
  have hH : 0 ≤ T.treeHeight := by
    have := hT.dep_le_treeHeight hT.root_mem; omega
  have hinit : Buckets T [] (List.replicate (T.treeHeight + 1).toNat []) := by
    refine ⟨by simp; omega, ?_, ?_⟩
    · intro j b hj
      rw [List.get?_eq_getElem?, List.getElem?_replicate] at hj
      split at hj
      · cases hj; exact ⟨List.nodup_nil, by simp⟩
      · cases hj
    · intro v hv; cases hv
  obtain ⟨leafs, hfill, hB⟩ := hT.fillLeafs_spec T.nodes [] _ (fun _ h => h) hT.2.1
    (fun _ _ h => by cases h) hinit
  simp only [List.nil_append] at hB
  refine ⟨drainLeafs leafs [], ?_, ?_, ?_, ?_⟩
  · simp only [sortLeafs]
    rw [if_neg (by omega), hfill]
  · rw [drainLeafs_eq, List.append_nil, List.nodup_reverse, List.nodup_flatten]
    refine ⟨?_, ?_⟩
    · intro b hb
      obtain ⟨j, hj⟩ := List.get?_of_mem hb
      exact (hB.sound j b hj).1
    · rw [List.pairwise_iff_getElem]
      intro i j hi hj hij x hx hx'
      have h1 := (hB.sound i _ (List.get?_eq_get hi)).2 x hx
      have h2 := (hB.sound j _ (List.get?_eq_get hj)).2 x hx'
      omega
  · intro v
    rw [drainLeafs_eq, List.append_nil, List.mem_reverse, List.mem_flatten]
    constructor
    · rintro ⟨b, hb, hvb⟩
      obtain ⟨j, hj⟩ := List.get?_of_mem hb
      obtain ⟨h1, h2, _⟩ := (hB.sound j b hj).2 v hvb
      refine ⟨h1, ?_⟩
      have := (hT.height_spec h1).1
      omega
    · rintro ⟨hv, hv0⟩
      have h0 : T.heights.at0 v = 0 := by rw [(hT.height_spec hv).1, hv0]; rfl
      obtain ⟨b, hb, hvb⟩ := hB.complete v hv h0
      exact ⟨b, List.get?_mem hb, hvb⟩
  · rw [drainLeafs_eq, List.append_nil, List.pairwise_reverse, List.pairwise_flatten]
    refine ⟨?_, ?_⟩
    · intro b hb
      obtain ⟨j, hj⟩ := List.get?_of_mem hb
      have hs := (hB.sound j b hj).2
      exact List.pairwise_of_forall_mem_list (fun x hx y hy => by
        have := (hs x hx).2.2; have := (hs y hy).2.2; omega)
    · rw [List.pairwise_iff_getElem]
      intro i j hi hj hij x hx y hy
      have h1 := (hB.sound i _ (List.get?_eq_get hi)).2 x hx
      have h2 := (hB.sound j _ (List.get?_eq_get hj)).2 y hy
      omega

end

section

/-! ## The walk that creates a path, its doubling and its reversal -/

theorem tree.up_length (T : tree) (l : Int) (m : Nat) : (T.up l m).length = m := by
  simp [tree.up]

theorem tree.up_succ (T : tree) (l : Int) (m : Nat) :
    T.up l (m + 1) = T.up l m ++ [T.ancestor m l] := by
  simp [tree.up, List.range_succ]

theorem tree.up_get (T : tree) (l : Int) (m x : Nat) (h : x < m) :
    (T.up l m).get? x = some (T.ancestor x l) := by
  simp [tree.up, List.get?_eq_getElem?, h]

/-- Two ancestors of a node at different distances are different nodes. -/
theorem WellFormed.ancestor_inj {T : tree} (hT : WellFormed T) {l : Int} (hl : l ∈ T.nodes)
    {x y : Nat} (hx : x ≤ T.dep l) (hy : y ≤ T.dep l) (h : T.ancestor x l = T.ancestor y l) :
    x = y := by
  have h1 := (hT.ancestor_mem x l hl hx).2
  have h2 := (hT.ancestor_mem y l hl hy).2
  rw [h] at h1
  omega

theorem WellFormed.toNat_inj {T : tree} (hT : WellFormed T) {u v : Int} (hu : u ∈ T.nodes)
    (hv : v ∈ T.nodes) (h : u.toNat = v.toNat) : u = v := by
  have := hT.node_nonneg hu
  have := hT.node_nonneg hv
  omega

theorem WellFormed.walkUp_spec {T : tree} (hT : WellFormed T) (M0 : Int → Prop)
    (pi0 : NodeMap Int) (cpi : Int) {l : Int} (hl : l ∈ T.nodes) :
    ∀ (fuel i : Nat) (s : WalkState), WalkInv T M0 pi0 cpi l i s → i ≤ T.dep l →
      (∀ x, x ≤ i → ¬ M0 (T.ancestor x l)) → T.dep l - i < fuel →
      ∃ L s1, walkUp T.parents cpi fuel s = .ok s1 ∧ i < L ∧ L ≤ T.dep l + 1 ∧
        WalkInv T M0 pi0 cpi l L s1 ∧ (∀ x, x < L → ¬ M0 (T.ancestor x l)) ∧
        (L ≤ T.dep l → M0 (T.ancestor L l)) := by
  intro fuel
  induction fuel with
  | zero => intro i s _ _ _ h; omega
  | succ fuel ih =>
    intro i s hs hi hM hfuel
    obtain ⟨hcur, hcd⟩ := hT.ancestor_mem i l hl hi
    obtain ⟨hc0, hcn⟩ := hT.node_lt hcur
    have hlt : (T.ancestor i l).toNat < s.mark.length := by rw [hs.mlen]; omega
    have hvset : vset s.mark s.currentNode 1 = .ok (s.mark.set (T.ancestor i l).toNat 1) := by
      rw [hs.node]; simp [vset, hc0, hlt]
    have hnext : T.parents.at0 s.currentNode = T.ancestor (i + 1) l := by
      rw [hs.node, tree.ancestor_succ]; rfl
    have hs1 : WalkInv T M0 pi0 cpi l (i + 1)
        { mark := s.mark.set (T.ancestor i l).toNat 1,
          currentPath := s.currentPath ++ [s.currentNode],
          pathIndex := s.pathIndex.set s.currentNode cpi,
          currentNode := T.ancestor (i + 1) l } := by
      refine ⟨rfl, ?_, ?_, ?_, ?_, ?_, ?_⟩
      · show s.currentPath ++ [s.currentNode] = _
        rw [hs.path, hs.node, tree.up_succ]
      · show (s.mark.set _ _).length = _
        rw [List.length_set, hs.mlen]
      · intro v hv hm
        show (s.mark.set _ _).get? _ = _
        rw [List.get?_eq_getElem?, List.getElem?_set]
        by_cases hvc : (T.ancestor i l).toNat = v.toNat
        · rw [if_pos hvc, if_pos hlt]
        · rw [if_neg hvc, ← List.get?_eq_getElem?]
          apply hs.marked v hv
          rcases hm with h | ⟨x, hx, hxv⟩
          · exact Or.inl h
          · right
            refine ⟨x, ?_, hxv⟩
            rcases Nat.lt_succ_iff_lt_or_eq.1 hx with h | h
            · exact h
            · subst h; rw [hxv] at hvc; exact absurd rfl hvc
      · intro v hv hm hx
        show (s.mark.set _ _).get? _ = _
        rw [List.get?_eq_getElem?, List.getElem?_set]
        have hvc : (T.ancestor i l).toNat ≠ v.toNat := fun h =>
          hx i (Nat.lt_succ_self i) (hT.toNat_inj hcur hv h)
        rw [if_neg hvc, ← List.get?_eq_getElem?]
        exact hs.unmarked v hv hm (fun x hxi => hx x (Nat.lt_succ_of_lt hxi))
      · intro x hx
        show (s.pathIndex.set _ _) _ = _
        rw [hs.node]
        by_cases hxi : T.ancestor x l = T.ancestor i l
        · rw [hxi, NodeMap.set_self]
        · rw [NodeMap.set_other _ _ _ _ hxi]
          rcases Nat.lt_succ_iff_lt_or_eq.1 hx with h | h
          · exact hs.pin x h
          · subst h; exact absurd rfl hxi
      · intro v hx
        show (s.pathIndex.set _ _) _ = _
        rw [hs.node, NodeMap.set_other _ _ _ _ (fun h => hx i (Nat.lt_succ_self i) h.symm)]
        exact hs.pout v (fun x hxi => hx x (Nat.lt_succ_of_lt hxi))
    have hM1 : ∀ x, x < i + 1 → ¬ M0 (T.ancestor x l) :=
      fun x hx => hM x (Nat.lt_succ_iff.1 hx)
    by_cases hroot : i = T.dep l
    · have hnx : T.ancestor (i + 1) l = -1 := by rw [hroot]; exact hT.ancestor_dep_succ hl
      refine ⟨i + 1, _, ?_, Nat.lt_succ_self i, by omega, hs1, hM1, fun h => by omega⟩
      simp only [walkUp, hvset, hnext, hnx, if_true]
    · have hi1 : i + 1 ≤ T.dep l := by omega
      obtain ⟨hnmem, hnd⟩ := hT.ancestor_mem (i + 1) l hl hi1
      have hne : T.ancestor (i + 1) l ≠ -1 := hT.ne_neg_one hnmem
      have hn0 := hT.node_nonneg hnmem
      have hfresh : ∀ x, x < i + 1 → T.ancestor x l ≠ T.ancestor (i + 1) l := by
        intro x hx h
        have := hT.ancestor_inj hl (by omega) hi1 h
        omega
      by_cases hm : M0 (T.ancestor (i + 1) l)
      · have hg := hs1.marked _ hnmem (Or.inl hm)
        refine ⟨i + 1, _, ?_, Nat.lt_succ_self i, by omega, hs1, hM1, fun _ => hm⟩
        simp only [walkUp, hvset, hnext, if_neg hne]
        rw [vget_ok_int hn0 hg]
        simp
      · have hg := hs1.unmarked _ hnmem hm hfresh
        have hrec : walkUp T.parents cpi (fuel + 1) s = walkUp T.parents cpi fuel
            { mark := s.mark.set (T.ancestor i l).toNat 1,
              currentPath := s.currentPath ++ [s.currentNode],
              pathIndex := s.pathIndex.set s.currentNode cpi,
              currentNode := T.ancestor (i + 1) l } := by
          simp only [walkUp, hvset, hnext, if_neg hne]
          rw [vget_ok_int hn0 hg]
          simp
        obtain ⟨L, s2, h1, h2, h3, h4, h5, h6⟩ := ih (i + 1) _ hs1 hi1
          (fun x hx => by
            rcases Nat.lt_succ_iff_lt_or_eq.1 (Nat.lt_succ_of_le hx) with h | h
            · exact hM1 x h
            · subst h; exact hm) (by omega)
        exact ⟨L, s2, by rw [hrec, h1], by omega, h3, h4, h5, h6⟩

/-- The doubling loop appends the next ancestors, as many as the path is long
or until the root has been appended. -/
theorem WellFormed.doublePath_spec {T : tree} (hT : WellFormed T) {l : Int} (hl : l ∈ T.nodes) :
    ∀ (cnt m : Nat), m ≤ T.dep l + 1 →
      doublePath T.parents cnt (T.ancestor m l) (T.up l m)
        = T.up l (m + min cnt (T.dep l + 1 - m)) := by
  intro cnt
  induction cnt with
  | zero => intro m _; simp [doublePath]
  | succ cnt ih =>
    intro m hm
    by_cases hend : m = T.dep l + 1
    · subst hend
      have : T.ancestor (T.dep l + 1) l = -1 := hT.ancestor_dep_succ hl
      simp [doublePath, this]
    · have hm' : m ≤ T.dep l := by omega
      have hne : T.ancestor m l ≠ -1 := hT.ne_neg_one (hT.ancestor_mem m l hl hm').1
      have hpar : T.parents.at0 (T.ancestor m l) = T.ancestor (m + 1) l := by
        rw [tree.ancestor_succ]; rfl
      simp only [doublePath, if_neg hne]
      rw [hpar, ← tree.up_succ, ih (m + 1) (by omega)]
      congr 1
      omega

theorem WellFormed.reverseStair_spec {T : tree} (hT : WellFormed T) {l : Int} (hl : l ∈ T.nodes)
    (L S : Nat) (hL : L ≤ T.dep l + 1) :
    ∀ (i : Nat) (stair : List Int) (ni : NodeMap Int) (c : Int), i ≤ S →
      stair = ((T.up l S).drop i).reverse → c = ((L - min i L : Nat) : Int) →
      ∃ ni1, reverseStair (T.up l S) L S i stair ni c = .ok ((T.up l S).reverse, ni1) ∧
        (∀ x, x < min i L → ni1 (T.ancestor x l) = some ((S - 1 - x : Nat) : Int)) ∧
        (∀ v, (∀ x, x < min i L → T.ancestor x l ≠ v) → ni1 v = ni v) := by
  intro i
  induction i with
  | zero =>
    intro stair ni c _ hst _
    refine ⟨ni, ?_, ?_, fun _ _ => rfl⟩
    · simp [reverseStair, hst]
    · intro x hx; simp at hx
  | succ i ih =>
    intro stair ni c hi hst hc
    have hiS : i < S := by omega
    have hget : vget (T.up l S) (i : Int) = .ok (T.ancestor i l) := vget_ok (T.up_get l S i hiS)
    have hst1 : stair ++ [T.ancestor i l] = ((T.up l S).drop i).reverse := by
      have hlen : i < (T.up l S).length := by rw [tree.up_length]; exact hiS
      rw [List.drop_eq_getElem_cons hlen, List.reverse_cons, hst]
      congr 2
      have := T.up_get l S i hiS
      rw [List.get?_eq_getElem?, List.getElem?_eq_getElem hlen] at this
      exact (Option.some.inj this).symm
    by_cases hiL : i < L
    · have hval : c + ((S : Int) - (L : Int)) = ((S - 1 - i : Nat) : Int) := by
        rw [hc]; have : min (i + 1) L = i + 1 := by omega
        rw [this]; omega
      obtain ⟨ni1, h1, h2, h3⟩ := ih (stair ++ [T.ancestor i l])
        (ni.set (T.ancestor i l) ((S - 1 - i : Nat) : Int)) (c + 1) (by omega) hst1
        (by rw [hc]; have : min (i + 1) L = i + 1 := by omega
            have : min i L = i := by omega
            omega)
      refine ⟨ni1, ?_, ?_, ?_⟩
      · simp only [reverseStair, hget, if_pos hiL, hval]
        exact h1
      · intro x hx
        have hmin : min i L = i := by omega
        by_cases hxi : x = i
        · subst hxi
          rw [h3 _ (fun y hy h => by
            have := hT.ancestor_inj hl (by omega) (by omega) h
            omega), NodeMap.set_self]
        · exact h2 x (by omega)
      · intro v hv
        have hmin : min i L = i := by omega
        have hmin1 : min (i + 1) L = i + 1 := by omega
        rw [h3 v (fun x hx => hv x (by omega)),
          NodeMap.set_other _ _ _ _ (fun h => hv i (by omega) h.symm)]
    · have hmin : min (i + 1) L = min i L := by omega
      obtain ⟨ni1, h1, h2, h3⟩ := ih (stair ++ [T.ancestor i l]) ni c (by omega) hst1
        (by rw [hc, hmin])
      refine ⟨ni1, ?_, ?_, ?_⟩
      · simp only [reverseStair, hget, if_neg hiL]
        exact h1
      · intro x hx; exact h2 x (by omega)
      · intro v hv; exact h3 v (fun x hx => hv x (by omega))

end

section

/-! ## The ladders -/

theorem WellFormed.hgt_leaf_ancestor {T : tree} (hT : WellFormed T) {l : Int}
    (hl : l ∈ T.nodes) {k : Nat} (hk : k ≤ T.dep l) : k ≤ T.hgt (T.ancestor k l) := by
  have := hT.hgt_ancestor k l hl hk
  omega

/-- One round of the loop over the sorted leaves. -/
theorem WellFormed.stairLoop_step {T : tree} (hT : WellFormed T) {P R : List Int} {l : Int}
    (hnd : (P ++ l :: R).Nodup)
    (hleaf : ∀ v, v ∈ P ++ l :: R ↔ v ∈ T.nodes ∧ T.hgt v = 0)
    (hsort : (P ++ l :: R).Pairwise (fun a b => T.dep b ≤ T.dep a))
    {b : StairBuild} (hb : StairInv T P b) :
    ∃ s r, walkUp T.parents b.stairs.length (T.nodes.length + 1)
          { mark := b.mark, currentPath := [], pathIndex := b.pathIndex, currentNode := l }
          = .ok s ∧
      reverseStair (doublePath T.parents s.currentPath.length s.currentNode s.currentPath)
          s.currentPath.length
          (doublePath T.parents s.currentPath.length s.currentNode s.currentPath).length
          (doublePath T.parents s.currentPath.length s.currentNode s.currentPath).length
          [] b.nodeIndex 0 = .ok r ∧
      StairInv T (P ++ [l])
        { mark := s.mark, pathIndex := s.pathIndex, nodeIndex := r.2,
          stairs := b.stairs ++ [r.1] } := by
  have hlmem : l ∈ P ++ l :: R := by simp
  obtain ⟨hl, hl0⟩ := (hleaf l).1 hlmem
  have hPleaf : ∀ x ∈ P, x ∈ T.nodes ∧ T.hgt x = 0 :=
    fun x hx => (hleaf x).1 (List.mem_append_left _ hx)
  have hlP : l ∉ P := by
    intro h
    have := List.nodup_append.1 hnd
    exact this.2.2 h (List.mem_cons_self _ _)
  -- the walk
  have hinit : WalkInv T (Marked T P) b.pathIndex b.stairs.length l 0
      { mark := b.mark, currentPath := [], pathIndex := b.pathIndex, currentNode := l } := by
    refine ⟨rfl, rfl, hb.mlen, ?_, ?_, ?_, fun _ _ => rfl⟩
    · intro v hv hm
      rcases hm with h | ⟨x, hx, _⟩
      · exact hb.marked v hv h
      · omega
    · intro v hv hm _; exact hb.unmarked v hv hm
    · intro x hx; omega
  have hl_unmarked : ¬ Marked T P l := by
    rintro ⟨l1, hl1, k, hk, hkl⟩
    have h1 := hT.hgt_leaf_ancestor (hPleaf l1 hl1).1 hk
    rw [hkl, hl0] at h1
    have : k = 0 := by omega
    subst this
    exact hlP (by rw [← hkl]; exact hl1)
  obtain ⟨L, s, hwalk, hL0, hL1, hs, hfresh, htop⟩ :=
    hT.walkUp_spec (Marked T P) b.pathIndex b.stairs.length hl (T.nodes.length + 1) 0 _
      hinit (Nat.zero_le _)
      (fun x hx => by
        have : x = 0 := by omega
        subst this; exact hl_unmarked)
      (by have := hT.depth_lt hl; simp only [tree.dep]; omega)
  have hplen : s.currentPath.length = L := by rw [hs.path, tree.up_length]
  have hdouble : doublePath T.parents s.currentPath.length s.currentNode s.currentPath
      = T.up l (stairLen T l L) := by
    rw [hplen, hs.node, hs.path, hT.doublePath_spec hl L L hL1]
    rfl
  have hSL : L ≤ stairLen T l L := Nat.le_add_right _ _
  obtain ⟨ni1, hrev, hni_in, hni_out⟩ := hT.reverseStair_spec hl L (stairLen T l L) hL1
    (stairLen T l L) [] b.nodeIndex 0 le_rfl
    (by rw [List.drop_of_length_le (by rw [tree.up_length])]; rfl)
    (by have : min (stairLen T l L) L = L := by omega
        rw [this]; simp)
  have hminL : min (stairLen T l L) L = L := by omega
  rw [hminL] at hni_in hni_out
  refine ⟨s, ((T.up l (stairLen T l L)).reverse, ni1), hwalk, ?_, ?_⟩
  · rw [hdouble, hplen, tree.up_length]; exact hrev
  -- the new invariant
  have hmark_iff : ∀ v, Marked T (P ++ [l]) v ↔
      (Marked T P v ∨ ∃ x, x < L ∧ T.ancestor x l = v) := by
    intro v
    constructor
    · rintro ⟨l1, hl1, k, hk, hkv⟩
      rcases List.mem_append.1 hl1 with h | h
      · exact Or.inl ⟨l1, h, k, hk, hkv⟩
      · rw [List.mem_singleton] at h; subst h
        by_cases hkL : k < L
        · exact Or.inr ⟨k, hkL, hkv⟩
        · left
          have hLd : L ≤ T.dep l1 := by omega
          obtain ⟨l2, hl2, k2, hk2, hk2v⟩ := htop hLd
          have h1 := (hT.ancestor_mem L l1 hl hLd).2
          have h2 := (hT.ancestor_mem k2 l2 (hPleaf l2 hl2).1 hk2).2
          rw [hk2v] at h2
          refine ⟨l2, hl2, (k - L) + k2, by omega, ?_⟩
          rw [tree.ancestor_add, hk2v, ← tree.ancestor_add]
          rw [show k - L + L = k by omega]
          exact hkv
    · rintro (⟨l1, hl1, k, hk, hkv⟩ | ⟨x, hx, hxv⟩)
      · exact ⟨l1, List.mem_append_left _ hl1, k, hk, hkv⟩
      · exact ⟨l, by simp, x, by omega, hxv⟩
  have hhgt : ∀ x, x < L → T.hgt (T.ancestor x l) = x := by
    intro x hx
    have hxd : x ≤ T.dep l := by omega
    obtain ⟨hu, hud⟩ := hT.ancestor_mem x l hl hxd
    have hge := hT.hgt_leaf_ancestor hl hxd
    by_contra hne
    obtain ⟨l1, hl1, hl10, hl1a, hl1d⟩ := hT.exists_leaf _ _ hu rfl
    have hl1S : l1 ∈ P ++ l :: R := (hleaf l1).2 ⟨hl1, hl10⟩
    have hdeep : T.dep l < T.dep l1 := by omega
    rcases List.mem_append.1 hl1S with h | h
    · exact hfresh x hx ⟨l1, h, _, by omega, hl1a⟩
    · have h2 := (List.pairwise_append.1 hsort).2.1
      rcases List.mem_cons.1 h with h | h
      · subst h; omega
      · have := List.rel_of_pairwise_cons h2 h
        omega
  have hout : ∀ v, ¬ Marked T (P ++ [l]) v →
      ¬ Marked T P v ∧ ∀ x, x < L → T.ancestor x l ≠ v := fun v hm =>
    ⟨fun h => hm ((hmark_iff v).2 (Or.inl h)), fun x hx h => hm ((hmark_iff v).2 (Or.inr ⟨x, hx, h⟩))⟩
  refine ⟨hs.mlen, ?_, ?_, ?_, ?_, ?_, ?_⟩
  rotate_left 4
  · intro v hm
    show s.pathIndex v = none
    rw [hs.pout v (hout v hm).2]; exact hb.pnone v (hout v hm).1
  · intro v hm
    show ni1 v = none
    rw [hni_out v (hout v hm).2]; exact hb.nnone v (hout v hm).1
  · intro v hv hm
    exact hs.marked v hv ((hmark_iff v).1 hm)
  · intro v hv hm
    have hm' := fun h => hm ((hmark_iff v).2 h)
    exact hs.unmarked v hv (fun h => hm' (Or.inl h)) (fun x hx h => hm' (Or.inr ⟨x, hx, h⟩))
  · show (b.stairs ++ [_]).length = (P ++ [l]).length
    simp [hb.slen]
  · intro v hv hm
    by_cases hnew : ∃ x, x < L ∧ T.ancestor x l = v
    · obtain ⟨x, hx, hxv⟩ := hnew
      refine ⟨P.length, l, L, x, ?_, hL1, hx, hxv, ?_, ?_, ?_, ?_⟩
      · rw [List.get?_eq_getElem?, List.getElem?_append_right le_rfl]; simp
      · rw [← hxv]; exact hhgt x hx
      · show s.pathIndex v = _
        rw [← hxv, hs.pin x hx, hb.slen]
      · show ni1 v = _
        rw [← hxv]; exact hni_in x hx
      · show (b.stairs ++ [_]).get? _ = _
        rw [← hb.slen, List.get?_eq_getElem?, List.getElem?_append_right le_rfl]; simp
    · have hnew' : ∀ x, x < L → T.ancestor x l ≠ v := fun x hx h => hnew ⟨x, hx, h⟩
      have hold : Marked T P v := by
        rcases (hmark_iff v).1 hm with h | h
        · exact h
        · exact absurd h hnew
      obtain ⟨c, l1, L1, i, h1, h2, h3, h4, h5, h6, h7, h8⟩ := hb.owned v hv hold
      have hc : c < P.length := by
        rw [List.get?_eq_getElem?] at h1
        exact (List.getElem?_eq_some_iff.1 h1).1
      refine ⟨c, l1, L1, i, ?_, h2, h3, h4, h5, ?_, ?_, ?_⟩
      · rw [List.get?_eq_getElem?, List.getElem?_append_left hc, ← List.get?_eq_getElem?]
        exact h1
      · show s.pathIndex v = _
        rw [hs.pout v hnew']; exact h6
      · show ni1 v = _
        rw [hni_out v hnew']; exact h7
      · show (b.stairs ++ [_]).get? _ = _
        rw [List.get?_eq_getElem?, List.getElem?_append_left (by rw [hb.slen]; exact hc),
          ← List.get?_eq_getElem?]
        exact h8

/-- The loop over the sorted leaves returns, and keeps the invariant. -/
theorem WellFormed.stairLoop_spec {T : tree} (hT : WellFormed T) :
    ∀ (R P : List Int) (b : StairBuild), (P ++ R).Nodup →
      (∀ v, v ∈ P ++ R ↔ v ∈ T.nodes ∧ T.hgt v = 0) →
      (P ++ R).Pairwise (fun a b => T.dep b ≤ T.dep a) → StairInv T P b →
      ∃ b1, stairLoop T.parents (T.nodes.length + 1) R b = .ok b1 ∧ StairInv T (P ++ R) b1 := by
  intro R
  induction R with
  | nil => intro P b _ _ _ hb; exact ⟨b, rfl, by simpa using hb⟩
  | cons l R ih =>
    intro P b hnd hleaf hsort hb
    obtain ⟨s, r, h1, h2, h3⟩ := hT.stairLoop_step hnd hleaf hsort hb
    have e : P ++ l :: R = (P ++ [l]) ++ R := by simp
    obtain ⟨b1, h4, h5⟩ := ih (P ++ [l]) _ (e ▸ hnd) (e ▸ hleaf) (e ▸ hsort) h3
    refine ⟨b1, ?_, e ▸ h5⟩
    simp only [stairLoop, h1, h2]
    exact h4

end

section

theorem WellFormed.marked_all {T : tree} (hT : WellFormed T) {S : List Int}
    (hleaf : ∀ v, v ∈ S ↔ v ∈ T.nodes ∧ T.hgt v = 0) {v : Int} (hv : v ∈ T.nodes) :
    Marked T S v := by
  obtain ⟨l, hl, hl0, hla, hld⟩ := hT.exists_leaf _ v hv rfl
  exact ⟨l, (hleaf l).2 ⟨hl, hl0⟩, T.hgt v, by omega, hla⟩

/-- The ladder build returns; every node has its index entries. -/
theorem WellFormed.buildStairs_spec {T : tree} (hT : WellFormed T) :
    ∃ S b, buildStairs T = .ok (S, b) ∧ S.Nodup ∧ (∀ v, v ∈ S ↔ v ∈ T.nodes ∧ T.hgt v = 0) ∧
      StairInv T S b ∧ ∀ v ∈ T.nodes, Owned T S b v := by
  obtain ⟨S, hS, hnd, hleaf, hsort⟩ := hT.sortLeafs_spec
  have hn : T.numNodes = T.nodes.length := hT.1
  have hinit : StairInv T []
      { mark := List.replicate T.numNodes.toNat 0, pathIndex := fun _ => none,
        nodeIndex := fun _ => none, stairs := [] } := by
    refine ⟨by simp [hn], ?_, ?_, rfl, ?_, fun _ _ => rfl, fun _ _ => rfl⟩
    · rintro v _ ⟨l, hl, _⟩; cases hl
    · intro v hv _
      obtain ⟨h0, h1⟩ := hT.node_lt hv
      show (List.replicate _ _).get? _ = _
      rw [List.get?_eq_getElem?, List.getElem?_replicate, if_pos (by rw [hn]; simp; omega)]
    · rintro v _ ⟨l, hl, _⟩; cases hl
  obtain ⟨b, hloop, hb⟩ := hT.stairLoop_spec S [] _ (by simpa using hnd) (by simpa using hleaf)
    (by simpa using hsort) hinit
  simp only [List.nil_append] at hb
  refine ⟨S, b, ?_, hnd, hleaf, hb, fun v hv => hb.owned v hv (hT.marked_all hleaf hv)⟩
  simp only [buildStairs, hS]
  rw [if_neg (by rw [hn]; omega), hloop]

/-! ## The tables `power` and `deg` -/

theorem wrapInt_small {x : Int} (h0 : 0 ≤ x) (h1 : x < 2147483648) : wrapInt x = x := by
  unfold wrapInt; omega

theorem two_pow_le_30 {k : Nat} (h : k ≤ 30) : (2 : Int) ^ k ≤ 1073741824 := by
  have : (2 : Int) ^ k ≤ 2 ^ 30 := pow_le_pow_right₀ (by norm_num) h
  simpa using this

theorem lt_30_of_pow_le {k i : Nat} (h : 2 ^ k ≤ i) (hi : i < 2 ^ 30) : k < 30 := by
  by_contra hk
  have : 2 ^ 30 ≤ 2 ^ k := Nat.pow_le_pow_right (by norm_num) (by omega)
  omega

/-- The table loop on tables with more than `n` entries, for `n < 2^30`. -/
theorem tableLoop_spec (n sz : Nat) (hsz : n < sz) (hn : n < 2 ^ 30) :
    ∀ (left i deg : Nat) (power degT : List Int), 1 ≤ i → i + left = n + 1 →
      power.length = sz → degT.length = sz →
      (∀ k, k < i → k ≤ 30 → power.get? k = some ((2 : Int) ^ k)) →
      2 ^ deg ≤ i → i ≤ 2 ^ (deg + 1) →
      (∀ d, 1 ≤ d → d < i → ∃ k : Nat, degT.get? d = some (k : Int) ∧ 2 ^ k ≤ d ∧ d < 2 ^ (k + 1)) →
      ∃ power1 degT1, tableLoop left (i : Int) (deg : Int) power degT = .ok (power1, degT1) ∧
        power1.length = sz ∧ degT1.length = sz ∧
        (∀ k, k ≤ n → k ≤ 30 → power1.get? k = some ((2 : Int) ^ k)) ∧
        (∀ d, 1 ≤ d → d ≤ n →
          ∃ k : Nat, degT1.get? d = some (k : Int) ∧ 2 ^ k ≤ d ∧ d < 2 ^ (k + 1)) := by
  intro left
  induction left with
  | zero =>
    intro i deg power degT _ hil hpl hdl hp _ _ hd
    exact ⟨power, degT, rfl, hpl, hdl, fun k hk => hp k (by omega), fun d h1 h2 => hd d h1 (by omega)⟩
  | succ left ih =>
    intro i deg power degT hi hil hpl hdl hp hlo hhi hd
    have hin : i ≤ n := by omega
    have hdeg30 : deg < 30 := lt_30_of_pow_le hlo (by omega)
    have hdegi : deg + 1 ≤ i := by have := Nat.lt_two_pow deg; omega
    -- power[i - 1]
    obtain ⟨prev, hprev⟩ : ∃ prev, power.get? (i - 1) = some prev :=
      ⟨_, List.get?_eq_get (by omega)⟩
    have hg1 : vget power ((i : Int) - 1) = .ok prev := by
      have : ((i : Int) - 1) = ((i - 1 : Nat) : Int) := by omega
      rw [this]; exact vget_ok hprev
    have hs1 : vset power (i : Int) (wrapInt (2 * prev)) = .ok (power.set i (wrapInt (2 * prev))) :=
      vset_ok _ (by omega)
    have hp1 : ∀ k, k < i + 1 → k ≤ 30 →
        (power.set i (wrapInt (2 * prev))).get? k = some ((2 : Int) ^ k) := by
      intro k hk hk30
      rw [List.get?_eq_getElem?, List.getElem?_set]
      by_cases hki : i = k
      · subst hki
        rw [if_pos rfl, if_pos (by omega)]
        have h1 := hp (i - 1) (by omega) (by omega)
        rw [hprev] at h1
        have h2 : prev = (2 : Int) ^ (i - 1) := Option.some.inj h1
        have h3 : (2 : Int) * prev = 2 ^ i := by
          rw [h2, ← pow_succ']; congr 1; omega
        have h4 := two_pow_le_30 hk30
        rw [h3, wrapInt_small (by positivity) (by omega)]
      · rw [if_neg hki, ← List.get?_eq_getElem?]
        exact hp k (by omega) hk30
    have hg2 : vget (power.set i (wrapInt (2 * prev))) ((deg : Int) + 1)
        = .ok ((2 : Int) ^ (deg + 1)) := by
      have : ((deg : Int) + 1) = ((deg + 1 : Nat) : Int) := by omega
      rw [this]; exact vget_ok (hp1 (deg + 1) (by omega) (by omega))
    have hcast : ((2 : Int) ^ (deg + 1)) = ((2 ^ (deg + 1) : Nat) : Int) := by push_cast; rfl
    by_cases hge : 2 ^ (deg + 1) ≤ i
    · have hieq : i = 2 ^ (deg + 1) := by omega
      have hif : ((i : Int) ≥ (2 : Int) ^ (deg + 1)) := by rw [hcast]; exact_mod_cast hge
      have hs2 : vset degT (i : Int) ((deg : Int) + 1) = .ok (degT.set i ((deg + 1 : Nat) : Int)) := by
        rw [vset_ok _ (by omega)]; rfl
      obtain ⟨p2, d2, h1, h2⟩ := ih (i + 1) (deg + 1) (power.set i (wrapInt (2 * prev)))
        (degT.set i ((deg + 1 : Nat) : Int)) (by omega) (by omega) (by simp [hpl]) (by simp [hdl])
        hp1 (by omega) (by rw [pow_succ (n := deg + 1)]; omega)
        (by
          intro d hd1 hd2
          rw [List.get?_eq_getElem?, List.getElem?_set]
          by_cases hdi : i = d
          · subst hdi
            rw [if_pos rfl, if_pos (by omega)]
            exact ⟨deg + 1, rfl, hge, by rw [pow_succ (n := deg + 1)]; omega⟩
          · rw [if_neg hdi, ← List.get?_eq_getElem?]
            exact hd d hd1 (by omega))
      refine ⟨p2, d2, ?_, h2⟩
      simp only [tableLoop, hg1, hs1, hg2, if_pos hif, hs2]
      rw [← h1]; rfl
    · have hif : ¬ ((i : Int) ≥ (2 : Int) ^ (deg + 1)) := by
        rw [hcast]; intro h; exact hge (by exact_mod_cast h)
      have hs2 : vset degT (i : Int) (deg : Int) = .ok (degT.set i (deg : Int)) :=
        vset_ok _ (by omega)
      obtain ⟨p2, d2, h1, h2⟩ := ih (i + 1) deg (power.set i (wrapInt (2 * prev)))
        (degT.set i (deg : Int)) (by omega) (by omega) (by simp [hpl]) (by simp [hdl])
        hp1 (by omega) (by omega)
        (by
          intro d hd1 hd2
          rw [List.get?_eq_getElem?, List.getElem?_set]
          by_cases hdi : i = d
          · subst hdi
            rw [if_pos rfl, if_pos (by omega)]
            exact ⟨deg, rfl, hlo, by omega⟩
          · rw [if_neg hdi, ← List.get?_eq_getElem?]
            exact hd d hd1 (by omega))
      refine ⟨p2, d2, ?_, h2⟩
      simp only [tableLoop, hg1, hs1, hg2, if_neg hif, hs2]
      rw [← h1]; rfl

/-- With tables of more than `n` entries the table build returns `power[k] = 2^k`
(for `k ≤ 30`) and `deg[d]` the `k` with `2^k ≤ d < 2^(k+1)`. -/
theorem buildTables_spec (n sz : Nat) (hsz : n < sz) (hn : n < 2 ^ 30) :
    ∃ power degT, buildTables (sz : Int) (n : Int) = .ok (power, degT) ∧
      power.length = sz ∧ degT.length = sz ∧
      (∀ k, k ≤ n → k ≤ 30 → power.get? k = some ((2 : Int) ^ k)) ∧
      (∀ d, 1 ≤ d → d ≤ n →
        ∃ k : Nat, degT.get? d = some (k : Int) ∧ 2 ^ k ≤ d ∧ d < 2 ^ (k + 1)) := by
  have hs : vset (List.replicate sz (0 : Int)) 0 1 = .ok ((List.replicate sz (0 : Int)).set 0 1) := by
    have := vset_ok (v := List.replicate sz (0 : Int)) (i := 0) 1 (by simp; omega)
    simpa using this
  obtain ⟨p, d, h1, h2⟩ := tableLoop_spec n sz hsz hn n 1 0
    ((List.replicate sz (0 : Int)).set 0 1) (List.replicate sz 0) le_rfl (by omega)
    (by simp) (by simp)
    (by
      intro k hk _
      have : k = 0 := by omega
      subst this
      rw [List.get?_eq_getElem?, List.getElem?_set, if_pos rfl, if_pos (by simp; omega)]
      rfl)
    (by norm_num) (by norm_num) (fun d h1 h2 => by omega)
  refine ⟨p, d, ?_, h2⟩
  simp only [buildTables]
  rw [if_neg (by omega)]
  simp only [Int.toNat_ofNat, hs]
  exact h1

end

section

/-! ## The jump pointers -/

/-- What the ladder index offers at a node `a`: its ladder holds the ancestors
of `a` up to distance `j = nodeIndex[a]`, which is the depth of `a` or more than
its height, and ends in a deepest leaf below `a`. -/
theorem WellFormed.owned_ladder {T : tree} (hT : WellFormed T) {S : List Int}
    (hS : ∀ x ∈ S, x ∈ T.nodes) {b : StairBuild} {a : Int} (h : Owned T S b a) :
    ∃ (c j : Nat) (stair : List Int) (l : Int), b.pathIndex a = some (c : Int) ∧
      b.nodeIndex a = some (j : Int) ∧ b.stairs.get? c = some stair ∧ j ≤ T.dep a ∧
      (j = T.dep a ∨ T.hgt a + 1 ≤ j) ∧
      (∀ x, x ≤ j → stair.get? (j - x) = some (T.ancestor x a)) ∧
      stair.length = j + T.hgt a + 1 ∧ stair.get? (j + T.hgt a) = some l ∧ l ∈ S ∧
      T.ancestor (T.hgt a) l = a ∧ T.dep l = T.dep a + T.hgt a := by
  obtain ⟨c, l, L, i, h1, h2, h3, h4, h5, h6, h7, h8⟩ := h
  have hlS : l ∈ S := List.get?_mem h1
  have hl := hS l hlS
  have hda := (hT.ancestor_mem i l hl (by omega)).2
  rw [h4] at hda
  have hlen : (T.up l (stairLen T l L)).reverse.length = stairLen T l L := by
    rw [List.length_reverse, tree.up_length]
  have hSl : stairLen T l L = L + min L (T.dep l + 1 - L) := rfl
  have hget : ∀ y, y < stairLen T l L →
      (T.up l (stairLen T l L)).reverse.get? (stairLen T l L - 1 - y) = some (T.ancestor y l) := by
    intro y hy
    rw [List.get?_eq_getElem?, List.getElem?_reverse (by rw [tree.up_length]; omega),
      tree.up_length, ← List.get?_eq_getElem?,
      show stairLen T l L - 1 - (stairLen T l L - 1 - y) = y by omega]
    exact T.up_get l _ y hy
  refine ⟨c, stairLen T l L - 1 - i, _, l, h6, h7, h8, by omega, by omega, ?_, ?_, ?_, hlS,
    by rw [h5]; exact h4, by omega⟩
  · intro x hx
    rw [show stairLen T l L - 1 - i - x = stairLen T l L - 1 - (i + x) by omega,
      hget (i + x) (by omega), Nat.add_comm, tree.ancestor_add, h4]
  · rw [hlen, h5]; omega
  · rw [h5, show stairLen T l L - 1 - i + i = stairLen T l L - 1 - 0 by omega,
      hget 0 (by omega)]
    rfl

theorem NodeMap.touch_of_some (m : NodeMap Int) (k : Int) {x : Int} (h : m k = some x) (v : Int) :
    m.touch k v = m v := by
  unfold NodeMap.touch
  by_cases hv : v = k
  · subst hv; simp [NodeMap.at0, h]
  · rw [if_neg hv]

theorem NodeMap.touch_other (m : NodeMap Int) (k v : Int) (h : v ≠ k) : m.touch k v = m v := by
  unfold NodeMap.touch; rw [if_neg h]

theorem NodeMap.at0_of_some (m : NodeMap Int) {k x : Int} (h : m k = some x) : m.at0 k = x := by
  simp [NodeMap.at0, h]

theorem range_map_succ (f : Nat → Int) (k : Nat) :
    (List.range (k + 1)).map f = (List.range k).map f ++ [f k] := by
  simp [List.range_succ]

/-- The loop that fills `jump[l]`, from round `k` on. -/
theorem WellFormed.jumpWalk_spec {T : tree} (hT : WellFormed T) {S : List Int}
    (hS : ∀ x ∈ S, x ∈ T.nodes) {b0 : StairBuild} (hown : ∀ v ∈ T.nodes, Owned T S b0 v)
    {power : List Int}
    (hpow : ∀ k, k ≤ T.nodes.length → k ≤ 30 → power.get? k = some ((2 : Int) ^ k))
    (hn : T.nodes.length < 2 ^ 30) {l : Int} (hl : l ∈ T.nodes) :
    ∀ (fuel k : Nat) (jb : JumpBuild), JumpInv T b0 jb → 2 ^ k ≤ T.dep l →
      T.dep l < fuel + k →
      (jb.jump l).getD [] = (List.range k).map (fun m => T.ancestor (2 ^ m) l) →
      ∃ K jb1, jumpWalk b0.stairs power l fuel (k : Int) (T.ancestor (2 ^ k) l) jb = .ok jb1 ∧
        JumpInv T b0 jb1 ∧ 2 ^ K ≤ T.dep l ∧ T.dep l < 2 ^ (K + 1) ∧
        jb1.jump l = some ((List.range (K + 1)).map (fun m => T.ancestor (2 ^ m) l)) ∧
        ∀ v, v ≠ l → jb1.jump v = jb.jump v := by
  intro fuel
  induction fuel with
  | zero =>
    intro k jb _ hk hf _
    have := Nat.lt_two_pow k
    omega
  | succ fuel ih =>
    intro k jb hjb hk hf hrow
    have hdl := hT.depth_lt hl
    have hdl' : T.dep l + 1 ≤ T.nodes.length := hdl
    obtain ⟨ha, hda⟩ := hT.ancestor_mem (2 ^ k) l hl hk
    have hha := hT.hgt_leaf_ancestor hl hk
    obtain ⟨c, j, stair, l1, hp, hni, hst, hjd, hj, hup, -, -, -, -, -⟩ :=
      hT.owned_ladder hS (hown _ ha)
    have hk30 : k < 30 := lt_30_of_pow_le hk (by omega)
    have hkn : k ≤ T.nodes.length := by have := Nat.lt_two_pow k; omega
    have hpk : vget power (k : Int) = .ok ((2 : Int) ^ k) := vget_ok (hpow k hkn (by omega))
    have hpa : jb.pathIndex.at0 (T.ancestor (2 ^ k) l) = (c : Int) :=
      NodeMap.at0_of_some _ (by rw [hjb.pidx _ ha]; exact hp)
    have hna : jb.nodeIndex.at0 (T.ancestor (2 ^ k) l) = (j : Int) :=
      NodeMap.at0_of_some _ (by rw [hjb.nidx _ ha]; exact hni)
    have hne1 : (-1 : Int) ≠ T.ancestor (2 ^ k) l := fun h => hT.ne_neg_one ha h.symm
    have hjb1 : JumpInv T b0
        { pathIndex := jb.pathIndex.touch (T.ancestor (2 ^ k) l),
          nodeIndex := jb.nodeIndex.touch (T.ancestor (2 ^ k) l),
          jump := jb.jump.set l ((jb.jump l).getD [] ++ [T.ancestor (2 ^ k) l]) } := by
      refine ⟨?_, ?_, ?_⟩
      · intro v hv
        show jb.pathIndex.touch _ v = _
        rw [NodeMap.touch_of_some _ _ (by rw [hjb.pidx _ ha]; exact hp)]
        exact hjb.pidx v hv
      · intro v hv
        show jb.nodeIndex.touch _ v = _
        rw [NodeMap.touch_of_some _ _ (by rw [hjb.nidx _ ha]; exact hni)]
        exact hjb.nidx v hv
      · show NodeMap.at0 (jb.nodeIndex.touch _) (-1) = 0
        have := hjb.nroot
        unfold NodeMap.at0 at this ⊢
        rw [NodeMap.touch_other _ _ _ hne1]
        exact this
    have hrow1 : (jb.jump l).getD [] ++ [T.ancestor (2 ^ k) l]
        = (List.range (k + 1)).map (fun m => T.ancestor (2 ^ m) l) := by
      rw [hrow, range_map_succ]
    have hcast : ((2 : Int) ^ k) = ((2 ^ k : Nat) : Int) := by push_cast; rfl
    by_cases hlt : j < 2 ^ k
    · have hif : (j : Int) < (2 : Int) ^ k := by rw [hcast]; exact_mod_cast hlt
      refine ⟨k, _, ?_, hjb1, hk, ?_, ?_, ?_⟩
      · simp only [jumpWalk, hpk, hna, if_pos hif]
      · rw [pow_succ]; omega
      · show (jb.jump.set l _) l = _
        rw [NodeMap.set_self, hrow1]
      · intro v hv
        show (jb.jump.set l _) v = _
        rw [NodeMap.set_other _ _ _ _ hv]
    · have hif : ¬ (j : Int) < (2 : Int) ^ k := by
        rw [hcast]; intro h; exact hlt (by exact_mod_cast h)
      have hk1 : 2 ^ (k + 1) ≤ T.dep l := by rw [pow_succ]; omega
      have hgs : vget b0.stairs (c : Int) = .ok stair := vget_ok hst
      have hgu : vget stair ((j : Int) - (2 : Int) ^ k) = .ok (T.ancestor (2 ^ (k + 1)) l) := by
        have e : ((j : Int) - (2 : Int) ^ k) = ((j - 2 ^ k : Nat) : Int) := by
          rw [hcast]; omega
        rw [e]
        apply vget_ok
        rw [hup (2 ^ k) (by omega), ← tree.ancestor_add, pow_succ]
        congr 2; omega
      obtain ⟨K, jb2, h1, h2, h3, h4, h5, h6⟩ := ih (k + 1) _ hjb1 hk1 (by omega)
        (by show ((jb.jump.set l _) l).getD [] = _
            rw [NodeMap.set_self, Option.getD_some, hrow1])
      refine ⟨K, jb2, ?_, h2, h3, h4, h5, ?_⟩
      · simp only [jumpWalk, hpk, hna, if_neg hif, hpa, hgs, hgu]
        rw [← h1]; rfl
      · intro v hv
        rw [h6 v hv]
        show (jb.jump.set l _) v = _
        rw [NodeMap.set_other _ _ _ _ hv]

/-- The row of one leaf. -/
theorem WellFormed.jumpLeaf_spec {T : tree} (hT : WellFormed T) {S : List Int}
    (hS : ∀ x ∈ S, x ∈ T.nodes) {b0 : StairBuild} (hown : ∀ v ∈ T.nodes, Owned T S b0 v)
    {power : List Int} (hplen : T.nodes.length < power.length)
    (hpow : ∀ k, k ≤ T.nodes.length → k ≤ 30 → power.get? k = some ((2 : Int) ^ k))
    (hn : T.nodes.length < 2 ^ 30) {l : Int} (hl : l ∈ T.nodes) {jb : JumpBuild}
    (hjb : JumpInv T b0 jb) (hnone : jb.jump l = none) :
    ∃ jb1 row, jumpWalk b0.stairs power l (power.length + 1) 0 (T.parents.at0 l) jb = .ok jb1 ∧
      JumpInv T b0 jb1 ∧ jb1.jump l = some row ∧ JumpRow T l row ∧
      ∀ v, v ≠ l → jb1.jump v = jb.jump v := by
  have hpar : T.parents.at0 l = T.ancestor (2 ^ 0) l := rfl
  by_cases hd : T.dep l = 0
  · have hroot := hT.eq_root_of_dep_zero hl hd
    have hp1 : T.parents.at0 l = -1 := by rw [hroot]; exact hT.parent_root
    have hpk : vget power 0 = .ok (1 : Int) := by
      have := vget_ok (hpow 0 (Nat.zero_le _) (by omega))
      simpa using this
    have hwalk : jumpWalk b0.stairs power l (power.length + 1) 0 (T.parents.at0 l) jb
        = .ok { pathIndex := jb.pathIndex.touch (-1), nodeIndex := jb.nodeIndex.touch (-1),
                jump := jb.jump.set l ((jb.jump l).getD [] ++ [-1]) } := by
      simp only [jumpWalk, hp1, hpk, hjb.nroot]
      rfl
    refine ⟨_, [-1], hwalk, ?_, ?_, ⟨0, Or.inl ⟨hd, rfl⟩, ?_⟩, ?_⟩
    · refine ⟨?_, ?_, ?_⟩
      · intro v hv
        show jb.pathIndex.touch _ v = _
        rw [NodeMap.touch_other _ _ _ (hT.ne_neg_one hv)]
        exact hjb.pidx v hv
      · intro v hv
        show jb.nodeIndex.touch _ v = _
        rw [NodeMap.touch_other _ _ _ (hT.ne_neg_one hv)]
        exact hjb.nidx v hv
      · show NodeMap.at0 (jb.nodeIndex.touch _) (-1) = 0
        have := hjb.nroot
        simp only [NodeMap.at0, NodeMap.touch, if_true, Option.getD_some] at this ⊢
        exact this
    · show (jb.jump.set l _) l = _
      rw [NodeMap.set_self, hnone]; rfl
    · show [(-1 : Int)] = [T.ancestor (2 ^ 0) l]
      rw [← hpar, hp1]
    · intro v hv
      show (jb.jump.set l _) v = _
      rw [NodeMap.set_other _ _ _ _ hv]
  · obtain ⟨K, jb1, h1, h2, h3, h4, h5, h6⟩ := hT.jumpWalk_spec hS hown hpow hn hl
      (power.length + 1) 0 jb hjb (by simp; omega)
      (by have := hT.depth_lt hl; simp only [tree.dep]; omega) (by rw [hnone]; rfl)
    exact ⟨jb1, _, by rw [hpar]; exact h1, h2, h5, ⟨K, Or.inr ⟨h3, h4⟩, rfl⟩, h6⟩

/-- The loop over the leaves that builds the jump pointers. -/
theorem WellFormed.jumpLoop_spec {T : tree} (hT : WellFormed T) {S : List Int}
    (hS : ∀ x ∈ S, x ∈ T.nodes) {b0 : StairBuild} (hown : ∀ v ∈ T.nodes, Owned T S b0 v)
    {power : List Int} (hplen : T.nodes.length < power.length)
    (hpow : ∀ k, k ≤ T.nodes.length → k ≤ 30 → power.get? k = some ((2 : Int) ^ k))
    (hn : T.nodes.length < 2 ^ 30) :
    ∀ (R P : List Int) (jb : JumpBuild), (∀ x ∈ R, x ∈ S) → (P ++ R).Nodup →
      JumpInv T b0 jb → (∀ l ∈ P, ∃ row, jb.jump l = some row ∧ JumpRow T l row) →
      (∀ v, v ∉ P → jb.jump v = none) →
      ∃ jb1, jumpLoop T.parents b0.stairs power R jb = .ok jb1 ∧ JumpInv T b0 jb1 ∧
        ∀ l ∈ P ++ R, ∃ row, jb1.jump l = some row ∧ JumpRow T l row := by
  intro R
  induction R with
  | nil =>
    intro P jb _ _ hjb hrows _
    exact ⟨jb, rfl, hjb, by simpa using hrows⟩
  | cons l R ih =>
    intro P jb hRS hnd hjb hrows hnone
    have hlP : l ∉ P := fun h =>
      (List.nodup_append.1 hnd).2.2 h (List.mem_cons_self _ _)
    have hl := hS l (hRS l (List.mem_cons_self _ _))
    obtain ⟨jb1, row, h1, h2, h3, h4, h5⟩ :=
      hT.jumpLeaf_spec hS hown hplen hpow hn hl hjb (hnone l hlP)
    have e : P ++ l :: R = (P ++ [l]) ++ R := by simp
    obtain ⟨jb2, h6, h7, h8⟩ := ih (P ++ [l]) jb1
      (fun x hx => hRS x (List.mem_cons_of_mem _ hx)) (e ▸ hnd) h2
      (by
        intro x hx
        rcases List.mem_append.1 hx with h | h
        · have hxl : x ≠ l := fun h' => hlP (h' ▸ h)
          rw [h5 x hxl]; exact hrows x h
        · rw [List.mem_singleton] at h; subst h; exact ⟨row, h3, h4⟩)
      (by
        intro v hv
        have hvl : v ≠ l := fun h => hv (by simp [h])
        rw [h5 v hvl]
        exact hnone v (fun h => hv (List.mem_append_left _ h)))
    refine ⟨jb2, ?_, h7, e ▸ h8⟩
    simp only [jumpLoop, h1]
    exact h6

end

section

/-! ## The index with jump pointers, built with tables of more than `n` entries -/

theorem NodeMap.find_of_some {β : Type} (m : NodeMap β) {k : Int} {x : β} (h : m k = some x) :
    m.find k = .ok x := by
  simp [NodeMap.find, h]

theorem WellFormed.depths_find {T : tree} (hT : WellFormed T) {v : Int} (hv : v ∈ T.nodes) :
    T.depths.find v = .ok (T.dep v : Int) := by
  apply NodeMap.find_of_some
  rw [hT.depth_some hv, hT.dep_eq hv]

/-- What `BuildStairIndex` returns when the tables have `sz > n` entries. -/
theorem WellFormed.buildStairIndexSized_spec {T : tree} (hT : WellFormed T)
    (hn : T.nodes.length < 2 ^ 30) (sz : Nat) (hsz : T.nodes.length < sz) :
    ∃ idx S b0, BuildStairIndexSized (sz : Int) T = .ok idx ∧
      (∀ v, v ∈ S ↔ v ∈ T.nodes ∧ T.hgt v = 0) ∧ (∀ v ∈ T.nodes, Owned T S b0 v) ∧
      idx.stairs = b0.stairs ∧ idx.depths = T.depths ∧ idx.parents = T.parents ∧
      (∀ v ∈ T.nodes, idx.pathIndex v = b0.pathIndex v) ∧
      (∀ v ∈ T.nodes, idx.nodeIndex v = b0.nodeIndex v) ∧
      (∀ l ∈ S, ∃ row, idx.jump l = some row ∧ JumpRow T l row) ∧
      idx.power.length = sz ∧ idx.deg.length = sz ∧
      (∀ k, k ≤ T.nodes.length → k ≤ 30 → idx.power.get? k = some ((2 : Int) ^ k)) ∧
      (∀ d, 1 ≤ d → d ≤ T.nodes.length →
        ∃ k : Nat, idx.deg.get? d = some (k : Int) ∧ 2 ^ k ≤ d ∧ d < 2 ^ (k + 1)) := by
  obtain ⟨S, b0, hbuild, hnd, hleaf, -, hown⟩ := hT.buildStairs_spec
  obtain ⟨power, degT, htab, hpl, hdl, hpow, hdeg⟩ := buildTables_spec T.nodes.length sz hsz hn
  have hS : ∀ x ∈ S, x ∈ T.nodes := fun x hx => ((hleaf x).1 hx).1
  have hinit : JumpInv T b0
      { pathIndex := b0.pathIndex, nodeIndex := b0.nodeIndex, jump := fun _ => none } := by
    refine ⟨fun _ _ => rfl, fun _ _ => rfl, ?_⟩
    show NodeMap.at0 b0.nodeIndex (-1) = 0
    obtain ⟨S', b', hb', _, hleaf', hinv, _⟩ := hT.buildStairs_spec
    rw [hbuild] at hb'
    cases hb'
    have : ¬ Marked T S (-1) := by
      rintro ⟨l, hl, k, hk, hkl⟩
      exact hT.ne_neg_one (hT.ancestor_mem k l (hS l hl) hk).1 hkl
    simp [NodeMap.at0, hinv.nnone _ this]
  obtain ⟨jb, hjump, hjb, hrows⟩ := hT.jumpLoop_spec hS hown (by omega) hpow hn S []
    _ (fun _ h => h) (by simpa using hnd) hinit (fun _ h => by cases h) (fun _ _ => rfl)
  simp only [List.nil_append] at hrows
  refine ⟨stairStruct.mk jb.pathIndex jb.nodeIndex b0.stairs T.parents T.depths jb.jump power degT,
    S, b0, ?_, hleaf, hown, rfl, rfl, rfl, hjb.pidx, hjb.nidx, hrows, hpl, hdl, hpow, hdeg⟩
  simp only [BuildStairIndexSized, hbuild, hT.1, htab, hjump]

/-- On the index built with tables of more than `n` entries, `StairSearch`
returns the `k`-th ancestor for every valid query. -/
theorem WellFormed.stairSearch_sized {T : tree} (hT : WellFormed T)
    (hn : T.nodes.length < 2 ^ 30) (sz : Nat) (hsz : T.nodes.length < sz) :
    ∃ idx, BuildStairIndexSized (sz : Int) T = .ok idx ∧
      ∀ v ∈ T.nodes, ∀ k : Nat, k ≤ T.dep v → StairSearch v (k : Int) idx = .ok (T.ancestor k v) := by
  obtain ⟨idx, S, b0, hbuild, hleaf, hown, hst, hdep, -, hpi, hni, hrows, hpl, hdl, hpow, hdeg⟩ :=
    hT.buildStairIndexSized_spec hn sz hsz
  refine ⟨idx, hbuild, ?_⟩
  intro v hv k hk
  have hS : ∀ x ∈ S, x ∈ T.nodes := fun x hx => ((hleaf x).1 hx).1
  obtain ⟨c, j, stair, l, hp, -, hstair, -, -, -, hlen, hlast, hlS, hla, hld⟩ :=
    hT.owned_ladder hS (hown v hv)
  have hl := hS l hlS
  have hdl' := hT.depth_lt hl
  have hdl1 : T.dep l + 1 ≤ T.nodes.length := hdl'
  have e1 : idx.pathIndex.find v = .ok (c : Int) :=
    NodeMap.find_of_some _ (by rw [hpi v hv]; exact hp)
  have e2 : vget idx.stairs (c : Int) = .ok stair := by rw [hst]; exact vget_ok hstair
  have e3 : vget stair ((stair.length : Int) - 1) = .ok l := by
    have : ((stair.length : Int) - 1) = ((j + T.hgt v : Nat) : Int) := by rw [hlen]; omega
    rw [this]; exact vget_ok hlast
  have e4 : idx.depths.find l = .ok (T.dep l : Int) := by rw [hdep]; exact hT.depths_find hl
  have e5 : idx.depths.find v = .ok (T.dep v : Int) := by rw [hdep]; exact hT.depths_find hv
  have e6 : (k : Int) + ((T.dep l : Int) - (T.dep v : Int)) = ((k + T.hgt v : Nat) : Int) := by
    omega
  simp only [StairSearch, e1, e2, e3, e4, e5, e6]
  have hanc : T.ancestor (k + T.hgt v) l = T.ancestor k v := by
    rw [tree.ancestor_add, hla]
  by_cases h0 : k + T.hgt v = 0
  · have hk0 : k = 0 := by omega
    have hh0 : T.hgt v = 0 := by omega
    rw [hh0] at hla
    simp only [StairSearchLeaf, h0]
    rw [hk0]
    simp only [Nat.cast_zero, if_true]
    rw [← hla]; rfl
  · have hne : ((k + T.hgt v : Nat) : Int) ≠ 0 := by omega
    obtain ⟨m, hdm, hm1, hm2⟩ := hdeg (k + T.hgt v) (by omega) (by omega)
    have hm30 : m < 30 := lt_30_of_pow_le hm1 (by omega)
    have hmn : m ≤ T.nodes.length := by have := Nat.lt_two_pow m; omega
    have f1 : vget idx.deg ((k + T.hgt v : Nat) : Int) = .ok (m : Int) := vget_ok hdm
    have f2 : vget idx.power (m : Int) = .ok ((2 : Int) ^ m) := vget_ok (hpow m hmn (by omega))
    obtain ⟨row, hrow, K, hK, hrowK⟩ := hrows l hlS
    have hK' : 2 ^ K ≤ T.dep l ∧ T.dep l < 2 ^ (K + 1) := by
      rcases hK with ⟨h, _⟩ | h
      · omega
      · exact h
    have hmK : m ≤ K := by
      by_contra hcon
      have : 2 ^ (K + 1) ≤ 2 ^ m := Nat.pow_le_pow_right (by norm_num) (by omega)
      omega
    have f3 : idx.jump.find l = .ok row := NodeMap.find_of_some _ hrow
    have hrl : row.length = K + 1 := by rw [hrowK]; simp
    have f4 : ¬ ((row.length : Int) <
        (if (m : Int) < 0 then (m : Int) + 18446744073709551616 else (m : Int))) := by
      rw [if_neg (by omega), hrl]; omega
    have f5 : vget row (m : Int) = .ok (T.ancestor (2 ^ m) l) := by
      apply vget_ok
      rw [hrowK, List.get?_eq_getElem?, List.getElem?_map, List.getElem?_range (by omega)]
      rfl
    have h2m : 2 ^ m ≤ T.dep l := by omega
    obtain ⟨ha, hda⟩ := hT.ancestor_mem (2 ^ m) l hl h2m
    have hha := hT.hgt_leaf_ancestor hl h2m
    obtain ⟨ca, ja, stairA, -, hpa, hna, hstA, hjd, hj, hup, -, -, -, -, -⟩ :=
      hT.owned_ladder hS (hown _ ha)
    have f6 : idx.pathIndex.find (T.ancestor (2 ^ m) l) = .ok (ca : Int) :=
      NodeMap.find_of_some _ (by rw [hpi _ ha]; exact hpa)
    have f7 : idx.nodeIndex.find (T.ancestor (2 ^ m) l) = .ok (ja : Int) :=
      NodeMap.find_of_some _ (by rw [hni _ ha]; exact hna)
    have hcast : ((2 : Int) ^ m) = ((2 ^ m : Nat) : Int) := by push_cast; rfl
    have hrest : ((k + T.hgt v : Nat) : Int) - (2 : Int) ^ m = ((k + T.hgt v - 2 ^ m : Nat) : Int) := by
      rw [hcast]; omega
    have hjr : k + T.hgt v - 2 ^ m ≤ ja := by
      rw [pow_succ] at hm2
      omega
    have f8 : ¬ ((ja : Int) < ((k + T.hgt v - 2 ^ m : Nat) : Int)) := by omega
    have f9 : vget idx.stairs (ca : Int) = .ok stairA := by rw [hst]; exact vget_ok hstA
    have f10 : vget stairA ((ja : Int) - ((k + T.hgt v - 2 ^ m : Nat) : Int))
        = .ok (T.ancestor k v) := by
      have : ((ja : Int) - ((k + T.hgt v - 2 ^ m : Nat) : Int))
          = ((ja - (k + T.hgt v - 2 ^ m) : Nat) : Int) := by omega
      rw [this]
      apply vget_ok
      rw [hup _ hjr, ← tree.ancestor_add, ← hanc]
      congr 2; omega
    simp only [StairSearchLeaf, if_neg hne, f1, f2, f3, if_neg f4, f5, f6, f7, hrest, if_neg f8,
      f9, f10]

end

section

/-- With `power` and `deg` resized to `numNodes + 1` entries, `BuildStairIndex`
returns an index on which `StairSearch(v, k)` is the `k`-th ancestor of `v`, for
every well-formed tree with fewer than `2^30` nodes, every node `v` and every
`0 ≤ k ≤ depth(v)`. -/
theorem StairSearch_correct_of_larger_tables (T : tree) (hT : WellFormed T)
    (hn : T.nodes.length < 2 ^ 30) :
    ∃ idx, BuildStairIndexSized (T.numNodes + 1) T = .ok idx ∧
      ∀ v ∈ T.nodes, ∀ k : Nat, (k : Int) ≤ T.depths.at0 v →
        StairSearch v (k : Int) idx = .ok (T.ancestor k v) := by
  obtain ⟨idx, h1, h2⟩ := hT.stairSearch_sized hn (T.nodes.length + 1) (Nat.lt_succ_self _)
  refine ⟨idx, ?_, ?_⟩
  · rw [hT.1]; exact h1
  · intro v hv k hk
    apply h2 v hv k
    have := hT.dep_eq hv
    omega

theorem StairSearch_correct_of_larger_tables_T2 :
    WellFormed treeT2 ∧ ∃ idx, BuildStairIndexSized 8 treeT2 = .ok idx ∧
      StairSearch 4 1 idx = .ok 1 ∧ StairSearch 6 2 idx = .ok 0 :=
  ⟨by decide, by
    obtain ⟨idx, h1, h2⟩ := StairSearch_correct_of_larger_tables treeT2 (by decide) (by decide)
    exact ⟨idx, h1, h2 4 (by decide) 1 (by decide), h2 6 (by decide) 2 (by decide)⟩⟩

end

section

/-! ## One walk of the loop over the sorted leaves -/

theorem Marked.mem {T : tree} (hT : WellFormed T) {P : List Int} (hP : ∀ x ∈ P, x ∈ T.nodes)
    {v : Int} (h : Marked T P v) : v ∈ T.nodes := by
  obtain ⟨l, hl, k, hk, hkv⟩ := h
  rw [← hkv]
  exact (hT.ancestor_mem k l (hP l hl) hk).1

/-- The walk from the next leaf `l`: it marks the `L` nodes `l, parent l, ...`
that no earlier leaf has marked, each at its height above `l`, and stops below
the root's parent or below a node marked before. -/
theorem WellFormed.walk_round {T : tree} (hT : WellFormed T) {P R : List Int} {l : Int}
    (hnd : (P ++ l :: R).Nodup)
    (hleaf : ∀ v, v ∈ P ++ l :: R ↔ v ∈ T.nodes ∧ T.hgt v = 0)
    (hsort : (P ++ l :: R).Pairwise (fun a b => T.dep b ≤ T.dep a))
    {mark : List Int} {pathIndex : NodeMap Int} (hb : MarkInv T P mark pathIndex) :
    ∃ L s, walkUp T.parents (P.length : Int) (T.nodes.length + 1)
          { mark := mark, currentPath := [], pathIndex := pathIndex, currentNode := l } = .ok s ∧
      0 < L ∧ L ≤ T.dep l + 1 ∧ s.currentPath = T.up l L ∧ s.currentNode = T.ancestor L l ∧
      MarkInv T (P ++ [l]) s.mark s.pathIndex ∧
      (∀ x, x < L → s.pathIndex (T.ancestor x l) = some (P.length : Int) ∧
        T.hgt (T.ancestor x l) = x ∧ ¬ Marked T P (T.ancestor x l)) ∧
      (∀ v, (∀ x, x < L → T.ancestor x l ≠ v) → s.pathIndex v = pathIndex v) ∧
      (L ≤ T.dep l → Marked T P (T.ancestor L l)) ∧
      (∀ v, Marked T (P ++ [l]) v ↔ (Marked T P v ∨ ∃ x, x < L ∧ T.ancestor x l = v)) := by
  have hlmem : l ∈ P ++ l :: R := by simp
  obtain ⟨hl, hl0⟩ := (hleaf l).1 hlmem
  have hPleaf : ∀ x ∈ P, x ∈ T.nodes ∧ T.hgt x = 0 :=
    fun x hx => (hleaf x).1 (List.mem_append_left _ hx)
  have hlP : l ∉ P := by
    intro h
    have := List.nodup_append.1 hnd
    exact this.2.2 h (List.mem_cons_self _ _)
  have hinit : WalkInv T (Marked T P) pathIndex (P.length : Int) l 0
      { mark := mark, currentPath := [], pathIndex := pathIndex, currentNode := l } := by
    refine ⟨rfl, rfl, hb.mlen, ?_, ?_, ?_, fun _ _ => rfl⟩
    · intro v hv hm
      rcases hm with h | ⟨x, hx, _⟩
      · exact hb.marked v hv h
      · omega
    · intro v hv hm _; exact hb.unmarked v hv hm
    · intro x hx; omega
  have hl_unmarked : ¬ Marked T P l := by
    rintro ⟨l1, hl1, k, hk, hkl⟩
    have h1 := hT.hgt_leaf_ancestor (hPleaf l1 hl1).1 hk
    rw [hkl, hl0] at h1
    have : k = 0 := by omega
    subst this
    exact hlP (by rw [← hkl]; exact hl1)
  obtain ⟨L, s, hwalk, hL0, hL1, hs, hfresh, htop⟩ :=
    hT.walkUp_spec (Marked T P) pathIndex (P.length : Int) hl (T.nodes.length + 1) 0 _
      hinit (Nat.zero_le _)
      (fun x hx => by
        have : x = 0 := by omega
        subst this; exact hl_unmarked)
      (by have := hT.depth_lt hl; simp only [tree.dep]; omega)
  have hmark_iff : ∀ v, Marked T (P ++ [l]) v ↔
      (Marked T P v ∨ ∃ x, x < L ∧ T.ancestor x l = v) := by
    intro v
    constructor
    · rintro ⟨l1, hl1, k, hk, hkv⟩
      rcases List.mem_append.1 hl1 with h | h
      · exact Or.inl ⟨l1, h, k, hk, hkv⟩
      · rw [List.mem_singleton] at h; subst h
        by_cases hkL : k < L
        · exact Or.inr ⟨k, hkL, hkv⟩
        · left
          have hLd : L ≤ T.dep l1 := by omega
          obtain ⟨l2, hl2, k2, hk2, hk2v⟩ := htop hLd
          have h1 := (hT.ancestor_mem L l1 hl hLd).2
          have h2 := (hT.ancestor_mem k2 l2 (hPleaf l2 hl2).1 hk2).2
          rw [hk2v] at h2
          refine ⟨l2, hl2, (k - L) + k2, by omega, ?_⟩
          rw [tree.ancestor_add, hk2v, ← tree.ancestor_add]
          rw [show k - L + L = k by omega]
          exact hkv
    · rintro (⟨l1, hl1, k, hk, hkv⟩ | ⟨x, hx, hxv⟩)
      · exact ⟨l1, List.mem_append_left _ hl1, k, hk, hkv⟩
      · exact ⟨l, by simp, x, by omega, hxv⟩
  have hhgt : ∀ x, x < L → T.hgt (T.ancestor x l) = x := by
    intro x hx
    have hxd : x ≤ T.dep l := by omega
    obtain ⟨hu, hud⟩ := hT.ancestor_mem x l hl hxd
    have hge := hT.hgt_leaf_ancestor hl hxd
    by_contra hne
    obtain ⟨l1, hl1, hl10, hl1a, hl1d⟩ := hT.exists_leaf _ _ hu rfl
    have hl1S : l1 ∈ P ++ l :: R := (hleaf l1).2 ⟨hl1, hl10⟩
    have hdeep : T.dep l < T.dep l1 := by omega
    rcases List.mem_append.1 hl1S with h | h
    · exact hfresh x hx ⟨l1, h, _, by omega, hl1a⟩
    · have h2 := (List.pairwise_append.1 hsort).2.1
      rcases List.mem_cons.1 h with h | h
      · subst h; omega
      · have := List.rel_of_pairwise_cons h2 h
        omega
  refine ⟨L, s, hwalk, hL0, hL1, hs.path, hs.node, ?_, ?_, hs.pout, htop, hmark_iff⟩
  · refine ⟨hs.mlen, ?_, ?_, ?_, ?_⟩
    · intro v hv hm
      exact hs.marked v hv ((hmark_iff v).1 hm)
    · intro v hv hm
      have hm' := fun h => hm ((hmark_iff v).2 h)
      exact hs.unmarked v hv (fun h => hm' (Or.inl h)) (fun x hx h => hm' (Or.inr ⟨x, hx, h⟩))
    · intro v hm
      have hm' := fun h => hm ((hmark_iff v).2 h)
      rw [hs.pout v (fun x hx h => hm' (Or.inr ⟨x, hx, h⟩))]
      exact hb.pnone v (fun h => hm' (Or.inl h))
    · intro v hm
      by_cases hnew : ∃ x, x < L ∧ T.ancestor x l = v
      · obtain ⟨x, hx, hxv⟩ := hnew
        exact ⟨P.length, by simp, by rw [← hxv]; exact hs.pin x hx⟩
      · have hold : Marked T P v := by
          rcases (hmark_iff v).1 hm with h | h
          · exact h
          · exact absurd h hnew
        obtain ⟨c, hc, hpc⟩ := hb.psome v hold
        refine ⟨c, by simp; omega, ?_⟩
        rw [hs.pout v (fun x hx h => hnew ⟨x, hx, h⟩)]
        exact hpc
  · intro x hx
    exact ⟨hs.pin x hx, hhgt x hx, hfresh x hx⟩

theorem WellFormed.up_nodup {T : tree} (hT : WellFormed T) {l : Int} (hl : l ∈ T.nodes)
    {L : Nat} (hL : L ≤ T.dep l + 1) : (T.up l L).Nodup := by
  rw [tree.up, List.nodup_map_iff_inj_on (List.nodup_range L)]
  intro x hx y hy hxy
  rw [List.mem_range] at hx hy
  exact hT.ancestor_inj hl (by omega) (by omega) hxy

theorem tree.mem_up (T : tree) (l : Int) (L : Nat) (v : Int) :
    v ∈ T.up l L ↔ ∃ x, x < L ∧ T.ancestor x l = v := by
  simp [tree.up]

theorem tree.up_reverse_get (T : tree) (l : Int) (L j : Nat) (hj : j < L) :
    (T.up l L).reverse.get? j = some (T.ancestor (L - 1 - j) l) := by
  rw [List.get?_eq_getElem?, List.getElem?_reverse (by rw [tree.up_length]; exact hj),
    tree.up_length, ← List.get?_eq_getElem?]
  exact T.up_get l L _ (by omega)

end

section

/-! ## The path decomposition -/

theorem reversePath_spec :
    ∀ (xs path : List Int) (ni : NodeMap Int) (c : Int), xs.Nodup →
      (reversePath xs path ni c).1 = path ++ xs ∧
      (∀ j u, xs.get? j = some u → (reversePath xs path ni c).2 u = some (c + (j : Int))) ∧
      (∀ v, v ∉ xs → (reversePath xs path ni c).2 v = ni v) := by
  intro xs
  induction xs with
  | nil =>
    intro path ni c _
    refine ⟨by simp [reversePath], ?_, fun _ _ => rfl⟩
    intro j u h; simp at h
  | cons node rest ih =>
    intro path ni c hnd
    obtain ⟨hnot, hrest⟩ := List.nodup_cons.1 hnd
    obtain ⟨h1, h2, h3⟩ := ih (path ++ [node]) (ni.set node c) (c + 1) hrest
    refine ⟨by simp [reversePath, h1], ?_, ?_⟩
    · intro j u hj
      simp only [reversePath]
      cases j with
      | zero =>
        have : u = node := by simpa using hj.symm
        subst this
        rw [h3 u hnot, NodeMap.set_self]
        simp
      | succ j =>
        rw [h2 j u (by simpa using hj)]
        congr 1
        push_cast
        ring
    · intro v hv
      simp only [reversePath]
      rw [h3 v (fun h => hv (List.mem_cons_of_mem _ h)),
        NodeMap.set_other _ _ _ _ (fun h => hv (by simp [h]))]

/-- One round of the loop over the sorted leaves of `BuildPathDecompIndex`. -/
theorem WellFormed.pathLoop_step {T : tree} (hT : WellFormed T) {P R : List Int} {l : Int}
    (hnd : (P ++ l :: R).Nodup)
    (hleaf : ∀ v, v ∈ P ++ l :: R ↔ v ∈ T.nodes ∧ T.hgt v = 0)
    (hsort : (P ++ l :: R).Pairwise (fun a b => T.dep b ≤ T.dep a))
    {b : PathBuild} (hb : PathsInv T P b) :
    ∃ s, walkUp T.parents b.paths.length (T.nodes.length + 1)
          { mark := b.mark, currentPath := [], pathIndex := b.pathIndex, currentNode := l }
          = .ok s ∧
      PathsInv T (P ++ [l])
        { mark := s.mark, pathIndex := s.pathIndex,
          nodeIndex := (reversePath s.currentPath.reverse [] b.nodeIndex 0).2,
          paths := b.paths ++ [(reversePath s.currentPath.reverse [] b.nodeIndex 0).1] } := by
  have hlmem : l ∈ P ++ l :: R := by simp
  obtain ⟨hl, hl0⟩ := (hleaf l).1 hlmem
  have hPmem : ∀ x ∈ P, x ∈ T.nodes :=
    fun x hx => ((hleaf x).1 (List.mem_append_left _ hx)).1
  obtain ⟨L, s, hwalk, hL0, hL1, hpath, -, hmarks, hin, hout, htop, hiff⟩ :=
    hT.walk_round hnd hleaf hsort hb.marks
  refine ⟨s, by rw [hb.plen]; exact hwalk, ?_⟩
  have hndup : (T.up l L).reverse.Nodup := List.nodup_reverse.2 (hT.up_nodup hl hL1)
  obtain ⟨hr1, hr2, hr3⟩ := reversePath_spec (T.up l L).reverse [] b.nodeIndex 0 hndup
  rw [hpath]
  have hni_in : ∀ x, x < L →
      (reversePath (T.up l L).reverse [] b.nodeIndex 0).2 (T.ancestor x l)
        = some ((L - 1 - x : Nat) : Int) := by
    intro x hx
    have := hr2 (L - 1 - x) (T.ancestor x l) (by
      rw [T.up_reverse_get l L _ (by omega)]
      congr 2; omega)
    rw [this]; simp
  have hni_out : ∀ v, (∀ x, x < L → T.ancestor x l ≠ v) →
      (reversePath (T.up l L).reverse [] b.nodeIndex 0).2 v = b.nodeIndex v := by
    intro v hv
    apply hr3
    rw [List.mem_reverse, tree.mem_up]
    rintro ⟨x, hx, hxv⟩
    exact hv x hx hxv
  have hold_out : ∀ v, Marked T P v → ∀ x, x < L → T.ancestor x l ≠ v := by
    intro v hm x hx h
    exact (hin x hx).2.2 (h ▸ hm)
  refine ⟨hmarks, by simp [hb.plen], ?_, ?_⟩
  · intro v hm
    have hm' := fun h => hm ((hiff v).2 h)
    show (reversePath _ _ _ _).2 v = none
    rw [hni_out v (fun x hx h => hm' (Or.inr ⟨x, hx, h⟩))]
    exact hb.nnone v (fun h => hm' (Or.inl h))
  · intro c l1 hc
    by_cases hcP : c < P.length
    · rw [List.get?_eq_getElem?, List.getElem?_append_left hcP, ← List.get?_eq_getElem?] at hc
      obtain ⟨L1, h1, h2, h3, h4, h5, h6⟩ := hb.path c l1 hc
      have hl1P : l1 ∈ P := List.get?_mem hc
      have hmk : ∀ x, x ≤ T.dep l1 → Marked T P (T.ancestor x l1) :=
        fun x hx => ⟨l1, hl1P, x, hx, rfl⟩
      refine ⟨L1, h1, h2, ?_, ?_, ?_, ?_⟩
      · show (b.paths ++ [_]).get? c = _
        rw [List.get?_eq_getElem?, List.getElem?_append_left (by rw [hb.plen]; exact hcP),
          ← List.get?_eq_getElem?]
        exact h3
      · intro x hx
        have hfr := hold_out _ (hmk x (by omega))
        refine ⟨?_, ?_, (h4 x hx).2.2⟩
        · show s.pathIndex _ = _
          rw [hout _ hfr]; exact (h4 x hx).1
        · show (reversePath _ _ _ _).2 _ = _
          rw [hni_out _ hfr]; exact (h4 x hx).2.1
      · intro u hu
        change s.pathIndex u = some (c : Int) at hu
        by_cases hnew : ∃ x, x < L ∧ T.ancestor x l = u
        · obtain ⟨x, hx, hxu⟩ := hnew
          rw [← hxu, (hin x hx).1] at hu
          have : (P.length : Int) = (c : Int) := Option.some.inj hu
          omega
        · rw [hout u (fun x hx h => hnew ⟨x, hx, h⟩)] at hu
          exact h5 u hu
      · intro hLd
        obtain ⟨c1, hc1, hp1⟩ := h6 hLd
        refine ⟨c1, hc1, ?_⟩
        show s.pathIndex _ = _
        rw [hout _ (hold_out _ (hmk L1 hLd))]; exact hp1
    · have hclen : c < (P ++ [l]).length := by
        rw [List.get?_eq_getElem?] at hc
        exact (List.getElem?_eq_some_iff.1 hc).1
      have hceq : c = P.length := by simp at hclen; omega
      subst hceq
      have hl1 : l1 = l := by
        rw [List.get?_eq_getElem?, List.getElem?_append_right le_rfl] at hc
        simpa using hc.symm
      subst hl1
      refine ⟨L, hL0, hL1, ?_, ?_, ?_, ?_⟩
      · show (b.paths ++ [_]).get? _ = _
        rw [← hb.plen, List.get?_eq_getElem?, List.getElem?_append_right le_rfl, hr1]
        simp
      · intro x hx
        exact ⟨(hin x hx).1, hni_in x hx, (hin x hx).2.1⟩
      · intro u hu
        change s.pathIndex u = some (P.length : Int) at hu
        by_contra hnew
        rw [hout u (fun x hx h => hnew ⟨x, hx, h⟩)] at hu
        by_cases hm : Marked T P u
        · obtain ⟨c1, hc1, hp1⟩ := hb.marks.psome u hm
          rw [hp1] at hu
          have : (c1 : Int) = (P.length : Int) := Option.some.inj hu
          omega
        · rw [hb.marks.pnone u hm] at hu
          cases hu
      · intro hLd
        have hm := htop hLd
        obtain ⟨c1, hc1, hp1⟩ := hb.marks.psome _ hm
        refine ⟨c1, hc1, ?_⟩
        show s.pathIndex _ = _
        rw [hout _ (hold_out _ hm)]; exact hp1

/-- The loop over the sorted leaves of `BuildPathDecompIndex` returns, and keeps
the invariant. -/
theorem WellFormed.pathLoop_spec {T : tree} (hT : WellFormed T) :
    ∀ (R P : List Int) (b : PathBuild), (P ++ R).Nodup →
      (∀ v, v ∈ P ++ R ↔ v ∈ T.nodes ∧ T.hgt v = 0) →
      (P ++ R).Pairwise (fun a b => T.dep b ≤ T.dep a) → PathsInv T P b →
      ∃ b1, pathLoop T.parents (T.nodes.length + 1) R b = .ok b1 ∧ PathsInv T (P ++ R) b1 := by
  intro R
  induction R with
  | nil => intro P b _ _ _ hb; exact ⟨b, rfl, by simpa using hb⟩
  | cons l R ih =>
    intro P b hnd hleaf hsort hb
    obtain ⟨s, h1, h3⟩ := hT.pathLoop_step hnd hleaf hsort hb
    have e : P ++ l :: R = (P ++ [l]) ++ R := by simp
    obtain ⟨b1, h4, h5⟩ := ih (P ++ [l]) _ (e ▸ hnd) (e ▸ hleaf) (e ▸ hsort) h3
    refine ⟨b1, ?_, e ▸ h5⟩
    simp only [pathLoop, h1]
    exact h4

/-- The long-path build returns; its paths are the walks from the leaves. -/
theorem WellFormed.buildPathDecompIndex_spec {T : tree} (hT : WellFormed T) :
    ∃ S b, BuildPathDecompIndex T
        = .ok (pathDecompStruct.mk b.pathIndex b.nodeIndex b.paths T.parents) ∧
      S.Nodup ∧ (∀ v, v ∈ S ↔ v ∈ T.nodes ∧ T.hgt v = 0) ∧
      S.Pairwise (fun a b => T.dep b ≤ T.dep a) ∧ PathsInv T S b := by
  obtain ⟨S, hS, hnd, hleaf, hsort⟩ := hT.sortLeafs_spec
  have hn : T.numNodes = T.nodes.length := hT.1
  have hno : ∀ v, ¬ Marked T [] v := by rintro v ⟨l, hl, _⟩; cases hl
  have hinit : PathsInv T []
      { mark := List.replicate T.numNodes.toNat 0, pathIndex := fun _ => none,
        nodeIndex := fun _ => none, paths := [] } := by
    refine ⟨⟨by simp [hn], ?_, ?_, fun _ _ => rfl, ?_⟩, rfl, fun _ _ => rfl, ?_⟩
    · intro v _ hm; exact absurd hm (hno v)
    · intro v hv _
      obtain ⟨h0, h1⟩ := hT.node_lt hv
      show (List.replicate _ _).get? _ = _
      rw [List.get?_eq_getElem?, List.getElem?_replicate, if_pos (by rw [hn]; simp; omega)]
    · intro v hm; exact absurd hm (hno v)
    · intro c l hc; simp at hc
  obtain ⟨b, hloop, hb⟩ := hT.pathLoop_spec S [] _ (by simpa using hnd) (by simpa using hleaf)
    (by simpa using hsort) hinit
  simp only [List.nil_append] at hb
  refine ⟨S, b, ?_, hnd, hleaf, hsort, hb⟩
  simp only [BuildPathDecompIndex, hS]
  rw [if_neg (by rw [hn]; omega), hloop]

end

section

/-- Every entry of a path is a node that has this very position in the index,
and its height is its distance from the end of the path. -/
theorem WellFormed.path_entry {T : tree} (hT : WellFormed T) {S : List Int}
    (hS : ∀ x ∈ S, x ∈ T.nodes) {b : PathBuild} (hb : PathsInv T S b) {c j : Nat}
    {p : List Int} {u : Int} (hp : b.paths.get? c = some p) (hu : p.get? j = some u) :
    u ∈ T.nodes ∧ b.pathIndex u = some (c : Int) ∧ b.nodeIndex u = some (j : Int) ∧
      T.hgt u + j + 1 = p.length := by
  have hc : c < S.length := by
    rw [← hb.plen]
    rw [List.get?_eq_getElem?] at hp
    exact (List.getElem?_eq_some_iff.1 hp).1
  obtain ⟨l, hl⟩ : ∃ l, S.get? c = some l := ⟨_, List.get?_eq_get hc⟩
  obtain ⟨L, h1, h2, h3, h4, -, -⟩ := hb.path c l hl
  rw [hp] at h3
  have hpe : p = (T.up l L).reverse := Option.some.inj h3
  subst hpe
  have hlen : (T.up l L).reverse.length = L := by rw [List.length_reverse, tree.up_length]
  have hj : j < L := by
    rw [List.get?_eq_getElem?] at hu
    have := (List.getElem?_eq_some_iff.1 hu).1
    omega
  rw [T.up_reverse_get l L j hj] at hu
  have hue : T.ancestor (L - 1 - j) l = u := Option.some.inj hu
  obtain ⟨g1, g2, g3⟩ := h4 (L - 1 - j) (by omega)
  rw [hue] at g1 g2 g3
  refine ⟨?_, g1, ?_, by rw [hlen, g3]; omega⟩
  · rw [← hue]
    exact (hT.ancestor_mem _ l (hS l (List.get?_mem hl)) (by omega)).1
  · rw [g2]; congr 2; omega

/-- Every node has its position in the index, and stands there. -/
theorem WellFormed.path_node {T : tree} (hT : WellFormed T) {S : List Int}
    (hleaf : ∀ v, v ∈ S ↔ v ∈ T.nodes ∧ T.hgt v = 0) {b : PathBuild} (hb : PathsInv T S b)
    {v : Int} (hv : v ∈ T.nodes) :
    ∃ (c j : Nat) (p : List Int), b.pathIndex v = some (c : Int) ∧
      b.nodeIndex v = some (j : Int) ∧ b.paths.get? c = some p ∧ p.get? j = some v := by
  obtain ⟨c, hc, hpc⟩ := hb.marks.psome v (hT.marked_all hleaf hv)
  obtain ⟨l, hl⟩ : ∃ l, S.get? c = some l := ⟨_, List.get?_eq_get hc⟩
  obtain ⟨L, h1, h2, h3, h4, h5, -⟩ := hb.path c l hl
  obtain ⟨x, hx, hxv⟩ := h5 v hpc
  refine ⟨c, L - 1 - x, _, hpc, ?_, h3, ?_⟩
  · rw [← hxv]; exact (h4 x hx).2.1
  · rw [T.up_reverse_get l L _ (by omega), ← hxv]
    congr 2; omega

theorem length_filter_of_nodup {S nodes : List Int} (hS : S.Nodup) (hn : nodes.Nodup)
    (p : Int → Bool) (h : ∀ v, v ∈ S ↔ v ∈ nodes ∧ p v = true) :
    S.length = (nodes.filter p).length := by
  apply List.Perm.length_eq
  rw [List.perm_ext_iff_of_nodup hS (hn.filter _)]
  intro v
  rw [h v, List.mem_filter]

/-- C15. On a well-formed tree `BuildPathDecompIndex` returns an index with as
many paths as the tree has leaves, in which every node `v` has `pathIndex[v]`
and `nodeIndex[v]` set, `paths[pathIndex[v]][nodeIndex[v]] = v`, and `v` stands
at no other position of any path; every entry of every path is a node. -/
theorem BuildPathDecompIndex_partition (T : tree) (hT : WellFormed T) :
    ∃ idx, BuildPathDecompIndex T = .ok idx ∧
      idx.paths.length = (T.nodes.filter (fun v => decide (T.heights.at0 v = 0))).length ∧
      (∀ v ∈ T.nodes, ∃ (c j : Nat) (p : List Int), idx.pathIndex v = some (c : Int) ∧
        idx.nodeIndex v = some (j : Int) ∧ idx.paths.get? c = some p ∧ p.get? j = some v ∧
        ∀ (c1 j1 : Nat) (p1 : List Int), idx.paths.get? c1 = some p1 → p1.get? j1 = some v →
          c1 = c ∧ j1 = j) ∧
      (∀ (c j : Nat) (p : List Int) (u : Int), idx.paths.get? c = some p → p.get? j = some u →
        u ∈ T.nodes) := by
  obtain ⟨S, b, hbuild, hnd, hleaf, -, hb⟩ := hT.buildPathDecompIndex_spec
  have hS : ∀ x ∈ S, x ∈ T.nodes := fun x hx => ((hleaf x).1 hx).1
  refine ⟨_, hbuild, ?_, ?_, ?_⟩
  · show b.paths.length = _
    rw [hb.plen]
    apply length_filter_of_nodup hnd hT.2.1
    intro v
    rw [hleaf v]
    constructor
    · rintro ⟨hv, h0⟩
      refine ⟨hv, ?_⟩
      have := (hT.height_spec hv).1
      simp only [decide_eq_true_eq]; omega
    · rintro ⟨hv, h0⟩
      refine ⟨hv, ?_⟩
      have := (hT.height_spec hv).1
      simp only [decide_eq_true_eq] at h0; omega
  · intro v hv
    obtain ⟨c, j, p, h1, h2, h3, h4⟩ := hT.path_node hleaf hb hv
    refine ⟨c, j, p, h1, h2, h3, h4, ?_⟩
    intro c1 j1 p1 hp1 hj1
    obtain ⟨-, g1, g2, -⟩ := hT.path_entry hS hb hp1 hj1
    change b.pathIndex v = _ at h1
    change b.nodeIndex v = _ at h2
    rw [h1] at g1
    rw [h2] at g2
    have e1 : (c : Int) = (c1 : Int) := Option.some.inj g1
    have e2 : (j : Int) = (j1 : Int) := Option.some.inj g2
    omega
  · intro c j p u hp hu
    exact (hT.path_entry hS hb hp hu).1

theorem BuildPathDecompIndex_partition_witness :
    ∃ idx, BuildPathDecompIndex treeT2 = .ok idx ∧
      idx.paths.length = (treeT2.nodes.filter (fun v => decide (treeT2.heights.at0 v = 0))).length ∧
      (∀ v ∈ treeT2.nodes, ∃ (c j : Nat) (p : List Int), idx.pathIndex v = some (c : Int) ∧
        idx.nodeIndex v = some (j : Int) ∧ idx.paths.get? c = some p ∧ p.get? j = some v ∧
        ∀ (c1 j1 : Nat) (p1 : List Int), idx.paths.get? c1 = some p1 → p1.get? j1 = some v →
          c1 = c ∧ j1 = j) ∧
      (∀ (c j : Nat) (p : List Int) (u : Int), idx.paths.get? c = some p → p.get? j = some u →
        u ∈ treeT2.nodes) :=
  BuildPathDecompIndex_partition treeT2 (by decide)

/-- The root is the top of its path. -/
theorem WellFormed.path_root {T : tree} (hT : WellFormed T) {S : List Int}
    (hleaf : ∀ v, v ∈ S ↔ v ∈ T.nodes ∧ T.hgt v = 0) {b : PathBuild} (hb : PathsInv T S b) :
    ∃ (c : Nat) (p : List Int), b.pathIndex T.root = some (c : Int) ∧
      b.nodeIndex T.root = some 0 ∧ b.paths.get? c = some p ∧ p.get? 0 = some T.root := by
  have hS : ∀ x ∈ S, x ∈ T.nodes := fun x hx => ((hleaf x).1 hx).1
  obtain ⟨c, hc, hpc⟩ := hb.marks.psome T.root (hT.marked_all hleaf hT.root_mem)
  obtain ⟨l, hl⟩ : ∃ l, S.get? c = some l := ⟨_, List.get?_eq_get hc⟩
  obtain ⟨L, h1, h2, h3, h4, h5, -⟩ := hb.path c l hl
  obtain ⟨x, hx, hxv⟩ := h5 T.root hpc
  have hd := (hT.ancestor_mem x l (hS l (List.get?_mem hl)) (by omega)).2
  rw [hxv, hT.dep_root] at hd
  have hLx : L - 1 - x = 0 := by omega
  refine ⟨c, _, hpc, ?_, h3, ?_⟩
  · rw [← hxv, (h4 x hx).2.1, hLx]; rfl
  · rw [T.up_reverse_get l L 0 h1, ← hxv]
    congr 2; omega

/-- C13. `PathDecompSearch(v, 0)` is not `v` at the top of a path. On every
well-formed tree the root has `nodeIndex = 0`, the test `nodeIndex > 0` fails,
and the search goes on at `parent(root) = -1` with level `-1`, where
`nodeIndex.find(-1)` is dereferenced. On tree T2 the leaf `5` is alone on its
path and `PathDecompSearch(5, 0)` returns its sibling `6`. -/
theorem PathDecompSearch_zero_at_top (T : tree) (hT : WellFormed T) (fuel : Nat) :
    (∃ idx, BuildPathDecompIndex T = .ok idx ∧ idx.nodeIndex T.root = some 0 ∧
      PathDecompSearch idx (fuel + 2) T.root 0 = .error .ub) ∧
    (WellFormed treeT2 ∧ ∃ idx, BuildPathDecompIndex treeT2 = .ok idx ∧
      idx.pathIndex 5 = some 1 ∧ idx.nodeIndex 5 = some 0 ∧ idx.paths.get? 1 = some [5] ∧
      PathDecompSearch idx (fuel + 2) 5 0 = .ok 6) := by
  refine ⟨?_, by decide, _, rfl, rfl, rfl, rfl, rfl⟩
  obtain ⟨S, b, hbuild, hnd, hleaf, -, hb⟩ := hT.buildPathDecompIndex_spec
  have hS : ∀ x ∈ S, x ∈ T.nodes := fun x hx => ((hleaf x).1 hx).1
  obtain ⟨c, p, h1, h2, h3, h4⟩ := hT.path_root hleaf hb
  refine ⟨_, hbuild, h2, ?_⟩
  have hno : ¬ Marked T S (-1) := fun h => hT.ne_neg_one (h.mem hT hS) rfl
  have e1 : b.nodeIndex.find T.root = .ok 0 := NodeMap.find_of_some _ h2
  have e2 : b.pathIndex.find T.root = .ok (c : Int) := NodeMap.find_of_some _ h1
  have e3 : vget b.paths (c : Int) = .ok p := vget_ok h3
  have e4 : vget p 0 = .ok T.root := by
    have := vget_ok h4
    simpa using this
  have e5 : T.parents.find T.root = .ok (-1) := NodeMap.find_of_some _ hT.2.2.2.2.1
  have e6 : b.nodeIndex.find (-1) = .error .ub := by
    simp [NodeMap.find, hb.nnone _ hno]
  simp only [PathDecompSearch, e1, e2, e3, e4, e5, e6, gt_iff_lt, lt_self_iff_false, if_false]

theorem PathDecompSearch_zero_at_top_witness :
    (∃ idx, BuildPathDecompIndex treeT1 = .ok idx ∧ idx.nodeIndex treeT1.root = some 0 ∧
      PathDecompSearch idx (0 + 2) treeT1.root 0 = .error .ub) ∧
    (WellFormed treeT2 ∧ ∃ idx, BuildPathDecompIndex treeT2 = .ok idx ∧
      idx.pathIndex 5 = some 1 ∧ idx.nodeIndex 5 = some 0 ∧ idx.paths.get? 1 = some [5] ∧
      PathDecompSearch idx (0 + 2) 5 0 = .ok 6) :=
  PathDecompSearch_zero_at_top treeT1 (by decide) 0

end

section

/-! ## The ladders, path by path -/

theorem StairInv.markInv {T : tree} (hT : WellFormed T) {P : List Int}
    (hP : ∀ x ∈ P, x ∈ T.nodes) {b : StairBuild} (hb : StairInv T P b) :
    MarkInv T P b.mark b.pathIndex := by
  refine ⟨hb.mlen, hb.marked, hb.unmarked, hb.pnone, ?_⟩
  intro v hm
  obtain ⟨c, l, L, i, h1, -, -, -, -, h6, -, -⟩ := hb.owned v (hm.mem hT hP) hm
  refine ⟨c, ?_, h6⟩
  rw [List.get?_eq_getElem?] at h1
  exact (List.getElem?_eq_some_iff.1 h1).1

/-- One round of the loop over the sorted leaves, for the ladders. -/
theorem WellFormed.stairLoop_step_ladders {T : tree} (hT : WellFormed T) {P R : List Int}
    {l : Int} (hnd : (P ++ l :: R).Nodup)
    (hleaf : ∀ v, v ∈ P ++ l :: R ↔ v ∈ T.nodes ∧ T.hgt v = 0)
    (hsort : (P ++ l :: R).Pairwise (fun a b => T.dep b ≤ T.dep a))
    {b : StairBuild} (hb : StairInv T P b) (hlad : LaddersInv T P b) :
    ∃ s r, walkUp T.parents b.stairs.length (T.nodes.length + 1)
          { mark := b.mark, currentPath := [], pathIndex := b.pathIndex, currentNode := l }
          = .ok s ∧
      reverseStair (doublePath T.parents s.currentPath.length s.currentNode s.currentPath)
          s.currentPath.length
          (doublePath T.parents s.currentPath.length s.currentNode s.currentPath).length
          (doublePath T.parents s.currentPath.length s.currentNode s.currentPath).length
          [] b.nodeIndex 0 = .ok r ∧
      StairInv T (P ++ [l])
        { mark := s.mark, pathIndex := s.pathIndex, nodeIndex := r.2,
          stairs := b.stairs ++ [r.1] } ∧
      LaddersInv T (P ++ [l])
        { mark := s.mark, pathIndex := s.pathIndex, nodeIndex := r.2,
          stairs := b.stairs ++ [r.1] } := by
  obtain ⟨s, r, hwalk0, hrev0, hinv⟩ := hT.stairLoop_step hnd hleaf hsort hb
  refine ⟨s, r, hwalk0, hrev0, hinv, ?_⟩
  have hlmem : l ∈ P ++ l :: R := by simp
  obtain ⟨hl, hl0⟩ := (hleaf l).1 hlmem
  have hPmem : ∀ x ∈ P, x ∈ T.nodes :=
    fun x hx => ((hleaf x).1 (List.mem_append_left _ hx)).1
  have hmk := hb.markInv hT hPmem
  obtain ⟨L, s1, hwalk, hL0, hL1, hpath, hnode, hmarks, hin, hout, htop, hiff⟩ :=
    hT.walk_round hnd hleaf hsort hmk
  rw [hb.slen, hwalk] at hwalk0
  have hs : s1 = s := by
    have := hwalk0
    injection this
  subst hs
  have hplen : s1.currentPath.length = L := by rw [hpath, tree.up_length]
  have hdouble : doublePath T.parents s1.currentPath.length s1.currentNode s1.currentPath
      = T.up l (stairLen T l L) := by
    rw [hplen, hnode, hpath, hT.doublePath_spec hl L L hL1]
    rfl
  have hSL : L ≤ stairLen T l L := Nat.le_add_right _ _
  have hminL : min (stairLen T l L) L = L := by omega
  obtain ⟨ni1, hrev, hni_in, hni_out⟩ := hT.reverseStair_spec hl L (stairLen T l L) hL1
    (stairLen T l L) [] b.nodeIndex 0 le_rfl
    (by rw [List.drop_of_length_le (by rw [tree.up_length])]; rfl)
    (by rw [hminL]; simp)
  rw [hminL] at hni_in hni_out
  rw [hdouble, hplen, tree.up_length, hrev] at hrev0
  have hr : r = ((T.up l (stairLen T l L)).reverse, ni1) := by
    have := hrev0
    injection this with h
    exact h.symm
  subst hr
  have hold_out : ∀ v, Marked T P v → ∀ x, x < L → T.ancestor x l ≠ v := by
    intro v hm x hx h
    exact (hin x hx).2.2 (h ▸ hm)
  constructor
  intro c l1 hc
  by_cases hcP : c < P.length
  · rw [List.get?_eq_getElem?, List.getElem?_append_left hcP, ← List.get?_eq_getElem?] at hc
    obtain ⟨L1, h1, h2, h3, h4, h5, h6⟩ := hlad.ladder c l1 hc
    have hl1P : l1 ∈ P := List.get?_mem hc
    have hmk1 : ∀ x, x ≤ T.dep l1 → Marked T P (T.ancestor x l1) :=
      fun x hx => ⟨l1, hl1P, x, hx, rfl⟩
    refine ⟨L1, h1, h2, ?_, ?_, ?_, ?_⟩
    · show (b.stairs ++ [_]).get? c = _
      rw [List.get?_eq_getElem?, List.getElem?_append_left (by rw [hb.slen]; exact hcP),
        ← List.get?_eq_getElem?]
      exact h3
    · intro x hx
      have hfr := hold_out _ (hmk1 x (by omega))
      refine ⟨?_, ?_, (h4 x hx).2.2⟩
      · show s1.pathIndex _ = _
        rw [hout _ hfr]; exact (h4 x hx).1
      · show ni1 _ = _
        rw [hni_out _ hfr]; exact (h4 x hx).2.1
    · intro u hu
      change s1.pathIndex u = some (c : Int) at hu
      by_cases hnew : ∃ x, x < L ∧ T.ancestor x l = u
      · obtain ⟨x, hx, hxu⟩ := hnew
        rw [← hxu, (hin x hx).1] at hu
        have : (P.length : Int) = (c : Int) := Option.some.inj hu
        omega
      · rw [hout u (fun x hx h => hnew ⟨x, hx, h⟩)] at hu
        exact h5 u hu
    · intro hLd
      obtain ⟨c1, hc1, hp1⟩ := h6 hLd
      refine ⟨c1, hc1, ?_⟩
      show s1.pathIndex _ = _
      rw [hout _ (hold_out _ (hmk1 L1 hLd))]; exact hp1
  · have hclen : c < (P ++ [l]).length := by
      rw [List.get?_eq_getElem?] at hc
      exact (List.getElem?_eq_some_iff.1 hc).1
    have hceq : c = P.length := by simp at hclen; omega
    subst hceq
    have hl1 : l1 = l := by
      rw [List.get?_eq_getElem?, List.getElem?_append_right le_rfl] at hc
      simpa using hc.symm
    subst hl1
    refine ⟨L, hL0, hL1, ?_, ?_, ?_, ?_⟩
    · show (b.stairs ++ [_]).get? _ = _
      rw [← hb.slen, List.get?_eq_getElem?, List.getElem?_append_right le_rfl]
      simp
    · intro x hx
      exact ⟨(hin x hx).1, hni_in x hx, (hin x hx).2.1⟩
    · intro u hu
      change s1.pathIndex u = some (P.length : Int) at hu
      by_contra hnew
      rw [hout u (fun x hx h => hnew ⟨x, hx, h⟩)] at hu
      by_cases hm : Marked T P u
      · obtain ⟨c1, hc1, hp1⟩ := hmk.psome u hm
        rw [hp1] at hu
        have : (c1 : Int) = (P.length : Int) := Option.some.inj hu
        omega
      · rw [hmk.pnone u hm] at hu
        cases hu
    · intro hLd
      have hm := htop hLd
      obtain ⟨c1, hc1, hp1⟩ := hmk.psome _ hm
      refine ⟨c1, hc1, ?_⟩
      show s1.pathIndex _ = _
      rw [hout _ (hold_out _ hm)]; exact hp1

/-- The loop over the sorted leaves keeps both invariants of the ladders. -/
theorem WellFormed.stairLoop_ladders {T : tree} (hT : WellFormed T) :
    ∀ (R P : List Int) (b : StairBuild), (P ++ R).Nodup →
      (∀ v, v ∈ P ++ R ↔ v ∈ T.nodes ∧ T.hgt v = 0) →
      (P ++ R).Pairwise (fun a b => T.dep b ≤ T.dep a) → StairInv T P b → LaddersInv T P b →
      ∃ b1, stairLoop T.parents (T.nodes.length + 1) R b = .ok b1 ∧ StairInv T (P ++ R) b1 ∧
        LaddersInv T (P ++ R) b1 := by
  intro R
  induction R with
  | nil => intro P b _ _ _ hb hl; exact ⟨b, rfl, by simpa using hb, by simpa using hl⟩
  | cons l R ih =>
    intro P b hnd hleaf hsort hb hlad
    obtain ⟨s, r, h1, h2, h3, h3'⟩ := hT.stairLoop_step_ladders hnd hleaf hsort hb hlad
    have e : P ++ l :: R = (P ++ [l]) ++ R := by simp
    obtain ⟨b1, h4, h5, h6⟩ := ih (P ++ [l]) _ (e ▸ hnd) (e ▸ hleaf) (e ▸ hsort) h3 h3'
    refine ⟨b1, ?_, e ▸ h5, e ▸ h6⟩
    simp only [stairLoop, h1, h2]
    exact h4

/-- The ladder build returns, with both invariants. -/
theorem WellFormed.buildStairs_ladders {T : tree} (hT : WellFormed T) :
    ∃ S b, buildStairs T = .ok (S, b) ∧ S.Nodup ∧ (∀ v, v ∈ S ↔ v ∈ T.nodes ∧ T.hgt v = 0) ∧
      StairInv T S b ∧ LaddersInv T S b := by
  obtain ⟨S, hS, hnd, hleaf, hsort⟩ := hT.sortLeafs_spec
  have hn : T.numNodes = T.nodes.length := hT.1
  have hinit : StairInv T []
      { mark := List.replicate T.numNodes.toNat 0, pathIndex := fun _ => none,
        nodeIndex := fun _ => none, stairs := [] } := by
    refine ⟨by simp [hn], ?_, ?_, rfl, ?_, fun _ _ => rfl, fun _ _ => rfl⟩
    · rintro v _ ⟨l, hl, _⟩; cases hl
    · intro v hv _
      obtain ⟨h0, h1⟩ := hT.node_lt hv
      show (List.replicate _ _).get? _ = _
      rw [List.get?_eq_getElem?, List.getElem?_replicate, if_pos (by rw [hn]; simp; omega)]
    · rintro v _ ⟨l, hl, _⟩; cases hl
  obtain ⟨b, hloop, hb, hlad⟩ := hT.stairLoop_ladders S [] _ (by simpa using hnd)
    (by simpa using hleaf) (by simpa using hsort) hinit ⟨fun c l hc => by simp at hc⟩
  simp only [List.nil_append] at hb hlad
  refine ⟨S, b, ?_, hnd, hleaf, hb, hlad⟩
  simp only [buildStairs, hS]
  rw [if_neg (by rw [hn]; omega), hloop]

end

section

theorem WellFormed.pathLength_eq {T : tree} (hT : WellFormed T) {l : Int} (hl : l ∈ T.nodes)
    {pathIndex : NodeMap Int} {c : Int} {L : Nat} (hL : L ≤ T.dep l + 1)
    (hin : ∀ x, x < L → pathIndex (T.ancestor x l) = some c)
    (hout : ∀ u, pathIndex u = some c → ∃ x, x < L ∧ T.ancestor x l = u) :
    pathLength T pathIndex c = L := by
  rw [pathLength, ← length_filter_of_nodup (hT.up_nodup hl hL) hT.2.1, tree.up_length]
  intro v
  rw [tree.mem_up, decide_eq_true_eq]
  constructor
  · rintro ⟨x, hx, hxv⟩
    rw [← hxv]
    exact ⟨(hT.ancestor_mem x l hl (by omega)).1, hin x hx⟩
  · rintro ⟨-, hp⟩
    exact hout v hp

/-- The ladder build as `BuildStairDecompIndex` returns it. -/
theorem WellFormed.buildStairDecompIndex_spec {T : tree} (hT : WellFormed T) :
    ∃ S b, BuildStairDecompIndex T
        = .ok (stairDecompStruct.mk b.pathIndex b.nodeIndex b.stairs T.parents) ∧
      S.Nodup ∧ (∀ v, v ∈ S ↔ v ∈ T.nodes ∧ T.hgt v = 0) ∧ StairInv T S b ∧
      LaddersInv T S b := by
  obtain ⟨S, b, hbuild, hnd, hleaf, hb, hlad⟩ := hT.buildStairs_ladders
  refine ⟨S, b, ?_, hnd, hleaf, hb, hlad⟩
  simp only [BuildStairDecompIndex, hbuild]

/-- C18, as stated, fails: on tree T1 the one path has length `6`, node `2` has
`nodeIndex = 2`, and for `d = 3 ≤ 6 - 1` there is no entry `stairs[0][2 - 3]`
(node `2` has depth `2` and no third ancestor). -/
theorem ladder_entry_missing_T1 :
    WellFormed treeT1 ∧ ∃ idx, BuildStairDecompIndex treeT1 = .ok idx ∧
      idx.pathIndex 2 = some 0 ∧ pathLength treeT1 idx.pathIndex 0 = 6 ∧
      idx.nodeIndex 2 = some 2 ∧ idx.stairs.get? 0 = some [0, 1, 2, 3, 4, 5] ∧
      (3 : Int) ≤ 6 - 1 ∧ vget [0, 1, 2, 3, 4, (5 : Int)] ((2 : Int) - 3) = .error .ub :=
  ⟨by decide, _, rfl, rfl, by decide, rfl, rfl, by decide, rfl⟩

/-- C18, amended. After `BuildStairDecompIndex`, for every node `v`, owned by a
path of length `L`, and every `d` with `0 ≤ d ≤ L - 1` and `d ≤ depth(v)`, the
entry `stairs[pathIndex[v]][nodeIndex[v] - d]` exists and is the `d`-th ancestor
of `v`. -/
theorem BuildStairDecompIndex_ladder_ancestors (T : tree) (hT : WellFormed T) :
    ∃ idx, BuildStairDecompIndex T = .ok idx ∧
      ∀ v ∈ T.nodes, ∃ (c j : Nat) (stair : List Int), idx.pathIndex v = some (c : Int) ∧
        idx.nodeIndex v = some (j : Int) ∧ idx.stairs.get? c = some stair ∧
        ∀ d : Nat, d + 1 ≤ pathLength T idx.pathIndex c → (d : Int) ≤ T.depths.at0 v →
          d ≤ j ∧ stair.get? (j - d) = some (T.ancestor d v) := by
  obtain ⟨S, b, hbuild, hnd, hleaf, hb, hlad⟩ := hT.buildStairDecompIndex_spec
  have hS : ∀ x ∈ S, x ∈ T.nodes := fun x hx => ((hleaf x).1 hx).1
  refine ⟨_, hbuild, ?_⟩
  intro v hv
  obtain ⟨c, hc, hpc⟩ := (hb.markInv hT hS).psome v (hT.marked_all hleaf hv)
  obtain ⟨l, hl⟩ : ∃ l, S.get? c = some l := ⟨_, List.get?_eq_get hc⟩
  have hlm := hS l (List.get?_mem hl)
  obtain ⟨L, h1, h2, h3, h4, h5, -⟩ := hlad.ladder c l hl
  obtain ⟨x, hx, hxv⟩ := h5 v hpc
  have hlen := hT.pathLength_eq hlm h2 (fun x hx => (h4 x hx).1) h5
  have hdv := (hT.ancestor_mem x l hlm (by omega)).2
  rw [hxv] at hdv
  refine ⟨c, stairLen T l L - 1 - x, _, hpc, by rw [← hxv]; exact (h4 x hx).2.1, h3, ?_⟩
  intro d hd1 hd2
  change d + 1 ≤ pathLength T b.pathIndex c at hd1
  rw [hlen] at hd1
  have hd3 : d ≤ T.dep v := by have := hT.dep_eq hv; omega
  have hSl : stairLen T l L = L + min L (T.dep l + 1 - L) := rfl
  have hdj : d ≤ stairLen T l L - 1 - x := by omega
  refine ⟨hdj, ?_⟩
  rw [T.up_reverse_get l _ _ (by omega), ← hxv, ← tree.ancestor_add]
  congr 2; omega

theorem BuildStairDecompIndex_ladder_ancestors_witness :
    ∃ idx, BuildStairDecompIndex treeT2 = .ok idx ∧
      ∀ v ∈ treeT2.nodes, ∃ (c j : Nat) (stair : List Int), idx.pathIndex v = some (c : Int) ∧
        idx.nodeIndex v = some (j : Int) ∧ idx.stairs.get? c = some stair ∧
        ∀ d : Nat, d + 1 ≤ pathLength treeT2 idx.pathIndex c → (d : Int) ≤ treeT2.depths.at0 v →
          d ≤ j ∧ stair.get? (j - d) = some (treeT2.ancestor d v) :=
  BuildStairDecompIndex_ladder_ancestors treeT2 (by decide)

/-- C19. After `BuildStairDecompIndex`, for every path `c` of length `L` the
ladder `stairs[c]` has between `L` and `2L` entries; each of its last `L` entries
is a node of path `c` standing at its `nodeIndex`, and every node of path `c`
stands there; each of its first `length - L` entries is a node outside path `c`,
the ancestor of the top of the path at the distance of the two positions; each
entry is the parent of the next one (the order is from the root to the leaf). -/
theorem BuildStairDecompIndex_ladder_shape (T : tree) (hT : WellFormed T) :
    ∃ idx, BuildStairDecompIndex T = .ok idx ∧
      ∀ (c : Nat) (stair : List Int), idx.stairs.get? c = some stair →
        ∃ (L : Nat) (top : Int), pathLength T idx.pathIndex c = L ∧ 0 < L ∧
          L ≤ stair.length ∧ stair.length ≤ 2 * L ∧
          stair.get? (stair.length - L) = some top ∧
          (∀ j u, stair.get? j = some u → stair.length - L ≤ j →
            idx.pathIndex u = some (c : Int) ∧ idx.nodeIndex u = some (j : Int)) ∧
          (∀ v ∈ T.nodes, idx.pathIndex v = some (c : Int) →
            ∃ j : Nat, idx.nodeIndex v = some (j : Int) ∧ stair.length - L ≤ j ∧
              stair.get? j = some v) ∧
          (∀ j u, stair.get? j = some u → j < stair.length - L →
            u ∈ T.nodes ∧ idx.pathIndex u ≠ some (c : Int) ∧
              u = T.ancestor (stair.length - L - j) top) ∧
          (∀ j u u1, stair.get? j = some u → stair.get? (j + 1) = some u1 →
            T.parent u1 = u) := by
  obtain ⟨S, b, hbuild, hnd, hleaf, hb, hlad⟩ := hT.buildStairDecompIndex_spec
  have hS : ∀ x ∈ S, x ∈ T.nodes := fun x hx => ((hleaf x).1 hx).1
  refine ⟨_, hbuild, ?_⟩
  intro c stair hst
  change b.stairs.get? c = some stair at hst
  have hc : c < S.length := by
    rw [← hb.slen]
    rw [List.get?_eq_getElem?] at hst
    exact (List.getElem?_eq_some_iff.1 hst).1
  obtain ⟨l, hl⟩ : ∃ l, S.get? c = some l := ⟨_, List.get?_eq_get hc⟩
  have hlm := hS l (List.get?_mem hl)
  obtain ⟨L, h1, h2, h3, h4, h5, -⟩ := hlad.ladder c l hl
  have hlen := hT.pathLength_eq hlm h2 (fun x hx => (h4 x hx).1) h5
  rw [hst] at h3
  have hse : stair = (T.up l (stairLen T l L)).reverse := Option.some.inj h3
  have hSl : stairLen T l L = L + min L (T.dep l + 1 - L) := rfl
  have hsl : stair.length = stairLen T l L := by
    rw [hse, List.length_reverse, tree.up_length]
  have hget : ∀ j u, stair.get? j = some u →
      j < stairLen T l L ∧ u = T.ancestor (stairLen T l L - 1 - j) l := by
    intro j u hj
    have hjl : j < stairLen T l L := by
      rw [List.get?_eq_getElem?] at hj
      have := (List.getElem?_eq_some_iff.1 hj).1
      omega
    rw [hse, T.up_reverse_get l _ j hjl] at hj
    exact ⟨hjl, (Option.some.inj hj).symm⟩
  refine ⟨L, T.ancestor (L - 1) l, hlen, h1, by omega, by omega, ?_, ?_, ?_, ?_, ?_⟩
  · rw [hse, T.up_reverse_get l _ _ (by rw [List.length_reverse, tree.up_length]; omega)]
    congr 2
    rw [List.length_reverse, tree.up_length]; omega
  · intro j u hj hjL
    obtain ⟨hjl, hu⟩ := hget j u hj
    obtain ⟨g1, g2, -⟩ := h4 (stairLen T l L - 1 - j) (by omega)
    rw [← hu] at g1 g2
    refine ⟨g1, ?_⟩
    show b.nodeIndex u = _
    rw [g2]; congr 2; omega
  · intro v hv hpv
    obtain ⟨x, hx, hxv⟩ := h5 v hpv
    refine ⟨stairLen T l L - 1 - x, by rw [← hxv]; exact (h4 x hx).2.1, by omega, ?_⟩
    rw [hse, T.up_reverse_get l _ _ (by omega), ← hxv]
    congr 2; omega
  · intro j u hj hjL
    obtain ⟨hjl, hu⟩ := hget j u hj
    refine ⟨?_, ?_, ?_⟩
    · rw [hu]; exact (hT.ancestor_mem _ l hlm (by omega)).1
    · intro hpu
      obtain ⟨x, hx, hxu⟩ := h5 u hpu
      rw [hu] at hxu
      have := hT.ancestor_inj hlm (by omega) (by omega) hxu
      omega
    · rw [hu, ← tree.ancestor_add]
      congr 1; omega
  · intro j u u1 hj hj1
    obtain ⟨hjl, hu⟩ := hget j u hj
    obtain ⟨hjl1, hu1⟩ := hget (j + 1) u1 hj1
    rw [hu, hu1, ← tree.ancestor_succ]
    congr 1; omega

theorem BuildStairDecompIndex_ladder_shape_witness :
    ∃ idx, BuildStairDecompIndex treeT2 = .ok idx ∧
      ∀ (c : Nat) (stair : List Int), idx.stairs.get? c = some stair →
        ∃ (L : Nat) (top : Int), pathLength treeT2 idx.pathIndex c = L ∧ 0 < L ∧
          L ≤ stair.length ∧ stair.length ≤ 2 * L ∧
          stair.get? (stair.length - L) = some top ∧
          (∀ j u, stair.get? j = some u → stair.length - L ≤ j →
            idx.pathIndex u = some (c : Int) ∧ idx.nodeIndex u = some (j : Int)) ∧
          (∀ v ∈ treeT2.nodes, idx.pathIndex v = some (c : Int) →
            ∃ j : Nat, idx.nodeIndex v = some (j : Int) ∧ stair.length - L ≤ j ∧
              stair.get? j = some v) ∧
          (∀ j u, stair.get? j = some u → j < stair.length - L →
            u ∈ treeT2.nodes ∧ idx.pathIndex u ≠ some (c : Int) ∧
              u = treeT2.ancestor (stair.length - L - j) top) ∧
          (∀ j u u1, stair.get? j = some u → stair.get? (j + 1) = some u1 →
            treeT2.parent u1 = u) :=
  BuildStairDecompIndex_ladder_shape treeT2 (by decide)

end

section

/-! ## The index with jump pointers: what the source builds, and what the
tables of `numNodes + 1` entries give -/

theorem BuildStairIndex_ne_ok (T : tree) (idx : stairStruct) : BuildStairIndex T ≠ .ok idx := by
  unfold BuildStairIndex BuildStairIndexSized
  cases h1 : buildStairs T with
  | error e => simp
  | ok r =>
    cases h2 : buildTables T.numNodes T.numNodes with
    | error e => simp
    | ok t => exact absurd h2 (buildTables_faults _ t)

theorem JumpRow.get {T : tree} {l : Int} {row : List Int} (h : JumpRow T l row) :
    0 < row.length ∧ ∀ k, k < row.length → row.get? k = some (T.ancestor (2 ^ k) l) := by
  obtain ⟨K, -, hrow⟩ := h
  subst hrow
  refine ⟨by simp, ?_⟩
  intro k hk
  have hk' : k < K + 1 := by simpa using hk
  rw [List.get?_eq_getElem?, List.getElem?_map, List.getElem?_range hk']
  rfl

/-- C14. `BuildStairIndex` returns no index on which queries could be composed:
it writes `power[numNodes]` and `deg[numNodes]` past the end of the two tables.
With tables of `numNodes + 1` entries the index is built and level-ancestor
queries compose: for `a + b ≤ depth(v)`, `StairSearch(StairSearch(v, a), b)` and
`StairSearch(v, a + b)` are the same node, the `(a + b)`-th ancestor of `v`. -/
theorem StairSearch_compose_of_larger_tables (T : tree) (hT : WellFormed T)
    (hn : T.nodes.length < 2 ^ 30) :
    (∀ idx, BuildStairIndex T ≠ .ok idx) ∧
    ∃ idx, BuildStairIndexSized (T.numNodes + 1) T = .ok idx ∧
      ∀ v ∈ T.nodes, ∀ a b : Nat, ((a : Int) + (b : Int)) ≤ T.depths.at0 v →
        ∃ u, StairSearch v (a : Int) idx = .ok u ∧
          StairSearch u (b : Int) idx = StairSearch v ((a : Int) + (b : Int)) idx ∧
          StairSearch v ((a : Int) + (b : Int)) idx = .ok (T.ancestor (a + b) v) := by
  refine ⟨BuildStairIndex_ne_ok T, ?_⟩
  obtain ⟨idx, h1, h2⟩ := hT.stairSearch_sized hn (T.nodes.length + 1) (Nat.lt_succ_self _)
  refine ⟨idx, by rw [hT.1]; exact h1, ?_⟩
  intro v hv a b hab
  have hd := hT.dep_eq hv
  have hab' : a + b ≤ T.dep v := by omega
  obtain ⟨hu, hud⟩ := hT.ancestor_mem a v hv (by omega)
  have e : ((a : Int) + (b : Int)) = ((a + b : Nat) : Int) := by push_cast; rfl
  refine ⟨T.ancestor a v, h2 v hv a (by omega), ?_, ?_⟩
  · rw [e, h2 v hv (a + b) hab', h2 _ hu b (by omega), Nat.add_comm a b, tree.ancestor_add]
  · rw [e, h2 v hv (a + b) hab']

theorem StairSearch_compose_of_larger_tables_witness :
    (∀ idx, BuildStairIndex treeT2 ≠ .ok idx) ∧
    ∃ idx, BuildStairIndexSized (treeT2.numNodes + 1) treeT2 = .ok idx ∧
      ∀ v ∈ treeT2.nodes, ∀ a b : Nat, ((a : Int) + (b : Int)) ≤ treeT2.depths.at0 v →
        ∃ u, StairSearch v (a : Int) idx = .ok u ∧
          StairSearch u (b : Int) idx = StairSearch v ((a : Int) + (b : Int)) idx ∧
          StairSearch v ((a : Int) + (b : Int)) idx = .ok (treeT2.ancestor (a + b) v) :=
  StairSearch_compose_of_larger_tables treeT2 (by decide) (by decide)

/-- C17. `BuildStairIndex` returns no index, hence no table `jump`: it writes
`power[numNodes]` and `deg[numNodes]` past the end of the two tables before the
jump pointers are built. With tables of `numNodes + 1` entries the index is
built, every leaf `l` has a non-empty row `jump[l]`, and `jump[l][k]` is the
parent map applied `2^k` times to `l` for every `k` below the length of the row. -/
theorem jump_rows_of_larger_tables (T : tree) (hT : WellFormed T)
    (hn : T.nodes.length < 2 ^ 30) :
    (∀ idx, BuildStairIndex T ≠ .ok idx) ∧
    ∃ idx, BuildStairIndexSized (T.numNodes + 1) T = .ok idx ∧
      ∀ l ∈ T.nodes, T.heights.at0 l = 0 →
        ∃ row, idx.jump l = some row ∧ 0 < row.length ∧
          ∀ k, k < row.length → row.get? k = some (T.ancestor (2 ^ k) l) := by
  refine ⟨BuildStairIndex_ne_ok T, ?_⟩
  obtain ⟨idx, S, b0, hbuild, hleaf, -, -, -, -, -, -, hrows, -⟩ :=
    hT.buildStairIndexSized_spec hn (T.nodes.length + 1) (Nat.lt_succ_self _)
  refine ⟨idx, by rw [hT.1]; exact hbuild, ?_⟩
  intro l hl h0
  have hh : T.hgt l = 0 := by
    have := (hT.height_spec hl).1
    omega
  obtain ⟨row, hrow, hjr⟩ := hrows l ((hleaf l).2 ⟨hl, hh⟩)
  exact ⟨row, hrow, hjr.get.1, hjr.get.2⟩

theorem jump_rows_of_larger_tables_witness :
    (∀ idx, BuildStairIndex treeT2 ≠ .ok idx) ∧
    ∃ idx, BuildStairIndexSized (treeT2.numNodes + 1) treeT2 = .ok idx ∧
      ∀ l ∈ treeT2.nodes, treeT2.heights.at0 l = 0 →
        ∃ row, idx.jump l = some row ∧ 0 < row.length ∧
          ∀ k, k < row.length → row.get? k = some (treeT2.ancestor (2 ^ k) l) :=
  jump_rows_of_larger_tables treeT2 (by decide) (by decide)

theorem pow_bracket_unique {d k k1 : Nat} (h1 : 2 ^ k ≤ d) (h2 : d < 2 ^ (k + 1))
    (h3 : 2 ^ k1 ≤ d) (h4 : d < 2 ^ (k1 + 1)) : k1 = k := by
  by_contra hne
  rcases Nat.lt_or_gt_of_ne hne with h | h
  · have : 2 ^ (k1 + 1) ≤ 2 ^ k := Nat.pow_le_pow_right (by norm_num) h
    omega
  · have : 2 ^ (k + 1) ≤ 2 ^ k1 := Nat.pow_le_pow_right (by norm_num) h
    omega

set_option maxRecDepth 200000 in
theorem buildTables_32 :
    ∃ power deg, buildTables 32 31 = .ok (power, deg) ∧
      power.get? 30 = some 1073741824 ∧ power.get? 31 = some (-2147483648) :=
  ⟨_, _, rfl, rfl, rfl⟩

/-- C20. With the table sizes of the source (`numNodes` entries each) the loop
that fills `power` and `deg` does not return for any `numNodes`: it writes the
entry `numNodes`. On tree T1 `BuildStairIndex` ends there. With `numNodes + 1`
entries and `n < 2^30` the tables are filled: `power[k] = 2^k` for `k ≤ n`,
`k ≤ 30`, and `deg[d]` is the unique `k` with `2^k ≤ d < 2^(k+1)` for `d` in
`1 .. n`. In 32-bit `int` arithmetic `power[31]` is not `2^31`: for `n = 31`
the entry is `-2147483648`. -/
theorem buildTables_sizes :
    (∀ (n : Int) (r : List Int × List Int), buildTables n n ≠ .ok r) ∧
    WellFormed treeT1 ∧ BuildStairIndex treeT1 = .error .ub ∧
    (∀ n : Nat, n < 2 ^ 30 →
      ∃ power deg, buildTables ((n : Int) + 1) (n : Int) = .ok (power, deg) ∧
        (∀ k, k ≤ n → k ≤ 30 → power.get? k = some ((2 : Int) ^ k)) ∧
        (∀ d, 1 ≤ d → d ≤ n → ∃ k : Nat, deg.get? d = some (k : Int) ∧ 2 ^ k ≤ d ∧
          d < 2 ^ (k + 1) ∧ ∀ k1 : Nat, 2 ^ k1 ≤ d → d < 2 ^ (k1 + 1) → k1 = k)) ∧
    (∃ power deg, buildTables 32 31 = .ok (power, deg) ∧
      power.get? 30 = some 1073741824 ∧ power.get? 31 = some (-2147483648)) := by
  refine ⟨buildTables_faults, by decide, rfl, ?_, buildTables_32⟩
  intro n hn
  obtain ⟨power, deg, h1, -, -, h2, h3⟩ := buildTables_spec n (n + 1) (Nat.lt_succ_self _) hn
  refine ⟨power, deg, ?_, h2, ?_⟩
  · have : ((n : Int) + 1) = ((n + 1 : Nat) : Int) := by push_cast; rfl
    rw [this]; exact h1
  · intro d hd1 hd2
    obtain ⟨k, hk, hk1, hk2⟩ := h3 d hd1 hd2
    exact ⟨k, hk, hk1, hk2, fun k1 g1 g2 => pow_bracket_unique hk1 hk2 g1 g2⟩

end

section

/-! ## The long-path property and the doubling of the ladder search -/

/-- C24. After `BuildPathDecompIndex` on a well-formed tree, for every node `v`
the length of its path minus `1` minus `nodeIndex[v]` is `height(v)`, and the
path ends in a leaf `height(v)` levels below `v` (a deepest leaf of the subtree
of `v`). The path `paths[0]` has `treeHeight + 1` entries, each the parent of
the next, starts at the root and ends in a leaf of depth `treeHeight`. -/
theorem BuildPathDecompIndex_long_path (T : tree) (hT : WellFormed T) :
    ∃ idx, BuildPathDecompIndex T = .ok idx ∧
      (∀ v ∈ T.nodes, ∃ (c j : Nat) (p : List Int) (l : Int),
        idx.pathIndex v = some (c : Int) ∧ idx.nodeIndex v = some (j : Int) ∧
        idx.paths.get? c = some p ∧ (p.length : Int) - 1 - (j : Int) = T.heights.at0 v ∧
        p.getLast? = some l ∧ l ∈ T.nodes ∧ T.heights.at0 l = 0 ∧
        T.ancestor (T.heights.at0 v).toNat l = v ∧
        T.depths.at0 l = T.depths.at0 v + T.heights.at0 v) ∧
      (∃ (p0 : List Int) (l : Int), idx.paths.get? 0 = some p0 ∧
        (p0.length : Int) = T.treeHeight + 1 ∧ p0.get? 0 = some T.root ∧
        p0.getLast? = some l ∧ l ∈ T.nodes ∧ T.heights.at0 l = 0 ∧
        T.depths.at0 l = T.treeHeight ∧
        ∀ j u u1, p0.get? j = some u → p0.get? (j + 1) = some u1 → T.parent u1 = u) := by
  obtain ⟨S, b, hbuild, hnd, hleaf, -, hb⟩ := hT.buildPathDecompIndex_spec
  have hS : ∀ x ∈ S, x ∈ T.nodes := fun x hx => ((hleaf x).1 hx).1
  have hlast : ∀ (l : Int) (L : Nat), 0 < L → (T.up l L).reverse.getLast? = some l := by
    intro l L hL
    obtain ⟨m, rfl⟩ : ∃ m, L = m + 1 := ⟨L - 1, by omega⟩
    rw [List.getLast?_reverse, tree.up, List.range_succ_eq_map]
    rfl
  have hleaf0 : ∀ l ∈ S, T.heights.at0 l = 0 := by
    intro l hl
    obtain ⟨hlm, h0⟩ := (hleaf l).1 hl
    rw [(hT.height_spec hlm).1, h0]; rfl
  refine ⟨_, hbuild, ?_, ?_⟩
  · intro v hv
    obtain ⟨c, hc, hpc⟩ := hb.marks.psome v (hT.marked_all hleaf hv)
    obtain ⟨l, hl⟩ : ∃ l, S.get? c = some l := ⟨_, List.get?_eq_get hc⟩
    have hlS : l ∈ S := List.get?_mem hl
    obtain ⟨L, h1, h2, h3, h4, h5, -⟩ := hb.path c l hl
    obtain ⟨x, hx, hxv⟩ := h5 v hpc
    obtain ⟨g1, g2, g3⟩ := h4 x hx
    rw [hxv] at g1 g2 g3
    have hhv := (hT.height_spec hv).1
    have hdv := hT.dep_eq hv
    have hdl := hT.dep_eq (hS l hlS)
    have hd := (hT.ancestor_mem x l (hS l hlS) (by omega)).2
    rw [hxv] at hd
    refine ⟨c, L - 1 - x, _, l, hpc, g2, h3, ?_, hlast l L h1, hS l hlS, hleaf0 l hlS, ?_, ?_⟩
    · rw [List.length_reverse, tree.up_length, hhv, g3]; omega
    · rw [hhv, Int.toNat_ofNat, g3]; exact hxv
    · rw [hdl, hdv, hhv, g3]; omega
  · obtain ⟨l0, hl0S, -⟩ := hT.marked_all hleaf hT.root_mem
    have hpos : 0 < S.length := List.length_pos_of_mem hl0S
    obtain ⟨l, hl⟩ : ∃ l, S.get? 0 = some l := ⟨_, List.get?_eq_get hpos⟩
    have hlS : l ∈ S := List.get?_mem hl
    have hlm := hS l hlS
    obtain ⟨L, h1, h2, h3, h4, -, h6⟩ := hb.path 0 l hl
    have hL : L = T.dep l + 1 := by
      by_contra hne
      obtain ⟨c1, hc1, -⟩ := h6 (by omega)
      omega
    subst hL
    have hroot : T.ancestor (T.dep l) l = T.root := hT.ancestor_dep hlm
    have hh := (h4 (T.dep l) (by omega)).2.2
    rw [hroot] at hh
    have hth : T.heights.at0 T.root = T.treeHeight := by
      simp [NodeMap.at0, hT.2.2.2.2.2.2.1]
    have hhr := (hT.height_spec hT.root_mem).1
    have hdl := hT.dep_eq hlm
    refine ⟨_, l, h3, ?_, ?_, hlast l _ h1, hlm, hleaf0 l hlS, ?_, ?_⟩
    · rw [List.length_reverse, tree.up_length]; push_cast; omega
    · rw [T.up_reverse_get l _ 0 h1, ← hroot]
      congr 2
    · rw [hdl]; omega
    · intro j u u1 hj hj1
      have hget : ∀ j u, (T.up l (T.dep l + 1)).reverse.get? j = some u →
          j < T.dep l + 1 ∧ u = T.ancestor (T.dep l + 1 - 1 - j) l := by
        intro j u hj
        have hjl : j < T.dep l + 1 := by
          rw [List.get?_eq_getElem?] at hj
          have := (List.getElem?_eq_some_iff.1 hj).1
          rw [List.length_reverse, tree.up_length] at this
          exact this
        rw [T.up_reverse_get l _ j hjl] at hj
        exact ⟨hjl, (Option.some.inj hj).symm⟩
      obtain ⟨hjl, hu⟩ := hget j u hj
      obtain ⟨hjl1, hu1⟩ := hget (j + 1) u1 hj1
      rw [hu, hu1, ← tree.ancestor_succ]
      congr 1; omega

theorem BuildPathDecompIndex_long_path_witness :
    ∃ idx, BuildPathDecompIndex treeT2 = .ok idx ∧
      (∀ v ∈ treeT2.nodes, ∃ (c j : Nat) (p : List Int) (l : Int),
        idx.pathIndex v = some (c : Int) ∧ idx.nodeIndex v = some (j : Int) ∧
        idx.paths.get? c = some p ∧ (p.length : Int) - 1 - (j : Int) = treeT2.heights.at0 v ∧
        p.getLast? = some l ∧ l ∈ treeT2.nodes ∧ treeT2.heights.at0 l = 0 ∧
        treeT2.ancestor (treeT2.heights.at0 v).toNat l = v ∧
        treeT2.depths.at0 l = treeT2.depths.at0 v + treeT2.heights.at0 v) ∧
      (∃ (p0 : List Int) (l : Int), idx.paths.get? 0 = some p0 ∧
        (p0.length : Int) = treeT2.treeHeight + 1 ∧ p0.get? 0 = some treeT2.root ∧
        p0.getLast? = some l ∧ l ∈ treeT2.nodes ∧ treeT2.heights.at0 l = 0 ∧
        treeT2.depths.at0 l = treeT2.treeHeight ∧
        ∀ j u u1, p0.get? j = some u → p0.get? (j + 1) = some u1 → treeT2.parent u1 = u) :=
  BuildPathDecompIndex_long_path treeT2 (by decide)

end

section

theorem vget_ne_fuel {α : Type} (v : List α) (i : Int) : vget v i ≠ .error .fuel := by
  unfold vget
  split
  · split <;> simp
  · simp

theorem pathLength_le (T : tree) (pathIndex : NodeMap Int) (c : Int) :
    pathLength T pathIndex c ≤ T.nodes.length :=
  List.length_filter_le _ _

/-- The entries of the ladder index for a node, with the length of its path. -/
theorem WellFormed.ladder_node {T : tree} (hT : WellFormed T) {S : List Int}
    (hleaf : ∀ v, v ∈ S ↔ v ∈ T.nodes ∧ T.hgt v = 0) {b : StairBuild} (hb : StairInv T S b)
    (hlad : LaddersInv T S b) {v : Int} (hv : v ∈ T.nodes) :
    ∃ (c : Nat) (l : Int) (L x : Nat), l ∈ T.nodes ∧ 0 < L ∧ L ≤ T.dep l + 1 ∧ x < L ∧
      T.ancestor x l = v ∧ T.hgt v = x ∧ b.pathIndex v = some (c : Int) ∧
      b.nodeIndex v = some ((stairLen T l L - 1 - x : Nat) : Int) ∧
      b.stairs.get? c = some (T.up l (stairLen T l L)).reverse ∧
      pathLength T b.pathIndex c = L := by
  have hS : ∀ x ∈ S, x ∈ T.nodes := fun x hx => ((hleaf x).1 hx).1
  obtain ⟨c, hc, hpc⟩ := (hb.markInv hT hS).psome v (hT.marked_all hleaf hv)
  obtain ⟨l, hl⟩ : ∃ l, S.get? c = some l := ⟨_, List.get?_eq_get hc⟩
  have hlm := hS l (List.get?_mem hl)
  obtain ⟨L, h1, h2, h3, h4, h5, -⟩ := hlad.ladder c l hl
  obtain ⟨x, hx, hxv⟩ := h5 v hpc
  obtain ⟨g1, g2, g3⟩ := h4 x hx
  rw [hxv] at g2 g3
  exact ⟨c, l, L, x, hlm, h1, h2, hx, hxv, g3, hpc, g2, h3,
    hT.pathLength_eq hlm h2 (fun x hx => (h4 x hx).1) h5⟩

/-- The parent of the top of a ladder, if it is a node, lies on a path more than
twice as long. -/
theorem WellFormed.ladder_doubles {T : tree} (hT : WellFormed T) {S : List Int}
    (hleaf : ∀ v, v ∈ S ↔ v ∈ T.nodes ∧ T.hgt v = 0) {b : StairBuild} (hb : StairInv T S b)
    (hlad : LaddersInv T S b) {l : Int} (hl : l ∈ T.nodes) {L : Nat} (hL0 : 0 < L)
    (hL : L ≤ T.dep l + 1)
    (hne : T.parent (T.ancestor (stairLen T l L - 1) l) ≠ -1) :
    T.parent (T.ancestor (stairLen T l L - 1) l) ∈ T.nodes ∧
    ∃ c1 : Nat, b.pathIndex (T.parent (T.ancestor (stairLen T l L - 1) l)) = some (c1 : Int) ∧
      2 * L + 1 ≤ pathLength T b.pathIndex c1 := by
  have hSl : stairLen T l L = L + min L (T.dep l + 1 - L) := rfl
  have hle : stairLen T l L - 1 ≤ T.dep l := by omega
  have hlt : stairLen T l L ≤ T.dep l := by
    by_contra hcon
    have he : stairLen T l L - 1 = T.dep l := by omega
    rw [he, ← tree.ancestor_succ, hT.ancestor_dep_succ hl] at hne
    exact hne rfl
  have h2L : stairLen T l L = 2 * L := by omega
  have hu : T.parent (T.ancestor (stairLen T l L - 1) l) = T.ancestor (2 * L) l := by
    rw [← tree.ancestor_succ]; congr 1; omega
  rw [hu]
  obtain ⟨hum, -⟩ := hT.ancestor_mem (2 * L) l hl (by omega)
  have hh := hT.hgt_leaf_ancestor hl (show 2 * L ≤ T.dep l by omega)
  obtain ⟨c1, l1, L1, x1, -, -, -, hx1, -, hg, hp, -, -, hlen⟩ :=
    hT.ladder_node hleaf hb hlad hum
  exact ⟨hum, c1, hp, by omega⟩

/-- A call of `StairDecompSearch` on a node whose path has `L` nodes, with
`n + 1 < (L + 1) * 2^(f + 1)`, ends within `f + 2` calls. -/
theorem WellFormed.stairDecompSearch_fuel {T : tree} (hT : WellFormed T) {S : List Int}
    (hleaf : ∀ v, v ∈ S ↔ v ∈ T.nodes ∧ T.hgt v = 0) {b : StairBuild} (hb : StairInv T S b)
    (hlad : LaddersInv T S b) :
    ∀ (f fuel : Nat) (v : Int) (k : Int), f + 2 ≤ fuel → v ∈ T.nodes →
      (∀ c : Nat, b.pathIndex v = some (c : Int) →
        T.nodes.length + 1 < (pathLength T b.pathIndex c + 1) * 2 ^ (f + 1)) →
      StairDecompSearch (stairDecompStruct.mk b.pathIndex b.nodeIndex b.stairs T.parents)
        fuel v k ≠ .error .fuel := by
  have hS : ∀ x ∈ S, x ∈ T.nodes := fun x hx => ((hleaf x).1 hx).1
  have hno : ¬ Marked T S (-1) := fun h => hT.ne_neg_one (h.mem hT hS) rfl
  intro f
  induction f with
  | zero =>
    intro fuel v k hfuel hv hpot
    obtain ⟨fuel1, rfl⟩ : ∃ m, fuel = m + 2 := ⟨fuel - 2, by omega⟩
    obtain ⟨c, l, L, x, hl, hL0, hL, hx, hxv, -, hp, hn, hst, hlen⟩ :=
      hT.ladder_node hleaf hb hlad hv
    have hpot' := hpot c hp
    rw [hlen] at hpot'
    have hSl : stairLen T l L = L + min L (T.dep l + 1 - L) := rfl
    have e1 : b.nodeIndex.find v = .ok ((stairLen T l L - 1 - x : Nat) : Int) :=
      NodeMap.find_of_some _ hn
    have e2 : b.pathIndex.find v = .ok (c : Int) := NodeMap.find_of_some _ hp
    have e3 : vget b.stairs (c : Int) = .ok (T.up l (stairLen T l L)).reverse := vget_ok hst
    have e4 : vget (T.up l (stairLen T l L)).reverse 0
        = .ok (T.ancestor (stairLen T l L - 1) l) := by
      have := vget_ok (T.up_reverse_get l (stairLen T l L) 0 (by omega))
      simpa using this
    have htop := (hT.ancestor_mem (stairLen T l L - 1) l hl (by omega)).1
    have e5 : T.parents.find (T.ancestor (stairLen T l L - 1) l)
        = .ok (T.parent (T.ancestor (stairLen T l L - 1) l)) :=
      NodeMap.find_of_some _ (hT.parents_eq htop)
    simp only [StairDecompSearch, e1, e2, e3]
    split
    · exact vget_ne_fuel _ _
    · simp only [e4, e5]
      by_cases hne : T.parent (T.ancestor (stairLen T l L - 1) l) = -1
      · rw [hne]
        have e6 : b.nodeIndex.find (-1) = .error .ub := by
          simp [NodeMap.find, hb.nnone _ hno]
        simp [StairDecompSearch, e6]
      · exfalso
        obtain ⟨-, c1, -, h2⟩ := hT.ladder_doubles hleaf hb hlad hl hL0 hL hne
        have := pathLength_le T b.pathIndex c1
        omega
  | succ f ih =>
    intro fuel v k hfuel hv hpot
    obtain ⟨fuel1, rfl⟩ : ∃ m, fuel = m + 1 := ⟨fuel - 1, by omega⟩
    obtain ⟨c, l, L, x, hl, hL0, hL, hx, hxv, -, hp, hn, hst, hlen⟩ :=
      hT.ladder_node hleaf hb hlad hv
    have hpot' := hpot c hp
    rw [hlen] at hpot'
    have hSl : stairLen T l L = L + min L (T.dep l + 1 - L) := rfl
    have e1 : b.nodeIndex.find v = .ok ((stairLen T l L - 1 - x : Nat) : Int) :=
      NodeMap.find_of_some _ hn
    have e2 : b.pathIndex.find v = .ok (c : Int) := NodeMap.find_of_some _ hp
    have e3 : vget b.stairs (c : Int) = .ok (T.up l (stairLen T l L)).reverse := vget_ok hst
    have e4 : vget (T.up l (stairLen T l L)).reverse 0
        = .ok (T.ancestor (stairLen T l L - 1) l) := by
      have := vget_ok (T.up_reverse_get l (stairLen T l L) 0 (by omega))
      simpa using this
    have htop := (hT.ancestor_mem (stairLen T l L - 1) l hl (by omega)).1
    have e5 : T.parents.find (T.ancestor (stairLen T l L - 1) l)
        = .ok (T.parent (T.ancestor (stairLen T l L - 1) l)) :=
      NodeMap.find_of_some _ (hT.parents_eq htop)
    simp only [StairDecompSearch, e1, e2, e3]
    split
    · exact vget_ne_fuel _ _
    · simp only [e4, e5]
      by_cases hne : T.parent (T.ancestor (stairLen T l L - 1) l) = -1
      · rw [hne]
        obtain ⟨fuel2, rfl⟩ : ∃ m, fuel1 = m + 1 := ⟨fuel1 - 1, by omega⟩
        have e6 : b.nodeIndex.find (-1) = .error .ub := by
          simp [NodeMap.find, hb.nnone _ hno]
        simp [StairDecompSearch, e6]
      · obtain ⟨hum, c1, hp1, h2⟩ := hT.ladder_doubles hleaf hb hlad hl hL0 hL hne
        apply ih fuel1 _ _ (by omega) hum
        intro c2 hc2
        rw [hp1] at hc2
        have : (c1 : Int) = (c2 : Int) := Option.some.inj hc2
        have hcc : c1 = c2 := by omega
        subst hcc
        have h3 : (L + 1) * 2 ^ (f + 1 + 1) = (2 * (L + 1)) * 2 ^ (f + 1) := by ring
        have h4 : (2 * (L + 1)) * 2 ^ (f + 1)
            ≤ (pathLength T b.pathIndex c1 + 1) * 2 ^ (f + 1) :=
          Nat.mul_le_mul_right _ (by omega)
        omega

/-- C22. After `BuildStairDecompIndex`, when the parent `u` of the top entry
`stairs[c][0]` of a ladder is a node, the path that owns `u` has more than twice
the length of path `c` (at least `2L + 1` nodes). Consequently `StairDecompSearch`
on any node and level ends within `floor(log2 n) + 2` calls, the first one and at
most `floor(log2 n) + 1` recursive ones (a query may still end in the fault of
the test `nodeIndex > ancestorLevel`). -/
theorem StairDecompSearch_doubles (T : tree) (hT : WellFormed T) :
    ∃ idx, BuildStairDecompIndex T = .ok idx ∧
      (∀ (c : Nat) (stair : List Int) (top : Int), idx.stairs.get? c = some stair →
        stair.get? 0 = some top → T.parent top ≠ -1 →
        T.parent top ∈ T.nodes ∧ ∃ c1 : Nat, idx.pathIndex (T.parent top) = some (c1 : Int) ∧
          2 * pathLength T idx.pathIndex c ≤ pathLength T idx.pathIndex c1 ∧
          2 * pathLength T idx.pathIndex c + 1 ≤ pathLength T idx.pathIndex c1) ∧
      (∀ v ∈ T.nodes, ∀ (k : Int) (fuel : Nat), Nat.log 2 T.nodes.length + 2 ≤ fuel →
        StairDecompSearch idx fuel v k ≠ .error .fuel) := by
  obtain ⟨S, b, hbuild, hnd, hleaf, hb, hlad⟩ := hT.buildStairDecompIndex_spec
  have hS : ∀ x ∈ S, x ∈ T.nodes := fun x hx => ((hleaf x).1 hx).1
  refine ⟨_, hbuild, ?_, ?_⟩
  · intro c stair top hst htop hne
    change b.stairs.get? c = some stair at hst
    have hc : c < S.length := by
      rw [← hb.slen]
      rw [List.get?_eq_getElem?] at hst
      exact (List.getElem?_eq_some_iff.1 hst).1
    obtain ⟨l, hl⟩ : ∃ l, S.get? c = some l := ⟨_, List.get?_eq_get hc⟩
    have hlm := hS l (List.get?_mem hl)
    obtain ⟨L, h1, h2, h3, h4, h5, -⟩ := hlad.ladder c l hl
    have hlen := hT.pathLength_eq hlm h2 (fun x hx => (h4 x hx).1) h5
    rw [hst] at h3
    have hse : stair = (T.up l (stairLen T l L)).reverse := Option.some.inj h3
    have hSl : stairLen T l L = L + min L (T.dep l + 1 - L) := rfl
    rw [hse, T.up_reverse_get l _ 0 (by omega)] at htop
    have htope : T.ancestor (stairLen T l L - 1) l = top := by
      have := Option.some.inj htop
      rw [← this]; congr 1
    rw [← htope] at hne ⊢
    obtain ⟨hum, c1, hp1, hd⟩ := hT.ladder_doubles hleaf hb hlad hlm h1 h2 hne
    refine ⟨hum, c1, hp1, ?_, ?_⟩
    · show 2 * pathLength T b.pathIndex c ≤ pathLength T b.pathIndex c1
      rw [hlen]; omega
    · show 2 * pathLength T b.pathIndex c + 1 ≤ pathLength T b.pathIndex c1
      rw [hlen]; omega
  · intro v hv k fuel hfuel
    apply hT.stairDecompSearch_fuel hleaf hb hlad (Nat.log 2 T.nodes.length) fuel v k hfuel hv
    intro c hc
    have hpos : 0 < T.nodes.length := List.length_pos_of_mem hv
    have hlog := Nat.lt_pow_succ_log_self (by norm_num : 1 < 2) T.nodes.length
    have h1 : 1 * 2 ^ (Nat.log 2 T.nodes.length + 1)
        ≤ (pathLength T b.pathIndex c) * 2 ^ (Nat.log 2 T.nodes.length + 1) := by
      apply Nat.mul_le_mul_right
      obtain ⟨c', l, L, x, hl, hL0, hL, hx, hxv, -, hp, -, -, hlen⟩ :=
        hT.ladder_node hleaf hb hlad hv
      rw [hp] at hc
      have : (c' : Int) = (c : Int) := Option.some.inj hc
      have hcc : c' = c := by omega
      subst hcc
      omega
    rw [Nat.add_mul]
    simp only [Nat.succ_eq_add_one] at hlog
    omega

theorem StairDecompSearch_doubles_witness :
    ∃ idx, BuildStairDecompIndex treeT2 = .ok idx ∧
      (∀ (c : Nat) (stair : List Int) (top : Int), idx.stairs.get? c = some stair →
        stair.get? 0 = some top → treeT2.parent top ≠ -1 →
        treeT2.parent top ∈ treeT2.nodes ∧
        ∃ c1 : Nat, idx.pathIndex (treeT2.parent top) = some (c1 : Int) ∧
          2 * pathLength treeT2 idx.pathIndex c ≤ pathLength treeT2 idx.pathIndex c1 ∧
          2 * pathLength treeT2 idx.pathIndex c + 1 ≤ pathLength treeT2 idx.pathIndex c1) ∧
      (∀ v ∈ treeT2.nodes, ∀ (k : Int) (fuel : Nat),
        Nat.log 2 treeT2.nodes.length + 2 ≤ fuel →
        StairDecompSearch idx fuel v k ≠ .error .fuel) :=
  StairDecompSearch_doubles treeT2 (by decide)

end

end LevelAncestor

/-! # Theorems on the suffix automaton -/

namespace SuffixAutomaton

open LevelAncestor (Fault Run)

section

/-! ## Words -/

theorem suffix_snoc_inj {x y : List Char} {a b : Char} (h : x ++ [a] <:+ y ++ [b]) :
    a = b ∧ x <:+ y := by
  rcases List.suffix_concat_iff.1 h with h' | ⟨t, ht, hs⟩
  · simp at h'
  · obtain ⟨h1, h2⟩ := List.append_inj' ht (by simp)
    simp at h2
    subst h1
    exact ⟨h2, hs⟩

theorem suffix_snoc_of {x y : List Char} (a : Char) (h : x <:+ y) : x ++ [a] <:+ y ++ [a] := by
  obtain ⟨t, rfl⟩ := h
  exact ⟨t, by simp⟩

theorem suffix_snoc_cases {x w : List Char} {a : Char} (h : x <:+ w ++ [a]) :
    x = [] ∨ ∃ y, x = y ++ [a] ∧ y <:+ w := List.suffix_concat_iff.1 h

theorem infix_snoc_cases {x w : List Char} {a : Char} (h : x <:+: w ++ [a]) :
    x <:+ w ++ [a] ∨ x <:+: w := List.infix_concat_iff.1 h

theorem prefix_snoc_cases {x w : List Char} {a : Char} (h : x <+: w ++ [a]) :
    x = w ++ [a] ∨ x <+: w := List.prefix_concat_iff.1 h

theorem infix_snoc_left {x w : List Char} (a : Char) (h : x <:+: w) : x <:+: w ++ [a] := by
  obtain ⟨s, t, rfl⟩ := h
  exact ⟨s, t ++ [a], by simp⟩

theorem prefix_snoc_left {x w : List Char} (a : Char) (h : x <+: w) : x <+: w ++ [a] := by
  obtain ⟨t, rfl⟩ := h
  exact ⟨t ++ [a], by simp⟩

/-- An occurrence of `y ++ [a]` inside `w` ends at a prefix `P ++ [a]` of `w`. -/
theorem infix_snoc_occ {y w : List Char} {a : Char} (h : y ++ [a] <:+: w) :
    ∃ P, P ++ [a] <+: w ∧ y <:+ P := by
  obtain ⟨s, t, rfl⟩ := h
  exact ⟨s ++ y, ⟨t, by simp⟩, ⟨s, rfl⟩⟩

theorem factor_of_occurrence {x P w : List Char} (h1 : x <:+ P) (h2 : P <+: w) : x <:+: w :=
  h1.isInfix.trans h2.isInfix

/-- The suffix of `x` of length `k`. -/
theorem exists_suffix_length (x : List Char) (k : Nat) (hk : k ≤ x.length) :
    ∃ y, y <:+ x ∧ y.length = k :=
  ⟨x.drop (x.length - k), List.drop_suffix _ _, by simp; omega⟩

/-! ## The heap -/

theorem deref_append_lt (h : Heap) (s : State) (q : Nat) (hq : q < h.length) :
    deref (h ++ [s]) q = deref h q := by
  simp [deref, List.getD_eq_getElem?_getD, List.getElem?_append_left hq]

theorem deref_append_eq (h : Heap) (s : State) : deref (h ++ [s]) h.length = s := by
  simp [deref, List.getD_eq_getElem?_getD]

theorem deref_set_eq (h : Heap) (q : Nat) (s : State) (hq : q < h.length) :
    deref (h.set q s) q = s := by
  simp [deref, List.getD_eq_getElem?_getD, hq]

theorem deref_set_ne (h : Heap) (q t : Nat) (s : State) (hq : t ≠ q) :
    deref (h.set q s) t = deref h t := by
  simp [deref, List.getD_eq_getElem?_getD, List.getElem?_set_ne (Ne.symm hq)]

theorem dfind_dset_eq (d : Delta) (a : Char) (v : Option Nat) : dfind (dset d a v) a = some v := by
  induction d with
  | nil => simp [dset, dfind, List.lookup]
  | cons e d ih =>
    obtain ⟨b, u⟩ := e
    by_cases hb : b = a
    · subst hb; simp [dset, dfind, List.lookup]
    · have hb' : (a == b) = false := by simpa using fun h => hb h.symm
      simp only [dset, hb, if_false, dfind, List.lookup, hb']
      exact ih

theorem dfind_dset_ne (d : Delta) (a b : Char) (v : Option Nat) (hab : b ≠ a) :
    dfind (dset d a v) b = dfind d b := by
  induction d with
  | nil =>
    have : (b == a) = false := by simpa using hab
    simp [dset, dfind, List.lookup, this]
  | cons e d ih =>
    obtain ⟨c, u⟩ := e
    by_cases hc : c = a
    · subst hc
      have : (b == c) = false := by simpa using hab
      simp [dset, dfind, List.lookup, this]
    · simp only [dset, hc, if_false, dfind, List.lookup]
      cases hbc : (b == c) with
      | true => rfl
      | false => exact ih

theorem dfind_dset (d : Delta) (a b : Char) (v : Option Nat) :
    dfind (dset d a v) b = if b = a then some v else dfind d b := by
  by_cases h : b = a
  · subst h; simp [dfind_dset_eq]
  · simp [h, dfind_dset_ne _ _ _ _ h]

@[simp] theorem setDelta_length (h : Heap) (q : Nat) (a : Char) (v : Option Nat) :
    (setDelta h q a v).length = h.length := by simp [setDelta]

@[simp] theorem setSlink_length (h : Heap) (q : Nat) (s : Option Nat) :
    (setSlink h q s).length = h.length := by simp [setSlink]

@[simp] theorem setIndex_length (h : Heap) (q : Nat) (i : Int) :
    (setIndex h q i).length = h.length := by simp [setIndex]

@[simp] theorem setFinal_length (h : Heap) (q : Nat) :
    (setFinal h q).length = h.length := by simp [setFinal]

theorem deref_setDelta (h : Heap) (q : Nat) (a : Char) (v : Option Nat) (t : Nat)
    (hq : q < h.length) :
    deref (setDelta h q a v) t =
      if t = q then { deref h q with delta := dset (deref h q).delta a v } else deref h t := by
  by_cases ht : t = q
  · subst ht; simp [setDelta, deref_set_eq _ _ _ hq]
  · simp [setDelta, deref_set_ne _ _ _ _ ht, ht]

theorem deref_setSlink (h : Heap) (q : Nat) (s : Option Nat) (t : Nat) (hq : q < h.length) :
    deref (setSlink h q s) t = if t = q then { deref h q with slink := s } else deref h t := by
  by_cases ht : t = q
  · subst ht; simp [setSlink, deref_set_eq _ _ _ hq]
  · simp [setSlink, deref_set_ne _ _ _ _ ht, ht]

theorem deref_setIndex (h : Heap) (q : Nat) (i : Int) (t : Nat) (hq : q < h.length) :
    deref (setIndex h q i) t = if t = q then { deref h q with index := i } else deref h t := by
  by_cases ht : t = q
  · subst ht; simp [setIndex, deref_set_eq _ _ _ hq]
  · simp [setIndex, deref_set_ne _ _ _ _ ht, ht]

theorem deref_setFinal (h : Heap) (q : Nat) (t : Nat) (hq : q < h.length) :
    deref (setFinal h q) t = if t = q then { deref h q with final := true } else deref h t := by
  by_cases ht : t = q
  · subst ht; simp [setFinal, deref_set_eq _ _ _ hq]
  · simp [setFinal, deref_set_ne _ _ _ _ ht, ht]

end

section

/-! ## Consequences of the invariant -/

theorem step_eq_some {h : Heap} {q t : Nat} {a : Char} :
    step h q a = some t ↔ dfind (deref h q).delta a = some (some t) := by
  unfold step
  cases dfind (deref h q).delta a with
  | none => simp
  | some v => cases v <;> simp

theorem run_append (h : Heap) (x y : List Char) (q : Nat) :
    run h q (x ++ y) = (run h q x).bind (fun t => run h t y) := by
  induction x generalizing q with
  | nil => simp [run]
  | cons a x ih =>
    simp only [List.cons_append, run]
    cases step h q a with
    | none => simp
    | some t => simp [ih]

theorem run_snoc (h : Heap) (x : List Char) (a : Char) (q : Nat) :
    run h q (x ++ [a]) = (run h q x).bind (fun t => step h t a) := by
  rw [run_append]
  congr 1
  funext t
  simp only [run]
  cases step h t a <;> rfl

variable {h : Heap} {w : List Char} {last : Nat} {r : Nat → List Char}

theorem Inv.pos (I : Inv h w last r) : 0 < h.length := by
  have := I.last_lt; omega

theorem Inv.minLen_zero (I : Inv h w last r) : minLen h r 0 = 0 := by
  simp [minLen, I.slink_zero]

theorem Inv.minLen_le (I : Inv h w last r) {q : Nat} (hq : q < h.length) :
    minLen h r q ≤ (r q).length := by
  by_cases h0 : q = 0
  · subst h0; rw [I.minLen_zero]; exact Nat.zero_le _
  · obtain ⟨s, hs, _, _, hlt⟩ := I.slink_some q hq h0
    simp only [minLen, hs]; omega

theorem Inv.minLen_pos (I : Inv h w last r) {q : Nat} (hq : q < h.length) (h0 : q ≠ 0) :
    0 < minLen h r q := by
  obtain ⟨s, hs, _, _, _⟩ := I.slink_some q hq h0
  simp only [minLen, hs]; omega

theorem Inv.inClass_self (I : Inv h w last r) {q : Nat} (hq : q < h.length) :
    InClass h r q (r q) := ⟨List.suffix_refl _, I.minLen_le hq⟩

theorem Inv.r_ne_nil (I : Inv h w last r) {q : Nat} (hq : q < h.length) (h0 : q ≠ 0) :
    r q ≠ [] := by
  obtain ⟨s, _, _, _, hlt⟩ := I.slink_some q hq h0
  intro hnil; rw [hnil] at hlt; simp at hlt

theorem Inv.eq_zero_of_nil (I : Inv h w last r) {q : Nat} (hq : q < h.length) (hr : r q = []) :
    q = 0 := by
  by_contra h0; exact I.r_ne_nil hq h0 hr

theorem Inv.eq_of_r_eq (I : Inv h w last r) {q t : Nat} (hq : q < h.length) (ht : t < h.length)
    (hr : r q = r t) : q = t :=
  I.uniq q hq t ht (r q) (I.inClass_self hq) (hr ▸ I.inClass_self ht)

theorem Inv.len_le (I : Inv h w last r) {q : Nat} (hq : q < h.length) :
    (r q).length ≤ w.length := (I.factor q hq).length_le

theorem OnChain.trans {h : Heap} {q s t : Nat} (h1 : OnChain h q s) (h2 : OnChain h s t) :
    OnChain h q t := by
  induction h1 with
  | refl => exact h2
  | step q s' _ hs _ ih => exact OnChain.step q s' t hs (ih h2)

theorem Inv.onChain_suffix (I : Inv h w last r) {q t : Nat} (hq : q < h.length)
    (hc : OnChain h q t) : t < h.length ∧ r t <:+ r q := by
  induction hc with
  | refl => exact ⟨hq, List.suffix_refl _⟩
  | step q s t hs _ ih =>
    have h0 : q ≠ 0 := by
      rintro rfl; rw [I.slink_zero] at hs; cases hs
    obtain ⟨s', hs', hlt, hsuf, _⟩ := I.slink_some q hq h0
    rw [hs] at hs'; cases hs'
    obtain ⟨h1, h2⟩ := ih hlt
    exact ⟨h1, h2.trans hsuf⟩

/-- Every suffix of the label of `q` belongs to the class of a state on the
suffix chain of `q`. -/
theorem Inv.cover (I : Inv h w last r) :
    ∀ (n q : Nat), (r q).length ≤ n → q < h.length → ∀ x, x <:+ r q →
      ∃ t, t < h.length ∧ InClass h r t x ∧ OnChain h q t := by
  intro n
  induction n with
  | zero =>
    intro q hn hq x hx
    have hr : r q = [] := List.length_eq_zero.1 (by omega)
    have h0 := I.eq_zero_of_nil hq hr
    subst h0
    refine ⟨0, hq, ⟨hx, ?_⟩, OnChain.refl 0⟩
    rw [I.minLen_zero]; exact Nat.zero_le _
  | succ n ih =>
    intro q hn hq x hx
    by_cases hm : minLen h r q ≤ x.length
    · exact ⟨q, hq, ⟨hx, hm⟩, OnChain.refl q⟩
    · have h0 : q ≠ 0 := by
        rintro rfl; rw [I.minLen_zero] at hm; omega
      obtain ⟨s, hs, hlt, hsuf, hlen⟩ := I.slink_some q hq h0
      have hxs : x <:+ r s := by
        apply List.suffix_of_suffix_length_le hx hsuf
        simp only [minLen, hs] at hm; omega
      obtain ⟨t, ht, hcl, hch⟩ := ih s (by omega) hlt x hxs
      exact ⟨t, ht, hcl, OnChain.step q s t hs hch⟩

theorem Inv.onChain_of_suffix (I : Inv h w last r) {q t : Nat} (hq : q < h.length)
    (ht : t < h.length) (hs : r t <:+ r q) : OnChain h q t := by
  obtain ⟨t', ht', hcl, hch⟩ := I.cover _ q le_rfl hq (r t) hs
  have := I.uniq t ht t' ht' (r t) (I.inClass_self ht) hcl
  subst this; exact hch

/-- A word that leads to `q` belongs to the class of `q`. -/
theorem Inv.run_sound (I : Inv h w last r) (x : List Char) :
    ∀ q, run h 0 x = some q → q < h.length ∧ InClass h r q x := by
  induction x using List.reverseRecOn with
  | nil =>
    intro q hq
    simp only [run, Option.some.injEq] at hq
    subst hq
    refine ⟨I.pos, ?_, ?_⟩
    · rw [I.r_zero]
    · rw [I.minLen_zero]; exact Nat.zero_le _
  | append_singleton x a ih =>
    intro t ht
    rw [run_snoc] at ht
    cases hq : run h 0 x with
    | none => rw [hq] at ht; simp at ht
    | some q =>
      rw [hq] at ht
      change step h q a = some t at ht
      obtain ⟨hql, hcl⟩ := ih q hq
      obtain ⟨t', ht', htl, hsuf, hml⟩ := I.trans_sound q hql a (some t) (step_eq_some.1 ht)
      cases ht'
      refine ⟨htl, (suffix_snoc_of a hcl.1).trans hsuf, ?_⟩
      have := hcl.2
      simp only [List.length_append, List.length_singleton]
      omega

/-- If a word of the class of `q` can be extended by `a` inside `w`, so can the
label of `q`. -/
theorem Inv.class_extend (I : Inv h w last r) {q : Nat} (hq : q < h.length) {y : List Char}
    (hcl : InClass h r q y) {a : Char} (hf : y ++ [a] <:+: w) : r q ++ [a] <:+: w := by
  obtain ⟨P, hP, hyP⟩ := infix_snoc_occ hf
  have hP' : P <+: w := (List.prefix_append P [a]).trans hP
  have := I.occ q hq y P hcl hP' hyP
  exact factor_of_occurrence (suffix_snoc_of a this) hP

/-- Every factor of `w` leads to a state. -/
theorem Inv.run_complete (I : Inv h w last r) (x : List Char) :
    x <:+: w → ∃ q, run h 0 x = some q := by
  induction x using List.reverseRecOn with
  | nil => intro _; exact ⟨0, rfl⟩
  | append_singleton x a ih =>
    intro hf
    have hx : x <:+: w := (List.prefix_append x [a]).isInfix.trans hf
    obtain ⟨q, hq⟩ := ih hx
    obtain ⟨hql, hcl⟩ := I.run_sound x q hq
    have hne := I.trans_complete q hql a (I.class_extend hql hcl hf)
    cases hd : dfind (deref h q).delta a with
    | none => exact absurd hd hne
    | some v =>
      obtain ⟨t, hv, _⟩ := I.trans_sound q hql a v hd
      subst hv
      exact ⟨t, by rw [run_snoc, hq]; exact step_eq_some.2 hd⟩

theorem Inv.run_factor (I : Inv h w last r) {x : List Char} {q : Nat}
    (hq : run h 0 x = some q) : x <:+: w := by
  obtain ⟨hql, hcl⟩ := I.run_sound x q hq
  exact hcl.1.isInfix.trans (I.factor q hql)

/-- The label of `q` leads to `q`. -/
theorem Inv.run_label (I : Inv h w last r) {q : Nat} (hq : q < h.length) :
    run h 0 (r q) = some q := by
  obtain ⟨t, ht⟩ := I.run_complete (r q) (I.factor q hq)
  obtain ⟨htl, hcl⟩ := I.run_sound (r q) t ht
  have := I.uniq q hq t htl (r q) (I.inClass_self hq) hcl
  rw [ht, this]

theorem Inv.trans_factor (I : Inv h w last r) {q : Nat} (hq : q < h.length) {a : Char}
    {v : Option Nat} (hd : dfind (deref h q).delta a = some v) : r q ++ [a] <:+: w := by
  obtain ⟨t, _, htl, hsuf, _⟩ := I.trans_sound q hq a v hd
  exact hsuf.isInfix.trans (I.factor t htl)

/-- The state of a class is the target of the transition from the class of the
word without its last symbol. -/
theorem Inv.trans_target (I : Inv h w last r) {q t : Nat} (hq : q < h.length)
    (ht : t < h.length) {a : Char} {y : List Char} (hy : InClass h r q y)
    (hcl : InClass h r t (y ++ [a])) : dfind (deref h q).delta a = some (some t) := by
  have hf : y ++ [a] <:+: w := hcl.1.isInfix.trans (I.factor t ht)
  have hne := I.trans_complete q hq a (I.class_extend hq hy hf)
  cases hd : dfind (deref h q).delta a with
  | none => exact absurd hd hne
  | some v =>
    obtain ⟨t', hv, htl, hsuf, hml⟩ := I.trans_sound q hq a v hd
    subst hv
    have hcl' : InClass h r t' (y ++ [a]) := by
      refine ⟨(suffix_snoc_of a hy.1).trans hsuf, ?_⟩
      have := hy.2
      simp only [List.length_append, List.length_singleton]; omega
    rw [I.uniq t ht t' htl _ hcl hcl']

end

section

/-! ## One symbol more: the step without a clone -/

theorem minLen_congr {h h1 : Heap} {r r1 : Nat → List Char} {q : Nat}
    (hs : (deref h1 q).slink = (deref h q).slink)
    (hr : ∀ s, (deref h q).slink = some s → r1 s = r s) : minLen h1 r1 q = minLen h r q := by
  unfold minLen
  rw [hs]
  cases hq : (deref h q).slink with
  | none => rfl
  | some s => simp [hr s hq]

theorem minLen_of_slink {h : Heap} {r : Nat → List Char} {q s : Nat}
    (hs : (deref h q).slink = some s) : minLen h r q = (r s).length + 1 := by
  simp [minLen, hs]

theorem Longest.length_le {w : List Char} {a : Char} {z : List Char} (L : Longest w a z) :
    z.length ≤ w.length := L.fac.length_le

theorem Longest.suffix_of {w : List Char} {a : Char} {z : List Char} (L : Longest w a z)
    {x : List Char} (h1 : x <:+ w ++ [a]) (h2 : x <:+: w) : x <:+ z :=
  List.suffix_of_suffix_length_le h1 L.suf (L.max x h1 h2)

variable {h : Heap} {w : List Char} {last : Nat} {r : Nat → List Char}

/-- A state whose label is a suffix of `w` that cannot be followed by `a` inside
`w` has no class word shorter than `z`. -/
theorem Inv.stem_minLen (I : Inv h w last r) {a : Char} {z : List Char} (L : Longest w a z)
    {q : Nat} (hq : q < h.length) (hsuf : r q <:+ w) (hlen : z.length < (r q).length + 1) :
    z.length ≤ minLen h r q := by
  by_contra hlt
  have hlt : minLen h r q < z.length := by omega
  have hzne : z ≠ [] := by intro h0; rw [h0] at hlt; simp at hlt
  rcases suffix_snoc_cases L.suf with h0 | ⟨y, hy, hyw⟩
  · exact hzne h0
  · have hylen : y.length + 1 = z.length := by rw [hy]; simp
    have hyq : y <:+ r q := List.suffix_of_suffix_length_le hyw hsuf (by omega)
    have hcl : InClass h r q y := ⟨hyq, by omega⟩
    have hf : r q ++ [a] <:+: w := I.class_extend hq hcl (hy ▸ L.fac)
    have := L.max (r q ++ [a]) (suffix_snoc_of a hsuf) hf
    simp at this
    omega

/-- A class word that is a suffix of `w ++ [a]` is a suffix of `z`, and its
state is on the suffix chain of any state labelled `z`. -/
theorem Inv.suffix_state (I : Inv h w last r) {a : Char} {z : List Char} (L : Longest w a z)
    {s0 : Nat} (hs0 : s0 < h.length) (hz : r s0 = z) {q : Nat} (hq : q < h.length)
    {x : List Char} (hcl : InClass h r q x) (hx : x <:+ w ++ [a]) : OnChain h s0 q := by
  have hxf : x <:+: w := hcl.1.isInfix.trans (I.factor q hq)
  have hxz : x <:+ r s0 := hz ▸ L.suffix_of hx hxf
  obtain ⟨t, ht, hclt, hch⟩ := I.cover _ s0 le_rfl hs0 x hxz
  have := I.uniq q hq t ht x hcl hclt
  subst this; exact hch

theorem Inv.step_noclone (I : Inv h w last r) (a : Char) (z : List Char) (L : Longest w a z)
    (s0 : Nat) (hs0 : s0 < h.length) (hz : r s0 = z) (h1 : Heap)
    (hN : h1.length = h.length + 1)
    (hold : ∀ q, q < h.length → (deref h1 q).len = (deref h q).len ∧
      (deref h1 q).slink = (deref h q).slink ∧ (deref h1 q).final = (deref h q).final)
    (hnew : (deref h1 h.length).len = w.length + 1 ∧ (deref h1 h.length).slink = some s0 ∧
      (deref h1 h.length).final = false ∧ ∀ b, dfind (deref h1 h.length).delta b = none)
    (htr : ∀ q, q < h.length → ∀ b, dfind (deref h1 q).delta b =
      if b = a ∧ r q <:+ w ∧ z.length < (r q).length + 1 then some (some h.length)
      else dfind (deref h q).delta b)
    (hkeys : ∀ q, q < h1.length → ((deref h1 q).delta.map Prod.fst).Nodup) :
    Inv h1 (w ++ [a]) h.length (Function.update r h.length (w ++ [a])) := by
  have hpos := I.pos
  have hr : ∀ q, q < h.length → Function.update r h.length (w ++ [a]) q = r q := by
    intro q hq; rw [Function.update_noteq (by omega)]
  have hrN : Function.update r h.length (w ++ [a]) h.length = w ++ [a] := by simp
  have hml : ∀ q, q < h.length →
      minLen h1 (Function.update r h.length (w ++ [a])) q = minLen h r q := by
    intro q hq
    apply minLen_congr (hold q hq).2.1
    intro s hs
    by_cases h0 : q = 0
    · subst h0; rw [I.slink_zero] at hs; cases hs
    · obtain ⟨s', hs', hlt, _⟩ := I.slink_some q hq h0
      rw [hs] at hs'; cases hs'
      exact hr s hlt
  have hmlN : minLen h1 (Function.update r h.length (w ++ [a])) h.length = z.length + 1 := by
    rw [minLen_of_slink hnew.2.1, hr s0 hs0, hz]
  have hcls : ∀ q, q < h.length → ∀ x,
      InClass h1 (Function.update r h.length (w ++ [a])) q x ↔ InClass h r q x := by
    intro q hq x; unfold InClass; rw [hr q hq, hml q hq]
  have hclsN : ∀ x, InClass h1 (Function.update r h.length (w ++ [a])) h.length x ↔
      (x <:+ w ++ [a] ∧ z.length + 1 ≤ x.length) := by
    intro x; unfold InClass; rw [hrN, hmlN]
  have hnotfac : ∀ x, InClass h1 (Function.update r h.length (w ++ [a])) h.length x →
      ¬ x <:+: w := by
    intro x hx hf
    rw [hclsN] at hx
    have := L.max x hx.1 hf
    omega
  have hfac : ∀ q, q < h.length → ∀ x, InClass h r q x → x <:+: w :=
    fun q hq x hx => hx.1.isInfix.trans (I.factor q hq)
  refine
    { last_lt := by omega
      size := by have := I.size; simp; omega
      r_last := hrN
      r_zero := by rw [hr 0 hpos]; exact I.r_zero
      slink_zero := by rw [(hold 0 hpos).2.1]; exact I.slink_zero
      len_eq := ?_
      factor := ?_
      slink_some := ?_
      trans_sound := ?_
      trans_complete := ?_
      occ := ?_
      uniq := ?_
      final_eq := ?_
      keys := hkeys }
  · -- len_eq
    intro q hq
    rcases Nat.lt_or_ge q h.length with hq' | hq'
    · rw [(hold q hq').1, hr q hq']; exact I.len_eq q hq'
    · obtain rfl : q = h.length := by omega
      rw [hnew.1, hrN]; simp
  · -- factor
    intro q hq
    rcases Nat.lt_or_ge q h.length with hq' | hq'
    · rw [hr q hq']; exact infix_snoc_left a (I.factor q hq')
    · obtain rfl : q = h.length := by omega
      rw [hrN]
  · -- slink_some
    intro q hq h0
    rcases Nat.lt_or_ge q h.length with hq' | hq'
    · obtain ⟨s, hs, hlt, hsuf, hlen⟩ := I.slink_some q hq' h0
      refine ⟨s, by rw [(hold q hq').2.1]; exact hs, by omega, ?_, ?_⟩
      · rw [hr q hq', hr s hlt]; exact hsuf
      · rw [hr q hq', hr s hlt]; exact hlen
    · obtain rfl : q = h.length := by omega
      refine ⟨s0, hnew.2.1, by omega, ?_, ?_⟩
      · rw [hrN, hr s0 hs0, hz]; exact L.suf
      · rw [hrN, hr s0 hs0, hz]
        have := L.length_le; simp; omega
  · -- trans_sound
    intro q hq b v hv
    rcases Nat.lt_or_ge q h.length with hq' | hq'
    · rw [htr q hq' b] at hv
      split at hv
      · rename_i hc
        obtain ⟨rfl, hsuf, hlen⟩ := hc
        cases hv
        refine ⟨h.length, rfl, by omega, ?_, ?_⟩
        · rw [hr q hq', hrN]; exact suffix_snoc_of b hsuf
        · rw [hmlN, hml q hq']
          have := I.stem_minLen L hq' hsuf hlen
          omega
      · obtain ⟨t, hvt, htl, hsuf, hm⟩ := I.trans_sound q hq' b v hv
        refine ⟨t, hvt, by omega, ?_, ?_⟩
        · rw [hr q hq', hr t htl]; exact hsuf
        · rw [hml q hq', hml t htl]; exact hm
    · obtain rfl : q = h.length := by omega
      rw [hnew.2.2.2 b] at hv; cases hv
  · -- trans_complete
    intro q hq b hf
    rcases Nat.lt_or_ge q h.length with hq' | hq'
    · rw [hr q hq'] at hf
      rw [htr q hq' b]
      split
      · simp
      · rename_i hc
        rcases infix_snoc_cases hf with hs | hf'
        · obtain ⟨hba, hsuf⟩ := suffix_snoc_inj hs
          have hlen : (r q).length + 1 ≤ z.length := by
            by_contra hlt; exact hc ⟨hba, hsuf, by omega⟩
          have : r q ++ [b] <:+ z :=
            List.suffix_of_suffix_length_le hs L.suf (by simpa using hlen)
          exact I.trans_complete q hq' b (this.isInfix.trans L.fac)
        · exact I.trans_complete q hq' b hf'
    · obtain rfl : q = h.length := by omega
      rw [hrN] at hf
      have := hf.length_le
      simp at this
  · -- occ
    intro q hq x P hcl hP hxP
    rcases Nat.lt_or_ge q h.length with hq' | hq'
    · rw [hcls q hq'] at hcl
      rw [hr q hq']
      rcases prefix_snoc_cases hP with rfl | hP'
      · have hch := I.suffix_state L hs0 hz hq' hcl hxP
        have := (I.onChain_suffix hs0 hch).2
        rw [hz] at this
        exact this.trans L.suf
      · exact I.occ q hq' x P hcl hP' hxP
    · obtain rfl : q = h.length := by omega
      rw [hrN]
      rcases prefix_snoc_cases hP with rfl | hP'
      · exact List.suffix_refl _
      · exact absurd (factor_of_occurrence hxP hP') (hnotfac x hcl)
  · -- uniq
    intro q hq q1 hq1 x hx hx1
    rcases Nat.lt_or_ge q h.length with hq' | hq'
    · rcases Nat.lt_or_ge q1 h.length with hq1' | hq1'
      · rw [hcls q hq'] at hx; rw [hcls q1 hq1'] at hx1
        exact I.uniq q hq' q1 hq1' x hx hx1
      · obtain rfl : q1 = h.length := by omega
        rw [hcls q hq'] at hx
        exact absurd (hfac q hq' x hx) (hnotfac x hx1)
    · obtain rfl : q = h.length := by omega
      rcases Nat.lt_or_ge q1 h.length with hq1' | hq1'
      · rw [hcls q1 hq1'] at hx1
        exact absurd (hfac q1 hq1' x hx1) (hnotfac x hx)
      · omega
  · -- final_eq
    intro q hq
    rcases Nat.lt_or_ge q h.length with hq' | hq'
    · rw [(hold q hq').2.2]; exact I.final_eq q hq'
    · obtain rfl : q = h.length := by omega
      rw [hnew.2.2.1]
      have : h.length ≠ 0 := by omega
      simp [this]

end

section

/-! ## One symbol more: the step with a clone -/

variable {h : Heap} {w : List Char} {last : Nat} {r : Nat → List Char}

theorem Inv.step_clone (I : Inv h w last r) (a : Char) (p suf : Nat) (hp : p < h.length)
    (hsuf : suf < h.length) (L : Longest w a (r p ++ [a]))
    (hpsuf : dfind (deref h p).delta a = some (some suf))
    (hlen : (r p).length + 1 < (r suf).length)
    (h1 : Heap) (hN : h1.length = h.length + 2)
    (hold : ∀ q, q < h.length → (deref h1 q).len = (deref h q).len ∧
      (deref h1 q).final = (deref h q).final ∧
      (deref h1 q).slink = if q = suf then some (h.length + 1) else (deref h q).slink)
    (hnew : (deref h1 h.length).len = w.length + 1 ∧
      (deref h1 h.length).slink = some (h.length + 1) ∧
      (deref h1 h.length).final = false ∧ ∀ b, dfind (deref h1 h.length).delta b = none)
    (hcl : (deref h1 (h.length + 1)).len = (r p).length + 1 ∧
      (deref h1 (h.length + 1)).slink = (deref h suf).slink ∧
      (deref h1 (h.length + 1)).final = false ∧
      ∀ b, dfind (deref h1 (h.length + 1)).delta b = dfind (deref h1 suf).delta b)
    (htr : ∀ q, q < h.length → ∀ b, dfind (deref h1 q).delta b =
      if b = a ∧ r q <:+ w ∧ (r p).length + 1 < (r q).length + 1 then some (some h.length)
      else if b = a ∧ r q <:+ r p ∧ dfind (deref h q).delta a = some (some suf) then
        some (some (h.length + 1))
      else dfind (deref h q).delta b)
    (hkeys : ∀ q, q < h1.length → ((deref h1 q).delta.map Prod.fst).Nodup) :
    Inv h1 (w ++ [a]) h.length (cloneLabel r h.length (w ++ [a]) (r p ++ [a])) := by
  have hpos := I.pos
  have hzlen : (r p ++ [a]).length = (r p).length + 1 := by simp
  obtain ⟨_, hc0, _, hzsuf, hmlsuf⟩ := I.trans_sound p hp a _ hpsuf
  cases hc0
  have hmlz : minLen h r suf ≤ (r p).length + 1 := by
    have := I.minLen_le hp; omega
  have hpw : r p <:+ w := (suffix_snoc_inj L.suf).2
  have hsuf0 : suf ≠ 0 := by
    rintro rfl; rw [I.r_zero] at hlen; simp at hlen
  obtain ⟨ss, hss, hsslt, hsssuf, hsslen⟩ := I.slink_some suf hsuf hsuf0
  have hmlss : minLen h r suf = (r ss).length + 1 := minLen_of_slink hss
  have hr : ∀ q, q < h.length → cloneLabel r h.length (w ++ [a]) (r p ++ [a]) q = r q := by
    intro q hq
    have h1 : q ≠ h.length := by omega
    have h2 : q ≠ h.length + 1 := by omega
    simp [cloneLabel, h1, h2]
  have hrN : cloneLabel r h.length (w ++ [a]) (r p ++ [a]) h.length = w ++ [a] := by
    simp [cloneLabel]
  have hrC : cloneLabel r h.length (w ++ [a]) (r p ++ [a]) (h.length + 1) = r p ++ [a] := by
    simp [cloneLabel]
  have hml : ∀ q, q < h.length → q ≠ suf →
      minLen h1 (cloneLabel r h.length (w ++ [a]) (r p ++ [a])) q = minLen h r q := by
    intro q hq hne
    apply minLen_congr (by rw [(hold q hq).2.2, if_neg hne])
    intro s hs
    by_cases h0 : q = 0
    · subst h0; rw [I.slink_zero] at hs; cases hs
    · obtain ⟨s', hs', hlt, _⟩ := I.slink_some q hq h0
      rw [hs] at hs'; cases hs'
      exact hr s hlt
  have hmlS : minLen h1 (cloneLabel r h.length (w ++ [a]) (r p ++ [a])) suf
      = (r p).length + 2 := by
    rw [minLen_of_slink (show (deref h1 suf).slink = some (h.length + 1) by
      rw [(hold suf hsuf).2.2, if_pos rfl]), hrC, hzlen]
  have hmlN : minLen h1 (cloneLabel r h.length (w ++ [a]) (r p ++ [a])) h.length
      = (r p).length + 2 := by
    rw [minLen_of_slink hnew.2.1, hrC, hzlen]
  have hmlC : minLen h1 (cloneLabel r h.length (w ++ [a]) (r p ++ [a])) (h.length + 1)
      = minLen h r suf := by
    rw [minLen_of_slink (show (deref h1 (h.length + 1)).slink = some ss by rw [hcl.2.1, hss]),
      hr ss hsslt, hmlss]
  have hmlge : ∀ q, q < h.length →
      minLen h r q ≤ minLen h1 (cloneLabel r h.length (w ++ [a]) (r p ++ [a])) q := by
    intro q hq
    by_cases hne : q = suf
    · subst hne; rw [hmlS]; omega
    · rw [hml q hq hne]
  have hcls : ∀ q, q < h.length → q ≠ suf → ∀ x,
      InClass h1 (cloneLabel r h.length (w ++ [a]) (r p ++ [a])) q x ↔ InClass h r q x := by
    intro q hq hne x; unfold InClass; rw [hr q hq, hml q hq hne]
  have hclsS : ∀ x, InClass h1 (cloneLabel r h.length (w ++ [a]) (r p ++ [a])) suf x ↔
      (x <:+ r suf ∧ (r p).length + 2 ≤ x.length) := by
    intro x; unfold InClass; rw [hr suf hsuf, hmlS]
  have hclsN : ∀ x, InClass h1 (cloneLabel r h.length (w ++ [a]) (r p ++ [a])) h.length x ↔
      (x <:+ w ++ [a] ∧ (r p).length + 2 ≤ x.length) := by
    intro x; unfold InClass; rw [hrN, hmlN]
  have hclsC : ∀ x, InClass h1 (cloneLabel r h.length (w ++ [a]) (r p ++ [a])) (h.length + 1) x ↔
      (x <:+ r p ++ [a] ∧ minLen h r suf ≤ x.length) := by
    intro x; unfold InClass; rw [hrC, hmlC]
  have hfac : ∀ q, q < h.length → ∀ x, x <:+ r q → x <:+: w :=
    fun q hq x hx => hx.isInfix.trans (I.factor q hq)
  -- the class of a new-heap state, seen from the old heap
  have hkey : ∀ q, q < h1.length → ∀ x,
      InClass h1 (cloneLabel r h.length (w ++ [a]) (r p ++ [a])) q x →
      (q = h.length ∧ ¬ x <:+: w) ∨
      (q ≠ h.length ∧ x <:+: w ∧ InClass h r (if q = h.length + 1 then suf else q) x ∧
        (q = h.length + 1 → x.length ≤ (r p).length + 1) ∧
        (q = suf → (r p).length + 2 ≤ x.length)) := by
    intro q hq x hx
    rcases Nat.lt_or_ge q h.length with hq' | hq'
    · right
      have hqN : q ≠ h.length := by omega
      have hqC : q ≠ h.length + 1 := by omega
      by_cases hqs : q = suf
      · subst hqs
        rw [hclsS] at hx
        refine ⟨hqN, hfac q hq' x hx.1, ?_, fun hh => absurd hh hqC, fun _ => hx.2⟩
        rw [if_neg hqC]; exact ⟨hx.1, by omega⟩
      · rw [hcls q hq' hqs] at hx
        refine ⟨hqN, hfac q hq' x hx.1, ?_, fun hh => absurd hh hqC, fun hh => absurd hh hqs⟩
        rw [if_neg hqC]; exact hx
    · rcases Nat.eq_or_lt_of_le hq' with hq'' | hq''
      · left
        subst hq''
        rw [hclsN] at hx
        refine ⟨rfl, fun hf => ?_⟩
        have := L.max x hx.1 hf
        rw [hzlen] at this; omega
      · right
        obtain rfl : q = h.length + 1 := by omega
        rw [hclsC] at hx
        refine ⟨by omega, hx.1.isInfix.trans L.fac, ?_, fun _ => ?_, fun hh => ?_⟩
        · rw [if_pos rfl]; exact ⟨hx.1.trans hzsuf, hx.2⟩
        · have := hx.1.length_le; rw [hzlen] at this; exact this
        · omega
  refine
    { last_lt := by omega
      size := by have := I.size; simp; omega
      r_last := hrN
      r_zero := by rw [hr 0 hpos]; exact I.r_zero
      slink_zero := by rw [(hold 0 hpos).2.2, if_neg (Ne.symm hsuf0)]; exact I.slink_zero
      len_eq := ?_
      factor := ?_
      slink_some := ?_
      trans_sound := ?_
      trans_complete := ?_
      occ := ?_
      uniq := ?_
      final_eq := ?_
      keys := hkeys }
  · -- len_eq
    intro q hq
    rcases Nat.lt_or_ge q h.length with hq' | hq'
    · rw [(hold q hq').1, hr q hq']; exact I.len_eq q hq'
    · rcases Nat.eq_or_lt_of_le hq' with hq'' | hq''
      · subst hq''; rw [hnew.1, hrN]; simp
      · obtain rfl : q = h.length + 1 := by omega
        rw [hcl.1, hrC]; simp
  · -- factor
    intro q hq
    rcases Nat.lt_or_ge q h.length with hq' | hq'
    · rw [hr q hq']; exact infix_snoc_left a (I.factor q hq')
    · rcases Nat.eq_or_lt_of_le hq' with hq'' | hq''
      · subst hq''; rw [hrN]
      · obtain rfl : q = h.length + 1 := by omega
        rw [hrC]; exact L.suf.isInfix
  · -- slink_some
    intro q hq h0
    rcases Nat.lt_or_ge q h.length with hq' | hq'
    · by_cases hqs : q = suf
      · subst hqs
        refine ⟨h.length + 1, by rw [(hold q hq').2.2, if_pos rfl], by omega, ?_, ?_⟩
        · rw [hrC, hr q hq']; exact hzsuf
        · rw [hrC, hr q hq', hzlen]; exact hlen
      · obtain ⟨s, hs, hlt, hsuf', hlen'⟩ := I.slink_some q hq' h0
        refine ⟨s, by rw [(hold q hq').2.2, if_neg hqs]; exact hs, by omega, ?_, ?_⟩
        · rw [hr q hq', hr s hlt]; exact hsuf'
        · rw [hr q hq', hr s hlt]; exact hlen'
    · rcases Nat.eq_or_lt_of_le hq' with hq'' | hq''
      · subst hq''
        refine ⟨h.length + 1, hnew.2.1, by omega, ?_, ?_⟩
        · rw [hrC, hrN]; exact L.suf
        · rw [hrC, hrN, hzlen]
          have := L.length_le; rw [hzlen] at this; simp; omega
      · obtain rfl : q = h.length + 1 := by omega
        refine ⟨ss, by rw [hcl.2.1, hss], by omega, ?_, ?_⟩
        · rw [hrC, hr ss hsslt]
          exact List.suffix_of_suffix_length_le hsssuf hzsuf (by rw [hzlen]; omega)
        · rw [hrC, hr ss hsslt, hzlen]; omega
  · -- trans_sound
    intro q hq b v hv
    rcases Nat.lt_or_ge q h.length with hq' | hq'
    · rw [htr q hq' b] at hv
      split at hv
      · rename_i hc
        obtain ⟨rfl, hsw, hl⟩ := hc
        cases hv
        refine ⟨h.length, rfl, by omega, ?_, ?_⟩
        · rw [hr q hq', hrN]; exact suffix_snoc_of b hsw
        · rw [hmlN]
          have h1 := I.stem_minLen L hq' hsw (by rw [hzlen]; omega)
          have h2 := hmlge q hq'
          rw [hzlen] at h1; omega
      · split at hv
        · rename_i hc
          obtain ⟨rfl, hqp, hd⟩ := hc
          cases hv
          obtain ⟨_, hc0, _, _, hm⟩ := I.trans_sound q hq' b _ hd
          cases hc0
          refine ⟨h.length + 1, rfl, by omega, ?_, ?_⟩
          · rw [hr q hq', hrC]; exact suffix_snoc_of b hqp
          · rw [hmlC]
            have := hmlge q hq'; omega
        · rename_i hc1 hc2
          obtain ⟨t, hvt, htl, hsuf', hm⟩ := I.trans_sound q hq' b v hv
          subst hvt
          refine ⟨t, rfl, by omega, ?_, ?_⟩
          · rw [hr q hq', hr t htl]; exact hsuf'
          · by_cases hts : t = suf
            · subst hts
              have hqt : q ≠ t := by
                rintro rfl
                have := hsuf'.length_le; simp at this
              rw [hmlS, hml q hq' hqt]
              by_contra hlt
              have hlt : minLen h r q < (r p).length + 1 := by omega
              obtain ⟨x, hxq, hxl⟩ := exists_suffix_length (r q) (minLen h r q) (I.minLen_le hq')
              have hx : InClass h r q x := ⟨hxq, by omega⟩
              have hxb : x ++ [b] <:+ r p ++ [a] := by
                apply List.suffix_of_suffix_length_le ((suffix_snoc_of b hxq).trans hsuf') hzsuf
                simp; omega
              obtain ⟨hba, hxp⟩ := suffix_snoc_inj hxb
              obtain ⟨t', ht', hclt, hch⟩ := I.cover _ p le_rfl hp x hxp
              have := I.uniq q hq' t' ht' x hx hclt
              subst this
              exact hc2 ⟨hba, (I.onChain_suffix hp hch).2, hba ▸ hv⟩
            · rw [hml t htl hts]
              have := hmlge q hq'; omega
    · rcases Nat.eq_or_lt_of_le hq' with hq'' | hq''
      · subst hq''; rw [hnew.2.2.2 b] at hv; cases hv
      · obtain rfl : q = h.length + 1 := by omega
        rw [hcl.2.2.2 b, htr suf hsuf b] at hv
        split at hv
        · rename_i hc
          obtain ⟨rfl, hsw, hl⟩ := hc
          cases hv
          refine ⟨h.length, rfl, by omega, ?_, ?_⟩
          · rw [hrC, hrN]; exact suffix_snoc_of b (hzsuf.trans hsw)
          · rw [hmlN, hmlC]
            have h1 := I.stem_minLen L hsuf hsw (by rw [hzlen]; omega)
            rw [hzlen] at h1; omega
        · split at hv
          · rename_i hc
            have := hc.2.1.length_le; omega
          · obtain ⟨t, hvt, htl, hsuf', hm⟩ := I.trans_sound suf hsuf b v hv
            subst hvt
            have hts : t ≠ suf := by
              rintro rfl
              have := hsuf'.length_le; simp at this
            refine ⟨t, rfl, by omega, ?_, ?_⟩
            · rw [hrC, hr t htl]; exact (suffix_snoc_of b hzsuf).trans hsuf'
            · rw [hml t htl hts, hmlC]; exact hm
  · -- trans_complete
    have hold_ne : ∀ q, q < h.length → ∀ b, dfind (deref h q).delta b ≠ none →
        dfind (deref h1 q).delta b ≠ none := by
      intro q hq b hne
      rw [htr q hq b]
      split
      · simp
      · split
        · simp
        · exact hne
    intro q hq b hf
    rcases Nat.lt_or_ge q h.length with hq' | hq'
    · rw [hr q hq'] at hf
      rcases infix_snoc_cases hf with hs | hf'
      · obtain ⟨hba, hsw⟩ := suffix_snoc_inj hs
        by_cases hl : (r p).length + 1 < (r q).length + 1
        · rw [htr q hq' b, if_pos ⟨hba, hsw, hl⟩]; simp
        · have : r q ++ [b] <:+ r p ++ [a] :=
            List.suffix_of_suffix_length_le hs L.suf (by simp; omega)
          exact hold_ne q hq' b (I.trans_complete q hq' b (this.isInfix.trans L.fac))
      · exact hold_ne q hq' b (I.trans_complete q hq' b hf')
    · rcases Nat.eq_or_lt_of_le hq' with hq'' | hq''
      · subst hq''
        rw [hrN] at hf
        have := hf.length_le
        simp at this
      · obtain rfl : q = h.length + 1 := by omega
        rw [hrC] at hf
        rw [hcl.2.2.2 b]
        have hzcl : InClass h r suf (r p ++ [a]) := ⟨hzsuf, by rw [hzlen]; exact hmlz⟩
        rcases infix_snoc_cases hf with hs | hf'
        · obtain ⟨hba, hzw⟩ := suffix_snoc_inj hs
          obtain ⟨t', ht', hclt, hch⟩ := I.cover _ last le_rfl I.last_lt (r p ++ [a])
            (by rw [I.r_last]; exact hzw)
          have := I.uniq suf hsuf t' ht' _ hzcl hclt
          subst this
          have hsw : r suf <:+ w := by
            have := (I.onChain_suffix I.last_lt hch).2
            rwa [I.r_last] at this
          rw [htr suf hsuf b, if_pos ⟨hba, hsw, by omega⟩]; simp
        · exact hold_ne suf hsuf b (I.trans_complete suf hsuf b (I.class_extend hsuf hzcl hf'))
  · -- occ
    intro q hq x P hx hP hxP
    rcases hkey q hq x hx with ⟨rfl, hnf⟩ | ⟨hqN, hxf, hxo, hxC, hxS⟩
    · rw [hrN]
      rcases prefix_snoc_cases hP with rfl | hP'
      · exact List.suffix_refl _
      · exact absurd (factor_of_occurrence hxP hP') hnf
    · rcases prefix_snoc_cases hP with rfl | hP'
      · -- the occurrence ends at the new symbol
        have hxz : x <:+ r p ++ [a] := L.suffix_of hxP hxf
        have hxlen := hxz.length_le
        rw [hzlen] at hxlen
        by_cases hqC : q = h.length + 1
        · subst hqC; rw [hrC]; exact L.suf
        · rw [if_neg hqC] at hxo
          have hq' : q < h.length := by omega
          rw [hr q hq']
          by_cases hqs : q = suf
          · have := hxS hqs; omega
          · -- `q` is a proper suffix-link ancestor of `suf`
            obtain ⟨t', ht', hclt, hch⟩ := I.cover _ suf le_rfl hsuf x (hxz.trans hzsuf)
            have := I.uniq q hq' t' ht' x hxo hclt
            subst this
            cases hch with
            | refl => exact absurd rfl hqs
            | step _ s _ hs hch' =>
              rw [hss] at hs; cases hs
              have hqss := (I.onChain_suffix hsslt hch').2
              have : r q <:+ r p ++ [a] := by
                apply List.suffix_of_suffix_length_le (hqss.trans hsssuf) hzsuf
                have := hqss.length_le
                rw [hzlen]; omega
              exact this.trans L.suf
      · by_cases hqC : q = h.length + 1
        · subst hqC
          rw [if_pos rfl] at hxo
          rw [hrC]
          exact hzsuf.trans (I.occ suf hsuf x P hxo hP' hxP)
        · rw [if_neg hqC] at hxo
          have hq' : q < h.length := by omega
          rw [hr q hq']
          exact I.occ q hq' x P hxo hP' hxP
  · -- uniq
    intro q hq q1 hq1 x hx hx1
    rcases hkey q hq x hx with ⟨rfl, hnf⟩ | ⟨hqN, hxf, hxo, hxC, hxS⟩
    · rcases hkey q1 hq1 x hx1 with ⟨rfl, _⟩ | ⟨_, hxf1, _⟩
      · rfl
      · exact absurd hxf1 hnf
    · rcases hkey q1 hq1 x hx1 with ⟨rfl, hnf⟩ | ⟨hq1N, _, hxo1, hxC1, hxS1⟩
      · exact absurd hxf hnf
      · have ho : (if q = h.length + 1 then suf else q) < h.length := by
          split
          · exact hsuf
          · omega
        have ho1 : (if q1 = h.length + 1 then suf else q1) < h.length := by
          split
          · exact hsuf
          · omega
        have := I.uniq _ ho _ ho1 x hxo hxo1
        by_cases hqC : q = h.length + 1
        · by_cases hq1C : q1 = h.length + 1
          · omega
          · rw [if_pos hqC, if_neg hq1C] at this
            have h1 := hxC hqC
            have h2 := hxS1 this.symm
            omega
        · by_cases hq1C : q1 = h.length + 1
          · rw [if_neg hqC, if_pos hq1C] at this
            have h1 := hxC1 hq1C
            have h2 := hxS this
            omega
          · rw [if_neg hqC, if_neg hq1C] at this
            exact this
  · -- final_eq
    intro q hq
    rcases Nat.lt_or_ge q h.length with hq' | hq'
    · rw [(hold q hq').2.1]; exact I.final_eq q hq'
    · rcases Nat.eq_or_lt_of_le hq' with hq'' | hq''
      · subst hq''
        rw [hnew.2.2.1]
        have : h.length ≠ 0 := by omega
        simp [this]
      · obtain rfl : q = h.length + 1 := by omega
        rw [hcl.2.2.1]
        simp

end

section

/-! ## The loop of `FindStem` -/

theorem keys_dset (d : Delta) (a : Char) (v : Option Nat) (hd : (d.map Prod.fst).Nodup) :
    ((dset d a v).map Prod.fst).Nodup := by
  have hk : ∀ (d : Delta), (dset d a v).map Prod.fst =
      if a ∈ d.map Prod.fst then d.map Prod.fst else d.map Prod.fst ++ [a] := by
    intro d
    induction d with
    | nil => simp [dset]
    | cons e d ih =>
      obtain ⟨b, u⟩ := e
      by_cases hb : b = a
      · subst hb; simp [dset]
      · have hab : a ≠ b := fun hh => hb hh.symm
        simp only [dset, hb, if_false, List.map_cons, ih, List.mem_cons, hab, false_or]
        split <;> simp
  rw [hk]
  split
  · exact hd
  · rename_i hn
    rw [List.nodup_append]
    refine ⟨hd, by simp, ?_⟩
    intro x hx hx'
    simp at hx'
    subst hx'
    exact hn hx

theorem deref_default_of_ge (h : Heap) (q : Nat) (hq : h.length ≤ q) :
    deref h q = { len := 0, index := 0, slink := none, delta := [], final := false } := by
  simp [deref, List.getD_eq_getElem?_getD, List.getElem?_eq_none hq]

variable {h : Heap} {w : List Char} {last : Nat} {r : Nat → List Char}

theorem findStem_loop (I : Inv h w last r) (a : Char) (s : State) :
    ∀ (fuel : Nat) (q : Option Nat) (L : Nat) (hc : Heap),
      StemInv h w r a (h ++ [s]) hc L →
      ((q = none ∧ L = 0) ∨ ∃ t, q = some t ∧ t < h.length ∧ r t <:+ w ∧ L = (r t).length + 1) →
      L + 1 ≤ fuel →
      ∃ h1 p L1, FindStem a h.length fuel hc q = .ok (h1, p) ∧
        StemInv h w r a (h ++ [s]) h1 L1 ∧
        ((p = none ∧ L1 = 0) ∨
          ∃ t, p = some t ∧ t < h.length ∧ r t <:+ w ∧ L1 = (r t).length + 1 ∧
            r t ++ [a] <:+: w) := by
  intro fuel
  induction fuel with
  | zero => intro q L hc _ _ hf; omega
  | succ fuel ih =>
    intro q L hc S hq hf
    rcases hq with ⟨rfl, rfl⟩ | ⟨t, rfl, ht, htw, rfl⟩
    · exact ⟨hc, none, 0, rfl, S, Or.inl ⟨rfl, rfl⟩⟩
    · have hd0 : dfind (deref hc t).delta a = dfind (deref h t).delta a := by
        rw [S.tr t a, if_neg (by intro hh; have := hh.2.2.2; omega), deref_append_lt _ _ _ ht]
      have htc : t < hc.length := by rw [S.length_eq]; simp; omega
      cases hd : dfind (deref h t).delta a with
      | some v =>
        refine ⟨hc, some t, _, ?_, S, Or.inr ⟨t, rfl, ht, htw, rfl, I.trans_factor ht hd⟩⟩
        simp only [FindStem, hd0, hd]
      | none =>
        have hnf : ¬ r t ++ [a] <:+: w := fun hf' => I.trans_complete t ht a hf' hd
        have hsl : (deref hc t).slink = (deref h t).slink := by
          rw [(S.fields t).2.1, deref_append_lt _ _ _ ht]
        -- the states between the suffix link of `t` and `t` are `t` alone
        have honly : ∀ t', t' < h.length → r t' <:+ w → minLen h r t ≤ (r t').length →
            (r t').length < (r t).length + 1 → t' = t := by
          intro t' ht' htw' h1 h2
          have hs : r t' <:+ r t := List.suffix_of_suffix_length_le htw' htw (by omega)
          exact (I.uniq t ht t' ht' (r t') ⟨hs, h1⟩ (I.inClass_self ht')).symm
        have S1 : StemInv h w r a (h ++ [s]) (setDelta hc t a (some h.length))
            (minLen h r t) := by
          refine ⟨by simp [S.length_eq], ?_, ?_, ?_, ?_⟩
          · intro t'
            rw [deref_setDelta _ _ _ _ _ htc]
            split
            · rename_i htt; subst htt; exact S.fields t'
            · exact S.fields t'
          · intro t' b
            rw [deref_setDelta _ _ _ _ _ htc]
            by_cases htt : t' = t
            · subst htt
              simp only [if_true, dfind_dset]
              by_cases hb : b = a
              · subst hb
                rw [if_pos rfl, if_pos ⟨ht, rfl, htw, I.minLen_le ht⟩]
              · rw [if_neg hb, S.tr t' b, if_neg (fun hh => hb hh.2.1),
                  if_neg (fun hh => hb hh.2.1)]
            · rw [if_neg htt, S.tr t' b]
              by_cases hc1 : t' < h.length ∧ b = a ∧ r t' <:+ w ∧ (r t).length + 1 ≤ (r t').length
              · rw [if_pos hc1, if_pos ⟨hc1.1, hc1.2.1, hc1.2.2.1, by
                  have := I.minLen_le ht; omega⟩]
              · rw [if_neg hc1, if_neg]
                rintro ⟨h1, h2, h3, h4⟩
                by_cases h5 : (r t).length + 1 ≤ (r t').length
                · exact hc1 ⟨h1, h2, h3, h5⟩
                · exact htt (honly t' h1 h3 h4 (by omega))
          · intro t'
            rw [deref_setDelta _ _ _ _ _ htc]
            split
            · exact keys_dset _ _ _ (S.keys t)
            · exact S.keys t'
          · intro t' ht' htw' hl
            by_cases h5 : (r t).length + 1 ≤ (r t').length
            · exact S.nofac t' ht' htw' h5
            · rw [honly t' ht' htw' hl (by omega)]; exact hnf
        have hq1 : ((deref h t).slink = none ∧ minLen h r t = 0) ∨
            ∃ t1, (deref h t).slink = some t1 ∧ t1 < h.length ∧ r t1 <:+ w ∧
              minLen h r t = (r t1).length + 1 := by
          by_cases h0 : t = 0
          · subst h0; exact Or.inl ⟨I.slink_zero, I.minLen_zero⟩
          · obtain ⟨s1, hs1, hlt, hsuf, _⟩ := I.slink_some t ht h0
            exact Or.inr ⟨s1, hs1, hlt, hsuf.trans htw, minLen_of_slink hs1⟩
        obtain ⟨h1, p, L1, hrun, S2, hp⟩ := ih (deref h t).slink (minLen h r t) _ S1 hq1
          (by have := I.minLen_le ht; omega)
        refine ⟨h1, p, L1, ?_, S2, hp⟩
        simp only [FindStem, hd0, hd, hsl]
        exact hrun

/-- The initial loop state of `FindStem`. -/
theorem stemInv_init (I : Inv h w last r) (a : Char) (s : State) (hs : s.delta = []) :
    StemInv h w r a (h ++ [s]) (h ++ [s]) (w.length + 1) := by
  refine ⟨rfl, fun t => ⟨rfl, rfl, rfl⟩, ?_, ?_, ?_⟩
  · intro t b
    rw [if_neg]
    rintro ⟨_, _, h3, h4⟩
    have := h3.length_le; omega
  · intro t
    rcases Nat.lt_trichotomy t h.length with ht | ht | ht
    · rw [deref_append_lt _ _ _ ht]; exact I.keys t ht
    · subst ht; rw [deref_append_eq, hs]; simp
    · rw [deref_default_of_ge _ _ (by simp; omega)]; simp
  · intro t _ h3 h4
    have := h3.length_le; omega

/-- The outcome of `FindStem` in the step for `a`: the stem `p`, the longest
suffix `z` of `w ++ [a]` inside `w`, and the heap. -/
theorem findStem_spec (I : Inv h w last r) (a : Char) (s : State) (hs : s.delta = []) :
    ∃ h1 p z, FindStem a h.length ((h ++ [s]).length + 1) (h ++ [s]) (some last) = .ok (h1, p) ∧
      StemInv h w r a (h ++ [s]) h1 z.length ∧ Longest w a z ∧
      ((p = none ∧ z = []) ∨
        ∃ t, p = some t ∧ t < h.length ∧ z = r t ++ [a]) := by
  obtain ⟨h1, p, L1, hrun, S, hp⟩ := findStem_loop I a s ((h ++ [s]).length + 1) (some last)
    (w.length + 1) (h ++ [s]) (stemInv_init I a s hs)
    (Or.inr ⟨last, rfl, I.last_lt, by rw [I.r_last], by rw [I.r_last]⟩)
    (by have := I.size; simp; omega)
  -- no suffix of `w ++ [a]` longer than `L1` is a factor of `w`
  have hmax : ∀ x, x <:+ w ++ [a] → x <:+: w → x.length ≤ L1 := by
    intro x hx hf
    rcases suffix_snoc_cases hx with rfl | ⟨y, rfl, hyw⟩
    · simp
    · obtain ⟨t', ht', hcl, hch⟩ := I.cover _ last le_rfl I.last_lt y (by rw [I.r_last]; exact hyw)
      have htw : r t' <:+ w := by
        have := (I.onChain_suffix I.last_lt hch).2
        rwa [I.r_last] at this
      have hf' := I.class_extend ht' hcl hf
      have : ¬ L1 ≤ (r t').length := fun hl => S.nofac t' ht' htw hl hf'
      have := hcl.1.length_le
      simp; omega
  rcases hp with ⟨rfl, rfl⟩ | ⟨t, rfl, ht, htw, rfl, hfac⟩
  · refine ⟨h1, none, [], hrun, S, ⟨List.nil_suffix, List.nil_infix, ?_⟩, Or.inl ⟨rfl, rfl⟩⟩
    intro x hx hf; exact hmax x hx hf
  · refine ⟨h1, some t, r t ++ [a], hrun, by simpa using S, ⟨suffix_snoc_of a htw, hfac, ?_⟩,
      Or.inr ⟨t, rfl, ht, rfl⟩⟩
    intro x hx hf
    have := hmax x hx hf
    simpa using this

end

section

variable {h : Heap} {w : List Char} {last : Nat} {r : Nat → List Char}

/-! ## The heap after a step without a clone -/

theorem step_noclone_heap (I : Inv h w last r) (a : Char) (s : State)
    (hs : s = { len := (w.length : Int) + 1, index := 0, slink := none, delta := [],
                final := false })
    (h1 : Heap) (z : List Char) (S : StemInv h w r a (h ++ [s]) h1 z.length)
    (L : Longest w a z) (s0 : Nat) (hs0 : s0 < h.length) (hz : r s0 = z) :
    Inv (setSlink h1 h.length (some s0)) (w ++ [a]) h.length
      (Function.update r h.length (w ++ [a])) := by
  have hlen1 : h1.length = h.length + 1 := by rw [S.length_eq]; simp
  have hNlt : h.length < h1.length := by omega
  apply I.step_noclone a z L s0 hs0 hz
  · simp [hlen1]
  · intro q hq
    rw [deref_setSlink _ _ _ _ hNlt, if_neg (by omega)]
    have := S.fields q
    rw [deref_append_lt _ _ _ hq] at this
    exact this
  · rw [deref_setSlink _ _ _ _ hNlt, if_pos rfl]
    have hf := S.fields h.length
    rw [deref_append_eq] at hf
    refine ⟨by rw [hf.1, hs], rfl, by rw [hf.2.2, hs], ?_⟩
    intro b
    have := S.tr h.length b
    rw [if_neg (by intro hh; exact absurd hh.1 (lt_irrefl _)), deref_append_eq, hs] at this
    simpa [dfind] using this
  · intro q hq b
    rw [deref_setSlink _ _ _ _ hNlt, if_neg (by omega), S.tr q b, deref_append_lt _ _ _ hq]
    by_cases hc : b = a ∧ r q <:+ w ∧ z.length < (r q).length + 1
    · rw [if_pos hc, if_pos ⟨hq, hc.1, hc.2.1, by omega⟩]
    · rw [if_neg hc, if_neg]
      rintro ⟨_, h2, h3, h4⟩
      exact hc ⟨h2, h3, by omega⟩
  · intro q _
    rw [deref_setSlink _ _ _ _ hNlt]
    split
    · exact S.keys _
    · exact S.keys q

/-! ## `CopyTransitions` -/

theorem dfind_nil (b : Char) : dfind [] b = none := rfl

theorem dfind_cons (e : Char × Option Nat) (d : Delta) (b : Char) :
    dfind (e :: d) b = if b = e.1 then some e.2 else dfind d b := by
  obtain ⟨c, u⟩ := e
  by_cases hb : b = c
  · subst hb; simp [dfind, List.lookup]
  · have : (b == c) = false := by simpa using hb
    simp [dfind, List.lookup, this, hb]

theorem dfind_eq_none_of_not_mem (d : Delta) (b : Char) (hb : b ∉ d.map Prod.fst) :
    dfind d b = none := by
  induction d with
  | nil => rfl
  | cons e d ih =>
    simp only [List.map_cons, List.mem_cons, not_or] at hb
    rw [dfind_cons, if_neg hb.1]
    exact ih hb.2

/-- Copying the entries of `l` one by one into a map gives the entries of `l`
on the keys of `l`. -/
theorem dfind_copy (l : Delta) (hl : (l.map Prod.fst).Nodup) (acc : Delta) (b : Char) :
    dfind (l.foldl (fun d e => dset d e.1 e.2) acc) b =
      if b ∈ l.map Prod.fst then dfind l b else dfind acc b := by
  induction l generalizing acc with
  | nil => simp
  | cons e l ih =>
    simp only [List.map_cons, List.nodup_cons] at hl
    simp only [List.foldl_cons, List.map_cons, List.mem_cons]
    rw [ih hl.2, dfind_cons]
    by_cases hb : b = e.1
    · subst hb
      rw [if_neg hl.1, dfind_dset_eq]
      simp
    · rw [dfind_dset_ne _ _ _ _ hb, if_neg hb]
      simp only [hb, false_or]

theorem keys_copy (l : Delta) (acc : Delta) (hacc : (acc.map Prod.fst).Nodup) :
    ((l.foldl (fun d e => dset d e.1 e.2) acc).map Prod.fst).Nodup := by
  induction l generalizing acc with
  | nil => exact hacc
  | cons e l ih => exact ih _ (keys_dset _ _ _ hacc)

theorem copy_fold (c : Nat) (l : Delta) :
    ∀ (hh : Heap), c < hh.length →
      (l.foldl (fun h1 e => setDelta h1 c e.1 e.2) hh).length = hh.length ∧
      (∀ t, t ≠ c → deref (l.foldl (fun h1 e => setDelta h1 c e.1 e.2) hh) t = deref hh t) ∧
      deref (l.foldl (fun h1 e => setDelta h1 c e.1 e.2) hh) c =
        { deref hh c with delta := l.foldl (fun d e => dset d e.1 e.2) (deref hh c).delta } := by
  induction l with
  | nil => intro hh _; exact ⟨rfl, fun _ _ => rfl, rfl⟩
  | cons e l ih =>
    intro hh hc
    obtain ⟨h1, h2, h3⟩ := ih (setDelta hh c e.1 e.2) (by simpa using hc)
    simp only [List.foldl_cons]
    refine ⟨by rw [h1]; simp, ?_, ?_⟩
    · intro t ht
      rw [h2 t ht, deref_setDelta _ _ _ _ _ hc, if_neg ht]
    · rw [h3, deref_setDelta _ _ _ _ _ hc, if_pos rfl]

/-- `CopyTransitions` into a fresh state. -/
theorem copyTransitions_spec (hh : Heap) (source dest : Nat) (hd : dest < hh.length)
    (hempty : (deref hh dest).delta = [])
    (hk : ((deref hh source).delta.map Prod.fst).Nodup) :
    (CopyTransitions hh source dest).length = hh.length ∧
    (∀ t, t ≠ dest → deref (CopyTransitions hh source dest) t = deref hh t) ∧
    (deref (CopyTransitions hh source dest) dest).len = (deref hh dest).len ∧
    (deref (CopyTransitions hh source dest) dest).slink = (deref hh dest).slink ∧
    (deref (CopyTransitions hh source dest) dest).final = (deref hh dest).final ∧
    (∀ b, dfind (deref (CopyTransitions hh source dest) dest).delta b =
      dfind (deref hh source).delta b) ∧
    ((deref (CopyTransitions hh source dest) dest).delta.map Prod.fst).Nodup := by
  obtain ⟨h1, h2, h3⟩ := copy_fold dest (deref hh source).delta hh hd
  unfold CopyTransitions
  refine ⟨h1, h2, by rw [h3], by rw [h3], by rw [h3], ?_, ?_⟩
  · intro b
    rw [h3]
    simp only
    rw [dfind_copy _ hk, hempty]
    split
    · rfl
    · rename_i hb
      rw [dfind_eq_none_of_not_mem _ _ hb]; rfl
  · rw [h3]
    simp only
    exact keys_copy _ _ (by rw [hempty]; simp)

end

section

variable {h : Heap} {w : List Char} {last : Nat} {r : Nat → List Char}

/-! ## The loop of `RedirectTransitions` -/

theorem touchDelta_of_some (hh : Heap) (q : Nat) (a : Char) (v : Option Nat)
    (hv : dfind (deref hh q).delta a = some v) : touchDelta hh q a = hh := by
  simp [touchDelta, hv]

theorem redirect_loop (I : Inv h w last r) (a : Char) (p suf : Nat) (hp : p < h.length)
    (hsuf : suf < h.length) (hfac : r p ++ [a] <:+: w)
    (hpsuf : dfind (deref h p).delta a = some (some suf))
    (h5 : Heap) (hlen5 : h5.length = h.length + 2)
    (hd5 : ∀ q, q < h.length → r q <:+ r p →
      dfind (deref h5 q).delta a = dfind (deref h q).delta a)
    (hs5 : ∀ q, q < h.length → r q <:+ r p → (deref h5 q).slink = (deref h q).slink) :
    ∀ (fuel : Nat) (q : Option Nat) (L : Nat) (hc : Heap),
      RedInv h r a p suf h5 hc L →
      ((q = none ∧ L = 0) ∨
        ∃ t, q = some t ∧ t < h.length ∧ r t <:+ r p ∧ L = (r t).length + 1) →
      L + 1 ≤ fuel →
      ∃ h6 L1, redirectLoop a (some suf) (h.length + 1) fuel hc q = .ok h6 ∧
        RedInv h r a p suf h5 h6 L1 ∧
        ∀ t, t < h.length → r t <:+ r p → (r t).length < L1 →
          dfind (deref h t).delta a ≠ some (some suf) := by
  intro fuel
  induction fuel with
  | zero => intro q L hc _ _ hf; omega
  | succ fuel ih =>
    intro q L hc S hq hf
    rcases hq with ⟨rfl, rfl⟩ | ⟨t, rfl, ht, htp, rfl⟩
    · exact ⟨hc, 0, rfl, S, fun t _ _ hl => absurd hl (Nat.not_lt_zero _)⟩
    · have hd0 : dfind (deref hc t).delta a = dfind (deref h t).delta a := by
        rw [S.tr t a, if_neg (by intro hh; have := hh.2.2.2; omega), hd5 t ht htp]
      have htc : t < hc.length := by rw [S.length_eq, hlen5]; omega
      have hne : dfind (deref h t).delta a ≠ none :=
        I.trans_complete t ht a ((suffix_snoc_of a htp).isInfix.trans hfac)
      obtain ⟨v, hv⟩ := Option.ne_none_iff_exists'.1 hne
      have htouch : touchDelta hc t a = hc := touchDelta_of_some hc t a v (by rw [hd0, hv])
      by_cases heq : dfind (deref h t).delta a = some (some suf)
      · have hsl : (deref hc t).slink = (deref h t).slink := by
          rw [(S.fields t).2.1, hs5 t ht htp]
        have honly : ∀ t', t' < h.length → r t' <:+ r p → minLen h r t ≤ (r t').length →
            (r t').length < (r t).length + 1 → t' = t := by
          intro t' ht' htp' h1 h2
          have hs : r t' <:+ r t := List.suffix_of_suffix_length_le htp' htp (by omega)
          exact (I.uniq t ht t' ht' (r t') ⟨hs, h1⟩ (I.inClass_self ht')).symm
        have S1 : RedInv h r a p suf h5 (setDelta hc t a (some (h.length + 1)))
            (minLen h r t) := by
          refine ⟨by simp [S.length_eq], ?_, ?_, ?_, ?_⟩
          · intro t'
            rw [deref_setDelta _ _ _ _ _ htc]
            split
            · rename_i htt; subst htt; exact S.fields t'
            · exact S.fields t'
          · intro t' b
            rw [deref_setDelta _ _ _ _ _ htc]
            by_cases htt : t' = t
            · subst htt
              simp only [if_true, dfind_dset]
              by_cases hb : b = a
              · subst hb
                rw [if_pos rfl, if_pos ⟨ht, rfl, htp, I.minLen_le ht⟩]
              · rw [if_neg hb, S.tr t' b, if_neg (fun hh => hb hh.2.1),
                  if_neg (fun hh => hb hh.2.1)]
            · rw [if_neg htt, S.tr t' b]
              by_cases hc1 : t' < h.length ∧ b = a ∧ r t' <:+ r p ∧
                  (r t).length + 1 ≤ (r t').length
              · rw [if_pos hc1, if_pos ⟨hc1.1, hc1.2.1, hc1.2.2.1, by
                  have := I.minLen_le ht; omega⟩]
              · rw [if_neg hc1, if_neg]
                rintro ⟨h1, h2, h3, h4⟩
                by_cases h5' : (r t).length + 1 ≤ (r t').length
                · exact hc1 ⟨h1, h2, h3, h5'⟩
                · exact htt (honly t' h1 h3 h4 (by omega))
          · intro t'
            rw [deref_setDelta _ _ _ _ _ htc]
            split
            · exact keys_dset _ _ _ (S.keys t)
            · exact S.keys t'
          · intro t' ht' htp' hl
            by_cases h5' : (r t).length + 1 ≤ (r t').length
            · exact S.allsuf t' ht' htp' h5'
            · rw [honly t' ht' htp' hl (by omega)]; exact heq
        have hq1 : ((deref h t).slink = none ∧ minLen h r t = 0) ∨
            ∃ t1, (deref h t).slink = some t1 ∧ t1 < h.length ∧ r t1 <:+ r p ∧
              minLen h r t = (r t1).length + 1 := by
          by_cases h0 : t = 0
          · subst h0; exact Or.inl ⟨I.slink_zero, I.minLen_zero⟩
          · obtain ⟨s1, hs1, hlt, hsuf1, _⟩ := I.slink_some t ht h0
            exact Or.inr ⟨s1, hs1, hlt, hsuf1.trans htp, minLen_of_slink hs1⟩
        obtain ⟨h6, L1, hrun, S2, hrest⟩ := ih (deref h t).slink (minLen h r t) _ S1 hq1
          (by have := I.minLen_le ht; omega)
        refine ⟨h6, L1, ?_, S2, hrest⟩
        simp only [redirectLoop, htouch, hd0, heq, if_true, hsl]
        exact hrun
      · refine ⟨hc, (r t).length + 1, ?_, S, ?_⟩
        · simp only [redirectLoop, htouch, hd0, heq, if_false]
        · -- a shorter state leading to `suf` would force `t` to lead to `suf`
          intro t' ht' htp' hl hd'
          apply heq
          obtain ⟨_, hc0, _, hsuf', hm⟩ := I.trans_sound t' ht' a _ hd'
          cases hc0
          obtain ⟨_, hc0, _, hzsuf, _⟩ := I.trans_sound p hp a _ hpsuf
          cases hc0
          have hcl : InClass h r suf (r t ++ [a]) := by
            refine ⟨(suffix_snoc_of a htp).trans hzsuf, ?_⟩
            have := I.minLen_le ht'
            simp; omega
          exact I.trans_target ht hsuf (I.inClass_self ht) hcl

end

section

/-! ## `ModifyTree` in the three cases -/

theorem modifyTree_none (h1 : Heap) (q_epsi q_wa : Nat) (a : Char) :
    ModifyTree h1 none q_epsi q_wa a = .ok (setSlink h1 q_wa (some q_epsi), none) := rfl

theorem modifyTree_link (h1 : Heap) (t suf q_epsi q_wa : Nat) (a : Char)
    (hd : dfind (deref h1 t).delta a = some (some suf))
    (hc : (deref h1 suf).len = (deref h1 t).len + 1 ∧ (deref h1 suf).len ≠ 0) :
    ModifyTree h1 (some t) q_epsi q_wa a = .ok (setSlink h1 q_wa (some suf), none) := by
  simp only [ModifyTree, hd]
  rw [if_pos hc]

/-- The heap after the assignments of the clone branch of `ModifyTree`, for the
fresh state `cs`. -/
theorem clone_chain (h1 : Heap) (cs : State) (n suf : Nat)
    (hlen1 : h1.length = n + 1) (hsuf : suf < n)
    (hk : ((deref h1 suf).delta.map Prod.fst).Nodup) (hcs : cs.delta = []) :
    (setSlink (setSlink (setSlink (CopyTransitions (h1 ++ [cs]) suf (n + 1)) (n + 1)
        (deref (CopyTransitions (h1 ++ [cs]) suf (n + 1)) suf).slink) suf (some (n + 1))) n
        (some (n + 1))).length = n + 2 ∧
    (∀ q, q < n + 1 →
      deref (setSlink (setSlink (setSlink (CopyTransitions (h1 ++ [cs]) suf (n + 1)) (n + 1)
        (deref (CopyTransitions (h1 ++ [cs]) suf (n + 1)) suf).slink) suf (some (n + 1))) n
        (some (n + 1))) q =
      if q = suf ∨ q = n then { deref h1 q with slink := some (n + 1) } else deref h1 q) ∧
    (deref (setSlink (setSlink (setSlink (CopyTransitions (h1 ++ [cs]) suf (n + 1)) (n + 1)
        (deref (CopyTransitions (h1 ++ [cs]) suf (n + 1)) suf).slink) suf (some (n + 1))) n
        (some (n + 1))) (n + 1)).len = cs.len ∧
    (deref (setSlink (setSlink (setSlink (CopyTransitions (h1 ++ [cs]) suf (n + 1)) (n + 1)
        (deref (CopyTransitions (h1 ++ [cs]) suf (n + 1)) suf).slink) suf (some (n + 1))) n
        (some (n + 1))) (n + 1)).slink = (deref h1 suf).slink ∧
    (deref (setSlink (setSlink (setSlink (CopyTransitions (h1 ++ [cs]) suf (n + 1)) (n + 1)
        (deref (CopyTransitions (h1 ++ [cs]) suf (n + 1)) suf).slink) suf (some (n + 1))) n
        (some (n + 1))) (n + 1)).final = cs.final ∧
    (∀ b, dfind (deref (setSlink (setSlink (setSlink (CopyTransitions (h1 ++ [cs]) suf (n + 1))
        (n + 1) (deref (CopyTransitions (h1 ++ [cs]) suf (n + 1)) suf).slink) suf
        (some (n + 1))) n (some (n + 1))) (n + 1)).delta b = dfind (deref h1 suf).delta b) ∧
    ((deref (setSlink (setSlink (setSlink (CopyTransitions (h1 ++ [cs]) suf (n + 1)) (n + 1)
        (deref (CopyTransitions (h1 ++ [cs]) suf (n + 1)) suf).slink) suf (some (n + 1))) n
        (some (n + 1))) (n + 1)).delta.map Prod.fst).Nodup := by
  have ha_len : (h1 ++ [cs]).length = n + 2 := by simp [hlen1]
  have ha_lt : ∀ q, q < n + 1 → deref (h1 ++ [cs]) q = deref h1 q :=
    fun q hq => deref_append_lt _ _ _ (by omega)
  have ha_eq : deref (h1 ++ [cs]) (n + 1) = cs := by
    rw [← hlen1]; exact deref_append_eq _ _
  obtain ⟨c1, c2, c3, c4, c5, c6, c7⟩ := copyTransitions_spec (h1 ++ [cs]) suf (n + 1)
    (by rw [ha_len]; omega) (by rw [ha_eq]; exact hcs)
    (by rw [ha_lt suf (by omega)]; exact hk)
  rw [ha_len] at c1
  rw [ha_eq] at c3 c4 c5
  rw [ha_lt suf (by omega)] at c6
  have hcsuf : deref (CopyTransitions (h1 ++ [cs]) suf (n + 1)) suf = deref h1 suf := by
    rw [c2 suf (by omega), ha_lt suf (by omega)]
  refine ⟨by simp [c1], ?_, ?_, ?_, ?_, ?_, ?_⟩
  · intro q hq
    have hqc : q ≠ n + 1 := by omega
    rw [deref_setSlink _ _ _ _ (by simp [c1])]
    by_cases hqn : q = n
    · subst hqn
      have hqs : q ≠ suf := by omega
      rw [if_pos rfl, if_pos (Or.inr rfl),
        deref_setSlink _ _ _ _ (by simp [c1]; omega), if_neg hqs,
        deref_setSlink _ _ _ _ (by simp [c1]), if_neg hqc, c2 q hqc, ha_lt q hq]
    · rw [if_neg hqn, deref_setSlink _ _ _ _ (by simp [c1]; omega)]
      by_cases hqs : q = suf
      · subst hqs
        rw [if_pos rfl, if_pos (Or.inl rfl),
          deref_setSlink _ _ _ _ (by simp [c1]), if_neg hqc, c2 q hqc, ha_lt q hq]
      · rw [if_neg hqs, if_neg (by simp [hqs, hqn]),
          deref_setSlink _ _ _ _ (by simp [c1]), if_neg hqc, c2 q hqc, ha_lt q hq]
  all_goals
    rw [deref_setSlink _ _ _ _ (by simp [c1]), if_neg (by omega),
      deref_setSlink _ _ _ _ (by simp [c1]; omega), if_neg (by omega),
      deref_setSlink _ _ _ _ (by simp [c1]), if_pos rfl]
  · exact c3
  · simp only; rw [hcsuf]
  · exact c5
  · exact c6
  · exact c7

/-- The heap after the clone branch of `ModifyTree`. -/
theorem modifyTree_clone (h1 : Heap) (n t suf q_epsi : Nat) (a : Char)
    (hlen1 : h1.length = n + 1) (hsuf : suf < n)
    (hk : ((deref h1 suf).delta.map Prod.fst).Nodup)
    (hd : dfind (deref h1 t).delta a = some (some suf))
    (hc : ¬ ((deref h1 suf).len = (deref h1 t).len + 1 ∧ (deref h1 suf).len ≠ 0)) :
    ∃ h5, ModifyTree h1 (some t) q_epsi n a = .ok (h5, some (n + 1)) ∧
      h5.length = n + 2 ∧
      (∀ q, q < n + 1 →
        deref h5 q = if q = suf ∨ q = n then { deref h1 q with slink := some (n + 1) }
          else deref h1 q) ∧
      (deref h5 (n + 1)).len = (deref h1 t).len + 1 ∧
      (deref h5 (n + 1)).slink = (deref h1 suf).slink ∧
      (deref h5 (n + 1)).final = false ∧
      (∀ b, dfind (deref h5 (n + 1)).delta b = dfind (deref h1 suf).delta b) ∧
      ((deref h5 (n + 1)).delta.map Prod.fst).Nodup := by
  have key := clone_chain h1
    { len := (deref h1 t).len + 1, index := 0, slink := none, delta := [], final := false }
    n suf hlen1 hsuf hk rfl
  refine ⟨_, ?_, key⟩
  simp only [ModifyTree, hd]
  rw [if_neg hc, hlen1]

end

section

/-! ## One round of the loop of `BuildSuffixAutomaton` -/

theorem buildStep_eq_noclone (b : Build) (i : Int) (a : Char) (h1 h2 : Heap) (p : Option Nat)
    (hF : FindStem a b.heap.length
      ((b.heap ++ [({ len := i + 1, index := 0, slink := none, delta := [], final := false }
        : State)]).length + 1)
      (b.heap ++ [{ len := i + 1, index := 0, slink := none, delta := [], final := false }])
      (some b.q_w) = .ok (h1, p))
    (hM : ModifyTree h1 p 0 b.heap.length a = .ok (h2, none)) :
    buildStep 0 b i a =
      .ok { heap := h2, Qw := qinsert b.Qw b.heap.length, q_w := b.heap.length } := by
  unfold buildStep
  simp only [hF, hM]
  cases p <;> rfl

theorem buildStep_eq_clone (b : Build) (i : Int) (a : Char) (h1 h2 h3 : Heap) (p : Option Nat)
    (c : Nat)
    (hF : FindStem a b.heap.length
      ((b.heap ++ [({ len := i + 1, index := 0, slink := none, delta := [], final := false }
        : State)]).length + 1)
      (b.heap ++ [{ len := i + 1, index := 0, slink := none, delta := [], final := false }])
      (some b.q_w) = .ok (h1, p))
    (hM : ModifyTree h1 p 0 b.heap.length a = .ok (h2, some c))
    (hR : RedirectTransitions (h2.length + 1) h2 p (some c) a = .ok h3) :
    buildStep 0 b i a =
      .ok { heap := setIndex h3 c ((i - (deref h3 c).len) + 1),
            Qw := qinsert (qinsert b.Qw c) b.heap.length, q_w := b.heap.length } := by
  unfold buildStep
  simp only [hF, hM, hR]

variable {h : Heap} {w : List Char} {last : Nat} {r : Nat → List Char}

/-- The heap after a step with a clone satisfies the invariant. -/
theorem step_clone_heap (I : Inv h w last r) (a : Char) (s : State)
    (hs : s = { len := (w.length : Int) + 1, index := 0, slink := none, delta := [],
                final := false })
    (h1 : Heap) (t suf : Nat) (ht : t < h.length) (hsuf : suf < h.length)
    (S : StemInv h w r a (h ++ [s]) h1 ((r t).length + 1))
    (L : Longest w a (r t ++ [a]))
    (hpsuf : dfind (deref h t).delta a = some (some suf))
    (hlen : (r t).length + 1 < (r suf).length)
    (h5 : Heap) (m1 : h5.length = h.length + 2)
    (m2 : ∀ q, q < h.length + 1 →
      deref h5 q = if q = suf ∨ q = h.length then
        { deref h1 q with slink := some (h.length + 1) } else deref h1 q)
    (m3 : (deref h5 (h.length + 1)).len = (deref h1 t).len + 1)
    (m4 : (deref h5 (h.length + 1)).slink = (deref h1 suf).slink)
    (m5 : (deref h5 (h.length + 1)).final = false)
    (m6 : ∀ b, dfind (deref h5 (h.length + 1)).delta b = dfind (deref h1 suf).delta b)
    (m7 : ((deref h5 (h.length + 1)).delta.map Prod.fst).Nodup) :
    ∃ h6, redirectLoop a (some suf) (h.length + 1) (h5.length + 1) h5 (some t) = .ok h6 ∧
      h6.length = h.length + 2 ∧
      ∀ idx : Int, Inv (setIndex h6 (h.length + 1) idx) (w ++ [a]) h.length
        (cloneLabel r h.length (w ++ [a]) (r t ++ [a])) := by
  have hlen1 : h1.length = h.length + 1 := by rw [S.length_eq]; simp
  -- the old states in `h1`
  have hf1 : ∀ q, q < h.length → (deref h1 q).len = (deref h q).len ∧
      (deref h1 q).slink = (deref h q).slink ∧ (deref h1 q).final = (deref h q).final := by
    intro q hq
    have := S.fields q
    rwa [deref_append_lt _ _ _ hq] at this
  have hd1 : ∀ q, q < h.length → ∀ b, dfind (deref h1 q).delta b =
      if b = a ∧ r q <:+ w ∧ (r t).length + 1 < (r q).length + 1 then some (some h.length)
      else dfind (deref h q).delta b := by
    intro q hq b
    rw [S.tr q b, deref_append_lt _ _ _ hq]
    by_cases hc : b = a ∧ r q <:+ w ∧ (r t).length + 1 < (r q).length + 1
    · rw [if_pos hc, if_pos ⟨hq, hc.1, hc.2.1, by omega⟩]
    · rw [if_neg hc, if_neg]
      rintro ⟨_, h2, h3, h4⟩
      exact hc ⟨h2, h3, by omega⟩
  have hd1p : ∀ q, q < h.length → r q <:+ r t →
      ∀ b, dfind (deref h1 q).delta b = dfind (deref h q).delta b := by
    intro q hq hqt b
    rw [hd1 q hq b, if_neg]
    rintro ⟨_, _, h3⟩
    have := hqt.length_le; omega
  have hfields5 : ∀ q, q < h.length + 1 → (deref h5 q).len = (deref h1 q).len ∧
      (deref h5 q).final = (deref h1 q).final ∧ (deref h5 q).delta = (deref h1 q).delta ∧
      (deref h5 q).slink =
        if q = suf ∨ q = h.length then some (h.length + 1) else (deref h1 q).slink := by
    intro q hq
    rw [m2 q hq]
    split <;> simp
  have hzsuf : r t ++ [a] <:+ r suf := by
    obtain ⟨_, hc0, _, hz, _⟩ := I.trans_sound t ht a _ hpsuf
    cases hc0; exact hz
  have hnot : ∀ q, r q <:+ r t → q ≠ suf := by
    rintro q hq rfl
    have := hq.length_le; omega
  have hd5 : ∀ q, q < h.length → r q <:+ r t →
      dfind (deref h5 q).delta a = dfind (deref h q).delta a := by
    intro q hq hqt
    rw [(hfields5 q (by omega)).2.2.1, hd1p q hq hqt]
  have hs5 : ∀ q, q < h.length → r q <:+ r t → (deref h5 q).slink = (deref h q).slink := by
    intro q hq hqt
    rw [(hfields5 q (by omega)).2.2.2, if_neg, (hf1 q hq).2.1]
    rintro (h1' | h1')
    · exact hnot q hqt h1'
    · omega
  have hkeys5 : ∀ q, ((deref h5 q).delta.map Prod.fst).Nodup := by
    intro q
    rcases Nat.lt_trichotomy q (h.length + 1) with hq | hq | hq
    · rw [(hfields5 q hq).2.2.1]; exact S.keys q
    · subst hq; exact m7
    · rw [deref_default_of_ge _ _ (by omega)]; simp
  have R0 : RedInv h r a t suf h5 h5 ((r t).length + 1) := by
    refine ⟨rfl, fun _ => ⟨rfl, rfl, rfl⟩, ?_, hkeys5, ?_⟩
    · intro q b
      rw [if_neg]
      rintro ⟨_, _, h3, h4⟩
      have := h3.length_le; omega
    · intro q _ h3 h4
      have := h3.length_le; omega
  obtain ⟨h6, L1, hrun, R, hrest⟩ := redirect_loop I a t suf ht hsuf L.fac hpsuf h5 m1 hd5 hs5
    (h5.length + 1) (some t) ((r t).length + 1) h5 R0
    (Or.inr ⟨t, rfl, ht, List.suffix_refl _, rfl⟩)
    (by have := I.len_le ht; have := I.size; omega)
  have hlen6 : h6.length = h.length + 2 := by rw [R.length_eq, m1]
  have hC6 : h.length + 1 < h6.length := by omega
  refine ⟨h6, hrun, hlen6, ?_⟩
  intro idx
  have hderef : ∀ q, (deref (setIndex h6 (h.length + 1) idx) q).len = (deref h5 q).len ∧
      (deref (setIndex h6 (h.length + 1) idx) q).slink = (deref h5 q).slink ∧
      (deref (setIndex h6 (h.length + 1) idx) q).final = (deref h5 q).final ∧
      (deref (setIndex h6 (h.length + 1) idx) q).delta = (deref h6 q).delta := by
    intro q
    rw [deref_setIndex _ _ _ _ hC6]
    split
    · rename_i hq; subst hq
      exact ⟨(R.fields _).1, (R.fields _).2.1, (R.fields _).2.2, rfl⟩
    · exact ⟨(R.fields _).1, (R.fields _).2.1, (R.fields _).2.2, rfl⟩
  have hsuf_tr : ∀ b, dfind (deref h6 suf).delta b = dfind (deref h1 suf).delta b := by
    intro b
    rw [R.tr suf b, if_neg, (hfields5 suf (by omega)).2.2.1]
    rintro ⟨_, _, h3, _⟩
    exact hnot suf h3 rfl
  apply I.step_clone a t suf ht hsuf L hpsuf hlen
  · simp [hlen6]
  · intro q hq
    have h5q := hfields5 q (by omega)
    refine ⟨by rw [(hderef q).1, h5q.1, (hf1 q hq).1],
      by rw [(hderef q).2.2.1, h5q.2.1, (hf1 q hq).2.2], ?_⟩
    rw [(hderef q).2.1, h5q.2.2.2]
    have hqN : q ≠ h.length := by omega
    by_cases hqs : q = suf
    · simp [hqs]
    · simp [hqs, hqN, (hf1 q hq).2.1]
  · have h5q := hfields5 h.length (by omega)
    have hfN := S.fields h.length
    rw [deref_append_eq] at hfN
    refine ⟨by rw [(hderef _).1, h5q.1, hfN.1, hs], ?_,
      by rw [(hderef _).2.2.1, h5q.2.1, hfN.2.2, hs], ?_⟩
    · rw [(hderef _).2.1, h5q.2.2.2]; simp
    · intro b
      rw [(hderef _).2.2.2, R.tr _ b, if_neg (fun hh => absurd hh.1 (lt_irrefl _)), h5q.2.2.1,
        S.tr _ b, if_neg (fun hh => absurd hh.1 (lt_irrefl _)), deref_append_eq, hs]
      rfl
  · refine ⟨?_, ?_, ?_, ?_⟩
    · rw [(hderef _).1, m3, (hf1 t ht).1, I.len_eq t ht]
    · rw [(hderef _).2.1, m4, (hf1 suf hsuf).2.1]
    · rw [(hderef _).2.2.1, m5]
    · intro b
      rw [(hderef _).2.2.2, (hderef _).2.2.2, R.tr _ b,
        if_neg (fun hh => absurd hh.1 (by omega)), m6, hsuf_tr]
  · intro q hq b
    rw [(hderef q).2.2.2, R.tr q b, (hfields5 q (by omega)).2.2.1, hd1 q hq b]
    by_cases hstem : b = a ∧ r q <:+ w ∧ (r t).length + 1 < (r q).length + 1
    · have hnR : ¬ (q < h.length ∧ b = a ∧ r q <:+ r t ∧ L1 ≤ (r q).length) := by
        rintro ⟨_, _, h3, _⟩
        have := h3.length_le; omega
      rw [if_neg hnR, if_pos hstem, if_pos hstem]
    · by_cases hred : b = a ∧ r q <:+ r t ∧ dfind (deref h q).delta a = some (some suf)
      · have hR : q < h.length ∧ b = a ∧ r q <:+ r t ∧ L1 ≤ (r q).length := by
          refine ⟨hq, hred.1, hred.2.1, ?_⟩
          by_contra hl
          exact hrest q hq hred.2.1 (by omega) hred.2.2
        rw [if_pos hR, if_neg hstem, if_pos hred]
      · have hnR : ¬ (q < h.length ∧ b = a ∧ r q <:+ r t ∧ L1 ≤ (r q).length) := by
          rintro ⟨h1', h2, h3, h4⟩
          exact hred ⟨h2, h3, R.allsuf q h1' h3 h4⟩
        rw [if_neg hnR, if_neg hstem, if_neg hstem, if_neg hred]
  · intro q _
    rw [(hderef q).2.2.2]; exact R.keys q

end

section

/-! ## The loop of `BuildSuffixAutomaton` -/

theorem cloneLabel_clone (r : Nat → List Char) (n : Nat) (w1 z : List Char) :
    cloneLabel r n w1 z (n + 1) = z := by
  simp [cloneLabel]

theorem buildStep_spec (b : Build) (w : List Char) (r : Nat → List Char) (a : Char)
    (I : Inv b.heap w b.q_w r) :
    ∃ b1 r1, buildStep 0 b (w.length : Int) a = .ok b1 ∧ Inv b1.heap (w ++ [a]) b1.q_w r1 ∧
      ((b1.heap.length = b.heap.length + 1 ∧ b1.Qw = qinsert b.Qw b.heap.length) ∨
       (2 ≤ w.length ∧ b1.heap.length = b.heap.length + 2 ∧
         b1.Qw = qinsert (qinsert b.Qw (b.heap.length + 1)) b.heap.length ∧
         ∃ c, c < b1.heap.length ∧ r1 c <:+ w ++ [a] ∧ 0 < (r1 c).length ∧
           (r1 c).length < (w ++ [a]).length)) := by
  obtain ⟨h1, p, z, hrun, S, L, hp⟩ := findStem_spec I a
    { len := (w.length : Int) + 1, index := 0, slink := none, delta := [], final := false } rfl
  have hlen1 : h1.length = b.heap.length + 1 := by rw [S.length_eq]; simp
  rcases hp with ⟨rfl, rfl⟩ | ⟨t, rfl, ht, rfl⟩
  · refine ⟨_, _, buildStep_eq_noclone b _ a h1 _ none hrun (modifyTree_none h1 0 _ a),
      step_noclone_heap I a _ rfl h1 [] S L 0 I.pos I.r_zero, Or.inl ⟨?_, rfl⟩⟩
    simp [hlen1]
  · have hne := I.trans_complete t ht a L.fac
    obtain ⟨v, hv⟩ := Option.ne_none_iff_exists'.1 hne
    obtain ⟨suf, hvs, hsuf, hzsuf, _⟩ := I.trans_sound t ht a v hv
    subst hvs
    have hzl : (r t ++ [a]).length = (r t).length + 1 := by simp
    have hd1 : dfind (deref h1 t).delta a = some (some suf) := by
      rw [S.tr t a, if_neg (by intro hh; have := hh.2.2.2; rw [hzl] at this; omega),
        deref_append_lt _ _ _ ht, hv]
    have hl1 : ∀ q, q < b.heap.length → (deref h1 q).len = ((r q).length : Int) := by
      intro q hq
      rw [(S.fields q).1, deref_append_lt _ _ _ hq, I.len_eq q hq]
    by_cases hc : (deref h1 suf).len = (deref h1 t).len + 1 ∧ (deref h1 suf).len ≠ 0
    · have hz : r suf = r t ++ [a] := by
        have h1' := hc.1
        rw [hl1 suf hsuf, hl1 t ht] at h1'
        exact (hzsuf.eq_of_length (by rw [hzl]; omega)).symm
      refine ⟨_, _, buildStep_eq_noclone b _ a h1 _ (some t) hrun
          (modifyTree_link h1 t suf 0 _ a hd1 hc),
        step_noclone_heap I a _ rfl h1 _ S L suf hsuf hz, Or.inl ⟨?_, rfl⟩⟩
      simp [hlen1]
    · have hlen : (r t).length + 1 < (r suf).length := by
        have h2 := hzsuf.length_le
        rw [hzl] at h2
        rcases Nat.lt_or_ge ((r t).length + 1) (r suf).length with h3 | h3
        · exact h3
        · exfalso
          apply hc
          rw [hl1 suf hsuf, hl1 t ht]
          refine ⟨by have : (r suf).length = (r t).length + 1 := by omega
                     rw [this]; push_cast; ring, ?_⟩
          have : 0 < (r suf).length := by omega
          omega
      obtain ⟨h5, hM, m1, m2, m3, m4, m5, m6, m7⟩ := modifyTree_clone h1 b.heap.length t suf 0 a
        hlen1 hsuf (S.keys suf) hd1 hc
      obtain ⟨h6, hrunR, hlen6, I6⟩ := step_clone_heap I a _ rfl h1 t suf ht hsuf
        (by simpa using S) L hv hlen h5 m1 m2 m3 m4 m5 m6 m7
      have hd5 : dfind (deref h5 t).delta a = some (some suf) := by
        have := m2 t (by omega)
        rw [this]
        split <;> exact hd1
      have hR : RedirectTransitions (h5.length + 1) h5 (some t) (some (b.heap.length + 1)) a
          = .ok h6 := by
        simp only [RedirectTransitions, touchDelta_of_some h5 t a _ hd5, hd5, Option.getD_some]
        exact hrunR
      refine ⟨_, _, buildStep_eq_clone b _ a h1 h5 h6 (some t) _ hrun hM hR, I6 _,
        Or.inr ⟨?_, ?_, rfl, b.heap.length + 1, ?_, ?_, ?_, ?_⟩⟩
      · have := I.len_le hsuf; omega
      · simp [hlen6]
      · simp [hlen6]
      · rw [cloneLabel_clone]
        exact L.suf
      · rw [cloneLabel_clone]
        simp
      · rw [cloneLabel_clone]
        have := L.length_le
        simp only [List.length_append, List.length_singleton] at this ⊢
        omega

theorem inv_init : Inv initBuild.heap [] initBuild.q_w (fun _ => []) := by
  have hd : ∀ q, q < 1 → deref initBuild.heap q =
      { len := 0, index := 0, slink := none, delta := [], final := true } := by
    intro q hq
    obtain rfl : q = 0 := by omega
    rfl
  refine
    { last_lt := by simp [initBuild]
      size := by simp [initBuild]
      r_last := rfl
      r_zero := rfl
      slink_zero := rfl
      len_eq := ?_
      factor := fun _ _ => List.infix_refl _
      slink_some := ?_
      trans_sound := ?_
      trans_complete := ?_
      occ := fun _ _ _ _ _ _ _ => List.nil_suffix
      uniq := ?_
      final_eq := ?_
      keys := ?_ }
  · intro q hq; rw [hd q (by simpa [initBuild] using hq)]; rfl
  · intro q hq h0
    have : q < 1 := by simpa [initBuild] using hq
    omega
  · intro q hq a v hv
    rw [hd q (by simpa [initBuild] using hq)] at hv
    cases hv
  · intro q _ a hf
    have := hf.length_le
    simp at this
  · intro q hq q1 hq1 _ _ _
    have h1 : q < 1 := by simpa [initBuild] using hq
    have h2 : q1 < 1 := by simpa [initBuild] using hq1
    omega
  · intro q hq
    have h1 : q < 1 := by simpa [initBuild] using hq
    obtain rfl : q = 0 := by omega
    rfl
  · intro q hq; rw [hd q (by simpa [initBuild] using hq)]; simp

theorem qinsert_fresh (Qw : List Nat) (q : Nat) (hq : q ∉ Qw) : qinsert Qw q = Qw ++ [q] := by
  simp [qinsert, hq]

theorem buildLoop_spec (x : List Char) :
    ∀ (b : Build) (w : List Char) (r : Nat → List Char), Inv b.heap w b.q_w r → QwInv b →
      SizeBound w b.heap.length → Third w b.heap.length r →
      ∃ b1 r1, buildLoop 0 x (w.length : Int) b = .ok b1 ∧ Inv b1.heap (w ++ x) b1.q_w r1 ∧
        QwInv b1 ∧ SizeBound (w ++ x) b1.heap.length ∧ Third (w ++ x) b1.heap.length r1 := by
  induction x with
  | nil =>
    intro b w r I Q B T
    exact ⟨b, r, rfl, by simpa using I, Q, by simpa using B, by simpa using T⟩
  | cons a x ih =>
    intro b w r I Q B T
    obtain ⟨b1, r1, hstep, I1, hsz⟩ := buildStep_spec b w r a I
    have hN : b.heap.length ∉ b.Qw := by rw [Q.mem]; exact lt_irrefl _
    have hC : b.heap.length + 1 ∉ b.Qw := by rw [Q.mem]; omega
    have Q1 : QwInv b1 := by
      rcases hsz with ⟨h1, h2⟩ | ⟨_, h1, h2, _⟩
      · rw [qinsert_fresh _ _ hN] at h2
        refine ⟨fun q => ?_, ?_, ?_⟩
        · rw [h2, h1, List.mem_append, Q.mem]; simp; omega
        · rw [h2, h1]; simp [Q.length_eq]
        · rw [h2]
          exact List.Nodup.append Q.nodup (List.nodup_singleton _) (by simpa using hN)
      · rw [qinsert_fresh _ _ hC, qinsert_fresh _ _ (by
          simp only [List.mem_append, List.mem_singleton, not_or]
          exact ⟨hN, by omega⟩)] at h2
        refine ⟨fun q => ?_, ?_, ?_⟩
        · rw [h2, h1, List.mem_append, List.mem_append, Q.mem]; simp; omega
        · rw [h2, h1]; simp [Q.length_eq]
        · rw [h2]
          refine List.Nodup.append (List.Nodup.append Q.nodup (List.nodup_singleton _)
            (by simpa using hC)) (List.nodup_singleton _) ?_
          intro x hx hx'
          simp only [List.mem_singleton] at hx'
          subst hx'
          simp only [List.mem_append, List.mem_singleton] at hx
          rcases hx with hx | hx
          · exact hN hx
          · omega
    have B1 : SizeBound (w ++ [a]) b1.heap.length := by
      obtain ⟨B1, B2⟩ := B
      unfold SizeBound
      simp only [List.length_append, List.length_singleton]
      rcases hsz with ⟨h1, _⟩ | ⟨h0, h1, _, _⟩
      · constructor
        · intro hw; rw [h1, B1 (by omega)]
        · intro hw
          rcases Nat.lt_or_ge w.length 2 with h2 | h2
          · rw [h1, B1 (by omega)]; omega
          · have := B2 h2; omega
      · constructor
        · intro hw; omega
        · intro _; have := B2 h0; omega
    have T1 : Third (w ++ [a]) b1.heap.length r1 := by
      intro h3
      simp only [List.length_append, List.length_singleton] at h3
      rcases hsz with ⟨h1, _⟩ | ⟨_, _, _, c, hc1, hc2, hc3, hc4⟩
      · left
        have := B.2 (by omega)
        simp only [List.length_append, List.length_singleton]
        omega
      · exact Or.inr ⟨c, hc1, hc2, hc3, hc4⟩
    obtain ⟨b2, r2, hloop, I2, Q2, B2, T2⟩ := ih b1 (w ++ [a]) r1 I1 Q1 B1 T1
    refine ⟨b2, r2, ?_, by simpa using I2, Q2, by simpa using B2, by simpa using T2⟩
    simp only [buildLoop, hstep]
    have : ((w ++ [a]).length : Int) = (w.length : Int) + 1 := by simp
    rw [← this]
    exact hloop

end

section

/-! ## Marking the final states -/

variable {h : Heap} {w : List Char} {last : Nat} {r : Nat → List Char}

theorem markFinal_loop (I : Inv h w last r) :
    ∀ (fuel : Nat) (q : Option Nat) (L : Nat) (hc : Heap),
      FinInv h w r hc L →
      ((q = none ∧ L = 0) ∨ ∃ t, q = some t ∧ t < h.length ∧ r t <:+ w ∧ L = (r t).length + 1) →
      L + 1 ≤ fuel →
      ∃ h1, markFinal fuel hc q = .ok h1 ∧ FinInv h w r h1 0 := by
  intro fuel
  induction fuel with
  | zero => intro q L hc _ _ hf; omega
  | succ fuel ih =>
    intro q L hc S hq hf
    rcases hq with ⟨rfl, rfl⟩ | ⟨t, rfl, ht, htw, rfl⟩
    · exact ⟨hc, rfl, S⟩
    · have htc : t < hc.length := by rw [S.length_eq]; exact ht
      have honly : ∀ t', t' < h.length → r t' <:+ w → minLen h r t ≤ (r t').length →
          (r t').length < (r t).length + 1 → t' = t := by
        intro t' ht' htw' h1 h2
        have hs : r t' <:+ r t := List.suffix_of_suffix_length_le htw' htw (by omega)
        exact (I.uniq t ht t' ht' (r t') ⟨hs, h1⟩ (I.inClass_self ht')).symm
      have S1 : FinInv h w r (setFinal hc t) (minLen h r t) := by
        refine ⟨by simp [S.length_eq], ?_, ?_⟩
        · intro t'
          rw [deref_setFinal _ _ _ htc]
          split
          · rename_i htt; subst htt; exact S.fields t'
          · exact S.fields t'
        · intro t'
          rw [deref_setFinal _ _ _ htc]
          by_cases htt : t' = t
          · subst htt
            simp only [if_true, true_iff]
            exact Or.inr ⟨ht, htw, I.minLen_le ht⟩
          · rw [if_neg htt, S.fin t']
            constructor
            · rintro (h1 | ⟨h1, h2, h3⟩)
              · exact Or.inl h1
              · exact Or.inr ⟨h1, h2, by have := I.minLen_le ht; omega⟩
            · rintro (h1 | ⟨h1, h2, h3⟩)
              · exact Or.inl h1
              · by_cases h5 : (r t).length + 1 ≤ (r t').length
                · exact Or.inr ⟨h1, h2, h5⟩
                · exact absurd (honly t' h1 h2 h3 (by omega)) htt
      have hq1 : ((deref h t).slink = none ∧ minLen h r t = 0) ∨
          ∃ t1, (deref h t).slink = some t1 ∧ t1 < h.length ∧ r t1 <:+ w ∧
            minLen h r t = (r t1).length + 1 := by
        by_cases h0 : t = 0
        · subst h0; exact Or.inl ⟨I.slink_zero, I.minLen_zero⟩
        · obtain ⟨s1, hs1, hlt, hsuf, _⟩ := I.slink_some t ht h0
          exact Or.inr ⟨s1, hs1, hlt, hsuf.trans htw, minLen_of_slink hs1⟩
      obtain ⟨h1, hrun, S2⟩ := ih (deref h t).slink (minLen h r t) _ S1 hq1
        (by have := I.minLen_le ht; omega)
      refine ⟨h1, ?_, S2⟩
      simp only [markFinal, (S.fields t).2.1]
      exact hrun

theorem run_congr (h1 h2 : Heap) (hd : ∀ q, (deref h1 q).delta = (deref h2 q).delta)
    (x : List Char) : ∀ q, run h1 q x = run h2 q x := by
  induction x with
  | nil => intro q; rfl
  | cons a x ih =>
    intro q
    simp only [run, step, hd q]
    cases (dfind (deref h2 q).delta a).join with
    | none => rfl
    | some t => exact ih t

/-- What `BuildSuffixAutomaton` returns: a heap that satisfies the invariant for
`w` up to the final marks, which are on the states whose label is a suffix of
`w`. -/
theorem build_spec (w : List Char) :
    ∃ (hb hF : Heap) (Qw : List Nat) (last : Nat) (r : Nat → List Char),
      BuildSuffixAutomaton w = .ok (hF, Qw) ∧ Inv hb w last r ∧
      hF.length = hb.length ∧ (∀ q, q ∈ Qw ↔ q < hb.length) ∧ Qw.length = hb.length ∧
      Qw.Nodup ∧ SizeBound w hb.length ∧ Third w hb.length r ∧
      (∀ t, (deref hF t).len = (deref hb t).len ∧ (deref hF t).slink = (deref hb t).slink ∧
        (deref hF t).delta = (deref hb t).delta) ∧
      (∀ t, t < hb.length → ((deref hF t).final = true ↔ r t <:+ w)) := by
  obtain ⟨b, r, hloop, I, Q, B, T⟩ := buildLoop_spec w initBuild [] (fun _ => []) inv_init
    ⟨by intro q; simp [initBuild], rfl, by simp [initBuild]⟩
    ⟨fun _ => rfl, fun hh => by simp at hh⟩ (fun hh => by simp at hh)
  simp only [List.nil_append, List.length_nil, Nat.cast_zero] at hloop I B T
  obtain ⟨hF, hrun, F⟩ := markFinal_loop I (b.heap.length + 1) (some b.q_w) (w.length + 1)
    b.heap ⟨rfl, fun _ => ⟨rfl, rfl, rfl⟩, fun t => by
      constructor
      · exact fun hh => Or.inl hh
      · rintro (hh | ⟨_, h2, h3⟩)
        · exact hh
        · have := h2.length_le; omega⟩
    (Or.inr ⟨b.q_w, rfl, I.last_lt, by rw [I.r_last], by rw [I.r_last]⟩)
    (by have := I.size; omega)
  refine ⟨b.heap, hF, b.Qw, b.q_w, r, ?_, I, F.length_eq, Q.mem, Q.length_eq, Q.nodup, B, T,
    F.fields, ?_⟩
  · simp only [BuildSuffixAutomaton, hloop, hrun]
  · intro t ht
    rw [F.fin t, I.final_eq t ht]
    constructor
    · rintro (hh | ⟨_, h2, _⟩)
      · have : t = 0 := by simpa using hh
        rw [this, I.r_zero]; exact List.nil_suffix
      · exact h2
    · intro hh
      exact Or.inr ⟨ht, hh, Nat.zero_le _⟩

/-- C2. The automaton built for `w` recognises exactly the factors of `w`: the
walk from the initial state along the symbols of `x` is defined all the way if
and only if `x` is a contiguous substring of `w`. -/
theorem BuildSuffixAutomaton_recognises_factors (w x : List Char) :
    ∃ h Qw, BuildSuffixAutomaton w = .ok (h, Qw) ∧ ((run h 0 x).isSome ↔ x <:+: w) := by
  obtain ⟨hb, hF, Qw, last, r, hrun, I, _, _, _, _, _, _, hfields, _⟩ := build_spec w
  refine ⟨hF, Qw, hrun, ?_⟩
  rw [run_congr hF hb (fun q => (hfields q).2.2) x 0]
  constructor
  · intro hs
    obtain ⟨q, hq⟩ := Option.isSome_iff_exists.1 hs
    exact I.run_factor hq
  · intro hf
    obtain ⟨q, hq⟩ := I.run_complete x hf
    rw [hq]; rfl

/-- C8. In the automaton built for `w` a state `q` of `Qw` is final if and only
if the word of length `q.len` that leads to `q` is a suffix of `w`; that word
exists and is the longest word leading to `q`; the initial state is final. -/
theorem BuildSuffixAutomaton_final_marks (w : List Char) :
    ∃ h Qw, BuildSuffixAutomaton w = .ok (h, Qw) ∧ (deref h 0).final = true ∧ 0 ∈ Qw ∧
      ∀ q, q ∈ Qw →
        (∃ x, run h 0 x = some q ∧ (x.length : Int) = (deref h q).len) ∧
        (∀ x, run h 0 x = some q → (x.length : Int) ≤ (deref h q).len) ∧
        ((deref h q).final = true ↔
          ∃ x, run h 0 x = some q ∧ (x.length : Int) = (deref h q).len ∧ x <:+ w) := by
  obtain ⟨hb, hF, Qw, last, r, hrun, I, _, hmem, _, _, _, _, hfields, hfin⟩ := build_spec w
  have hrunF : ∀ x q, run hF q x = run hb q x := fun x q =>
    run_congr hF hb (fun q => (hfields q).2.2) x q
  refine ⟨hF, Qw, hrun, ?_, (hmem 0).2 I.pos, ?_⟩
  · rw [hfin 0 I.pos, I.r_zero]; exact List.nil_suffix
  · intro q hq
    have hql := (hmem q).1 hq
    have hlen : (deref hF q).len = ((r q).length : Int) := by
      rw [(hfields q).1, I.len_eq q hql]
    refine ⟨⟨r q, by rw [hrunF]; exact I.run_label hql, hlen.symm⟩, ?_, ?_⟩
    · intro x hx
      rw [hrunF] at hx
      have := (I.run_sound x q hx).2.1.length_le
      rw [hlen]; exact_mod_cast this
    · rw [hfin q hql]
      constructor
      · intro hs
        exact ⟨r q, by rw [hrunF]; exact I.run_label hql, hlen.symm, hs⟩
      · rintro ⟨x, hx, hxl, hxw⟩
        rw [hrunF] at hx
        have hxr := (I.run_sound x q hx).2.1
        rw [hlen] at hxl
        have : x = r q := hxr.eq_of_length (by exact_mod_cast hxl)
        rw [← this]; exact hxw

/-- C9. For a string of length `m ≥ 2` the set `Qw` filled by
`BuildSuffixAutomaton` has at most `2m - 1` states, each counted once; up to
length `2` no clone has been made, so `Qw` has `m + 1` states. -/
theorem BuildSuffixAutomaton_state_bound (w : List Char) (hw : 2 ≤ w.length) :
    ∃ h Qw, BuildSuffixAutomaton w = .ok (h, Qw) ∧ Qw.Nodup ∧
      Qw.length ≤ 2 * w.length - 1 ∧ (w.length = 2 → Qw.length = 3) := by
  obtain ⟨hb, hF, Qw, last, r, hrun, I, _, hmem, hlen, hnd, B, _, _, _⟩ := build_spec w
  refine ⟨hF, Qw, hrun, hnd, ?_, ?_⟩
  · have := B.2 hw
    omega
  · intro h2
    rw [hlen, B.1 (by omega), h2]

theorem BuildSuffixAutomaton_state_bound_witness :
    ∃ h Qw, BuildSuffixAutomaton ['a', 'b', 'b'] = .ok (h, Qw) ∧ Qw.Nodup ∧
      Qw.length ≤ 2 * ['a', 'b', 'b'].length - 1 ∧
      (['a', 'b', 'b'].length = 2 → Qw.length = 3) :=
  BuildSuffixAutomaton_state_bound ['a', 'b', 'b'] (by decide)

end

section

/-! ## Counting the transitions -/

theorem edgeList_length (h : Heap) (Qw : List Nat) :
    (edgeList h Qw).length = numTransitions h Qw := by
  induction Qw with
  | nil => rfl
  | cons q Qw ih => simp [edgeList, numTransitions, ih]

theorem mem_edgeList (h : Heap) (Qw : List Nat) (e : Nat × Char) :
    e ∈ edgeList h Qw ↔ e.1 ∈ Qw ∧ e.2 ∈ (deref h e.1).delta.map Prod.fst := by
  induction Qw with
  | nil => simp [edgeList]
  | cons q Qw ih =>
    simp only [edgeList, List.mem_append, List.mem_map, List.mem_cons, ih]
    constructor
    · rintro (⟨x, hx, rfl⟩ | ⟨h1, h2⟩)
      · exact ⟨Or.inl rfl, x, hx, rfl⟩
      · exact ⟨Or.inr h1, h2⟩
    · rintro ⟨h1 | h1, x, hx, hxe⟩
      · left
        refine ⟨x, ?_, ?_⟩
        · rw [← h1]; exact hx
        · rw [← h1, hxe]
      · exact Or.inr ⟨h1, x, hx, hxe⟩

theorem edgeList_nodup (h : Heap) (Qw : List Nat) (hnd : Qw.Nodup)
    (hk : ∀ q, q ∈ Qw → ((deref h q).delta.map Prod.fst).Nodup) : (edgeList h Qw).Nodup := by
  induction Qw with
  | nil => simp [edgeList]
  | cons q Qw ih =>
    rw [List.nodup_cons] at hnd
    simp only [edgeList]
    rw [List.nodup_append]
    refine ⟨?_, ih hnd.2 (fun t ht => hk t (List.mem_cons_of_mem _ ht)), ?_⟩
    · have h1 := hk q (List.mem_cons_self _ _)
      have : (deref h q).delta.map (fun e => (q, e.1)) =
          ((deref h q).delta.map Prod.fst).map (fun a => (q, a)) := by
        rw [List.map_map]; rfl
      rw [this]
      exact h1.map (fun a b hab => by simpa using hab)
    · intro e he1 he2
      rw [mem_edgeList] at he2
      simp only [List.mem_map] at he1
      obtain ⟨x, _, rfl⟩ := he1
      exact hnd.1 he2.1

theorem dfind_ne_none_of_mem (d : Delta) (a : Char) (ha : a ∈ d.map Prod.fst) :
    dfind d a ≠ none := by
  induction d with
  | nil => simp at ha
  | cons e d ih =>
    rw [dfind_cons]
    split
    · simp
    · rename_i hne
      simp only [List.map_cons, List.mem_cons] at ha
      rcases ha with ha | ha
      · exact absurd ha hne
      · exact ih ha

theorem suffix_append_right {x y : List Char} (v : List Char) (hxy : x <:+ y) :
    x ++ v <:+ y ++ v := by
  obtain ⟨u, rfl⟩ := hxy
  exact ⟨u, by simp⟩

/-- A list of distinct numbers between `1` and `K` has at most `K` entries. -/
theorem length_le_of_nodup_bounded (l : List Nat) (K : Nat) (hnd : l.Nodup)
    (hb : ∀ x, x ∈ l → 1 ≤ x ∧ x ≤ K) : l.length ≤ K := by
  have hsub : l ⊆ List.range' 1 K := by
    intro x hx
    rw [List.mem_range'_1]
    have := hb x hx
    omega
  have := (List.subperm_of_subset hnd hsub).length_le
  simpa using this

variable {h : Heap} {w : List Char} {last : Nat} {r : Nat → List Char}

/-- Every prefix of a label is the label of a state. -/
theorem Inv.prefix_label (I : Inv h w last r) :
    ∀ (n t : Nat), (r t).length ≤ n → t < h.length → ∀ x, x <+: r t →
      ∃ q, q < h.length ∧ r q = x := by
  intro n
  induction n with
  | zero =>
    intro t hn ht x hx
    have hr : r t = [] := List.length_eq_zero.1 (by omega)
    rw [hr] at hx
    exact ⟨t, ht, by rw [hr]; exact (List.prefix_nil.1 hx).symm⟩
  | succ n ih =>
    intro t hn ht x hx
    by_cases hxt : x = r t
    · exact ⟨t, ht, hxt.symm⟩
    · rcases List.eq_nil_or_concat (r t) with hnil | ⟨y, a, hya⟩
      · rw [hnil] at hx
        exact ⟨t, ht, by rw [hnil]; exact (List.prefix_nil.1 hx).symm⟩
      · rw [List.concat_eq_append] at hya
        have hxy : x <+: y := by
          rw [hya] at hx
          rcases prefix_snoc_cases hx with h1 | h1
          · exact absurd (h1.trans hya.symm) hxt
          · exact h1
        have hyf : y <:+: w :=
          (List.prefix_append y [a]).isInfix.trans (hya ▸ I.factor t ht)
        obtain ⟨q1, hq1⟩ := I.run_complete y hyf
        obtain ⟨hq1l, hq1c⟩ := I.run_sound y q1 hq1
        have hcl : InClass h r t (y ++ [a]) := hya ▸ I.inClass_self ht
        have hd := I.trans_target hq1l ht hq1c hcl
        obtain ⟨_, hc0, _, hs, _⟩ := I.trans_sound q1 hq1l a _ hd
        cases hc0
        rw [hya] at hs
        have hq1y : r q1 = y :=
          ((suffix_snoc_inj hs).2.eq_of_length_le hq1c.1.length_le)
        have hlen : (r q1).length ≤ n := by
          rw [hq1y]
          have : (r t).length = y.length + 1 := by rw [hya]; simp
          omega
        exact ih q1 hlen hq1l x (hq1y ▸ hxy)

/-- The facts on a transition of the automaton. -/
theorem Inv.edge_target (I : Inv h w last r) {q : Nat} (hq : q < h.length) {a : Char}
    (ha : a ∈ (deref h q).delta.map Prod.fst) :
    ∃ t, step h q a = some t ∧ dfind (deref h q).delta a = some (some t) ∧ t < h.length ∧
      r q ++ [a] <:+ r t := by
  obtain ⟨v, hv⟩ := Option.ne_none_iff_exists'.1 (dfind_ne_none_of_mem _ _ ha)
  obtain ⟨t, hvt, htl, hs, _⟩ := I.trans_sound q hq a v hv
  subst hvt
  exact ⟨t, step_eq_some.2 hv, hv, htl, hs⟩

/-- A transition from `q` by `a` whose word `r q ++ [a]` is a label is solid:
its target has the label `r q ++ [a]`. -/
theorem Inv.solid_of_label (I : Inv h w last r) {q t t0 : Nat} (hq : q < h.length)
    (ht0 : t0 < h.length) {a : Char} (hd : dfind (deref h q).delta a = some (some t))
    (hl : r t0 = r q ++ [a]) : (r t).length = (r q).length + 1 := by
  have hcl : InClass h r t0 (r q ++ [a]) := hl ▸ I.inClass_self ht0
  have := I.trans_target hq ht0 (I.inClass_self hq) hcl
  rw [hd] at this
  cases this
  rw [hl]; simp

end

section

variable {h : Heap} {w : List Char} {last : Nat} {r : Nat → List Char}

/-- The transitions are at most `N - 1 + m` minus the number of states whose
label is a nonempty suffix of `w`: a solid transition is counted by its target, any
other by the length of a suffix of `w` that runs through it and is no label. -/
theorem Inv.edge_count (I : Inv h w last r) (Qw : List Nat) (hnd : Qw.Nodup)
    (hmem : ∀ q, q ∈ Qw ↔ q < h.length) (cs : List Nat)
    (hc : ∀ c, c ∈ cs → c < h.length ∧ r c <:+ w ∧ 0 < (r c).length)
    (hdist : (cs.map (fun c => (r c).length)).Nodup) :
    numTransitions h Qw + cs.length ≤ h.length - 1 + w.length := by
  have hv : ∀ t, ∃ v, t < h.length → r t ++ v <:+ w := by
    intro t
    by_cases ht : t < h.length
    · obtain ⟨s, v, hsv⟩ := I.factor t ht
      exact ⟨v, fun _ => ⟨s, by rw [← hsv]; simp⟩⟩
    · exact ⟨[], fun hh => absurd hh ht⟩
  choose v hv using hv
  -- the code of a transition
  let tgt : Nat × Char → Nat := fun e => (step h e.1 e.2).getD 0
  let code : Nat × Char → Nat := fun e =>
    if (r (tgt e)).length = (r e.1).length + 1 then tgt e
    else h.length - 1 + ((r e.1).length + 1 + (v (tgt e)).length)
  have hedge : ∀ e, e ∈ edgeList h Qw → e.1 < h.length ∧ tgt e < h.length ∧
      dfind (deref h e.1).delta e.2 = some (some (tgt e)) ∧ r e.1 ++ [e.2] <:+ r (tgt e) ∧
      r e.1 ++ [e.2] ++ v (tgt e) <:+ w := by
    intro e he
    rw [mem_edgeList] at he
    have hq := (hmem e.1).1 he.1
    obtain ⟨t, hst, hd, htl, hs⟩ := I.edge_target hq he.2
    have ht : tgt e = t := by simp [tgt, hst]
    rw [ht]
    exact ⟨hq, htl, hd, hs, (suffix_append_right _ hs).trans (hv t htl)⟩
  have hnonsolid : ∀ e, e ∈ edgeList h Qw → (r (tgt e)).length ≠ (r e.1).length + 1 →
      ∀ t0, t0 < h.length → ¬ r e.1 ++ [e.2] <+: r t0 := by
    intro e he hns t0 ht0 hpre
    obtain ⟨hq, _, hd, _, _⟩ := hedge e he
    obtain ⟨t1, ht1, hr1⟩ := I.prefix_label _ t0 le_rfl ht0 _ hpre
    exact hns (I.solid_of_label hq ht1 hd hr1)
  have hcode_solid : ∀ e, e ∈ edgeList h Qw → (r (tgt e)).length = (r e.1).length + 1 →
      code e = tgt e ∧ 1 ≤ tgt e ∧ tgt e < h.length := by
    intro e he hs
    obtain ⟨_, htl, _, _, _⟩ := hedge e he
    refine ⟨by simp [code, hs], ?_, htl⟩
    rcases Nat.eq_zero_or_pos (tgt e) with h0 | h0
    · rw [h0, I.r_zero] at hs; simp at hs
    · exact h0
  have hcode_non : ∀ e, e ∈ edgeList h Qw → (r (tgt e)).length ≠ (r e.1).length + 1 →
      code e = h.length - 1 + (r e.1 ++ [e.2] ++ v (tgt e)).length := by
    intro e _ hs
    simp [code, hs]
    omega
  have hpos := I.pos
  -- the codes are distinct
  have hinj : ∀ e, e ∈ edgeList h Qw → ∀ e', e' ∈ edgeList h Qw → code e = code e' → e = e' := by
    intro e he e' he' hcode
    obtain ⟨hq, htl, hd, hs, hsw⟩ := hedge e he
    obtain ⟨hq', htl', hd', hs', hsw'⟩ := hedge e' he'
    by_cases hsol : (r (tgt e)).length = (r e.1).length + 1
    · obtain ⟨hc1, _, hc3⟩ := hcode_solid e he hsol
      by_cases hsol' : (r (tgt e')).length = (r e'.1).length + 1
      · obtain ⟨hc1', _, _⟩ := hcode_solid e' he' hsol'
        have htt : tgt e = tgt e' := by rw [← hc1, ← hc1', hcode]
        have h1 : r e.1 ++ [e.2] = r (tgt e) := hs.eq_of_length (by simp [hsol])
        have h2 : r e'.1 ++ [e'.2] = r (tgt e') := hs'.eq_of_length (by simp [hsol'])
        rw [← htt, ← h1] at h2
        obtain ⟨h3, h4⟩ := List.append_inj' h2 rfl
        have h5 := I.eq_of_r_eq hq' hq h3
        simp only [List.cons.injEq, and_true] at h4
        exact (Prod.ext h5 h4).symm
      · have := hcode_non e' he' hsol'
        rw [← hcode, hc1] at this
        simp at this; omega
    · have hc1 := hcode_non e he hsol
      by_cases hsol' : (r (tgt e')).length = (r e'.1).length + 1
      · obtain ⟨hc1', _, hc3'⟩ := hcode_solid e' he' hsol'
        rw [hcode, hc1'] at hc1
        simp at hc1; omega
      · have hc1' := hcode_non e' he' hsol'
        have hlen : (r e.1 ++ [e.2] ++ v (tgt e)).length
            = (r e'.1 ++ [e'.2] ++ v (tgt e')).length := by omega
        have heq : r e.1 ++ [e.2] ++ v (tgt e) = r e'.1 ++ [e'.2] ++ v (tgt e') :=
          (List.suffix_of_suffix_length_le hsw hsw' (le_of_eq hlen)).eq_of_length hlen
        have hp1 : r e.1 ++ [e.2] <+: r e.1 ++ [e.2] ++ v (tgt e) := List.prefix_append _ _
        have hp2 : r e'.1 ++ [e'.2] <+: r e.1 ++ [e.2] ++ v (tgt e) := by
          rw [heq]; exact List.prefix_append _ _
        have hp3 : r e.1 <+: r e.1 ++ [e.2] ++ v (tgt e) :=
          (List.prefix_append _ _).trans hp1
        have hp4 : r e'.1 <+: r e.1 ++ [e.2] ++ v (tgt e) :=
          (List.prefix_append _ _).trans hp2
        rcases Nat.lt_trichotomy (r e.1).length (r e'.1).length with hlt | hlt | hlt
        · exfalso
          exact hnonsolid e he hsol e'.1 hq'
            (List.prefix_of_prefix_length_le hp1 hp4 (by simp; omega))
        · have h3 : r e.1 = r e'.1 :=
            (List.prefix_of_prefix_length_le hp3 hp4 (le_of_eq hlt)).eq_of_length hlt
          have h5 := I.eq_of_r_eq hq hq' h3
          rw [h3, List.append_assoc, List.append_assoc] at heq
          have h4 := List.append_cancel_left heq
          simp only [List.singleton_append, List.cons.injEq] at h4
          exact Prod.ext h5 h4.1
        · exfalso
          exact hnonsolid e' he' hsol' e.1 hq
            (List.prefix_of_prefix_length_le hp2 hp3 (by simp; omega))
  -- the codes avoid the suffix states
  have havoid : ∀ e, e ∈ edgeList h Qw → ∀ c, c ∈ cs → code e ≠ h.length - 1 + (r c).length := by
    intro e he c hcc hcode
    obtain ⟨hcl, hcw, hcp⟩ := hc c hcc
    obtain ⟨hq, htl, hd, hs, hsw⟩ := hedge e he
    by_cases hsol : (r (tgt e)).length = (r e.1).length + 1
    · obtain ⟨hc1, _, hc3⟩ := hcode_solid e he hsol
      omega
    · have hc1 := hcode_non e he hsol
      have hlen : (r e.1 ++ [e.2] ++ v (tgt e)).length = (r c).length := by omega
      have heq : r e.1 ++ [e.2] ++ v (tgt e) = r c :=
        (List.suffix_of_suffix_length_le hsw hcw (le_of_eq hlen)).eq_of_length hlen
      exact hnonsolid e he hsol c hcl (heq ▸ List.prefix_append _ _)
  have hbound : ∀ e, e ∈ edgeList h Qw → 1 ≤ code e ∧ code e ≤ h.length - 1 + w.length := by
    intro e he
    obtain ⟨hq, htl, hd, hs, hsw⟩ := hedge e he
    by_cases hsol : (r (tgt e)).length = (r e.1).length + 1
    · obtain ⟨hc1, hc2, hc3⟩ := hcode_solid e he hsol
      omega
    · have hc1 := hcode_non e he hsol
      have := hsw.length_le
      rw [hc1]
      constructor
      · simp; omega
      · omega
  -- count
  have hnodup : (cs.map (fun c => h.length - 1 + (r c).length) ++ (edgeList h Qw).map code).Nodup := by
    rw [List.nodup_append]
    refine ⟨?_, ?_, ?_⟩
    · have : cs.map (fun c => h.length - 1 + (r c).length) =
          (cs.map (fun c => (r c).length)).map (fun n => h.length - 1 + n) := by
        rw [List.map_map]; rfl
      rw [this]
      exact hdist.map (fun a b hab => by simpa using hab)
    · exact List.Nodup.map_on (fun e he e' he' hcode => hinj e he e' he' hcode)
        (edgeList_nodup h Qw hnd (fun q hq => I.keys q ((hmem q).1 hq)))
    · intro x hx1 hx2
      simp only [List.mem_map] at hx1 hx2
      obtain ⟨c, hcc, rfl⟩ := hx1
      obtain ⟨e, he, hce⟩ := hx2
      exact havoid e he c hcc hce
  have hall : ∀ x, x ∈ cs.map (fun c => h.length - 1 + (r c).length) ++ (edgeList h Qw).map code →
      1 ≤ x ∧ x ≤ h.length - 1 + w.length := by
    intro x hx
    rw [List.mem_append] at hx
    simp only [List.mem_map] at hx
    rcases hx with ⟨c, hcc, rfl⟩ | ⟨e, he, rfl⟩
    · obtain ⟨_, hcw, hcp⟩ := hc c hcc
      have := hcw.length_le
      omega
    · exact hbound e he
  have := length_le_of_nodup_bounded _ _ hnodup hall
  simp only [List.length_append, List.length_map, edgeList_length] at this
  omega

end

section

theorem numTransitions_congr (h1 h2 : Heap) (hd : ∀ q, (deref h1 q).delta = (deref h2 q).delta)
    (Qw : List Nat) : numTransitions h1 Qw = numTransitions h2 Qw := by
  simp [numTransitions, hd]

/-- C10, as stated, fails for `m = 2`: the automaton of `"ab"` has the three
transitions `q_eps -a-> q_a`, `q_eps -b-> q_ab`, `q_a -b-> q_ab`, more than
`3 * 2 - 4 = 2`. -/
theorem transition_bound_fails_ab :
    ∃ h Qw, BuildSuffixAutomaton ['a', 'b'] = .ok (h, Qw) ∧ 2 ≤ ['a', 'b'].length ∧
      numTransitions h Qw = 3 ∧ ¬ numTransitions h Qw ≤ 3 * ['a', 'b'].length - 4 :=
  ⟨_, _, rfl, by decide, rfl, by decide⟩

/-- C10, amended. For a string of length `m ≥ 3` the total number of `delta`
entries over the states of the automaton built by `BuildSuffixAutomaton` is at
most `3m - 4`; it is also at most `|Qw| + m - 2`. -/
theorem BuildSuffixAutomaton_transition_bound (w : List Char) (hw : 3 ≤ w.length) :
    ∃ h Qw, BuildSuffixAutomaton w = .ok (h, Qw) ∧ numTransitions h Qw ≤ 3 * w.length - 4 ∧
      numTransitions h Qw + 2 ≤ Qw.length + w.length := by
  obtain ⟨hb, hF, Qw, last, r, hrun, I, _, hmem, hlen, hnd, B, T, hfields, _⟩ := build_spec w
  refine ⟨hF, Qw, hrun, ?_⟩
  rw [numTransitions_congr hF hb (fun q => (hfields q).2.2) Qw]
  have hN := B.2 (by omega)
  have hpos := I.pos
  have hlast : last < hb.length ∧ r last <:+ w ∧ 0 < (r last).length := by
    refine ⟨I.last_lt, by rw [I.r_last], ?_⟩
    rw [I.r_last]; omega
  have h1 := I.edge_count Qw hnd hmem [last] (by
    intro c hc
    simp only [List.mem_singleton] at hc
    subst hc; exact hlast) (by simp)
  simp only [List.length_singleton] at h1
  constructor
  · rcases T hw with hT | ⟨c, hc1, hc2, hc3, hc4⟩
    · omega
    · have h2 := I.edge_count Qw hnd hmem [c, last] (by
        intro c' hc'
        simp only [List.mem_cons, List.mem_singleton, List.not_mem_nil, or_false] at hc'
        rcases hc' with rfl | rfl
        · exact ⟨hc1, hc2, hc3⟩
        · exact hlast) (by
        simp only [List.map_cons, List.map_nil, List.nodup_cons, List.mem_singleton,
          List.not_mem_nil, not_false_eq_true, List.nodup_nil, and_true]
        rw [I.r_last]; omega)
      simp only [List.length_cons, List.length_singleton, List.length_nil] at h2
      omega
  · rw [hlen]; omega

theorem BuildSuffixAutomaton_transition_bound_witness :
    ∃ h Qw, BuildSuffixAutomaton ['a', 'b', 'c'] = .ok (h, Qw) ∧
      numTransitions h Qw ≤ 3 * ['a', 'b', 'c'].length - 4 ∧
      numTransitions h Qw + 2 ≤ Qw.length + ['a', 'b', 'c'].length :=
  BuildSuffixAutomaton_transition_bound ['a', 'b', 'c'] (by decide)

end

section

/-! ## Suffix links -/

variable {h : Heap} {w : List Char} {last : Nat} {r : Nat → List Char}

theorem Inv.label_pos (I : Inv h w last r) {q : Nat} (hq : q < h.length) (h0 : q ≠ 0) :
    0 < (r q).length := by
  obtain ⟨s, _, _, _, hlt⟩ := I.slink_some q hq h0
  omega

theorem Inv.slinkChain_zero (I : Inv h w last r) :
    ∀ (L q : Nat), q < h.length → (r q).length ≤ L →
      ∃ n, n ≤ (r q).length ∧ slinkChain h n q = some 0 := by
  intro L
  induction L with
  | zero =>
    intro q hq hL
    by_cases h0 : q = 0
    · subst h0; exact ⟨0, Nat.zero_le _, rfl⟩
    · have := I.label_pos hq h0; omega
  | succ L ih =>
    intro q hq hL
    by_cases h0 : q = 0
    · subst h0; exact ⟨0, Nat.zero_le _, rfl⟩
    · obtain ⟨s, hs, hsl, _, hlt⟩ := I.slink_some q hq h0
      obtain ⟨n, hn, hc⟩ := ih s hsl (by omega)
      refine ⟨n + 1, by omega, ?_⟩
      simp only [slinkChain, hs]
      exact hc

theorem slinkChain_congr (h1 h2 : Heap) (hd : ∀ q, (deref h1 q).slink = (deref h2 q).slink) :
    ∀ (n q : Nat), slinkChain h1 n q = slinkChain h2 n q := by
  intro n
  induction n with
  | zero => intro q; rfl
  | succ n ih =>
    intro q
    simp only [slinkChain, hd q]
    cases (deref h2 q).slink with
    | none => rfl
    | some s => exact ih s

/-- C11. In the automaton built for `w` the initial state is the only state
without suffix link; the suffix link of any other state `q` is a state of `Qw`
of smaller `len`; following `slink` from `q` reaches the initial state after at
most `q.len` steps. The build, with its final-marking loop, returns. -/
theorem BuildSuffixAutomaton_slink_chain (w : List Char) :
    ∃ h Qw, BuildSuffixAutomaton w = .ok (h, Qw) ∧ 0 ∈ Qw ∧ (deref h 0).slink = none ∧
      (∀ q, q ∈ Qw → q ≠ 0 →
        ∃ s, (deref h q).slink = some s ∧ s ∈ Qw ∧ (deref h s).len < (deref h q).len) ∧
      (∀ q, q ∈ Qw → (deref h q).slink = none → q = 0) ∧
      (∀ q, q ∈ Qw → ∃ n : Nat, (n : Int) ≤ (deref h q).len ∧ slinkChain h n q = some 0) := by
  obtain ⟨hb, hF, Qw, last, r, hrun, I, _, hmem, _, _, _, _, hfields, _⟩ := build_spec w
  have hlen : ∀ q, q < hb.length → (deref hF q).len = ((r q).length : Int) := fun q hq => by
    rw [(hfields q).1, I.len_eq q hq]
  have hlink : ∀ q, q ∈ Qw → q ≠ 0 →
      ∃ s, (deref hF q).slink = some s ∧ s ∈ Qw ∧ (deref hF s).len < (deref hF q).len := by
    intro q hq h0
    have hql := (hmem q).1 hq
    obtain ⟨s, hs, hsl, _, hlt⟩ := I.slink_some q hql h0
    refine ⟨s, by rw [(hfields q).2.1]; exact hs, (hmem s).2 hsl, ?_⟩
    rw [hlen q hql, hlen s hsl]
    exact_mod_cast hlt
  refine ⟨hF, Qw, hrun, (hmem 0).2 I.pos, by rw [(hfields 0).2.1]; exact I.slink_zero, hlink,
    ?_, ?_⟩
  · intro q hq hnone
    by_contra h0
    obtain ⟨s, hs, _⟩ := hlink q hq h0
    rw [hnone] at hs
    cases hs
  · intro q hq
    have hql := (hmem q).1 hq
    obtain ⟨n, hn, hc⟩ := I.slinkChain_zero _ q hql le_rfl
    refine ⟨n, by rw [hlen q hql]; exact_mod_cast hn, ?_⟩
    rw [slinkChain_congr hF hb (fun t => (hfields t).2.1)]
    exact hc

/-- C12, as stated, fails: in the automaton of `"a"` the state of `a` (state `1`,
`len = 1`) has the initial state as suffix link, whose `len` is `0`. -/
theorem slink_len_zero_a :
    ∃ h Qw, BuildSuffixAutomaton ['a'] = .ok (h, Qw) ∧ 1 ∈ Qw ∧ (1 : Nat) ≠ 0 ∧
      (deref h 1).len = 1 ∧ (deref h 1).slink = some 0 ∧ (deref h 0).len = 0 ∧
      ¬ (∀ q, q ∈ Qw → q ≠ 0 → ∃ s, (deref h q).slink = some s ∧
          0 < (deref h s).len ∧ (deref h s).len < (deref h q).len) := by
  refine ⟨_, _, rfl, by decide, by decide, rfl, rfl, rfl, ?_⟩
  intro hall
  obtain ⟨s, hs, hpos, _⟩ := hall 1 (by decide) (by decide)
  have hs0 : s = 0 := by
    have : some 0 = some s := hs
    exact (Option.some.inj this).symm
  subst hs0
  exact absurd hpos (by decide)

/-- C12, amended. For every non-initial state `q` of the automaton built for `w`:
`0 ≤ q.slink.len < q.len`, and `q.slink.len = 0` exactly when `q.slink` is the
initial state. -/
theorem BuildSuffixAutomaton_slink_len (w : List Char) :
    ∃ h Qw, BuildSuffixAutomaton w = .ok (h, Qw) ∧
      ∀ q, q ∈ Qw → q ≠ 0 →
        ∃ s, (deref h q).slink = some s ∧ 0 ≤ (deref h s).len ∧
          (deref h s).len < (deref h q).len ∧ ((deref h s).len = 0 ↔ s = 0) := by
  obtain ⟨hb, hF, Qw, last, r, hrun, I, _, hmem, _, _, _, _, hfields, _⟩ := build_spec w
  have hlen : ∀ q, q < hb.length → (deref hF q).len = ((r q).length : Int) := fun q hq => by
    rw [(hfields q).1, I.len_eq q hq]
  refine ⟨hF, Qw, hrun, ?_⟩
  intro q hq h0
  have hql := (hmem q).1 hq
  obtain ⟨s, hs, hsl, _, hlt⟩ := I.slink_some q hql h0
  refine ⟨s, by rw [(hfields q).2.1]; exact hs, ?_, ?_, ?_⟩
  · rw [hlen s hsl]; exact Int.natCast_nonneg _
  · rw [hlen q hql, hlen s hsl]; exact_mod_cast hlt
  · rw [hlen s hsl]
    constructor
    · intro hz
      by_contra hs0
      have := I.label_pos hsl hs0
      omega
    · intro hs0
      subst hs0
      rw [I.r_zero]; rfl

end

section

/-! ## Unary strings -/

theorem range_qinsert (k : Nat) : qinsert (List.range (k + 1)) (k + 1) = List.range (k + 2) := by
  rw [qinsert_fresh _ _ (by simp), ← List.range_succ]

theorem buildStep_unary (a : Char) (k : Nat) (b : Build) (hb : UnaryHeap a k k b.heap)
    (hq : b.q_w = k) (hQ : b.Qw = List.range (k + 1)) :
    ∃ b1 h1 p h2,
      FindStem a b.heap.length
        ((b.heap ++ [State.mk ((k : Int) + 1) 0 none [] false]).length + 1)
        (b.heap ++ [State.mk ((k : Int) + 1) 0 none [] false]) (some b.q_w) = .ok (h1, p) ∧
      ModifyTree h1 p 0 b.heap.length a = .ok (h2, none) ∧
      buildStep 0 b (k : Int) a = .ok b1 ∧ UnaryHeap a (k + 1) (k + 1) b1.heap ∧
      b1.q_w = k + 1 ∧ b1.Qw = List.range (k + 2) := by
  obtain ⟨hlen, hst⟩ := hb
  obtain ⟨h, Qw, q_w⟩ := b
  simp only at hlen hst hq hQ
  subst hq hQ
  set new : State := { len := (q_w : Int) + 1, index := 0, slink := none, delta := [],
                       final := false } with hnew
  set h0 := h ++ [new] with hh0
  have h0len : h0.length = q_w + 2 := by simp [hh0, hlen]
  have hd0 : ∀ i, i ≤ q_w → deref h0 i = unaryState a q_w i := by
    intro i hi
    rw [hh0, deref_append_lt _ _ _ (by omega), hst i hi]
    simp [unaryState]; omega
  have hdnew : deref h0 (q_w + 1) = new := by
    rw [hh0, ← hlen]; exact deref_append_eq _ _
  set h1 := setDelta h0 q_w a (some (q_w + 1)) with hh1
  have h1len : h1.length = q_w + 2 := by simp [hh1, h0len]
  have hd1 : ∀ i, deref h1 i = if i = q_w then
      { deref h0 q_w with delta := dset (deref h0 q_w).delta a (some (q_w + 1)) }
      else deref h0 i := fun i => deref_setDelta _ _ _ _ _ (by omega)
  have hdq : (deref h0 q_w).delta = [] := by rw [hd0 _ le_rfl]; simp [unaryState]
  have hfind0 : dfind (deref h0 q_w).delta a = none := by rw [hdq]; rfl
  -- the stem
  have hstem : ∃ p, FindStem a (q_w + 1) (h0.length + 1) h0 (some q_w) = .ok (h1, p) ∧
      ModifyTree h1 p 0 (q_w + 1) a = .ok (setSlink h1 (q_w + 1) (some q_w), none) ∧
      RedirectTransitions ((setSlink h1 (q_w + 1) (some q_w)).length + 1)
        (setSlink h1 (q_w + 1) (some q_w)) p none a = .ok (setSlink h1 (q_w + 1) (some q_w)) := by
    rw [h0len]
    by_cases hk : q_w = 0
    · subst hk
      refine ⟨none, ?_, rfl, rfl⟩
      have hs : (deref h0 0).slink = none := by rw [hd0 0 le_rfl]; rfl
      simp only [FindStem, hfind0, hs]
    · refine ⟨some (q_w - 1), ?_, ?_, rfl⟩
      · have hs : (deref h0 q_w).slink = some (q_w - 1) := by
          rw [hd0 _ le_rfl]; simp [unaryState, hk]
        have hf1 : dfind (deref h1 (q_w - 1)).delta a = some (some q_w) := by
          rw [hd1, if_neg (by omega), hd0 _ (by omega)]
          have : q_w - 1 + 1 = q_w := by omega
          have hpos : 0 < q_w := by omega
          simp [unaryState, dfind, List.lookup, this, hpos]
        simp only [FindStem, hfind0, hs, hf1]
      · have hf1 : dfind (deref h1 (q_w - 1)).delta a = some (some q_w) := by
          rw [hd1, if_neg (by omega), hd0 _ (by omega)]
          have : q_w - 1 + 1 = q_w := by omega
          have hpos : 0 < q_w := by omega
          simp [unaryState, dfind, List.lookup, this, hpos]
        have hl1 : (deref h1 q_w).len = (q_w : Int) := by
          rw [hd1, if_pos rfl, hd0 _ le_rfl]; rfl
        have hl2 : (deref h1 (q_w - 1)).len = ((q_w - 1 : Nat) : Int) := by
          rw [hd1, if_neg (by omega), hd0 _ (by omega)]; rfl
        have hc : (deref h1 q_w).len = (deref h1 (q_w - 1)).len + 1 ∧ (deref h1 q_w).len ≠ 0 := by
          rw [hl1, hl2]; omega
        simp only [ModifyTree, hf1, if_pos hc]
  obtain ⟨p, hfs, hmt, hrt⟩ := hstem
  have hfinal : UnaryHeap a (q_w + 1) (q_w + 1) (setSlink h1 (q_w + 1) (some q_w)) := by
    refine ⟨by simp [h1len], ?_⟩
    intro i hi
    rw [deref_setSlink _ _ _ _ (by omega)]
    by_cases hi1 : i = q_w + 1
    · subst hi1
      rw [if_pos rfl, hd1, if_neg (by omega), hdnew]
      simp [unaryState, hnew]
    · rw [if_neg hi1, hd1]
      by_cases hi2 : i = q_w
      · subst hi2
        rw [if_pos rfl, hd0 _ le_rfl]
        simp [unaryState, dset]
      · rw [if_neg hi2, hd0 _ (by omega)]
        have h1' : i < q_w := by omega
        have h2' : i < q_w + 1 := by omega
        simp [unaryState, h1', h2']
        omega
  refine ⟨Build.mk (setSlink h1 (q_w + 1) (some q_w)) (qinsert (List.range (q_w + 1)) (q_w + 1))
    (q_w + 1), h1, p, setSlink h1 (q_w + 1) (some q_w), ?_, ?_, ?_, hfinal, rfl,
    range_qinsert q_w⟩
  · show FindStem a h.length (h0.length + 1) h0 (some q_w) = _
    rw [hlen]; exact hfs
  · show ModifyTree h1 p 0 h.length a = _
    rw [hlen]; exact hmt
  · simp only [buildStep]
    rw [← hnew, ← hh0, hlen, hfs]
    simp only [hmt, hrt]

theorem unaryHeap_init (a : Char) : UnaryHeap a 0 0 initBuild.heap := by
  refine ⟨rfl, ?_⟩
  intro i hi
  have : i = 0 := by omega
  subst this
  rfl

theorem buildLoop_unary (a : Char) :
    ∀ (n k : Nat) (b : Build), UnaryHeap a k k b.heap → b.q_w = k → b.Qw = List.range (k + 1) →
      ∃ b1, buildLoop 0 (List.replicate n a) (k : Int) b = .ok b1 ∧
        UnaryHeap a (k + n) (k + n) b1.heap ∧ b1.q_w = k + n ∧ b1.Qw = List.range (k + n + 1) := by
  intro n
  induction n with
  | zero => intro k b hb hq hQ; exact ⟨b, rfl, hb, hq, hQ⟩
  | succ n ih =>
    intro k b hb hq hQ
    obtain ⟨b1, _, _, _, _, _, hstep, hb1, hq1, hQ1⟩ := buildStep_unary a k b hb hq hQ
    obtain ⟨b2, hloop, hb2, hq2, hQ2⟩ := ih (k + 1) b1 hb1 hq1 hQ1
    have e : k + 1 + n = k + (n + 1) := by omega
    refine ⟨b2, ?_, e ▸ hb2, e ▸ hq2, e ▸ hQ2⟩
    simp only [List.replicate_succ, buildLoop, hstep]
    have : (k : Int) + 1 = ((k + 1 : Nat) : Int) := by push_cast; rfl
    rw [this]; exact hloop

theorem markFinal_unary (a : Char) (n : Nat) :
    ∀ (j fuel : Nat) (hc : Heap), j ≤ n → j + 2 ≤ fuel → UnaryHeap a n j hc →
      ∃ hF, markFinal fuel hc (some j) = .ok hF ∧ UnaryHeap a n 0 hF := by
  intro j
  induction j with
  | zero =>
    intro fuel hc _ hf hh
    obtain ⟨f, rfl⟩ : ∃ f, fuel = f + 2 := ⟨fuel - 2, by omega⟩
    have hs : (deref hc 0).slink = none := by rw [hh.2 0 (Nat.zero_le _)]; rfl
    refine ⟨setFinal hc 0, by simp only [markFinal, hs], by simp [hh.1], ?_⟩
    intro i hi
    rw [deref_setFinal _ _ _ (by rw [hh.1]; omega)]
    by_cases hi0 : i = 0
    · subst hi0; rw [if_pos rfl, hh.2 0 hi]; rfl
    · rw [if_neg hi0, hh.2 i hi]
  | succ j ih =>
    intro fuel hc hj hf hh
    obtain ⟨f, rfl⟩ : ∃ f, fuel = f + 1 := ⟨fuel - 1, by omega⟩
    have hs : (deref hc (j + 1)).slink = some j := by
      rw [hh.2 (j + 1) hj]; simp [unaryState]
    have hnext : UnaryHeap a n j (setFinal hc (j + 1)) := by
      refine ⟨by simp [hh.1], ?_⟩
      intro i hi
      rw [deref_setFinal _ _ _ (by rw [hh.1]; omega)]
      by_cases hij : i = j + 1
      · subst hij; rw [if_pos rfl, hh.2 _ hi]; simp
      · rw [if_neg hij, hh.2 i hi]
        have : (i = 0 ∨ j + 1 < i) ↔ (i = 0 ∨ j < i) := by omega
        simp [this]
    obtain ⟨hF, h1, h2⟩ := ih f (setFinal hc (j + 1)) (by omega) (by omega) hnext
    exact ⟨hF, by simp only [markFinal, hs]; exact h1, h2⟩

/-- C16. For the string of `n` copies of a symbol `a` the build returns exactly
the `n + 1` states `q_0 .. q_n` (in order of allocation), with `q_i.len = i`,
the single transition `q_i -a-> q_(i+1)` for `i < n` and none from `q_n`,
`q_(i+1).slink = q_i`, every state final; in every round `ModifyTree` returns
`NULL`, that is, creates no clone. -/
theorem BuildSuffixAutomaton_unary (a : Char) (n : Nat) :
    ∃ h Qw, BuildSuffixAutomaton (List.replicate n a) = .ok (h, Qw) ∧
      Qw = List.range (n + 1) ∧ h.length = n + 1 ∧
      (∀ i, i ≤ n → (deref h i).len = (i : Int) ∧
        (deref h i).delta = (if i < n then [(a, some (i + 1))] else []) ∧
        (deref h i).slink = (if i = 0 then none else some (i - 1)) ∧
        (deref h i).final = true) ∧
      (∀ k, k < n → ∃ b h1 p h2, buildLoop 0 (List.replicate k a) 0 initBuild = .ok b ∧
        FindStem a b.heap.length
          ((b.heap ++ [State.mk ((k : Int) + 1) 0 none [] false]).length + 1)
          (b.heap ++ [State.mk ((k : Int) + 1) 0 none [] false]) (some b.q_w) = .ok (h1, p) ∧
        ModifyTree h1 p 0 b.heap.length a = .ok (h2, none)) := by
  obtain ⟨b, hloop, hb, hq, hQ⟩ := buildLoop_unary a n 0 initBuild (unaryHeap_init a) rfl rfl
  simp only [Nat.zero_add] at hb hq hQ
  obtain ⟨hF, hmark, hF'⟩ := markFinal_unary a n n (b.heap.length + 1) b.heap le_rfl
    (by rw [hb.1]) hb
  refine ⟨hF, b.Qw, ?_, hQ, hF'.1, ?_, ?_⟩
  · simp only [BuildSuffixAutomaton]
    have : buildLoop 0 (List.replicate n a) 0 initBuild = .ok b := hloop
    rw [this]
    simp only [hq, hmark]
  · intro i hi
    rw [hF'.2 i hi]
    refine ⟨rfl, rfl, rfl, ?_⟩
    by_cases h0 : i = 0 <;> simp [h0]
    omega
  · intro k hk
    obtain ⟨b1, hl1, hb1, hq1, hQ1⟩ :=
      buildLoop_unary a k 0 initBuild (unaryHeap_init a) rfl rfl
    simp only [Nat.zero_add] at hb1 hq1 hQ1
    obtain ⟨_, h1, p, h2, hfs, hmt, _⟩ := buildStep_unary a k b1 hb1 hq1 hQ1
    exact ⟨b1, h1, p, h2, hl1, hfs, hmt⟩

end

section

/-! ## One round of the build, step by step -/

variable {h : Heap} {w : List Char} {last : Nat} {r : Nat → List Char}

theorem Inv.lenIncreasing (I : Inv h w last r) : LenIncreasing h := by
  intro q hq a v hv
  obtain ⟨t, hvt, ht, hsuf, _⟩ := I.trans_sound q hq a v hv
  refine ⟨t, hvt, ht, ?_⟩
  rw [I.len_eq q hq, I.len_eq t ht]
  have := hsuf.length_le
  simp only [List.length_append, List.length_singleton] at this
  exact_mod_cast this

theorem lenIncreasing_congr (h1 h2 : Heap) (hl : h2.length = h1.length)
    (hf : ∀ t, t < h1.length →
      (deref h2 t).len = (deref h1 t).len ∧ (deref h2 t).delta = (deref h1 t).delta)
    (H : LenIncreasing h1) : LenIncreasing h2 := by
  intro q hq a v hv
  rw [hl] at hq
  rw [(hf q hq).2] at hv
  obtain ⟨t, hvt, ht, hlen⟩ := H q hq a v hv
  exact ⟨t, hvt, by rw [hl]; exact ht, by rw [(hf q hq).1, (hf t ht).1]; exact hlen⟩

theorem dset_fresh (d : Delta) (a : Char) (v : Option Nat) (ha : a ∉ d.map Prod.fst) :
    dset d a v = d ++ [(a, v)] := by
  induction d with
  | nil => rfl
  | cons e d ih =>
    obtain ⟨b, u⟩ := e
    simp only [List.map_cons, List.mem_cons, not_or] at ha
    have hb : b ≠ a := fun hh => ha.1 hh.symm
    simp only [dset, if_neg hb, List.cons_append, ih ha.2]

/-- Copying distinct entries one by one into a map with other keys appends them. -/
theorem copy_list (l : Delta) :
    ∀ acc : Delta, ((acc ++ l).map Prod.fst).Nodup →
      l.foldl (fun d e => dset d e.1 e.2) acc = acc ++ l := by
  induction l with
  | nil => intro acc _; simp
  | cons e l ih =>
    intro acc hn
    have hn' : (((acc ++ [e]) ++ l).map Prod.fst).Nodup := by simpa using hn
    have hfresh : e.1 ∉ acc.map Prod.fst := by
      intro hmem
      rw [List.map_append, List.nodup_append] at hn
      exact hn.2.2 hmem (by simp)
    simp only [List.foldl_cons]
    rw [dset_fresh _ _ _ hfresh, ih _ hn']
    simp

theorem deref_setSlink_fields (hh : Heap) (q : Nat) (s : Option Nat) (t : Nat) :
    (deref (setSlink hh q s) t).len = (deref hh t).len ∧
    (deref (setSlink hh q s) t).delta = (deref hh t).delta ∧
    (deref (setSlink hh q s) t).final = (deref hh t).final := by
  by_cases hq : q < hh.length
  · rw [deref_setSlink _ _ _ _ hq]
    by_cases ht : t = q
    · subst ht; simp
    · simp [ht]
  · have : setSlink hh q s = hh := by
      simp only [setSlink]
      exact List.set_eq_of_length_le (by omega)
    rw [this]
    exact ⟨rfl, rfl, rfl⟩

/-- The transitions of the clone are those of `suf`, entry for entry. -/
theorem modifyTree_clone_delta (h1 : Heap) (t suf q_epsi q_wa : Nat) (a : Char)
    (hsuf : suf < h1.length) (hk : ((deref h1 suf).delta.map Prod.fst).Nodup)
    (hd : dfind (deref h1 t).delta a = some (some suf))
    (hc : ¬ ((deref h1 suf).len = (deref h1 t).len + 1 ∧ (deref h1 suf).len ≠ 0))
    (h5 : Heap) (sp : Option Nat)
    (hM : ModifyTree h1 (some t) q_epsi q_wa a = .ok (h5, sp)) :
    (deref h5 h1.length).delta = (deref h1 suf).delta := by
  simp only [ModifyTree, hd, if_neg hc] at hM
  injection hM with hM
  injection hM with hM _
  subst hM
  rw [(deref_setSlink_fields _ _ _ _).2.1, (deref_setSlink_fields _ _ _ _).2.1,
    (deref_setSlink_fields _ _ _ _).2.1]
  unfold CopyTransitions
  obtain ⟨-, -, h3⟩ := copy_fold h1.length
    (deref (h1 ++ [State.mk ((deref h1 t).len + 1) 0 none [] false]) suf).delta
    (h1 ++ [State.mk ((deref h1 t).len + 1) 0 none [] false]) (by simp)
  rw [h3, deref_append_eq, deref_append_lt _ _ _ hsuf]
  simp only
  rw [copy_list _ [] (by simpa using hk)]
  simp

end

section

variable {h : Heap} {w : List Char} {last : Nat} {r : Nat → List Char}

/-- After `FindStem` every transition still increases `len`: the new
transitions lead to the new state, whose `len` is the largest. -/
theorem stem_lenIncreasing (I : Inv h w last r) (a : Char) (s : State)
    (hs : s = { len := (w.length : Int) + 1, index := 0, slink := none, delta := [],
                final := false })
    (h1 : Heap) (L : Nat) (S : StemInv h w r a (h ++ [s]) h1 L) : LenIncreasing h1 := by
  have hlen1 : h1.length = h.length + 1 := by rw [S.length_eq]; simp
  have hl : ∀ q, q < h.length → (deref h1 q).len = ((r q).length : Int) := by
    intro q hq
    rw [(S.fields q).1, deref_append_lt _ _ _ hq, I.len_eq q hq]
  have hn : (deref h1 h.length).len = (w.length : Int) + 1 := by
    rw [(S.fields _).1, deref_append_eq, hs]
  intro q hq b v hv
  rw [hlen1] at hq
  rw [S.tr q b] at hv
  by_cases hqn : q < h.length
  · have hle := I.len_le hqn
    split at hv
    · refine ⟨h.length, (Option.some.inj hv).symm, by omega, ?_⟩
      rw [hl q hqn, hn]; omega
    · rw [deref_append_lt _ _ _ hqn] at hv
      obtain ⟨t, hvt, ht, hlen⟩ := I.lenIncreasing q hqn b v hv
      refine ⟨t, hvt, by omega, ?_⟩
      rw [hl q hqn, hl t ht, ← I.len_eq q hqn, ← I.len_eq t ht]
      exact hlen
  · have : q = h.length := by omega
    subst this
    rw [if_neg (by omega), deref_append_eq, hs] at hv
    cases hv

/-- One round of the loop of `BuildSuffixAutomaton` for the symbol `a`, call by
call: the heaps after `FindStem`, `ModifyTree` and `RedirectTransitions`, and
what `ModifyTree` does in each of its three cases. -/
theorem round_spec (b : Build) (w : List Char) (r : Nat → List Char) (a : Char)
    (I : Inv b.heap w b.q_w r) :
    ∃ h1 p h2 sp h3,
      FindStem a b.heap.length
        ((b.heap ++ [State.mk ((w.length : Int) + 1) 0 none [] false]).length + 1)
        (b.heap ++ [State.mk ((w.length : Int) + 1) 0 none [] false]) (some b.q_w)
          = .ok (h1, p) ∧
      ModifyTree h1 p 0 b.heap.length a = .ok (h2, sp) ∧
      RedirectTransitions (h2.length + 1) h2 p sp a = .ok h3 ∧
      h1.length = b.heap.length + 1 ∧ h3.length = h2.length ∧
      LenIncreasing h1 ∧ LenIncreasing h2 ∧ LenIncreasing h3 ∧
      (p = none → sp = none ∧ h2.length = h1.length ∧
        ∀ q, q < h1.length →
          deref h2 q = if q = b.heap.length then { deref h1 q with slink := some 0 }
            else deref h1 q) ∧
      (∀ t, p = some t → ∃ suf, t < b.heap.length ∧ suf < b.heap.length ∧
        dfind (deref h1 t).delta a = some (some suf) ∧ (deref h1 suf).len ≠ 0 ∧
        ((deref h1 suf).len = (deref h1 t).len + 1 → sp = none ∧ h2.length = h1.length ∧
          ∀ q, q < h1.length →
            deref h2 q = if q = b.heap.length then { deref h1 q with slink := some suf }
              else deref h1 q) ∧
        ((deref h1 suf).len ≠ (deref h1 t).len + 1 → sp = some h1.length ∧
          h2.length = h1.length + 1 ∧
          (deref h2 h1.length).len = (deref h1 t).len + 1 ∧
          (deref h2 h1.length).final = false ∧
          (deref h2 h1.length).delta = (deref h1 suf).delta ∧
          (deref h2 h1.length).slink = (deref h1 suf).slink ∧
          ∀ q, q < h1.length →
            deref h2 q = if q = suf ∨ q = b.heap.length then
              { deref h1 q with slink := some h1.length } else deref h1 q)) := by
  obtain ⟨h1, p, z, hrun, S, L, hp⟩ := findStem_spec I a
    { len := (w.length : Int) + 1, index := 0, slink := none, delta := [], final := false } rfl
  have hlen1 : h1.length = b.heap.length + 1 := by rw [S.length_eq]; simp
  have hH1 : LenIncreasing h1 := stem_lenIncreasing I a _ rfl h1 _ S
  have hlink : ∀ (x : Option Nat) (s : Option Nat),
      LenIncreasing (setSlink h1 b.heap.length s) ∧
      RedirectTransitions ((setSlink h1 b.heap.length s).length + 1)
        (setSlink h1 b.heap.length s) x none a = .ok (setSlink h1 b.heap.length s) ∧
      (setSlink h1 b.heap.length s).length = h1.length ∧
      ∀ q, q < h1.length → deref (setSlink h1 b.heap.length s) q =
        if q = b.heap.length then { deref h1 q with slink := s } else deref h1 q := by
    intro x s
    refine ⟨lenIncreasing_congr h1 _ (by simp)
        (fun t _ => ⟨(deref_setSlink_fields _ _ _ _).1, (deref_setSlink_fields _ _ _ _).2.1⟩) hH1,
      by cases x <;> rfl, by simp, ?_⟩
    intro q _
    rw [deref_setSlink _ _ _ _ (by omega)]
    by_cases hq : q = b.heap.length
    · subst hq; simp
    · simp [hq]
  rcases hp with ⟨rfl, rfl⟩ | ⟨t, rfl, ht, rfl⟩
  · obtain ⟨g1, g2, g3, g4⟩ := hlink none (some 0)
    refine ⟨h1, none, _, none, _, hrun, modifyTree_none h1 0 _ a, g2, hlen1, rfl, hH1, g1, g1,
      fun _ => ⟨rfl, g3, g4⟩, ?_⟩
    intro t ht; cases ht
  · have hne := I.trans_complete t ht a L.fac
    obtain ⟨v, hv⟩ := Option.ne_none_iff_exists'.1 hne
    obtain ⟨suf, hvs, hsuf, hzsuf, _⟩ := I.trans_sound t ht a v hv
    subst hvs
    have hzl : (r t ++ [a]).length = (r t).length + 1 := by simp
    have hd1 : dfind (deref h1 t).delta a = some (some suf) := by
      rw [S.tr t a, if_neg (by intro hh; have := hh.2.2.2; rw [hzl] at this; omega),
        deref_append_lt _ _ _ ht, hv]
    have hl1 : ∀ q, q < b.heap.length → (deref h1 q).len = ((r q).length : Int) := by
      intro q hq
      rw [(S.fields q).1, deref_append_lt _ _ _ hq, I.len_eq q hq]
    have hsufpos : (deref h1 suf).len ≠ 0 := by
      rw [hl1 suf hsuf]
      have h2 := hzsuf.length_le
      rw [hzl] at h2
      omega
    by_cases hc : (deref h1 suf).len = (deref h1 t).len + 1
    · have hc' : (deref h1 suf).len = (deref h1 t).len + 1 ∧ (deref h1 suf).len ≠ 0 :=
        ⟨hc, hsufpos⟩
      obtain ⟨g1, g2, g3, g4⟩ := hlink (some t) (some suf)
      refine ⟨h1, some t, _, none, _, hrun, modifyTree_link h1 t suf 0 _ a hd1 hc', g2, hlen1,
        rfl, hH1, g1, g1, (fun hh => by cases hh), ?_⟩
      intro t1 ht1
      obtain rfl : t = t1 := Option.some.inj ht1
      exact ⟨suf, ht, hsuf, hd1, hsufpos, fun _ => ⟨rfl, g3, g4⟩, fun hh => absurd hc hh⟩
    · have hc' : ¬ ((deref h1 suf).len = (deref h1 t).len + 1 ∧ (deref h1 suf).len ≠ 0) :=
        fun hh => hc hh.1
      have hlen : (r t).length + 1 < (r suf).length := by
        have h2 := hzsuf.length_le
        rw [hzl] at h2
        rcases Nat.lt_or_ge ((r t).length + 1) (r suf).length with h3 | h3
        · exact h3
        · exfalso
          apply hc
          rw [hl1 suf hsuf, hl1 t ht]
          have : (r suf).length = (r t).length + 1 := by omega
          rw [this]; push_cast; ring
      obtain ⟨h5, hM, m1, m2, m3, m4, m5, m6, m7⟩ := modifyTree_clone h1 b.heap.length t suf 0 a
        hlen1 hsuf (S.keys suf) hd1 hc'
      have m8 := modifyTree_clone_delta h1 t suf 0 b.heap.length a (by omega) (S.keys suf) hd1
        hc' h5 _ hM
      rw [hlen1] at m8
      obtain ⟨h6, hrunR, hlen6, I6⟩ := step_clone_heap I a _ rfl h1 t suf ht hsuf
        (by simpa using S) L hv hlen h5 m1 m2 m3 m4 m5 m6 m7
      have hd5 : dfind (deref h5 t).delta a = some (some suf) := by
        have := m2 t (by omega)
        rw [this]
        split <;> exact hd1
      have hR : RedirectTransitions (h5.length + 1) h5 (some t) (some (b.heap.length + 1)) a
          = .ok h6 := by
        simp only [RedirectTransitions, touchDelta_of_some h5 t a _ hd5, hd5, Option.getD_some]
        exact hrunR
      have hH5 : LenIncreasing h5 := by
        intro q hq c v hv5
        rw [m1] at hq
        have hold : ∀ x, x < b.heap.length + 1 → (deref h5 x).len = (deref h1 x).len ∧
            (deref h5 x).delta = (deref h1 x).delta := by
          intro x hx
          rw [m2 x hx]
          split <;> exact ⟨rfl, rfl⟩
        by_cases hqn : q < b.heap.length + 1
        · rw [(hold q hqn).2] at hv5
          obtain ⟨t1, hvt, ht1, hl⟩ := hH1 q (by omega) c v hv5
          rw [hlen1] at ht1
          exact ⟨t1, hvt, by omega, by rw [(hold q hqn).1, (hold t1 ht1).1]; exact hl⟩
        · have hq' : q = b.heap.length + 1 := by omega
          subst hq'
          rw [m6] at hv5
          obtain ⟨t1, hvt, ht1, hl⟩ := hH1 suf (by omega) c v hv5
          rw [hlen1] at ht1
          refine ⟨t1, hvt, by omega, ?_⟩
          rw [m3, (hold t1 ht1).1, hl1 t ht]
          rw [hl1 suf hsuf] at hl
          omega
      have hH6 : LenIncreasing h6 := by
        have I6' := (I6 0).lenIncreasing
        refine lenIncreasing_congr _ h6 (by simp) ?_ I6'
        intro x _
        rw [deref_setIndex _ _ _ _ (by omega)]
        by_cases hx : x = b.heap.length + 1
        · subst hx; simp
        · simp [hx]
      refine ⟨h1, some t, h5, some (b.heap.length + 1), h6, hrun, hM, hR, hlen1, by omega, hH1,
        hH5, hH6, (fun hh => by cases hh), ?_⟩
      intro t1 ht1
      obtain rfl : t = t1 := Option.some.inj ht1
      refine ⟨suf, ht, hsuf, hd1, hsufpos, fun hh => absurd hh hc, fun _ => ?_⟩
      rw [hlen1]
      exact ⟨rfl, m1, m3, m5, m8, m4, m2⟩

end

section

theorem buildLoop_append (u x : List Char) :
    ∀ (i : Int) (b : Build), buildLoop 0 (u ++ x) i b =
      match buildLoop 0 u i b with
      | .ok b1 => buildLoop 0 x (i + (u.length : Int)) b1
      | .error e => .error e := by
  induction u with
  | nil => intro i b; simp [buildLoop]
  | cons c u ih =>
    intro i b
    simp only [List.cons_append, buildLoop]
    cases hstep : buildStep 0 b i c with
    | error e => rfl
    | ok b1 =>
      simp only []
      have e := ih (i + 1) b1
      have : i + 1 + (u.length : Int) = i + ((c :: u).length : Int) := by
        simp only [List.length_cons]; push_cast; ring
      rw [this] at e
      exact e

/-- The state of the build after the symbols `w`, with its invariant. -/
theorem buildLoop_inv (w : List Char) :
    ∃ b r, buildLoop 0 w 0 initBuild = .ok b ∧ Inv b.heap w b.q_w r ∧ QwInv b := by
  obtain ⟨b, r, hloop, I, Q, -, -⟩ := buildLoop_spec w initBuild [] (fun _ => []) inv_init
    ⟨by intro q; simp [initBuild], rfl, by simp [initBuild]⟩
    ⟨fun _ => rfl, fun hh => by simp at hh⟩ (fun hh => by simp at hh)
  simp only [List.nil_append, List.length_nil, Nat.cast_zero] at hloop I
  exact ⟨b, r, hloop, I, Q⟩

/-- C21. Every transition leads to a state of larger `len`: `q.delta[a].len ≥
q.len + 1` for every state `q` and every symbol `a` with `q.delta[a]` defined.
This holds in the automaton built for `w`, in the state of the build after the
symbols `w` (a state every build of a longer string goes through), and in the
round for the next symbol `a` after each of `FindStem`, `ModifyTree` (whether it
clones or not) and `RedirectTransitions`, and at the end of the round. -/
theorem BuildSuffixAutomaton_len_increases (w : List Char) (a : Char) :
    (∃ h Qw, BuildSuffixAutomaton w = .ok (h, Qw) ∧
      ∀ q, q ∈ Qw → ∀ c v, dfind (deref h q).delta c = some v →
        ∃ t, v = some t ∧ t ∈ Qw ∧ (deref h q).len + 1 ≤ (deref h t).len) ∧
    (∃ b h1 p h2 sp h3 b1, buildLoop 0 w 0 initBuild = .ok b ∧
      (∀ x, buildLoop 0 (w ++ x) 0 initBuild = buildLoop 0 x (w.length : Int) b) ∧
      (∀ q, q ∈ b.Qw ↔ q < b.heap.length) ∧ LenIncreasing b.heap ∧
      FindStem a b.heap.length
        ((b.heap ++ [State.mk ((w.length : Int) + 1) 0 none [] false]).length + 1)
        (b.heap ++ [State.mk ((w.length : Int) + 1) 0 none [] false]) (some b.q_w)
          = .ok (h1, p) ∧
      ModifyTree h1 p 0 b.heap.length a = .ok (h2, sp) ∧
      RedirectTransitions (h2.length + 1) h2 p sp a = .ok h3 ∧
      buildStep 0 b (w.length : Int) a = .ok b1 ∧
      LenIncreasing h1 ∧ LenIncreasing h2 ∧ LenIncreasing h3 ∧ LenIncreasing b1.heap) := by
  constructor
  · obtain ⟨hb, hF, Qw, last, r, hrun, I, _, hmem, _, _, _, _, hfields, _⟩ := build_spec w
    refine ⟨hF, Qw, hrun, ?_⟩
    intro q hq c v hv
    rw [(hfields q).2.2] at hv
    obtain ⟨t, hvt, ht, hl⟩ := I.lenIncreasing q ((hmem q).1 hq) c v hv
    exact ⟨t, hvt, (hmem t).2 ht, by rw [(hfields q).1, (hfields t).1]; exact hl⟩
  · obtain ⟨b, r, hloop, I, Q⟩ := buildLoop_inv w
    obtain ⟨h1, p, h2, sp, h3, e1, e2, e3, -, -, l1, l2, l3, -, -⟩ := round_spec b w r a I
    obtain ⟨b1, r1, e4, I1, -⟩ := buildStep_spec b w r a I
    refine ⟨b, h1, p, h2, sp, h3, b1, hloop, ?_, Q.mem, I.lenIncreasing, e1, e2, e3, e4, l1, l2,
      l3, I1.lenIncreasing⟩
    intro x
    rw [buildLoop_append, hloop]
    simp

/-- C23. `ModifyTree` as it is called in the round for the symbol `a` after the
symbols `w`, with `q_wa` the state just allocated and `p` the result of
`FindStem`. If `p` is `NULL`, `q_wa.slink` becomes `q_eps`, nothing is returned
and no state is created. Otherwise `suf = p.delta[a]` is a state with
`suf.len ≠ 0`. If `suf.len = p.len + 1`, `q_wa.slink` becomes `suf`, nothing is
returned and no state is created. If `suf.len ≠ p.len + 1`, a fresh state
`suf'` is returned with `len = p.len + 1`, `final = false`, the `delta` of `suf`
entry for entry and the old `suf.slink` as `slink`; `suf.slink` and `q_wa.slink`
become `suf'`, and every other field of every other state is unchanged. -/
theorem ModifyTree_cases (w : List Char) (a : Char) :
    ∃ b h1 p h2 sp, buildLoop 0 w 0 initBuild = .ok b ∧
      FindStem a b.heap.length
        ((b.heap ++ [State.mk ((w.length : Int) + 1) 0 none [] false]).length + 1)
        (b.heap ++ [State.mk ((w.length : Int) + 1) 0 none [] false]) (some b.q_w)
          = .ok (h1, p) ∧
      ModifyTree h1 p 0 b.heap.length a = .ok (h2, sp) ∧
      h1.length = b.heap.length + 1 ∧
      (p = none → sp = none ∧ h2.length = h1.length ∧
        ∀ q, q < h1.length →
          deref h2 q = if q = b.heap.length then { deref h1 q with slink := some 0 }
            else deref h1 q) ∧
      (∀ t, p = some t → ∃ suf, t < b.heap.length ∧ suf < b.heap.length ∧
        dfind (deref h1 t).delta a = some (some suf) ∧ (deref h1 suf).len ≠ 0 ∧
        ((deref h1 suf).len = (deref h1 t).len + 1 → sp = none ∧ h2.length = h1.length ∧
          ∀ q, q < h1.length →
            deref h2 q = if q = b.heap.length then { deref h1 q with slink := some suf }
              else deref h1 q) ∧
        ((deref h1 suf).len ≠ (deref h1 t).len + 1 → sp = some h1.length ∧
          h2.length = h1.length + 1 ∧
          (deref h2 h1.length).len = (deref h1 t).len + 1 ∧
          (deref h2 h1.length).final = false ∧
          (deref h2 h1.length).delta = (deref h1 suf).delta ∧
          (deref h2 h1.length).slink = (deref h1 suf).slink ∧
          ∀ q, q < h1.length →
            deref h2 q = if q = suf ∨ q = b.heap.length then
              { deref h1 q with slink := some h1.length } else deref h1 q)) := by
  obtain ⟨b, r, hloop, I, -⟩ := buildLoop_inv w
  obtain ⟨h1, p, h2, sp, h3, e1, e2, -, e4, -, -, -, -, c1, c2⟩ := round_spec b w r a I
  exact ⟨b, h1, p, h2, sp, hloop, e1, e2, e4, c1, c2⟩

/-- The clone case occurs: reading the second `b` of `"abb"`, `FindStem` returns
the initial state, `suf` is the state of `ab` (`len = 2 ≠ 0 + 1`), and
`ModifyTree` returns the fresh state `4` with `len = 1` and the transitions and
suffix link of `suf`. -/
theorem ModifyTree_clone_abb :
    ∃ b h1 h2, buildLoop 0 ['a', 'b'] 0 initBuild = .ok b ∧ b.heap.length = 3 ∧
      FindStem 'b' 3 ((b.heap ++ [State.mk 3 0 none [] false]).length + 1)
        (b.heap ++ [State.mk 3 0 none [] false]) (some b.q_w) = .ok (h1, some 0) ∧
      dfind (deref h1 0).delta 'b' = some (some 2) ∧ (deref h1 2).len = 2 ∧
      ModifyTree h1 (some 0) 0 3 'b' = .ok (h2, some 4) ∧ (deref h2 4).len = 1 ∧
      (deref h2 4).delta = (deref h1 2).delta ∧ (deref h2 4).slink = some 0 ∧
      (deref h2 2).slink = some 4 ∧ (deref h2 3).slink = some 4 :=
  ⟨_, _, _, rfl, rfl, rfl, rfl, rfl, rfl, rfl, rfl, rfl, rfl, rfl⟩

end

end SuffixAutomaton
